import Mathlib

/-!
# Symbolic layer of lib2geom as shipped in BezierKit: a shallow embedding

Sources embedded (all under `BezierKit/Library/2geom/symbolic/`):
`unity-builder.h`, `polynomial.h`, `multi-index.h`, `mvpoly-tools.h`, `multipoly.h`,
`matrix.h`, `determinant-minor.h`, `implicit.h`.

Conventions of the embedding.
* A C++ template parameter `CoeffT` together with the operators the templates use on it
  becomes a type `α` and a record `Ops α` of those operators.
* `Polynomial<CoeffT>` is its coefficient vector `m_coeff`, a `List α` (index = exponent).
* `mvpoly<N, CoeffT>::type` is the `N`-fold nesting `mvpoly α N`.
* `size_t` / `unsigned` values are `Nat`; every index that occurs is bounded by a container
  size, so no wrap-around can take place.
* Unchecked reads `v[i]` are undefined in C++ when `i` is out of range; the embedding
  returns the zero of the coefficient type there.
-/

/-- Mathlib's matrices, under a name that cannot be confused with `Geom::SL::Matrix`. -/
abbrev MMatrix (m n : Type) (R : Type) := Matrix m n R

namespace Geom.SL

/-! ## Operators required of a coefficient type -/

/-- The operators the class templates use on a coefficient type: `zero<T>()()`, `one<T>()()`,
`+=`, `-=`, unary `-`, `*`, `==` and, for matrix entries, `is_zero()`. -/
structure Ops (α : Type) where
  zero : α
  one : α
  add : α → α → α
  sub : α → α → α
  neg : α → α
  mul : α → α → α
  eq : α → α → Bool
  is_zero : α → Bool

/-- The operator `!=` is `!(p == q)` (polynomial.h:415-420, multipoly.h:294-297). -/
def Ops.ne {α : Type} (o : Ops α) (a b : α) : Bool := !o.eq a b

/-- Operators of an arithmetic coefficient type (`zero<T, true>`, `one<T, true>` of
unity-builder.h and the built-in arithmetic), here for any ring with decidable equality. -/
def numOps (R : Type) [Ring R] [DecidableEq R] : Ops R where
  zero := 0
  one := 1
  add := fun a b => a + b
  sub := fun a b => a - b
  neg := fun a => -a
  mul := fun a b => a * b
  eq := fun a b => decide (a = b)
  is_zero := fun a => decide (a = 0)

/-! ## matrix.h -/

/-- `Matrix<Coeff>`: row-major `m_data` with `m_rows`, `m_columns` (matrix.h:56-102). -/
structure Matrix (α : Type) where
  m_data : List α
  m_rows : Nat
  m_columns : Nat
  deriving DecidableEq

/-- `Matrix(m, n)`: `m*n` default-constructed entries (matrix.h:66-69). -/
def Matrix.mk' {α : Type} (dflt : α) (m n : Nat) : Matrix α :=
  ⟨List.replicate (m * n) dflt, m, n⟩

def Matrix.rows {α : Type} (M : Matrix α) : Nat := M.m_rows

def Matrix.columns {α : Type} (M : Matrix α) : Nat := M.m_columns

/-- `operator()(i, j)`: `m_data[i * columns() + j]` (matrix.h:88-96). -/
def Matrix.get {α : Type} (o : Ops α) (M : Matrix α) (i j : Nat) : α :=
  M.m_data.getD (i * M.columns + j) o.zero

/-- Assignment through `operator()(i, j)`. -/
def Matrix.set {α : Type} (M : Matrix α) (i j : Nat) (v : α) : Matrix α :=
  { M with m_data := M.m_data.set (i * M.columns + j) v }

/-! ## determinant-minor.h -/

/-- `std::map<std::vector<unsigned>, Coeff>` as an association list. -/
abbrev Rmap (α : Type) := List (List Nat × α)

/-- `std::map::find`. -/
def Rmap.find {α : Type} (m : Rmap α) (k : List Nat) : Option α :=
  (List.find? (fun e => e.1 == k) m).map Prod.snd

/-- `std::map::insert`: an existing key keeps its value. -/
def Rmap.insert {α : Type} (m : Rmap α) (k : List Nat) (v : α) : Rmap α :=
  match m.find k with
  | some _ => m
  | none => (k, v) :: m

/-- `std::map::operator[]`: a missing key is first inserted with a default-constructed value
(`Coeff()`, the zero polynomial for `MultiPoly`); returns the value and the updated map. -/
def Rmap.index {α : Type} (o : Ops α) (m : Rmap α) (k : List Nat) : α × Rmap α :=
  match m.find k with
  | some v => (v, m)
  | none => (o.zero, (k, o.zero) :: m)

/-- Lines 104-109: `A` initialised from the last column. -/
def initA {α : Type} (o : Ops α) (M : Matrix α) (n : Nat) : Rmap α :=
  (List.range n).foldl (fun A r => Rmap.insert A [r] (M.get o r (n - 1))) []

/-- Lines 127-130: `Mkey` is `Pkey` without position `r`. -/
def mkMkey (Pkey : List Nat) (k r : Nat) : List Nat :=
  (List.range k).foldl (fun Mkey i => if i ≠ r then Mkey ++ [Pkey.getD i 0] else Mkey) []

/-- Lines 121-136: one pass of the loop over `r`; the state is `det` and the map `A`
(which `A[Mkey]` may extend). -/
def expandStep {α : Type} (o : Ops α) (M : Matrix α) (c k : Nat) (Pkey : List Nat)
    (st : α × Rmap α) (r : Nat) : α × Rmap α :=
  if o.is_zero (M.get o (Pkey.getD r 0) c) then st
  else
    let Mkey := mkMkey Pkey k r
    let (a, A1) := Rmap.index o st.2 Mkey
    if r % 2 = 1 then (o.sub st.1 (o.mul (M.get o (Pkey.getD r 0) c) a), A1)
    else (o.add st.1 (o.mul (M.get o (Pkey.getD r 0) c) a), A1)

/-- Lines 120-136: the expansion of the minor with rows `Pkey` (of length `k = n-c`) along
column `c`, starting from `det = zero`. -/
def expandMinor {α : Type} (o : Ops α) (M : Matrix α) (c k : Nat) (Pkey : List Nat)
    (A : Rmap α) : α × Rmap α :=
  (List.range k).foldl (expandStep o M c k Pkey) (o.zero, A)

/-- Lines 141-146: the carry loop of the flipper counter, `fc` running down from its
start value; returns the key and the value of `fc` at loop exit. -/
def flipper (c : Nat) : Nat → List Nat → List Nat × Nat
  | 0, Pkey => (Pkey, 0)
  | fc + 1, Pkey =>
    let P1 := Pkey.set fc (Pkey.getD fc 0 + 1)
    if P1.getD fc 0 < fc + 1 + c then (P1, fc + 1) else flipper c fc P1

/-- Lines 148-149: `for (j = fc; j < n-c; ++j) Pkey[j] = Pkey[j-1]+1`, by trip count. -/
def refill : Nat → Nat → List Nat → List Nat
  | 0, _, Pkey => Pkey
  | m + 1, j, Pkey => refill m (j + 1) (Pkey.set j (Pkey.getD (j - 1) 0 + 1))

/-- Lines 141-149: one advance of the flipper counter. -/
def advance (c k : Nat) (Pkey : List Nat) : List Nat × Nat :=
  let (P1, fc) := flipper c k Pkey
  if fc < k ∧ fc > 0 then (refill (k - fc) fc P1, fc) else (P1, fc)

/-- State of the column loop: the maps `A`, `B` and the variable `det`. -/
structure DetState (α : Type) where
  A : Rmap α
  B : Rmap α
  det : α

/-- Lines 118-150: the `do ... while(fc)` loop over the keys of one column.  The loop is
run on a step budget; `none` means the budget ran out before `fc` became zero. -/
def keyLoop {α : Type} (o : Ops α) (M : Matrix α) (c k : Nat) :
    Nat → List Nat → DetState α → Option (DetState α)
  | 0, _, _ => none
  | fuel + 1, Pkey, st =>
    let (det, A1) := expandMinor o M c k Pkey st.A
    let B1 := if !o.is_zero det then Rmap.insert st.B Pkey det else st.B
    let (P1, fc) := advance c k Pkey
    if fc ≠ 0 then keyLoop o M c k fuel P1 ⟨A1, B1, det⟩ else some ⟨A1, B1, det⟩

/-- Lines 111-154: the loop `for (int c = n-2; c >= 0; --c)`; the first argument is
`c + 1`, so that it counts the columns still to be processed. -/
def columnLoop {α : Type} (o : Ops α) (M : Matrix α) (n : Nat) :
    Nat → DetState α → Option (DetState α)
  | 0, st => some st
  | c + 1, st =>
    match keyLoop o M c (n - c) (n ^ (n - c)) (List.range (n - c)) st with
    | none => none
    | some st1 => columnLoop o M n c ⟨st1.B, [], st1.det⟩

/-- The general procedure of `determinant_minor` (lines 91-156), used for `n >= 4`. -/
def determinant_general {α : Type} (o : Ops α) (M : Matrix α) : Option α :=
  let n := M.columns
  (columnLoop o M n (n - 1) ⟨initA o M n, [], o.zero⟩).map DetState.det

/-- `determinant_minor` (determinant-minor.h:44-157).  The result is `none` only if a key
loop exhausts its step budget of `n ^ (n - c)` iterations. -/
def determinant_minor {α : Type} (o : Ops α) (M : Matrix α) : Option α :=
  let n := M.columns
  let m := fun i j => M.get o i j
  if n = 1 then some (m 0 0)
  else if n = 2 then some (o.sub (o.mul (m 0 0) (m 1 1)) (o.mul (m 0 1) (m 1 0)))
  else if n = 3 then
    some (o.sub (o.sub (o.sub
      (o.add (o.add (o.mul (o.mul (m 0 0) (m 1 1)) (m 2 2))
                    (o.mul (o.mul (m 0 2) (m 1 0)) (m 2 1)))
             (o.mul (o.mul (m 0 1) (m 1 2)) (m 2 0)))
      (o.mul (o.mul (m 0 2) (m 1 1)) (m 2 0)))
      (o.mul (o.mul (m 0 0) (m 1 2)) (m 2 1)))
      (o.mul (o.mul (m 0 1) (m 1 0)) (m 2 2)))
  else determinant_general o M

end Geom.SL


namespace Geom.SL

/-- The two exception kinds raised by the symbolic layer (`THROW_RANGEERROR`,
`THROW_INVARIANTSVIOLATION`). -/
inductive Error where
  | RangeError
  | InvariantsViolation
  deriving DecidableEq

/-- `SIZE_MAX`, the largest value of the type `size_t`, which is 64 bits wide. -/
def SIZE_MAX : Nat := 2 ^ 64 - 1

/-- `std::vector::resize(n, v)`. -/
def vec_resize {α : Type} (p : List α) (n : Nat) (v : α) : List α :=
  p.take n ++ List.replicate (n - p.length) v

/-! ## polynomial.h

`Polynomial<CoeffT>` is its member `m_coeff`; `zero_coeff` is `o.zero`.  The class
invariant is that `m_coeff` is never empty; `max_degree`, `real_degree` and `is_zero`
throw `InvariantsViolation` on an empty vector, which the checked variants below record,
while the plain functions give the value computed on a non-empty vector. -/

namespace Polynomial

variable {α : Type}

/-- `Polynomial()`: the single coefficient `zero_coeff` (polynomial.h:71-74). -/
def ctor0 (o : Ops α) : List α := [o.zero]

/-- `Polynomial(c, i)`: `i` zero coefficients, then `c` (polynomial.h:76-81). -/
def ctor (o : Ops α) (c : α) (i : Nat) : List α :=
  vec_resize [] i o.zero ++ [c]

def size (p : List α) : Nat := p.length

/-- `max_degree()`: `size() - 1` (polynomial.h:126-132). -/
def max_degree (p : List α) : Nat := p.length - 1

/-- `max_degree()` with its guard: throws when `size() == 0`. -/
def max_degree_checked (p : List α) : Except Error Nat :=
  if p.length = 0 then .error .InvariantsViolation else .ok (p.length - 1)

/-- `max_degree(n)`: `m_coeff.resize(n+1, zero_coeff)` (polynomial.h:134-137).  The sum
`n+1` is computed on `size_t`, so it wraps to 0 at `n = SIZE_MAX`. -/
def set_max_degree (o : Ops α) (p : List α) (n : Nat) : List α :=
  vec_resize p ((n + 1) % (SIZE_MAX + 1)) o.zero

/-- `operator[]`: unchecked read of `m_coeff[i]` (polynomial.h:180-188). -/
def get (o : Ops α) (p : List α) (i : Nat) : α := p.getD i o.zero

/-- The scan of `real_degree()`: the iterator at index `i` walks down while the
coefficient under it is `zero_coeff` and `it != begin()`. -/
def real_degree_scan (o : Ops α) (p : List α) : Nat → Nat
  | 0 => 0
  | i + 1 => if o.ne (get o p (i + 1)) o.zero then i + 1 else real_degree_scan o p i

/-- `real_degree()` (polynomial.h:143-155). -/
def real_degree (o : Ops α) (p : List α) : Nat :=
  real_degree_scan o p (p.length - 1)

/-- `real_degree()` with its guard: throws when `size() == 0`. -/
def real_degree_checked (o : Ops α) (p : List α) : Except Error Nat :=
  if p.length = 0 then .error .InvariantsViolation else .ok (real_degree o p)

/-- `is_zero()` (polynomial.h:157-165). -/
def is_zero (o : Ops α) (p : List α) : Bool :=
  if real_degree o p ≠ 0 then false
  else if o.ne (get o p 0) o.zero then false
  else true

/-- `is_zero()` with its guard: throws when `size() == 0`. -/
def is_zero_checked (o : Ops α) (p : List α) : Except Error Bool :=
  if p.length = 0 then .error .InvariantsViolation else .ok (is_zero o p)

/-- `normalize()`: erase everything after index `real_degree()` (polynomial.h:171-178). -/
def normalize (o : Ops α) (p : List α) : List α :=
  let rd := real_degree o p
  if rd ≠ max_degree p then p.take (rd + 1) else p

/-- Safe getter `coefficient(i)` (polynomial.h:191-201). -/
def coefficient (o : Ops α) (p : List α) (i : Nat) : α :=
  if i > max_degree p then o.zero else get o p i

/-- Safe setter `coefficient(i, c)` (polynomial.h:204-218). -/
def set_coefficient (o : Ops α) (p : List α) (i : Nat) (c : α) : List α :=
  if i > max_degree p then
    if o.eq c o.zero then p
    else vec_resize p i o.zero ++ [c]
  else p.set i c

/-- `leading_coefficient()` (polynomial.h:220-228). -/
def leading_coefficient (o : Ops α) (p : List α) : α := get o p (real_degree o p)

/-- The loop of `operator()`: `for (i = max_degree(); i > 0; --i) { r += p[i]; r *= x; }`. -/
def call_loop (o : Ops α) (p : List α) (x : α) : Nat → α → α
  | 0, r => r
  | i + 1, r => call_loop o p x i (o.mul (o.add r (get o p (i + 1))) x)

/-- `operator()(x)`: Horner evaluation starting from `zero<T>()` (polynomial.h:234-245),
for an evaluation type equal to the coefficient type. -/
def call (o : Ops α) (p : List α) (x : α) : α :=
  o.add (call_loop o p x (max_degree p) o.zero) (get o p 0)

/-- Unary `operator-` (polynomial.h:248-259). -/
def neg (o : Ops α) (p : List α) : List α :=
  (List.range p.length).foldl (fun r i => r ++ [o.neg (get o p i)]) []

/-- `operator+=(Polynomial const&)` (polynomial.h:265-277): the common indices are added in
place; if `p` is longer its remaining coefficients are appended. -/
def add (o : Ops α) (this p : List α) : List α :=
  let sz := min this.length p.length
  let r := (List.range sz).foldl (fun r i => r.set i (o.add (get o r i) (get o p i))) this
  if this.length < p.length then r ++ p.drop this.length else r

/-- `operator-=(Polynomial const&)` (polynomial.h:279-292). -/
def sub (o : Ops α) (this p : List α) : List α :=
  let sz := min this.length p.length
  let r := (List.range sz).foldl (fun r i => r.set i (o.sub (get o r i) (get o p i))) this
  (List.range' sz (p.length - sz)).foldl (fun r i => r ++ [o.neg (get o p i)]) r

/-- `operator*=(Polynomial const&)` (polynomial.h:294-308): `r` starts as
`size() + p.size() - 1` zero coefficients and accumulates `r[i+j] += this[i] * p[j]`. -/
def mul (o : Ops α) (this p : List α) : List α :=
  (List.range this.length).foldl
    (fun r i =>
      (List.range p.length).foldl
        (fun r j => r.set (i + j) (o.add (get o r (i + j)) (o.mul (get o this i) (get o p j))))
        r)
    (vec_resize (ctor0 o) (this.length + p.length - 1) o.zero)

/-- `operator<<=(n)`: `n` zero coefficients inserted at the front (polynomial.h:313-317). -/
def shl (o : Ops α) (p : List α) (n : Nat) : List α :=
  List.replicate n o.zero ++ p

/-- `operator=(coeff_type const&)`: `m_coeff[0] = c` (polynomial.h:323-327). -/
def assign_coeff (p : List α) (c : α) : List α := p.set 0 c

/-- `operator+=(coeff_type const&)` (polynomial.h:329-333). -/
def add_coeff (o : Ops α) (p : List α) (c : α) : List α := p.set 0 (o.add (get o p 0) c)

/-- `operator-=(coeff_type const&)` (polynomial.h:335-339). -/
def sub_coeff (o : Ops α) (p : List α) (c : α) : List α := p.set 0 (o.sub (get o p 0) c)

/-- `operator*=(coeff_type const&)` (polynomial.h:341-348). -/
def mul_coeff (o : Ops α) (p : List α) (c : α) : List α :=
  (List.range p.length).foldl (fun r i => r.set i (o.mul (get o r i) c)) p

/-- The loop of `operator==`: `for (i = 0; i <= d; ++i) if (p[i] != q[i]) return false;`,
the first argument counting the indices still to compare. -/
def eq_loop (o : Ops α) (p q : List α) : Nat → Nat → Bool
  | 0, _ => true
  | m + 1, i => if o.ne (get o p i) (get o q i) then false else eq_loop o p q m (i + 1)

/-- `operator==` (polynomial.h:402-413). -/
def eq (o : Ops α) (p q : List α) : Bool :=
  let d := real_degree o p
  if d ≠ real_degree o q then false else eq_loop o p q (d + 1) 0

/-- `operator-(Polynomial const&, CoeffT const&)` (polynomial.h:485-492). -/
def poly_minus_coeff (o : Ops α) (p : List α) (c : α) : List α := sub_coeff o p c

/-- `operator-(CoeffT const& c, Polynomial const& p)`: `return (p - c);`
(polynomial.h:494-500). -/
def coeff_minus_poly (o : Ops α) (c : α) (p : List α) : List α := poly_minus_coeff o p c

/-- `operator+(Polynomial const&, CoeffT const&)` and its mirror (polynomial.h:466-482). -/
def poly_plus_coeff (o : Ops α) (p : List α) (c : α) : List α := add_coeff o p c

/-- `operator*(Polynomial const&, CoeffT const&)` and its mirror (polynomial.h:502-518). -/
def poly_times_coeff (o : Ops α) (p : List α) (c : α) : List α := mul_coeff o p c

/-- The operators of `Polynomial<CoeffT>` as a coefficient type in its own right:
`zero<Polynomial<CoeffT>>` and `one<...>` (polynomial.h:367-387) are `Polynomial(zc)`,
`Polynomial(_1c)`. -/
def ops (o : Ops α) : Ops (List α) where
  zero := ctor o o.zero 0
  one := ctor o o.one 0
  add := add o
  sub := sub o
  neg := neg o
  mul := mul o
  eq := eq o
  is_zero := is_zero o

end Polynomial

/-! ## multi-index.h -/

/-- `multi_index_type`, a `std::valarray<size_t>`. -/
abbrev multi_index_type := List Nat

/-- `multi_index_zero(N)` (multi-index.h:90-94). -/
def multi_index_zero (N : Nat) : multi_index_type := List.replicate N 0

/-- `make_multi_index<N>(i, v)` (multi-index.h:104-114). -/
def make_multi_index (N i v : Nat) : Except Error multi_index_type :=
  if ¬ i < N then .error .RangeError else .ok ((List.replicate N 0).set i v)

/-- `shift(I, i)`: the slice of `I` that starts at `i` (multi-index.h:118-124). -/
def shift (I : multi_index_type) (i : Nat) : multi_index_type :=
  (I.drop i).take (I.length - i)

/-- `is_equal(I, J)` (multi-index.h:127-134). -/
def is_equal (I J : multi_index_type) : Bool :=
  if I.length ≠ J.length then false
  else (List.range I.length).all (fun i => I.getD i 0 == J.getD i 0)

/-! ## mvpoly-tools.h -/

/-- `mvpoly<N, CoeffT>::type`: `N` nested `Polynomial`s over `CoeffT`. -/
@[reducible]
def mvpoly (α : Type) : Nat → Type
  | 0 => α
  | N + 1 => List (mvpoly α N)

namespace mvpoly

variable {α : Type}

/-- Structural equality of the stored coefficient vectors is decidable. -/
def decEq [DecidableEq α] : (N : Nat) → DecidableEq (mvpoly α N)
  | 0 => fun (a b : α) => inferInstanceAs (Decidable (a = b))
  | N + 1 => fun (a b : List (mvpoly α N)) => @List.hasDecEq _ (decEq N) a b

instance [DecidableEq α] (N : Nat) : DecidableEq (mvpoly α N) := decEq N

/-- The operators of `mvpoly<N, CoeffT>::type` as they arise from nesting `Polynomial`. -/
def ops (o : Ops α) : (N : Nat) → Ops (mvpoly α N)
  | 0 => o
  | N + 1 => Polynomial.ops (ops o N)

/-- Class invariant at every nesting level: no `Polynomial` is empty. -/
def wf : (N : Nat) → mvpoly α N → Bool
  | 0, _ => true
  | N + 1, p => !List.isEmpty p && List.all p (wf N)

/-- `lex_degree_impl<i>` writing `D[i], D[i+1], ...`; returned here as the list of the
entries written (mvpoly-tools.h:209-215, 315-320). -/
def lex_degree (o : Ops α) : (N : Nat) → mvpoly α N → multi_index_type
  | 0, _ => []
  | N + 1, p =>
    let d := Polynomial.real_degree (ops o N) p
    d :: lex_degree o N (Polynomial.get (ops o N) p d)

/-- The loop of `evaluate_impl`: `for (k = n-1; k >= 0; --k) { r *= X[i]; r += ev(p[k]); }`,
the first argument being `k + 1`. -/
def evaluate_loop {β : Type} (o : Ops α) (ob : Ops β) (ev : β → α) (p : List β) (x : α) :
    Nat → α → α
  | 0, r => r
  | k + 1, r => evaluate_loop o ob ev p x k (o.add (o.mul r x) (ev (Polynomial.get ob p k)))

/-- `evaluate_impl<T, i>(p, X)` (mvpoly-tools.h:252-272, 345-350), for an evaluation type
equal to the coefficient type; `X` is the array of evaluation points, read at `i, i+1, ..`. -/
def evaluate_impl (o : Ops α) : (N : Nat) → mvpoly α N → Nat → (Nat → α) → α
  | 0, p, _, _ => p
  | N + 1, p, i, X =>
    let n := Polynomial.max_degree p
    let r := evaluate_impl o N (Polynomial.get (ops o N) p n) (i + 1) X
    evaluate_loop o (ops o N) (fun c => evaluate_impl o N c (i + 1) X) p (X i) n r

/-- `mvpoly<N, CoeffT>::evaluate(p, X)` (mvpoly-tools.h:153-158). -/
def evaluate (o : Ops α) (N : Nat) (p : mvpoly α N) (X : Nat → α) : α :=
  evaluate_impl o N p 0 X

/-- `mvpoly<N, CoeffT>::normalize(p)` (mvpoly-tools.h:163-169, 352-354). -/
def normalize (o : Ops α) : (N : Nat) → mvpoly α N → mvpoly α N
  | 0, p => p
  | N + 1, p =>
    let p1 := Polynomial.normalize (ops o N) p
    (List.range (Polynomial.size p1)).foldl
      (fun r k => r.set k (normalize o N (Polynomial.get (ops o N) r k))) p1

/-- The loop `for (k = 0; k <= p.real_degree(); ++k) f(p[k]);` of `for_each`, where
`real_degree()` is evaluated again before every pass.  The first argument bounds the
number of passes (by `size()`, which the passes never exceed). -/
def for_each_loop {β : Type} (ob : Ops β) (f : β → β) : Nat → Nat → List β → List β
  | 0, _, p => p
  | fuel + 1, k, p =>
    if k ≤ Polynomial.real_degree ob p
    then for_each_loop ob f fuel (k + 1) (p.set k (f (Polynomial.get ob p k)))
    else p

/-- `mvpoly<N, CoeffT>::for_each<0>(p, op)`: `op` applied to the scalar coefficients
reached through indices up to `real_degree()` (mvpoly-tools.h:178-199, 290-298). -/
def for_each0 (o : Ops α) (op : α → α) : (N : Nat) → mvpoly α N → mvpoly α N
  | 0, p => op p
  | N + 1, p => for_each_loop (ops o N) (for_each0 o op N) (Polynomial.size p) 0 p

/-- `monomial<N, CoeffT>::make_impl<i>(I, c)`, with `I` already shifted by `i`
(mvpoly-tools.h:386-392, 405-410). -/
def monomial_make_impl (o : Ops α) : (N : Nat) → multi_index_type → α → mvpoly α N
  | 0, _, c => c
  | N + 1, I, c =>
    Polynomial.ctor (ops o N) (monomial_make_impl o N (I.drop 1) c) (I.getD 0 0)

/-- `monomial<N, CoeffT>::make(I, c)` (mvpoly-tools.h:372-379). -/
def monomial_make (o : Ops α) (N : Nat) (I : multi_index_type) (c : α) :
    Except Error (mvpoly α N) :=
  if I.length ≠ N then .error .RangeError else .ok (monomial_make_impl o N I c)

/-- `coefficient<N-1, poly>::get_impl<i>` (mvpoly-tools.h:497-502, 600-605): unchecked. -/
def get_impl (o : Ops α) : (N : Nat) → mvpoly α N → multi_index_type → α
  | 0, p, _ => p
  | N + 1, p, I => get_impl o N (Polynomial.get (ops o N) p (I.getD 0 0)) (I.drop 1)

/-- `coefficient<N-1, poly>::get_safe_impl<i>` (mvpoly-tools.h:511-524, 614-619). -/
def get_safe_impl (o : Ops α) : (N : Nat) → mvpoly α N → multi_index_type → α
  | 0, p, _ => p
  | N + 1, p, I =>
    if I.getD 0 0 > Polynomial.max_degree p then o.zero
    else get_safe_impl o N (Polynomial.get (ops o N) p (I.getD 0 0)) (I.drop 1)

/-- `coefficient<N-1, poly>::set_safe_impl<i>` (mvpoly-tools.h:526-540, 621-626). -/
def set_safe_impl (o : Ops α) : (N : Nat) → mvpoly α N → multi_index_type → α → mvpoly α N
  | 0, _, _, c => c
  | N + 1, p, I, c =>
    if I.getD 0 0 > Polynomial.max_degree p then
      let J := I.drop 1
      let m := monomial_make_impl o N J c
      Polynomial.set_coefficient (ops o N) p (I.getD 0 0) m
    else
      p.set (I.getD 0 0)
        (set_safe_impl o N (Polynomial.get (ops o N) p (I.getD 0 0)) (I.drop 1) c)

/-- `coefficient<N-1, poly>::get(p, I)` (mvpoly-tools.h:460-467, 563-570). -/
def get (o : Ops α) (N : Nat) (p : mvpoly α N) (I : multi_index_type) : Except Error α :=
  if I.length ≠ N then .error .RangeError else .ok (get_impl o N p I)

/-- `coefficient<N-1, poly>::get_safe(p, I)` (mvpoly-tools.h:478-485, 581-588). -/
def get_safe (o : Ops α) (N : Nat) (p : mvpoly α N) (I : multi_index_type) :
    Except Error α :=
  if I.length ≠ N then .error .RangeError else .ok (get_safe_impl o N p I)

/-- `coefficient<N-1, poly>::set_safe(p, I, c)` (mvpoly-tools.h:487-494, 590-597). -/
def set_safe (o : Ops α) (N : Nat) (p : mvpoly α N) (I : multi_index_type) (c : α) :
    Except Error (mvpoly α N) :=
  if I.length ≠ N then .error .RangeError else .ok (set_safe_impl o N p I c)

end mvpoly

end Geom.SL

namespace Geom.SL

/-! ## multipoly.h

`MultiPoly<N, CoeffT>` is its member `m_poly`, of type `mvpoly α N`. -/

namespace MultiPoly

variable {α : Type}

/-- `MultiPoly()`: `m_poly` is a default-constructed `Polynomial` (multipoly.h:66-68). -/
def ctor0 (o : Ops α) : (N : Nat) → mvpoly α N
  | 0 => o.zero
  | N + 1 => Polynomial.ctor0 (mvpoly.ops o N)

/-- `MultiPoly(c, I)`: the monomial `c*X^I` (multipoly.h:76-79). -/
def ctor (o : Ops α) (N : Nat) (c : α) (I : multi_index_type) : Except Error (mvpoly α N) :=
  mvpoly.monomial_make o N I c

/-- `zero<MultiPoly<N, CoeffT>>` (multipoly.h:410-419): `MultiPoly(zero<CoeffT>()())`, with
the default index `multi_index_zero(N)`. -/
def zero (o : Ops α) (N : Nat) : mvpoly α N :=
  mvpoly.monomial_make_impl o N (multi_index_zero N) o.zero

/-- `one<MultiPoly<N, CoeffT>>` (multipoly.h:422-431). -/
def one (o : Ops α) (N : Nat) : mvpoly α N :=
  mvpoly.monomial_make_impl o N (multi_index_zero N) o.one

/-- `operator=(coeff_type const& c)`: `(*this) = MultiPoly(c)` (multipoly.h:100-105). -/
def assign_coeff (o : Ops α) (N : Nat) (c : α) : mvpoly α N :=
  mvpoly.monomial_make_impl o N (multi_index_zero N) c

/-- Safe `coefficient(I)` (multipoly.h:151-154). -/
def coefficient (o : Ops α) (N : Nat) (p : mvpoly α N) (I : multi_index_type) :
    Except Error α :=
  mvpoly.get_safe o N p I

/-- Safe `coefficient(I, c)` (multipoly.h:157-160). -/
def set_coefficient (o : Ops α) (N : Nat) (p : mvpoly α N) (I : multi_index_type) (c : α) :
    Except Error (mvpoly α N) :=
  mvpoly.set_safe o N p I c

/-- Unchecked `operator()(I)` (multipoly.h:140-148). -/
def at_index (o : Ops α) (N : Nat) (p : mvpoly α N) (I : multi_index_type) :
    Except Error α :=
  mvpoly.get o N p I

/-- Evaluation `operator()(X)` (multipoly.h:192-196). -/
def call (o : Ops α) (N : Nat) (p : mvpoly α N) (X : Nat → α) : α :=
  mvpoly.evaluate o N p X

/-- `operator==` (multipoly.h:289-292). -/
def eq (o : Ops α) (N : Nat) (p q : mvpoly α N) : Bool := (mvpoly.ops o N).eq p q

/-- `is_zero()`: `(*this) == zero` (multipoly.h:250-253). -/
def is_zero (o : Ops α) (N : Nat) (p : mvpoly α N) : Bool := eq o N p (zero o N)

/-- `operator+=(MultiPoly const&)`, also `operator+=(poly_type const&)`
(multipoly.h:265-269, 331-335). -/
def add (o : Ops α) (N : Nat) (p q : mvpoly α N) : mvpoly α N := (mvpoly.ops o N).add p q

/-- `operator-=(MultiPoly const&)`, also `operator-=(poly_type const&)`
(multipoly.h:271-275, 337-341). -/
def sub (o : Ops α) (N : Nat) (p q : mvpoly α N) : mvpoly α N := (mvpoly.ops o N).sub p q

/-- `operator*=(MultiPoly const&)`, also `operator*=(poly_type const&)`
(multipoly.h:277-281, 343-347). -/
def mul (o : Ops α) (N : Nat) (p q : mvpoly α N) : mvpoly α N := (mvpoly.ops o N).mul p q

/-- Unary `operator-` (multipoly.h:256-260). -/
def neg (o : Ops α) (N : Nat) (p : mvpoly α N) : mvpoly α N := (mvpoly.ops o N).neg p

/-- `operator*=(CoeffT const& c)`: `for_each<0>` with `multiply_to(_1, c)`
(multipoly.h:314-319, mvpoly-tools.h:302-306). -/
def mul_coeff (o : Ops α) (N : Nat) (p : mvpoly α N) (c : α) : mvpoly α N :=
  mvpoly.for_each0 o (fun a => o.mul a c) N p

/-- The operators of `MultiPoly<N, CoeffT>` as a matrix entry type. -/
def ops (o : Ops α) (N : Nat) : Ops (mvpoly α N) where
  zero := zero o N
  one := one o N
  add := add o N
  sub := sub o N
  neg := neg o N
  mul := mul o N
  eq := eq o N
  is_zero := is_zero o N

end MultiPoly

/-! ## implicit.h

`double` is replaced by a field `K` with decidable equality (exact arithmetic). -/

section implicit

variable {K : Type} [Field K] [DecidableEq K]

/-- `MultiPoly<1, double>::operator/=(c)`: `for_each<0>` with `divide_to(_1, c)`
(multipoly.h:321-326, mvpoly-tools.h:308-312). -/
def MultiPoly.div_coeff (N : Nat) (p : mvpoly K N) (c : K) : mvpoly K N :=
  mvpoly.for_each0 (numOps K) (fun a => a / c) N p

/-- `poly_vector_type`: `boost::array<MVPoly1, 3>`. -/
structure poly_vector_type (K : Type) where
  c0 : mvpoly K 1
  c1 : mvpoly K 1
  c2 : mvpoly K 1

/-- Indexing `v[k]` of a `poly_vector_type`. -/
def poly_vector_type.get (v : poly_vector_type K) (k : Nat) : mvpoly K 1 :=
  match k with
  | 0 => v.c0
  | 1 => v.c1
  | _ => v.c2

/-- `basis_type`: `boost::array<poly_vector_type, 2>`. -/
structure basis_type (K : Type) where
  b0 : poly_vector_type K
  b1 : poly_vector_type K

/-- `detail::poly1_to_poly3(p3, p1, i, j)` (implicit.h:63-71): the multi-index has length
3, so `coefficient(I, c)` does not throw. -/
def poly1_to_poly3 (p3 : mvpoly K 3) (p1 : mvpoly K 1) (i j : Nat) : mvpoly K 3 :=
  (List.range (Polynomial.size p1)).foldl
    (fun p3 t => mvpoly.set_safe_impl (numOps K) 3 p3 [t, i, j] (Polynomial.get (numOps K) p1 t))
    p3

/-- `detail::deg(p)` (implicit.h:79-98): the pair (largest `real_degree`, first index
where it is reached). -/
def deg (p : poly_vector_type K) : Nat × Nat :=
  let d : Nat × Nat := (Polynomial.real_degree (numOps K) p.c0, 0)
  let k := Polynomial.real_degree (numOps K) p.c1
  let d := if d.1 < k then (k, 1) else d
  let k := Polynomial.real_degree (numOps K) p.c2
  let d := if d.1 < k then (k, 2) else d
  d

/-- `make_initial_basis(b, p, q)` (implicit.h:115-127). -/
def make_initial_basis (p q : mvpoly K 1) : basis_type K :=
  ⟨⟨MultiPoly.assign_coeff (numOps K) 1 1, MultiPoly.assign_coeff (numOps K) 1 0,
     MultiPoly.neg (numOps K) 1 p⟩,
   ⟨MultiPoly.assign_coeff (numOps K) 1 0, MultiPoly.assign_coeff (numOps K) 1 1,
     MultiPoly.neg (numOps K) 1 q⟩⟩

/-- The three statements applied to one component in the loop body of `microbasis`
(implicit.h:195-199 and 211-213): `x *= r; x -= ((s * y).get_poly() << d); x /= r;`. -/
def reduce_component (x y : mvpoly K 1) (r s : K) (d : Nat) : mvpoly K 1 :=
  let x1 := MultiPoly.mul_coeff (numOps K) 1 x r
  let x2 := MultiPoly.sub (numOps K) 1 x1
    (Polynomial.shl (numOps K) (MultiPoly.mul_coeff (numOps K) 1 y s) d)
  MultiPoly.div_coeff 1 x2 r

/-- The loop `for (i = 0; i < b[0].size(); ++i)` over the three components. -/
def reduce_vector (x y : poly_vector_type K) (r s : K) (d : Nat) : poly_vector_type K :=
  ⟨reduce_component x.c0 y.c0 r s d, reduce_component x.c1 y.c1 r s d,
   reduce_component x.c2 y.c2 r s d⟩

/-- State of the `while` loop of `microbasis`: the basis and the two degree pairs. -/
structure MicroState (K : Type) where
  b : basis_type K
  n0 : Nat × Nat
  n1 : Nat × Nat

/-- One pass of the body of the `while` loop of `microbasis` (implicit.h:188-216). -/
def microbasis_step (st : MicroState K) : MicroState K :=
  if st.n0.1 < st.n1.1 then
    let d := st.n1.1 - st.n0.1
    let r0 := Polynomial.get (numOps K) (st.b.b0.get st.n1.2) st.n0.1
    let r1 := Polynomial.get (numOps K) (st.b.b1.get st.n1.2) st.n1.1
    let b1 := reduce_vector st.b.b1 st.b.b0 r0 r1 d
    ⟨⟨st.b.b0, b1⟩, st.n0, deg b1⟩
  else
    let d := st.n0.1 - st.n1.1
    let r0 := Polynomial.get (numOps K) (st.b.b0.get st.n1.2) st.n0.1
    let r1 := Polynomial.get (numOps K) (st.b.b1.get st.n1.2) st.n1.1
    let b0 := reduce_vector st.b.b0 st.b.b1 r1 r0 d
    ⟨⟨b0, st.b.b1⟩, deg b0, st.n1⟩

/-- The `while ((n0.first + n1.first) > n)` loop of `microbasis`, run on a budget of
passes; `none` means that the budget ran out with the loop condition still true. -/
def microbasis_loop (n : Nat) : Nat → MicroState K → Option (MicroState K)
  | 0, st => if st.n0.1 + st.n1.1 > n then none else some st
  | fuel + 1, st =>
    if st.n0.1 + st.n1.1 > n then microbasis_loop n fuel (microbasis_step st) else some st

/-- `microbasis(b, p, q)` (implicit.h:145-219).  The budget is the initial degree sum, which
bounds the number of passes because every pass lowers the sum. -/
def microbasis (p q : mvpoly K 1) : Option (basis_type K) :=
  let n := max (Polynomial.real_degree (numOps K) p) (Polynomial.real_degree (numOps K) q)
  let b := make_initial_basis p q
  let n0 := deg b.b0
  let n1 := deg b.b1
  (microbasis_loop n (n0.1 + n1.1) ⟨b, n0, n1⟩).map MicroState.b

/-- `basis_to_poly(p0, v)` (implicit.h:225-234). -/
def basis_to_poly (p0 : mvpoly K 3) (v : poly_vector_type K) : mvpoly K 3 :=
  let p1 : mvpoly K 3 := MultiPoly.ctor0 (numOps K) 3
  let p2 : mvpoly K 3 := MultiPoly.ctor0 (numOps K) 3
  let p0 := poly1_to_poly3 p0 v.c0 1 0
  let p1 := poly1_to_poly3 p1 v.c1 0 1
  let p2 := poly1_to_poly3 p2 v.c2 0 0
  let p0 := MultiPoly.add (numOps K) 3 p0 p1
  MultiPoly.add (numOps K) 3 p0 p2

/-- The summand `p.coefficient(j-1+k) * q.coefficient(i-k)
- p.coefficient(i-k) * q.coefficient(j-1+k)` of implicit.h:271-272 and 320-321. -/
def bezout_term (p q : mvpoly K 3) (i j k : Nat) : mvpoly K 2 :=
  let o2 := mvpoly.ops (numOps K) 2
  o2.sub
    (o2.mul (Polynomial.coefficient o2 p (j - 1 + k)) (Polynomial.coefficient o2 q (i - k)))
    (o2.mul (Polynomial.coefficient o2 p (i - k)) (Polynomial.coefficient o2 q (j - 1 + k)))

/-- The values `hi, hi-1, ..., lo` of a loop `for (x = hi; x >= lo; --x)` with `lo >= 1`. -/
def down_from (hi lo : Nat) : List Nat := (List.range' lo (hi + 1 - lo)).reverse

/-- The loop `for (i = 0; i < n; ++i) for (j = 0; j < i; ++j) BM(j,i) = BM(i,j);`
(implicit.h:277-281 and 327-331). -/
def symmetric_fill (BM : Matrix (mvpoly K 2)) (n : Nat) : Matrix (mvpoly K 2) :=
  (List.range n).foldl
    (fun BM i =>
      (List.range i).foldl
        (fun BM j => BM.set j i (BM.get (MultiPoly.ops (numOps K) 2) i j)) BM)
    BM

/-- `make_bezout_matrix(p, q)` (implicit.h:253-283). -/
def make_bezout_matrix (p q : mvpoly K 3) : Matrix (mvpoly K 2) :=
  let o2 := mvpoly.ops (numOps K) 2
  let m2 := MultiPoly.ops (numOps K) 2
  let pdeg := Polynomial.real_degree o2 p
  let qdeg := Polynomial.real_degree o2 q
  let n := max pdeg qdeg
  let BM : Matrix (mvpoly K 2) := Matrix.mk' (MultiPoly.ctor0 (numOps K) 2) n n
  let BM := (down_from n 1).foldl
    (fun BM i =>
      (down_from n i).foldl
        (fun BM j =>
          let m := min i (n + 1 - j)
          (List.range' 1 m).foldl
            (fun BM k =>
              BM.set (n - i) (n - j)
                (MultiPoly.add (numOps K) 2 (BM.get m2 (n - i) (n - j)) (bezout_term p q i j k)))
            BM)
        BM)
    BM
  symmetric_fill BM n

/-- State of the outer loop of `make_bezout_main_minor`: the matrix and the offset `u`. -/
structure MinorState (K : Type) where
  BM : Matrix (mvpoly K 2)
  u : Nat

/-- `make_bezout_main_minor(p, q, h)` (implicit.h:292-333). -/
def make_bezout_main_minor (p q : mvpoly K 3) (h : Nat) : Matrix (mvpoly K 2) :=
  let o2 := mvpoly.ops (numOps K) 2
  let m2 := MultiPoly.ops (numOps K) 2
  let pdeg := Polynomial.real_degree o2 p
  let qdeg := Polynomial.real_degree o2 q
  let n := max pdeg qdeg
  let BM : Matrix (mvpoly K 2) := Matrix.mk' (MultiPoly.ctor0 (numOps K) 2) (n - 1) (n - 1)
  let st := (List.range' 1 n).foldl
    (fun (st : MinorState K) i =>
      if i = h then ⟨st.BM, 1⟩
      else
        let inner := (List.range' 1 i).foldl
          (fun (sv : Matrix (mvpoly K 2) × Nat) j =>
            if j = h then (sv.1, 1)
            else
              let m := min i (n + 1 - j)
              ((List.range' 1 m).foldl
                (fun BM k =>
                  BM.set (i - st.u - 1) (j - sv.2 - 1)
                    (MultiPoly.add (numOps K) 2 (BM.get m2 (i - st.u - 1) (j - sv.2 - 1))
                      (bezout_term p q i j k)))
                sv.1, sv.2))
          (st.BM, 0)
        ⟨inner.1, st.u⟩)
    ⟨BM, 0⟩
  symmetric_fill st.BM (n - 1)

/-- The pipeline of implicit.h: micro-basis, the two generators as trivariate polynomials,
their Bezout matrix, and its determinant, the implicit polynomial `F(x, y)`. -/
def implicit_equation (f g : mvpoly K 1) : Option (mvpoly K 2) :=
  match microbasis f g with
  | none => none
  | some b =>
    let p := basis_to_poly (MultiPoly.ctor0 (numOps K) 3) b.b0
    let q := basis_to_poly (MultiPoly.ctor0 (numOps K) 3) b.b1
    determinant_minor (MultiPoly.ops (numOps K) 2) (make_bezout_matrix p q)

end implicit

end Geom.SL


namespace Geom.SL

/-! ## mvpoly-tools.h and multipoly.h: degrees, sub-polynomials, mixed-rank operators -/

namespace mvpoly

variable {α : Type}

/-- `max_degree_impl<i>(p, D, I)` (mvpoly-tools.h:217-227, 322-329): the returned flag is
`false` as soon as an entry of `I` exceeds the `max_degree()` of the polynomial reached so far;
the second component lists the entries of `D`, those never written being the zeros left by
`D.resize(N)`. -/
def max_degree_impl (o : Ops α) : (N : Nat) → mvpoly α N → multi_index_type →
    Bool × multi_index_type
  | 0, _, _ => (true, [])
  | N + 1, p, I =>
    let d := Polynomial.max_degree p
    if I.getD 0 0 > d then (false, d :: List.replicate N 0)
    else
      let r := max_degree_impl o N (Polynomial.get (ops o N) p (I.getD 0 0)) (I.drop 1)
      (r.1, d :: r.2)

/-- `mvpoly<N, CoeffT>::max_degree(p, D, I)` (mvpoly-tools.h:105-114). -/
def max_degree (o : Ops α) (N : Nat) (p : mvpoly α N) (I : multi_index_type) :
    Except Error (Bool × multi_index_type) :=
  if I.length ≠ N then .error .RangeError else .ok (max_degree_impl o N p I)

/-- `coefficient<L-1, poly_type>::get_impl<0>(p, I)` for a polynomial of rank `M + L`
(mvpoly-tools.h:497-509, 600-612): the rank-`M` coefficient reached through the `L` entries of
`I`, unchecked. -/
def sub_get (o : Ops α) (M : Nat) : (L : Nat) → mvpoly α (M + L) → multi_index_type → mvpoly α M
  | 0, p, _ => p
  | L + 1, p, I => sub_get o M L (Polynomial.get (ops o (M + L)) p (I.getD 0 0)) (I.drop 1)

/-- A statement `coefficient<L-1, poly_type>::get_impl<0>(p, I) op= ...`: the rank-`M`
coefficient reached through the mutable reference is replaced by its image under `f`. -/
def sub_update (o : Ops α) (M : Nat) (f : mvpoly α M → mvpoly α M) :
    (L : Nat) → mvpoly α (M + L) → multi_index_type → mvpoly α (M + L)
  | 0, p, _ => f p
  | L + 1, p, I =>
    List.set p (I.getD 0 0)
      (sub_update o M f L (Polynomial.get (ops o (M + L)) p (I.getD 0 0)) (I.drop 1))

/-- `mvpoly<N, CoeffT>::for_each<M>(p, op)` for `N = M + L` (mvpoly-tools.h:178-199): at rank
`M` the operator is applied, above it the loop `for (k = 0; k <= p.real_degree(); ++k)`
recurses into `p[k]`. -/
def for_each (o : Ops α) (M : Nat) (op : mvpoly α M → mvpoly α M) :
    (L : Nat) → mvpoly α (M + L) → mvpoly α (M + L)
  | 0, p => op p
  | L + 1, p =>
    for_each_loop (ops o (M + L)) (for_each o M op L) (Polynomial.size p) 0 p

end mvpoly

namespace MultiPoly

variable {α : Type}

/-- `degree<ordering::lex>()`: `mvdegree<N, CoeffT, lex>::value(m_poly)`
(multipoly.h:108-112, mvpoly-tools.h:661-673). -/
def degree (o : Ops α) (N : Nat) (p : mvpoly α N) : multi_index_type :=
  mvpoly.lex_degree o N p

/-- `leading_coefficient<ordering::lex>()`: `(*this)(degree<OrderT>())`
(multipoly.h:116-120). -/
def leading_coefficient (o : Ops α) (N : Nat) (p : mvpoly α N) : Except Error α :=
  at_index o N p (degree o N p)

/-- `normalize()` (multipoly.h:225-228). -/
def normalize (o : Ops α) (N : Nat) (p : mvpoly α N) : mvpoly α N := mvpoly.normalize o N p

/-- `operator+=(MultiPoly<M, CoeffT> const&)` on a polynomial of rank `N = M + L`
(multipoly.h:356-363): `coefficient<L-1, poly_type>::get(m_poly, I) += p.m_poly` with
`I = multi_index_zero(L)`; `get` throws when the length of `I` is not `L`. -/
def add_lower (o : Ops α) (M L : Nat) (P : mvpoly α (M + L)) (q : mvpoly α M) :
    Except Error (mvpoly α (M + L)) :=
  let I := multi_index_zero L
  if I.length ≠ L then .error .RangeError
  else .ok (mvpoly.sub_update o M (fun s => (mvpoly.ops o M).add s q) L P I)

/-- `operator+(MultiPoly<N> const& p, MultiPoly<M> const& q)` for `M <= N`, here `M < N`:
`r(p); r += q` (multipoly.h:482-491). -/
def plus_lower (o : Ops α) (M L : Nat) (P : mvpoly α (M + L)) (q : mvpoly α M) :
    Except Error (mvpoly α (M + L)) :=
  add_lower o M L P q

/-- `operator+(MultiPoly<N> const& p, MultiPoly<M> const& q)` for `M > N`, the lower rank
first: `r(q); r += p` (multipoly.h:493-502). -/
def lower_plus (o : Ops α) (M L : Nat) (q : mvpoly α M) (P : mvpoly α (M + L)) :
    Except Error (mvpoly α (M + L)) :=
  add_lower o M L P q

/-- `operator*=(MultiPoly<M, CoeffT> const&)` on a polynomial of rank `N = M + L`
(multipoly.h:374-381): `for_each<M>` with `multiply_to(_1, p.m_poly)`, that is `_1 *= p`. -/
def mul_lower (o : Ops α) (M L : Nat) (P : mvpoly α (M + L)) (q : mvpoly α M) :
    mvpoly α (M + L) :=
  mvpoly.for_each o M (fun s => (mvpoly.ops o M).mul s q) L P

/-- `operator*(MultiPoly<N> const& p, MultiPoly<M> const& q)` for `M <= N`, here `M < N`:
`r(p); r *= q` (multipoly.h:527-536). -/
def times_lower (o : Ops α) (M L : Nat) (P : mvpoly α (M + L)) (q : mvpoly α M) :
    mvpoly α (M + L) :=
  mul_lower o M L P q

/-- `operator*(MultiPoly<N> const& p, MultiPoly<M> const& q)` for `M > N`, the lower rank
first: `r(q); r *= p` (multipoly.h:538-547). -/
def lower_times (o : Ops α) (M L : Nat) (q : mvpoly α M) (P : mvpoly α (M + L)) :
    mvpoly α (M + L) :=
  mul_lower o M L P q

end MultiPoly

end Geom.SL

namespace Geom.SL

/-! ## mvpoly-tools.h: `shift`; matrix.h: `resize` and `polynomial_matrix_evaluate` -/

namespace mvpoly

variable {α : Type}

/-- `shift_impl<i>(p, I)`, with `I` already shifted by `i` (mvpoly-tools.h:241-250, 340-343):
`p <<= I[i]`, then the recursion into every `p[k]`. -/
def shift_impl (o : Ops α) : (N : Nat) → mvpoly α N → multi_index_type → mvpoly α N
  | 0, p, _ => p
  | N + 1, p, I =>
    let p1 := Polynomial.shl (ops o N) p (I.getD 0 0)
    (List.range (Polynomial.size p1)).foldl
      (fun r k => r.set k (shift_impl o N (Polynomial.get (ops o N) r k) (I.drop 1))) p1

/-- `mvpoly<N, CoeffT>::shift(p, I)` (mvpoly-tools.h:139-145). -/
def shift (o : Ops α) (N : Nat) (p : mvpoly α N) (I : multi_index_type) :
    Except Error (mvpoly α N) :=
  if I.length ≠ N then .error .RangeError else .ok (shift_impl o N p I)

/-- The statement `set_safe(p, I, c)` on the variable `p` (mvpoly-tools.h:487-494): the value
of `p` when control leaves the call and the exception thrown, if any.  The length test comes
before every write. -/
def set_safe_stmt (o : Ops α) (N : Nat) (p : mvpoly α N) (I : multi_index_type) (c : α) :
    mvpoly α N × Option Error :=
  if I.length ≠ N then (p, some .RangeError) else (set_safe_impl o N p I c, none)

/-- The statement `shift(p, I)` on the variable `p` (mvpoly-tools.h:139-145): the value of
`p` when control leaves the call and the exception thrown, if any. -/
def shift_stmt (o : Ops α) (N : Nat) (p : mvpoly α N) (I : multi_index_type) :
    mvpoly α N × Option Error :=
  if I.length ≠ N then (p, some .RangeError) else (shift_impl o N p I, none)

end mvpoly

/-- `Matrix::resize(m, n)` (matrix.h:70-75): `m_data.resize(m, n)` is the two-argument
`std::vector::resize(count, value)`, the value being `n` converted to the entry type
(`conv`). -/
def Matrix.resize {α : Type} (conv : Nat → α) (M : Matrix α) (m n : Nat) : Matrix α :=
  ⟨vec_resize M.m_data m (conv n), m, n⟩

/-- The two loops of `polynomial_matrix_evaluate`: `A(i,j) = ev(M(i,j))` for `i < rows`,
`j < columns` of `M` (matrix.h:139-145, 154-160).  A write through an index past the end of
`m_data` is undefined in C++; the embedding drops it. -/
def evaluate_loops {α β : Type} (ob : Ops β) (ev : β → α) (A : Matrix α) (M : Matrix β) :
    Matrix α :=
  (List.range M.rows).foldl
    (fun A i => (List.range M.columns).foldl (fun A j => A.set i j (ev (M.get ob i j))) A) A

/-- `polynomial_matrix_evaluate(A, M, X)`, the generic overload (matrix.h:133-146), for an
evaluation type equal to the coefficient type. -/
def polynomial_matrix_evaluate {α : Type} (o : Ops α) (conv : Nat → α) (N : Nat)
    (A : Matrix α) (M : Matrix (mvpoly α N)) (X : Nat → α) : Matrix α :=
  evaluate_loops (MultiPoly.ops o N) (fun p => MultiPoly.call o N p X)
    (Matrix.resize conv A M.rows M.columns) M

/-- Modelled from the spec: `NL::Matrix` (2geom/numeric/matrix.h) is not among the sources;
it is taken as a dense row-major grid of numbers with element access `A(i,j)`, like
`Matrix<Coeff>`. -/
abbrev NLMatrix (K : Type) := Matrix K

/-- `polynomial_matrix_evaluate(A, M, P)`, the `Point` overload (matrix.h:149-161):
`A(i,j) = M(i,j)(P[X], P[Y])`; `A` is not resized. -/
def polynomial_matrix_evaluate_point {K : Type} (o : Ops K) (A : NLMatrix K)
    (M : Matrix (mvpoly K 2)) (x y : K) : NLMatrix K :=
  evaluate_loops (MultiPoly.ops o 2)
    (fun p => MultiPoly.call o 2 p (fun k => if k = 0 then x else y)) A M

end Geom.SL

namespace Geom.SL

/-! ## multipoly.h: the coefficient operators of `MultiPoly` -/

namespace mvpoly

variable {α : Type}

/-- A statement `coefficient<N-1, poly_type>::get(p, I) op= c` through the mutable reference
that the unchecked `get_impl<0>` returns (mvpoly-tools.h:504-509, 607-612): the scalar
coefficient at `I` is replaced by its image under `f`. -/
def update_impl (o : Ops α) (f : α → α) : (N : Nat) → mvpoly α N → multi_index_type → mvpoly α N
  | 0, p, _ => f p
  | N + 1, p, I =>
    List.set p (I.getD 0 0)
      (update_impl o f N (Polynomial.get (ops o N) p (I.getD 0 0)) (I.drop 1))

end mvpoly

namespace MultiPoly

variable {α : Type}

/-- `operator+=(CoeffT const& c)`: `trailing_coefficient() += c`, the trailing coefficient
being `(*this)(multi_index_zero(N))` (multipoly.h:129-137, 302-306). -/
def add_coeff (o : Ops α) (N : Nat) (p : mvpoly α N) (c : α) : mvpoly α N :=
  mvpoly.update_impl o (fun a => o.add a c) N p (multi_index_zero N)

/-- `operator-=(CoeffT const& c)`: `trailing_coefficient() -= c` (multipoly.h:308-312). -/
def sub_coeff (o : Ops α) (N : Nat) (p : mvpoly α N) (c : α) : mvpoly α N :=
  mvpoly.update_impl o (fun a => o.sub a c) N p (multi_index_zero N)

/-- `operator-(MultiPoly const& p, CoeffT const& c)`: `r(p); r -= c` (multipoly.h:571-578). -/
def poly_minus_coeff (o : Ops α) (N : Nat) (p : mvpoly α N) (c : α) : mvpoly α N :=
  sub_coeff o N p c

/-- `operator-(CoeffT const& c, MultiPoly const& p)`: `r(-p); r += c`
(multipoly.h:580-587). -/
def coeff_minus_poly (o : Ops α) (N : Nat) (c : α) (p : mvpoly α N) : mvpoly α N :=
  add_coeff o N (neg o N p) c

end MultiPoly

/-! ## determinant-minor.h: the keys of one column -/

/-- The values that `Pkey` holds at the start of the successive passes of the
`do ... while(fc)` loop of one column (determinant-minor.h:118-150), on a step budget;
`none` means the budget ran out before `fc` became zero. -/
def keyVisits (c k : Nat) : Nat → List Nat → Option (List (List Nat))
  | 0, _ => none
  | fuel + 1, Pkey =>
    let (P1, fc) := advance c k Pkey
    if fc ≠ 0 then (keyVisits c k fuel P1).map (fun L => Pkey :: L) else some [Pkey]

/-- The body of the `do ... while(fc)` loop up to the insertion into `B`
(determinant-minor.h:120-140). -/
def keyBody {α : Type} (o : Ops α) (M : Matrix α) (c k : Nat) (st : DetState α)
    (Pkey : List Nat) : DetState α :=
  let (det, A1) := expandMinor o M c k Pkey st.A
  let B1 := if !o.is_zero det then Rmap.insert st.B Pkey det else st.B
  ⟨A1, B1, det⟩

end Geom.SL

/-! ## intervaltree/interval_tree.cc

Pointers to `IntervalTreeNode` are indices into the list of allocated nodes; the sentinel
`nil` is the node 0 and the sentinel `root` the node 1, in the order in which the constructor
allocates them.  The type `int` is 32 bits wide. -/

namespace Geom.IT

/-- `MAX_INT`, defined as `INT_MAX` (interval_tree.h:32-34). -/
def MAX_INT : Int := 2147483647

/-- `const int MIN_INT=-MAX_INT;` (interval_tree.cc:19). -/
def MIN_INT : Int := -MAX_INT

/-- The least value of the type `int`. -/
def INT_MIN : Int := -2147483648

/-- An `Interval`: the values of `GetLowPoint()` and `GetHighPoint()`. -/
structure Interval where
  low : Int
  high : Int
  deriving DecidableEq

/-- `IntervalTreeNode` (interval_tree.h:54-71); `storedInterval` is `none` for `NULL`. -/
structure Node where
  storedInterval : Option Interval
  key : Int
  high : Int
  maxHigh : Int
  red : Bool
  left : Nat
  right : Nat
  parent : Nat
  deriving DecidableEq

/-- The allocated nodes. -/
abbrev Heap := List Node

/-- The sentinel `nil`. -/
def nil : Nat := 0

/-- The sentinel `root`. -/
def root : Nat := 1

/-- The node of the sentinel `nil` as the constructor leaves it (interval_tree.cc:38-42). -/
def nilNode : Node := ⟨none, MIN_INT, MIN_INT, MIN_INT, false, nil, nil, nil⟩

/-- Dereference of a node pointer. -/
def get (h : Heap) (p : Nat) : Node := h.getD p nilNode

/-- Assignment to fields of the node `p`. -/
def upd (h : Heap) (p : Nat) (f : Node → Node) : Heap := h.set p (f (get h p))

/-- `IntervalTree::IntervalTree()` (interval_tree.cc:36-56): the two sentinels. -/
def empty : Heap :=
  [nilNode, ⟨none, MAX_INT, MAX_INT, MAX_INT, false, nil, nil, nil⟩]

/-- `IntervalTreeNode(Interval*)` (interval_tree.cc:23-28): `key`, `high` and
`maxHigh(high)`; the fields `red`, `left`, `right`, `parent` are assigned by `Insert` before
they are read. -/
def newNode (i : Interval) : Node := ⟨some i, i.low, i.high, i.high, false, nil, nil, nil⟩

/-- `IntervalTree::LeftRotate(x)` (interval_tree.cc:75-115). -/
def LeftRotate (h : Heap) (x : Nat) : Heap :=
  let y := (get h x).right
  let h := upd h x (fun n => { n with right := (get h y).left })
  let h := if (get h y).left ≠ nil
    then upd h (get h y).left (fun n => { n with parent := x }) else h
  let h := upd h y (fun n => { n with parent := (get h x).parent })
  let h := if x = (get h (get h x).parent).left
    then upd h (get h x).parent (fun n => { n with left := y })
    else upd h (get h x).parent (fun n => { n with right := y })
  let h := upd h y (fun n => { n with left := x })
  let h := upd h x (fun n => { n with parent := y })
  let mx := max (get h (get h x).left).maxHigh (max (get h (get h x).right).maxHigh (get h x).high)
  let h := upd h x (fun n => { n with maxHigh := mx })
  let my := max (get h x).maxHigh (max (get h (get h y).right).maxHigh (get h y).high)
  upd h y (fun n => { n with maxHigh := my })

/-- `IntervalTree::RightRotate(y)` (interval_tree.cc:135-174). -/
def RightRotate (h : Heap) (y : Nat) : Heap :=
  let x := (get h y).left
  let h := upd h y (fun n => { n with left := (get h x).right })
  let h := if nil ≠ (get h x).right
    then upd h (get h x).right (fun n => { n with parent := y }) else h
  let h := upd h x (fun n => { n with parent := (get h y).parent })
  let h := if y = (get h (get h y).parent).left
    then upd h (get h y).parent (fun n => { n with left := x })
    else upd h (get h y).parent (fun n => { n with right := x })
  let h := upd h x (fun n => { n with right := y })
  let h := upd h y (fun n => { n with parent := x })
  let my := max (get h (get h y).left).maxHigh (max (get h (get h y).right).maxHigh (get h y).high)
  let h := upd h y (fun n => { n with maxHigh := my })
  let mx := max (get h (get h x).left).maxHigh (max (get h y).maxHigh (get h x).high)
  upd h x (fun n => { n with maxHigh := mx })

/-- The loop `while (x != nil)` of `TreeInsertHelp` (interval_tree.cc:198-205), on a step
budget; returns `y`. -/
def descend (h : Heap) (zkey : Int) : Nat → Nat → Nat → Option Nat
  | 0, y, x => if x ≠ nil then none else some y
  | fuel + 1, y, x =>
    if x ≠ nil then
      descend h zkey fuel x (if (get h x).key > zkey then (get h x).left else (get h x).right)
    else some y

/-- `IntervalTree::TreeInsertHelp(z)` (interval_tree.cc:190-220). -/
def TreeInsertHelp (h : Heap) (z : Nat) : Option Heap :=
  let h := upd h z (fun n => { n with left := nil, right := nil })
  match descend h (get h z).key h.length root (get h root).left with
  | none => none
  | some y =>
    let h := upd h z (fun n => { n with parent := y })
    if y = root ∨ (get h y).key > (get h z).key
    then some (upd h y (fun n => { n with left := z }))
    else some (upd h y (fun n => { n with right := z }))

/-- `IntervalTree::FixUpMaxHigh(x)` (interval_tree.cc:237-245), on a step budget. -/
def FixUpMaxHigh : Nat → Heap → Nat → Option Heap
  | 0, h, x => if x ≠ root then none else some h
  | fuel + 1, h, x =>
    if x ≠ root then
      let m := max (get h x).high
        (max (get h (get h x).left).maxHigh (get h (get h x).right).maxHigh)
      let h := upd h x (fun n => { n with maxHigh := m })
      FixUpMaxHigh fuel h (get h x).parent
    else some h

/-- The loop `while (x->parent->red)` of `Insert` (interval_tree.cc:279-314), on a step
budget. -/
def insertLoop : Nat → Heap → Nat → Option Heap
  | 0, h, x => if (get h (get h x).parent).red then none else some h
  | fuel + 1, h, x =>
    if (get h (get h x).parent).red then
      if (get h x).parent = (get h (get h (get h x).parent).parent).left then
        let y := (get h (get h (get h x).parent).parent).right
        if (get h y).red then
          let h := upd h (get h x).parent (fun n => { n with red := false })
          let h := upd h y (fun n => { n with red := false })
          let h := upd h (get h (get h x).parent).parent (fun n => { n with red := true })
          insertLoop fuel h (get h (get h x).parent).parent
        else
          let (h, x) := if x = (get h (get h x).parent).right
            then (LeftRotate h (get h x).parent, (get h x).parent) else (h, x)
          let h := upd h (get h x).parent (fun n => { n with red := false })
          let h := upd h (get h (get h x).parent).parent (fun n => { n with red := true })
          let h := RightRotate h (get h (get h x).parent).parent
          insertLoop fuel h x
      else
        let y := (get h (get h (get h x).parent).parent).left
        if (get h y).red then
          let h := upd h (get h x).parent (fun n => { n with red := false })
          let h := upd h y (fun n => { n with red := false })
          let h := upd h (get h (get h x).parent).parent (fun n => { n with red := true })
          insertLoop fuel h (get h (get h x).parent).parent
        else
          let (h, x) := if x = (get h (get h x).parent).left
            then (RightRotate h (get h x).parent, (get h x).parent) else (h, x)
          let h := upd h (get h x).parent (fun n => { n with red := false })
          let h := upd h (get h (get h x).parent).parent (fun n => { n with red := true })
          let h := LeftRotate h (get h (get h x).parent).parent
          insertLoop fuel h x
    else some h

/-- `IntervalTree::Insert(newInterval)` (interval_tree.cc:267-325): the tree after the
insertion and the pointer to the new node. -/
def Insert (t : Heap) (i : Interval) : Option (Heap × Nat) :=
  let x := t.length
  let h := t ++ [newNode i]
  match TreeInsertHelp h x with
  | none => none
  | some h =>
    match FixUpMaxHigh h.length h (get h x).parent with
    | none => none
    | some h =>
      let h := upd h x (fun n => { n with red := true })
      match insertLoop h.length h x with
      | none => none
      | some h =>
        some (upd h (get h root).left (fun n => { n with red := false }), x)

/-- `Overlap(a1, a2, b1, b2)` (interval_tree.cc:652-658). -/
def Overlap (a1 a2 b1 b2 : Int) : Bool :=
  if a1 ≤ b1 then decide (b1 ≤ a2) else decide (a1 ≤ b2)

/-- `it_recursion_node` (interval_tree.h:73-82). -/
structure it_recursion_node where
  start_node : Option Nat
  parentIndex : Nat
  tryRightBranch : Bool
  deriving DecidableEq

/-- Assignment to the element `i` of the array `recursionNodeStack`, which `Enumerate`
enlarges when `recursionNodeStackTop` reaches its size. -/
def arr_set (a : List it_recursion_node) (i : Nat) (f : it_recursion_node → it_recursion_node) :
    List it_recursion_node :=
  let a := a ++ List.replicate (i + 1 - a.length) ⟨none, 0, false⟩
  a.set i (f (a.getD i ⟨none, 0, false⟩))

/-- The local state of `Enumerate`. -/
structure EnumState where
  x : Nat
  stuffToDo : Bool
  enumResultStack : List (Option Interval)
  recursionNodeStack : List it_recursion_node
  recursionNodeStackTop : Nat
  currentParent : Nat

/-- The loop `while ((!stuffToDo) && (recursionNodeStackTop > 1))` of `Enumerate`
(interval_tree.cc:736-743); every pass lowers `recursionNodeStackTop`, which bounds the
number of passes. -/
def popLoop (h : Heap) : Nat → EnumState → EnumState
  | 0, s => s
  | fuel + 1, s =>
    if !s.stuffToDo ∧ s.recursionNodeStackTop > 1 then
      let top := s.recursionNodeStackTop - 1
      let f := s.recursionNodeStack.getD top ⟨none, 0, false⟩
      if f.tryRightBranch then
        let x := (get h (f.start_node.getD nil)).right
        let cur := f.parentIndex
        let st := arr_set s.recursionNodeStack cur (fun g => { g with tryRightBranch := true })
        popLoop h fuel ⟨x, decide (x ≠ nil), s.enumResultStack, st, top, cur⟩
      else
        popLoop h fuel { s with recursionNodeStackTop := top }
    else s

/-- One pass of the loop `while (stuffToDo)` of `Enumerate` (interval_tree.cc:715-744). -/
def enumStep (h : Heap) (low high : Int) (s : EnumState) : EnumState :=
  let n := get h s.x
  let s := if Overlap low high n.key n.high then
      { s with enumResultStack := s.enumResultStack ++ [n.storedInterval],
               recursionNodeStack := arr_set s.recursionNodeStack s.currentParent
                 (fun g => { g with tryRightBranch := true }) }
    else s
  let s := if (get h n.left).maxHigh ≥ low then
      { s with recursionNodeStack := arr_set s.recursionNodeStack s.recursionNodeStackTop
                 (fun _ => ⟨some s.x, s.currentParent, false⟩),
               currentParent := s.recursionNodeStackTop,
               recursionNodeStackTop := s.recursionNodeStackTop + 1,
               x := n.left }
    else { s with x := n.right }
  let s := { s with stuffToDo := decide (s.x ≠ nil) }
  popLoop h s.recursionNodeStackTop s

/-- The loop `while (stuffToDo)` of `Enumerate`, on a step budget. -/
def enumLoop (h : Heap) (low high : Int) : Nat → EnumState → Option EnumState
  | 0, s => if s.stuffToDo then none else some s
  | fuel + 1, s => if s.stuffToDo then enumLoop h low high fuel (enumStep h low high s) else some s

/-- `IntervalTree::Enumerate(low, high)` (interval_tree.cc:700-750); every pass of the main
loop visits one node and every node is visited at most once, so the number of nodes bounds
the number of passes. -/
def Enumerate (h : Heap) (low high : Int) : Option (List (Option Interval)) :=
  let x := (get h root).left
  (enumLoop h low high h.length
    ⟨x, decide (x ≠ nil), [], [⟨none, 0, false⟩], 1, 0⟩).map EnumState.enumResultStack

/-- `IntervalTree::CheckMaxHighFieldsHelper(y, currentHigh, match)`
(interval_tree.cc:754-769), on a depth budget: the value of `match` returned, and whether
every `assert(y->high <= currentHigh)` met on the way held. -/
def CheckMaxHighFieldsHelper (h : Heap) (currentHigh : Int) : Nat → Nat → Bool → Bool × Bool
  | 0, _, m => (m, true)
  | fuel + 1, y, m =>
    if y ≠ nil then
      let l := CheckMaxHighFieldsHelper h currentHigh fuel (get h y).left m
      let m := if l.1 then true else m
      let a := decide ((get h y).high ≤ currentHigh)
      let m := if (get h y).high = currentHigh then true else m
      let r := CheckMaxHighFieldsHelper h currentHigh fuel (get h y).right m
      let m := if r.1 then true else m
      (m, l.2 && a && r.2)
    else (m, true)

/-- `IntervalTree::CheckMaxHighFields(x)` (interval_tree.cc:775-783), on a depth budget:
`true` if no assertion fails and the branch "error found in CheckMaxHighFields" is not
reached. -/
def CheckMaxHighFields (h : Heap) : Nat → Nat → Bool
  | 0, _ => true
  | fuel + 1, x =>
    if x ≠ nil then
      CheckMaxHighFields h fuel (get h x).left
        && ((CheckMaxHighFieldsHelper h (get h x).maxHigh h.length x false).1
          && (CheckMaxHighFieldsHelper h (get h x).maxHigh h.length x false).2)
        && CheckMaxHighFields h fuel (get h x).right
    else true

end Geom.IT

namespace Geom.SL

/-! ## Specification side of the flipper counter -/

/-- Successor of a row key among the strictly increasing keys whose entry at position `i`
is at most `b + i`: the rightmost entry that is below its bound is incremented and the
entries to its right restart just above it. -/
def nextKey : Nat → List Nat → Option (List Nat)
  | _, [] => none
  | b, a :: t =>
    match nextKey (b + 1) t with
    | some t' => some (a :: t')
    | none => if a < b then some (List.range' (a + 1) (t.length + 1)) else none

/-- Row keys: strictly increasing, first entry at least `lo`, entry `i` at most `b + i`. -/
def IsKey : Nat → Nat → List Nat → Prop
  | _, _, [] => True
  | b, lo, a :: t => lo ≤ a ∧ a ≤ b ∧ IsKey (b + 1) (a + 1) t

/-- Lexicographic order on keys of one length. -/
def lexLt : List Nat → List Nat → Prop
  | a :: s, b :: t => a < b ∨ (a = b ∧ lexLt s t)
  | _, _ => False

/-- Value of a key read as a numeral in base `n`. -/
def keyVal (n : Nat) : List Nat → Nat
  | [] => 0
  | a :: t => a * n ^ t.length + keyVal n t

theorem getD_append_cons (pre Y : List Nat) (x d : Nat) :
    (pre ++ x :: Y).getD pre.length d = x := by
  rw [List.getD_eq_getElem?_getD, List.getElem?_append_right (le_refl _)]
  simp

theorem set_append_cons (pre Y : List Nat) (x v : Nat) :
    (pre ++ x :: Y).set pre.length v = pre ++ v :: Y := by
  rw [List.set_append_right _ _ (le_refl _)]
  simp

theorem flipper_step (c : Nat) (pre T : List Nat) (a : Nat) :
    flipper c (pre.length + 1) (pre ++ a :: T)
      = if a + 1 < pre.length + 1 + c then (pre ++ (a + 1) :: T, pre.length + 1)
        else flipper c pre.length (pre ++ (a + 1) :: T) := by
  simp only [flipper, getD_append_cons, set_append_cons]

theorem refill_spec (m : Nat) : ∀ (pre Y : List Nat) (x : Nat), Y.length = m →
    refill m (pre.length + 1) (pre ++ x :: Y) = pre ++ List.range' x (m + 1) := by
  induction m with
  | zero =>
    intro pre Y x hY
    have : Y = [] := List.length_eq_zero.mp hY
    subst this
    simp [refill, List.range']
  | succ m ih =>
    intro pre Y x hY
    obtain ⟨y, Y', rfl⟩ := List.exists_cons_of_length_eq_add_one hY
    have hlen : Y'.length = m := by simpa using hY
    have h1 : (pre ++ x :: y :: Y').getD (pre.length + 1 - 1) 0 = x := by
      rw [Nat.add_sub_cancel]; exact getD_append_cons _ _ _ _
    have h2 : (pre ++ x :: y :: Y').set (pre.length + 1) (x + 1)
        = (pre ++ [x]) ++ (x + 1) :: Y' := by
      rw [List.set_append_right _ _ (by omega)]
      simp
    have h3 := ih (pre ++ [x]) Y' (x + 1) hlen
    simp only [List.length_append, List.length_singleton] at h3
    rw [refill, h1, h2, h3]
    simp [List.range'_succ]

theorem flipper_spec (c : Nat) : ∀ (suf pre : List Nat),
    (nextKey (c + pre.length) suf = none →
      flipper c (pre.length + suf.length) (pre ++ suf)
        = flipper c pre.length (pre ++ suf.map (· + 1))) ∧
    (∀ s', nextKey (c + pre.length) suf = some s' →
      ∃ X fc, flipper c (pre.length + suf.length) (pre ++ suf) = (X, fc) ∧
        pre.length < fc ∧ fc ≤ pre.length + suf.length ∧
        refill (pre.length + suf.length - fc) fc X = pre ++ s') := by
  intro suf
  induction suf with
  | nil => intro pre; simp [nextKey]
  | cons a t ih =>
    intro pre
    have ih1 := ih (pre ++ [a])
    simp only [List.length_append, List.length_singleton, List.append_assoc,
      List.singleton_append] at ih1
    have key : pre.length + (a :: t).length = pre.length + 1 + t.length := by
      simp; omega
    have hc : c + (pre.length + 1) = c + pre.length + 1 := by omega
    rw [hc] at ih1
    have hstep := flipper_step c pre (t.map (· + 1)) a
    constructor
    · intro hnone
      simp only [nextKey] at hnone
      cases hnk : nextKey (c + pre.length + 1) t with
      | some t' => simp [hnk] at hnone
      | none =>
        simp only [hnk] at hnone
        have hab : ¬ a < c + pre.length := by
          intro h; simp [h] at hnone
        rw [key, ih1.1 hnk, hstep, if_neg (by omega)]
        simp
    · intro s' hsome
      simp only [nextKey] at hsome
      cases hnk : nextKey (c + pre.length + 1) t with
      | some t' =>
        simp only [hnk, Option.some.injEq] at hsome
        obtain ⟨X, fc, h1, h2, h3, h4⟩ := ih1.2 t' hnk
        refine ⟨X, fc, ?_, by omega, by rw [key]; exact h3, ?_⟩
        · rw [key]; exact h1
        · rw [key, h4, ← hsome]
      | none =>
        simp only [hnk] at hsome
        have hab : a < c + pre.length := by
          by_contra h; simp [h] at hsome
        simp only [hab, if_true, Option.some.injEq] at hsome
        refine ⟨pre ++ (a + 1) :: t.map (· + 1), pre.length + 1, ?_, by omega,
          by rw [key]; omega, ?_⟩
        · rw [key, ih1.1 hnk, hstep, if_pos (by omega)]
        · rw [key]
          have : pre.length + 1 + t.length - (pre.length + 1) = t.length := by omega
          rw [this, refill_spec t.length pre (t.map (· + 1)) (a + 1) (by simp), ← hsome]

theorem advance_none (c : Nat) (P : List Nat) (h : nextKey c P = none) :
    (advance c P.length P).2 = 0 := by
  have := (flipper_spec c P []).1 (by simpa using h)
  simp only [List.length_nil, Nat.zero_add, List.nil_append] at this
  simp [advance, this, flipper]

theorem advance_some (c : Nat) (P P' : List Nat) (h : nextKey c P = some P') :
    ∃ fc, advance c P.length P = (P', fc) ∧ fc ≠ 0 := by
  obtain ⟨X, fc, h1, h2, h3, h4⟩ := (flipper_spec c P []).2 P' (by simpa using h)
  simp only [List.length_nil, Nat.zero_add, List.nil_append] at h1 h2 h3 h4
  refine ⟨fc, ?_, by omega⟩
  simp only [advance, h1]
  by_cases hfc : fc < P.length ∧ fc > 0
  · simp [hfc, h4]
  · have : fc = P.length := by omega
    subst this
    simp [refill] at h4
    simp [h4]

theorem nextKey_length : ∀ (P : List Nat) (b : Nat) (P' : List Nat),
    nextKey b P = some P' → P'.length = P.length := by
  intro P
  induction P with
  | nil => intro b P' h; simp [nextKey] at h
  | cons a t ih =>
    intro b P' h
    simp only [nextKey] at h
    cases hnk : nextKey (b + 1) t with
    | some t' =>
      simp only [hnk, Option.some.injEq] at h
      subst h
      simp [ih _ _ hnk]
    | none =>
      simp only [hnk] at h
      by_cases hab : a < b
      · simp only [hab, if_true, Option.some.injEq] at h
        subst h
        simp
      · simp [hab] at h

theorem IsKey.mono_lo : ∀ (P : List Nat) (b lo lo' : Nat), lo' ≤ lo →
    IsKey b lo P → IsKey b lo' P := by
  intro P
  cases P with
  | nil => intro b lo lo' _ _; trivial
  | cons a t =>
    intro b lo lo' h hk
    exact ⟨le_trans h hk.1, hk.2.1, hk.2.2⟩

theorem isKey_range' : ∀ (m b lo x : Nat), lo ≤ x → x ≤ b → IsKey b lo (List.range' x m) := by
  intro m
  induction m with
  | zero => intro b lo x _ _; simp [List.range', IsKey]
  | succ m ih =>
    intro b lo x h1 h2
    simp only [List.range', IsKey]
    exact ⟨h1, h2, ih (b + 1) (x + 1) (x + 1) (le_refl _) (by omega)⟩

theorem nextKey_isKey : ∀ (P : List Nat) (b lo : Nat) (P' : List Nat),
    IsKey b lo P → nextKey b P = some P' → IsKey b lo P' := by
  intro P
  induction P with
  | nil => intro b lo P' _ h; simp [nextKey] at h
  | cons a t ih =>
    intro b lo P' hk h
    simp only [nextKey] at h
    cases hnk : nextKey (b + 1) t with
    | some t' =>
      simp only [hnk, Option.some.injEq] at h
      subst h
      exact ⟨hk.1, hk.2.1, ih _ _ _ hk.2.2 hnk⟩
    | none =>
      simp only [hnk] at h
      by_cases hab : a < b
      · simp only [hab, if_true, Option.some.injEq] at h
        subst h
        exact isKey_range' _ _ _ _ (by have := hk.1; omega) (by omega)
      · simp [hab] at h

theorem lexLt_irrefl : ∀ (P : List Nat), ¬ lexLt P P := by
  intro P
  induction P with
  | nil => simp [lexLt]
  | cons a t ih => simp [lexLt, ih]

theorem lexLt_trichotomy : ∀ (S P : List Nat), S.length = P.length →
    lexLt S P ∨ S = P ∨ lexLt P S := by
  intro S
  induction S with
  | nil =>
    intro P h
    have : P = [] := List.length_eq_zero.mp h.symm
    simp [this]
  | cons a s ih =>
    intro P h
    cases P with
    | nil => simp at h
    | cons b t =>
      have hl : s.length = t.length := by simpa using h
      simp only [lexLt, List.cons.injEq]
      rcases Nat.lt_trichotomy a b with hab | hab | hab
      · exact Or.inl (Or.inl hab)
      · rcases ih t hl with h1 | h1 | h1
        · exact Or.inl (Or.inr ⟨hab, h1⟩)
        · exact Or.inr (Or.inl ⟨hab, h1⟩)
        · exact Or.inr (Or.inr (Or.inr ⟨hab.symm, h1⟩))
      · exact Or.inr (Or.inr (Or.inl hab))

theorem isKey_not_lt_range' : ∀ (s : List Nat) (b lo : Nat), IsKey b lo s →
    ¬ lexLt s (List.range' lo s.length) := by
  intro s
  induction s with
  | nil => intro b lo _; simp [lexLt]
  | cons a t ih =>
    intro b lo hk h
    simp only [List.length_cons, List.range', lexLt] at h
    rcases h with h | ⟨h1, h2⟩
    · have := hk.1; omega
    · subst h1
      exact ih _ _ hk.2.2 h2

theorem nextKey_none_max : ∀ (P : List Nat) (b lo : Nat) (S : List Nat),
    nextKey b P = none → IsKey b lo S → S.length = P.length → ¬ lexLt P S := by
  intro P
  induction P with
  | nil =>
    intro b lo S _ _ hl
    have : S = [] := List.length_eq_zero.mp hl
    simp [this, lexLt]
  | cons a t ih =>
    intro b lo S hn hk hl
    cases S with
    | nil => simp at hl
    | cons x s =>
      simp only [nextKey] at hn
      cases hnk : nextKey (b + 1) t with
      | some t' => simp [hnk] at hn
      | none =>
        simp only [hnk] at hn
        have hab : ¬ a < b := by intro h; simp [h] at hn
        simp only [lexLt]
        rintro (h | ⟨h1, h2⟩)
        · have := hk.2.1; omega
        · exact ih _ _ _ hnk hk.2.2 (by simpa using hl) h2

/-- No key lies strictly between a key and its successor. -/
theorem nextKey_gap : ∀ (P : List Nat) (b lo : Nat) (P' S : List Nat),
    IsKey b lo S → S.length = P.length → nextKey b P = some P' →
    lexLt S P' → ¬ lexLt P S := by
  intro P
  induction P with
  | nil => intro b lo P' S _ _ h; simp [nextKey] at h
  | cons a t ih =>
    intro b lo P' S hS hl h hlt
    cases S with
    | nil => simp at hl
    | cons x s =>
      have hl' : s.length = t.length := by simpa using hl
      simp only [nextKey] at h
      cases hnk : nextKey (b + 1) t with
      | some t' =>
        simp only [hnk, Option.some.injEq] at h
        subst h
        simp only [lexLt] at hlt ⊢
        rintro (h | ⟨h1, h2⟩)
        · rcases hlt with h3 | ⟨h3, _⟩ <;> omega
        · subst h1
          rcases hlt with h3 | ⟨_, h4⟩
          · omega
          · exact ih _ _ _ _ hS.2.2 hl' hnk h4 h2
      | none =>
        simp only [hnk] at h
        by_cases hab : a < b
        · simp only [hab, if_true, Option.some.injEq] at h
          subst h
          simp only [List.range', lexLt] at hlt ⊢
          rintro (h | ⟨h1, h2⟩)
          · rcases hlt with h3 | ⟨h3, h4⟩
            · omega
            · subst h3
              rw [← hl'] at h4
              exact isKey_not_lt_range' _ _ _ hS.2.2 h4
          · subst h1
            exact nextKey_none_max _ _ _ _ hnk hS.2.2 hl' h2
        · simp [hab] at h

theorem keyVal_lt : ∀ (P : List Nat) (n : Nat), (∀ x ∈ P, x < n) →
    keyVal n P < n ^ P.length := by
  intro P
  induction P with
  | nil => intro n _; simp [keyVal]
  | cons a t ih =>
    intro n h
    have h1 : a < n := h a (by simp)
    have h2 := ih n (fun x hx => h x (by simp [hx]))
    simp only [keyVal, List.length_cons, pow_succ]
    nlinarith

theorem isKey_lt : ∀ (P : List Nat) (b lo n : Nat), IsKey b lo P → b + P.length ≤ n →
    ∀ x ∈ P, x < n := by
  intro P
  induction P with
  | nil => intro b lo n _ _ x hx; simp at hx
  | cons a t ih =>
    intro b lo n hk hn x hx
    simp only [List.length_cons] at hn
    rcases List.mem_cons.mp hx with h | h
    · subst h; have := hk.2.1; omega
    · exact ih (b + 1) (a + 1) n hk.2.2 (by omega) x h

theorem keyVal_range'_ge (n x m : Nat) : x * n ^ m ≤ keyVal n (List.range' x (m + 1)) := by
  simp [List.range', keyVal]

theorem nextKey_keyVal : ∀ (P : List Nat) (b lo n : Nat) (P' : List Nat),
    IsKey b lo P → b + P.length ≤ n → nextKey b P = some P' →
    keyVal n P < keyVal n P' := by
  intro P
  induction P with
  | nil => intro b lo n P' _ _ h; simp [nextKey] at h
  | cons a t ih =>
    intro b lo n P' hk hn h
    simp only [List.length_cons] at hn
    simp only [nextKey] at h
    cases hnk : nextKey (b + 1) t with
    | some t' =>
      simp only [hnk, Option.some.injEq] at h
      subst h
      have := ih _ _ n _ hk.2.2 (by omega) hnk
      simp only [keyVal, nextKey_length _ _ _ hnk]
      omega
    | none =>
      simp only [hnk] at h
      by_cases hab : a < b
      · simp only [hab, if_true, Option.some.injEq] at h
        subst h
        have h1 := keyVal_range'_ge n (a + 1) t.length
        have h2 := keyVal_lt t n (isKey_lt t (b + 1) (a + 1) n hk.2.2 (by omega))
        have h3 : keyVal n (a :: t) = a * n ^ t.length + keyVal n t := rfl
        have h4 : (a + 1) * n ^ t.length = a * n ^ t.length + n ^ t.length := by ring
        omega
      · simp [hab] at h

theorem nextKey_range'_none : ∀ (m b x : Nat), b ≤ x → nextKey b (List.range' x m) = none := by
  intro m
  induction m with
  | zero => intro b x _; simp [List.range', nextKey]
  | succ m ih =>
    intro b x h
    simp only [List.range', nextKey, ih (b + 1) (x + 1) (by omega)]
    simp; omega

end Geom.SL

namespace Geom.SL

/-- A map `φ` from a coefficient type into a ring that respects the operators of `o`;
`==` and `is_zero` are only required to be sound for it. -/
structure Ops.Hom {α R : Type} [Ring R] (o : Ops α) (φ : α → R) : Prop where
  map_zero : φ o.zero = 0
  map_one : φ o.one = 1
  map_add : ∀ a b, φ (o.add a b) = φ a + φ b
  map_sub : ∀ a b, φ (o.sub a b) = φ a - φ b
  map_neg : ∀ a, φ (o.neg a) = - φ a
  map_mul : ∀ a b, φ (o.mul a b) = φ a * φ b
  eq_sound : ∀ a b, o.eq a b = true → φ a = φ b
  is_zero_sound : ∀ a, o.is_zero a = true → φ a = 0

/-- Laplace expansion along the first column: the minor of the entries `f` on the rows `S`
(a key of length `k`) and the `k` columns starting at `c`. -/
def laplace {R : Type} [CommRing R] (f : Nat → Nat → R) : Nat → Nat → List Nat → R
  | 0, _, _ => 1
  | k + 1, c, S =>
    ∑ r ∈ Finset.range (k + 1),
      (-1) ^ r * f (S.getD r 0) c * laplace f k (c + 1) (S.eraseIdx r)

/-- Value read from a minor map through `φ`; an absent key reads as zero. -/
def Rmap.look {α R : Type} [Ring R] (φ : α → R) (m : Rmap α) (k : List Nat) : R :=
  match m.find k with
  | some v => φ v
  | none => 0

variable {α R : Type} [CommRing R]

theorem Rmap.find_cons (m : Rmap α) (k k' : List Nat) (v : α) :
    Rmap.find ((k, v) :: m) k' = if k = k' then some v else Rmap.find m k' := by
  unfold Rmap.find
  by_cases h : k = k'
  · simp [List.find?, h]
  · have : (k == k') = false := by simpa using h
    simp [List.find?, h, this]

theorem Rmap.find_insert (m : Rmap α) (k k' : List Nat) (v : α) :
    Rmap.find (Rmap.insert m k v) k'
      = if k = k' then (match Rmap.find m k with | some w => some w | none => some v)
        else Rmap.find m k' := by
  unfold Rmap.insert
  cases h : Rmap.find m k with
  | some w =>
    by_cases hk : k = k'
    · subst hk; simp [h]
    · simp [hk]
  | none =>
    simp only [Rmap.find_cons]

theorem Rmap.index_fst (o : Ops α) (φ : α → R) (hφ : o.Hom φ) (m : Rmap α) (k : List Nat) :
    φ (Rmap.index o m k).1 = Rmap.look φ m k := by
  unfold Rmap.index Rmap.look
  cases h : Rmap.find m k with
  | some w => simp
  | none => simp [hφ.map_zero]

theorem Rmap.index_snd (o : Ops α) (φ : α → R) (hφ : o.Hom φ) (m : Rmap α) (k k' : List Nat) :
    Rmap.look φ (Rmap.index o m k).2 k' = Rmap.look φ m k' := by
  unfold Rmap.index
  cases h : Rmap.find m k with
  | some w => simp
  | none =>
    simp only [Rmap.look, Rmap.find_cons]
    by_cases hk : k = k'
    · subst hk; simp [h, hφ.map_zero]
    · simp [hk]

theorem mkMkey_take (P : List Nat) (r : Nat) : ∀ k, k ≤ P.length →
    (List.range k).foldl (fun Mkey i => if i ≠ r then Mkey ++ [P.getD i 0] else Mkey) []
      = (P.take k).eraseIdx r := by
  intro k
  induction k with
  | zero => intro _; simp
  | succ k ih =>
    intro hk
    have hk' : k < P.length := hk
    rw [List.range_succ, List.foldl_append, ih (by omega)]
    simp only [List.foldl_cons, List.foldl_nil]
    have htake : P.take (k + 1) = P.take k ++ [P.getD k 0] := by
      rw [List.take_succ, List.getD_eq_getElem?_getD, List.getElem?_eq_getElem hk']
      simp
    rw [htake]
    have hlen : (P.take k).length = k := by simp; omega
    by_cases h : k = r
    · subst h
      simp only [ne_eq, not_true_eq_false, if_false]
      rw [List.eraseIdx_append_of_length_le (by omega)]
      simp [hlen]
    · simp only [ne_eq, h, not_false_eq_true, if_true]
      by_cases h2 : r < k
      · rw [List.eraseIdx_append_of_lt_length (by omega)]
      · rw [List.eraseIdx_of_length_le (by omega), List.eraseIdx_of_length_le (by simp; omega)]

theorem mkMkey_eq (P : List Nat) (r : Nat) : mkMkey P P.length r = P.eraseIdx r := by
  unfold mkMkey
  rw [mkMkey_take P r P.length (le_refl _), List.take_length]

theorem IsKey.eraseIdx : ∀ (P : List Nat) (b lo r : Nat), IsKey b lo P →
    IsKey (b + 1) lo (P.eraseIdx r) := by
  intro P
  induction P with
  | nil => intro b lo r _; simp [IsKey]
  | cons a t ih =>
    intro b lo r hk
    cases r with
    | zero =>
      simp only [List.eraseIdx_cons_zero]
      exact IsKey.mono_lo t (b + 1) (a + 1) lo (by have := hk.1; omega) hk.2.2
    | succ r =>
      simp only [List.eraseIdx_cons_succ]
      exact ⟨hk.1, by have := hk.2.1; omega, ih (b + 1) (a + 1) r hk.2.2⟩

/-- Every key of length `k` for column `c` reads its minor from the map. -/
def MinorsIn (φ : α → R) (f : Nat → Nat → R) (k c : Nat) (m : Rmap α) : Prop :=
  ∀ S, S.length = k → IsKey c 0 S → Rmap.look φ m S = laplace f k c S

theorem expandMinor_fold (o : Ops α) (φ : α → R) (hφ : o.Hom φ) (M : Matrix α)
    (c k : Nat) (P : List Nat) (A : Rmap α) (hP : P.length = k + 1) (hk : IsKey c 0 P)
    (hA : MinorsIn φ (fun i j => φ (M.get o i j)) k (c + 1) A) : ∀ m, m ≤ k + 1 →
    φ ((List.range m).foldl (expandStep o M c (k + 1) P) (o.zero, A)).1
      = ∑ r ∈ Finset.range m, (-1) ^ r * φ (M.get o (P.getD r 0) c)
          * laplace (fun i j => φ (M.get o i j)) k (c + 1) (P.eraseIdx r) ∧
    ∀ S, Rmap.look φ ((List.range m).foldl (expandStep o M c (k + 1) P) (o.zero, A)).2 S
      = Rmap.look φ A S := by
  intro m
  induction m with
  | zero => intro _; simp [hφ.map_zero]
  | succ m ih =>
    intro hmk
    have ih := ih (by omega)
    rw [List.range_succ, List.foldl_append, Finset.sum_range_succ]
    simp only [List.foldl_cons, List.foldl_nil]
    generalize (List.range m).foldl (expandStep o M c (k + 1) P) (o.zero, A) = st at ih ⊢
    obtain ⟨ih1, ih2⟩ := ih
    unfold expandStep
    by_cases hz : o.is_zero (M.get o (P.getD m 0) c) = true
    · simp only [hz, if_true]
      refine ⟨?_, ih2⟩
      rw [ih1, hφ.is_zero_sound _ hz]
      simp
    · rw [if_neg hz]
      dsimp only
      have hkey : mkMkey P (k + 1) m = P.eraseIdx m := by rw [← hP]; exact mkMkey_eq P m
      have hlook : φ (Rmap.index o st.2 (mkMkey P (k + 1) m)).1
          = laplace (fun i j => φ (M.get o i j)) k (c + 1) (P.eraseIdx m) := by
        rw [Rmap.index_fst o φ hφ, ih2, hkey]
        have hm : m < P.length := by omega
        exact hA _ (by rw [List.length_eraseIdx, if_pos hm]; omega) (IsKey.eraseIdx P c 0 m hk)
      have hsnd : ∀ S, Rmap.look φ (Rmap.index o st.2 (mkMkey P (k + 1) m)).2 S
          = Rmap.look φ A S := by
        intro S; rw [Rmap.index_snd o φ hφ, ih2]
      rcases Nat.even_or_odd m with he | ho
      · have h2 : ¬ m % 2 = 1 := by rw [Nat.even_iff] at he; omega
        rw [if_neg h2]
        refine ⟨?_, hsnd⟩
        simp only [hφ.map_add, hφ.map_mul, ih1, hlook, he.neg_one_pow, one_mul]
      · have h2 : m % 2 = 1 := Nat.odd_iff.mp ho
        rw [if_pos h2]
        refine ⟨?_, hsnd⟩
        simp only [hφ.map_sub, hφ.map_mul, ih1, hlook, ho.neg_one_pow]
        ring

theorem expandMinor_spec (o : Ops α) (φ : α → R) (hφ : o.Hom φ) (M : Matrix α)
    (c k : Nat) (P : List Nat) (A : Rmap α) (hP : P.length = k + 1) (hk : IsKey c 0 P)
    (hA : MinorsIn φ (fun i j => φ (M.get o i j)) k (c + 1) A) :
    φ (expandMinor o M c (k + 1) P A).1 = laplace (fun i j => φ (M.get o i j)) (k + 1) c P ∧
    ∀ S, Rmap.look φ (expandMinor o M c (k + 1) P A).2 S = Rmap.look φ A S := by
  have := expandMinor_fold o φ hφ M c k P A hP hk hA (k + 1) (le_refl _)
  simpa [expandMinor, laplace] using this

theorem keyLoop_unfold (o : Ops α) (M : Matrix α) (c k fuel : Nat) (P : List Nat)
    (st : DetState α) :
    keyLoop o M c k (fuel + 1) P st =
      if (advance c k P).2 ≠ 0 then
        keyLoop o M c k fuel (advance c k P).1
          ⟨(expandMinor o M c k P st.A).2,
           if !o.is_zero (expandMinor o M c k P st.A).1
             then Rmap.insert st.B P (expandMinor o M c k P st.A).1 else st.B,
           (expandMinor o M c k P st.A).1⟩
      else some
          ⟨(expandMinor o M c k P st.A).2,
           if !o.is_zero (expandMinor o M c k P st.A).1
             then Rmap.insert st.B P (expandMinor o M c k P st.A).1 else st.B,
           (expandMinor o M c k P st.A).1⟩ := by
  rfl

theorem keyLoop_spec (o : Ops α) (φ : α → R) (hφ : o.Hom φ) (M : Matrix α)
    (c k n : Nat) (hn : c + (k + 1) ≤ n) : ∀ (fuel : Nat) (P : List Nat) (st : DetState α),
    P.length = k + 1 → IsKey c 0 P →
    MinorsIn φ (fun i j => φ (M.get o i j)) k (c + 1) st.A →
    (∀ S v, Rmap.find st.B S = some v → φ v = laplace (fun i j => φ (M.get o i j)) (k + 1) c S) →
    (∀ S, S.length = k + 1 → IsKey c 0 S → lexLt S P →
      Rmap.look φ st.B S = laplace (fun i j => φ (M.get o i j)) (k + 1) c S) →
    n ^ (k + 1) ≤ fuel + keyVal n P →
    ∃ st', keyLoop o M c (k + 1) fuel P st = some st' ∧
      MinorsIn φ (fun i j => φ (M.get o i j)) (k + 1) c st'.B := by
  intro fuel
  induction fuel with
  | zero =>
    intro P st hP hk _ _ _ hfuel
    have := keyVal_lt P n (isKey_lt P c 0 n hk (by omega))
    rw [hP] at this
    omega
  | succ fuel ih =>
    intro P st hP hk hA hB1 hB2 hfuel
    obtain ⟨hdet, hlook⟩ := expandMinor_spec o φ hφ M c k P st.A hP hk hA
    rw [keyLoop_unfold]
    generalize expandMinor o M c (k + 1) P st.A = e at hdet hlook ⊢
    -- the map B after the insertion
    have hB1' : ∀ S v, Rmap.find (if !o.is_zero e.1 then Rmap.insert st.B P e.1 else st.B) S
        = some v → φ v = laplace (fun i j => φ (M.get o i j)) (k + 1) c S := by
      intro S v hv
      by_cases hz : o.is_zero e.1 = true
      · simp only [hz, Bool.not_true, Bool.false_eq_true, if_false] at hv
        exact hB1 S v hv
      · simp only [hz, Bool.not_false, if_true, Rmap.find_insert] at hv
        by_cases hPS : P = S
        · subst hPS
          simp only [if_true] at hv
          cases hf : Rmap.find st.B P with
          | some w =>
            simp only [hf, Option.some.injEq] at hv
            subst hv
            exact hB1 P w hf
          | none =>
            simp only [hf, Option.some.injEq] at hv
            subst hv
            exact hdet
        · simp only [hPS, if_false] at hv
          exact hB1 S v hv
    have hBP : Rmap.look φ (if !o.is_zero e.1 then Rmap.insert st.B P e.1 else st.B) P
        = laplace (fun i j => φ (M.get o i j)) (k + 1) c P := by
      by_cases hz : o.is_zero e.1 = true
      · simp only [hz, Bool.not_true, Bool.false_eq_true, if_false]
        unfold Rmap.look
        cases hf : Rmap.find st.B P with
        | some w => exact hB1 P w hf
        | none => simp only []; rw [← hdet, hφ.is_zero_sound _ hz]
      · simp only [hz, Bool.not_false, if_true]
        unfold Rmap.look
        rw [Rmap.find_insert]
        simp only [if_true]
        cases hf : Rmap.find st.B P with
        | some w => exact hB1 P w hf
        | none => exact hdet
    have hBS : ∀ S, S ≠ P →
        Rmap.look φ (if !o.is_zero e.1 then Rmap.insert st.B P e.1 else st.B) S
          = Rmap.look φ st.B S := by
      intro S hS
      by_cases hz : o.is_zero e.1 = true
      · simp only [hz, Bool.not_true, Bool.false_eq_true, if_false]
      · simp only [hz, Bool.not_false, if_true]
        unfold Rmap.look
        rw [Rmap.find_insert, if_neg (fun h => hS h.symm)]
    have hA' : MinorsIn φ (fun i j => φ (M.get o i j)) k (c + 1) e.2 := by
      intro S h1 h2
      rw [hlook]; exact hA S h1 h2
    cases hnk : nextKey c P with
    | none =>
      have hfc := advance_none c P hnk
      rw [hP] at hfc
      rw [if_neg (by simp [hfc])]
      refine ⟨_, rfl, ?_⟩
      intro S hS1 hS2
      rcases lexLt_trichotomy S P (by omega) with h | h | h
      · simp only []
        rw [hBS S (by rintro rfl; exact lexLt_irrefl _ h)]
        exact hB2 S hS1 hS2 h
      · subst h; exact hBP
      · exact absurd h (nextKey_none_max P c 0 S hnk hS2 (by omega))
    | some P' =>
      obtain ⟨fc, hadv, hfc⟩ := advance_some c P P' hnk
      rw [hP] at hadv
      rw [hadv, if_pos hfc]
      apply ih P' _ (by rw [nextKey_length _ _ _ hnk, hP]) (nextKey_isKey P c 0 P' hk hnk) hA' hB1'
      · intro S hS1 hS2 hlt
        have hnot := nextKey_gap P c 0 P' S hS2 (by omega) hnk hlt
        rcases lexLt_trichotomy S P (by omega) with h | h | h
        · simp only []
          rw [hBS S (by rintro rfl; exact lexLt_irrefl _ h)]
          exact hB2 S hS1 hS2 h
        · subst h; exact hBP
        · exact absurd h hnot
      · have := nextKey_keyVal P c 0 n P' hk (by omega) hnk
        omega

theorem keyLoop_column (o : Ops α) (φ : α → R) (hφ : o.Hom φ) (M : Matrix α)
    (c k n : Nat) (hn : c + (k + 1) = n) (st : DetState α)
    (hA : MinorsIn φ (fun i j => φ (M.get o i j)) k (c + 1) st.A) (hB : st.B = []) :
    ∃ st', keyLoop o M c (k + 1) (n ^ (k + 1)) (List.range (k + 1)) st = some st' ∧
      MinorsIn φ (fun i j => φ (M.get o i j)) (k + 1) c st'.B := by
  have hkey : IsKey c 0 (List.range (k + 1)) := by
    rw [List.range_eq_range']; exact isKey_range' _ _ _ _ (le_refl _) (Nat.zero_le _)
  apply keyLoop_spec o φ hφ M c k n (by omega) _ _ st (by simp) hkey hA
  · intro S v hv; rw [hB] at hv; simp [Rmap.find] at hv
  · intro S hS1 hS2 hlt
    exfalso
    have := isKey_not_lt_range' S c 0 hS2
    rw [hS1, ← List.range_eq_range'] at this
    exact this hlt
  · omega

theorem keyLoop_last (o : Ops α) (φ : α → R) (hφ : o.Hom φ) (M : Matrix α)
    (k fuel : Nat) (st : DetState α)
    (hA : MinorsIn φ (fun i j => φ (M.get o i j)) k 1 st.A) :
    ∃ st', keyLoop o M 0 (k + 1) (fuel + 1) (List.range (k + 1)) st = some st' ∧
      φ st'.det = laplace (fun i j => φ (M.get o i j)) (k + 1) 0 (List.range (k + 1)) := by
  have hkey : IsKey 0 0 (List.range (k + 1)) := by
    rw [List.range_eq_range']; exact isKey_range' _ _ _ _ (le_refl _) (Nat.zero_le _)
  have hnk : nextKey 0 (List.range (k + 1)) = none := by
    rw [List.range_eq_range']; exact nextKey_range'_none _ _ _ (le_refl _)
  have hfc := advance_none 0 _ hnk
  rw [List.length_range] at hfc
  rw [keyLoop_unfold, if_neg (by simp [hfc])]
  exact ⟨_, rfl, (expandMinor_spec o φ hφ M 0 k _ st.A (by simp) hkey hA).1⟩

theorem initA_fold (o : Ops α) (M : Matrix α) (n : Nat) : ∀ m r,
    Rmap.find ((List.range m).foldl (fun A r => Rmap.insert A [r] (M.get o r (n - 1))) []) [r]
      = if r < m then some (M.get o r (n - 1)) else none := by
  intro m
  induction m with
  | zero => intro r; simp [Rmap.find]
  | succ m ih =>
    intro r
    rw [List.range_succ, List.foldl_append]
    simp only [List.foldl_cons, List.foldl_nil, Rmap.find_insert, ih]
    by_cases h : m = r
    · subst h; simp
    · have : ¬ [m] = [r] := by simpa using h
      rw [if_neg this]
      by_cases h2 : r < m
      · rw [if_pos h2, if_pos (by omega)]
      · rw [if_neg h2, if_neg (by omega)]

theorem initA_spec (o : Ops α) (φ : α → R) (M : Matrix α) (n : Nat) (hn : 1 ≤ n) :
    MinorsIn φ (fun i j => φ (M.get o i j)) 1 (n - 1) (initA o M n) := by
  intro S hS hk
  obtain ⟨r, rfl⟩ := List.length_eq_one.mp hS
  have hr : r < n := by have := hk.2.1; omega
  unfold Rmap.look initA
  rw [initA_fold, if_pos hr]
  simp [laplace]

theorem columnLoop_spec (o : Ops α) (φ : α → R) (hφ : o.Hom φ) (M : Matrix α) (n : Nat) :
    ∀ (c : Nat) (st : DetState α), c + 2 ≤ n →
    MinorsIn φ (fun i j => φ (M.get o i j)) (n - (c + 1)) (c + 1) st.A → st.B = [] →
    ∃ st', columnLoop o M n (c + 1) st = some st' ∧
      φ st'.det = laplace (fun i j => φ (M.get o i j)) n 0 (List.range n) := by
  intro c
  induction c with
  | zero =>
    intro st hn hA _
    obtain ⟨k, rfl⟩ : ∃ k, n = k + 1 := ⟨n - 1, by omega⟩
    have hA' : MinorsIn φ (fun i j => φ (M.get o i j)) k 1 st.A := by simpa using hA
    obtain ⟨fuel, hfuel⟩ : ∃ fuel, (k + 1) ^ (k + 1) = fuel + 1 :=
      ⟨(k + 1) ^ (k + 1) - 1, by have := Nat.one_le_pow (k + 1) (k + 1) (by omega); omega⟩
    obtain ⟨st', h1, h2⟩ := keyLoop_last o φ hφ M k fuel st hA'
    refine ⟨⟨st'.B, [], st'.det⟩, ?_, h2⟩
    simp only [columnLoop, Nat.sub_zero, hfuel, h1]
  | succ c ih =>
    intro st hn hA hB
    obtain ⟨k, hk⟩ : ∃ k, n - (c + 1) = k + 1 := ⟨n - (c + 1) - 1, by omega⟩
    have hA' : MinorsIn φ (fun i j => φ (M.get o i j)) k (c + 1 + 1) st.A := by
      have : n - (c + 1 + 1) = k := by omega
      rw [this] at hA; exact hA
    obtain ⟨st1, h1, h2⟩ := keyLoop_column o φ hφ M (c + 1) k n (by omega) st hA' hB
    obtain ⟨st', h3, h4⟩ := ih ⟨st1.B, [], st1.det⟩ (by omega) (by rw [hk]; exact h2) rfl
    refine ⟨st', ?_, h4⟩
    rw [columnLoop]
    simp only [hk, h1, h3]

theorem determinant_general_spec (o : Ops α) (φ : α → R) (hφ : o.Hom φ) (M : Matrix α)
    (hn : 2 ≤ M.columns) :
    ∃ d, determinant_general o M = some d ∧
      φ d = laplace (fun i j => φ (M.get o i j)) M.columns 0 (List.range M.columns) := by
  obtain ⟨c, hc⟩ : ∃ c, M.columns - 1 = c + 1 := ⟨M.columns - 2, by omega⟩
  have hA : MinorsIn φ (fun i j => φ (M.get o i j)) (M.columns - (c + 1)) (c + 1)
      (initA o M M.columns) := by
    have h1 : M.columns - (c + 1) = 1 := by omega
    have h2 : c + 1 = M.columns - 1 := by omega
    rw [h1, h2]
    exact initA_spec o φ M M.columns (by omega)
  obtain ⟨st', h1, h2⟩ := columnLoop_spec o φ hφ M M.columns c
    ⟨initA o M M.columns, [], o.zero⟩ (by omega) hA rfl
  refine ⟨st'.det, ?_, h2⟩
  simp only [determinant_general, hc, h1, Option.map_some']

end Geom.SL

namespace Geom.SL

variable {α R : Type} [CommRing R]

theorem getD_eraseIdx (S : List Nat) (r i d : Nat) :
    (S.eraseIdx r).getD i d = S.getD (if i < r then i else i + 1) d := by
  simp only [List.getD_eq_getElem?_getD, List.getElem?_eraseIdx]
  split <;> rfl

theorem laplace_eq_det (f : Nat → Nat → R) : ∀ (k c : Nat) (S : List Nat),
    laplace f k c S
      = Matrix.det (Matrix.of fun (i j : Fin k) => f (S.getD i 0) (c + j)) := by
  intro k
  induction k with
  | zero => intro c S; simp [laplace]
  | succ k ih =>
    intro c S
    rw [Matrix.det_succ_column_zero, laplace, Finset.sum_range]
    apply Finset.sum_congr rfl
    intro r _
    rw [ih]
    congr 2
    ext i j
    simp only [Matrix.of_apply, Matrix.submatrix_apply, getD_eraseIdx, Fin.val_succ]
    congr 1
    · congr 1
      simp only [Fin.succAbove, Fin.lt_def, Fin.coe_castSucc]
      split <;> simp
    · omega

/-- The mathematical `n`-by-`n` matrix of the entries of a stored matrix, seen through `φ`. -/
def Matrix.toMatrix {α R : Type} (o : Ops α) (φ : α → R) (M : Matrix α) (n : Nat) :
    MMatrix (Fin n) (Fin n) R :=
  Matrix.of fun i j => φ (M.get o i j)

/-- A stored matrix is `n`-by-`n`: `rows() == columns() == n` with `n*n` stored entries. -/
def Matrix.IsSquare {α : Type} (M : Matrix α) (n : Nat) : Prop :=
  M.rows = n ∧ M.columns = n ∧ M.m_data.length = n * n

instance {α : Type} (M : Matrix α) (n : Nat) : Decidable (M.IsSquare n) := by
  unfold Matrix.IsSquare; infer_instance

/-- `determinant_minor` returns, and through any operator-respecting map `φ` its result is
the determinant of the image matrix. -/
theorem determinant_minor_hom (o : Ops α) (φ : α → R) (hφ : o.Hom φ) (M : Matrix α)
    (n : Nat) (hn : 1 ≤ n) (hc : M.columns = n) :
    (determinant_minor o M).map φ = some (Matrix.det (M.toMatrix o φ n)) := by
  by_cases h1 : n = 1
  · subst h1
    simp only [determinant_minor, hc, if_true, Option.map_some', Matrix.det_fin_one]
    simp [Matrix.toMatrix]
  by_cases h2 : n = 2
  · subst h2
    simp only [determinant_minor, hc, Option.map_some', Matrix.det_fin_two]
    simp [Matrix.toMatrix, hφ.map_sub, hφ.map_mul]
  by_cases h3 : n = 3
  · subst h3
    simp only [determinant_minor, hc, Option.map_some', Matrix.det_fin_three]
    have e : ∀ i j : Fin 3, M.toMatrix o φ 3 i j = φ (M.get o i j) := fun _ _ => rfl
    simp only [e, Fin.isValue, Fin.val_zero, Fin.val_one, Fin.val_two]
    norm_num [hφ.map_sub, hφ.map_add, hφ.map_mul]
    ring
  obtain ⟨d, hd1, hd2⟩ := determinant_general_spec o φ hφ M (by omega)
  subst hc
  simp only [determinant_minor, h1, h2, h3, if_false, hd1, Option.map_some', hd2,
    laplace_eq_det]
  simp [Matrix.toMatrix, List.getD_eq_getElem?_getD]

theorem numOps_hom (R : Type) [CommRing R] [DecidableEq R] : (numOps R).Hom (fun a : R => a) where
  map_zero := rfl
  map_one := rfl
  map_add := fun _ _ => rfl
  map_sub := fun _ _ => rfl
  map_neg := fun _ => rfl
  map_mul := fun _ _ => rfl
  eq_sound := fun a b h => by simpa [numOps] using h
  is_zero_sound := fun a h => by simpa [numOps] using h

/-- C1: for every `n >= 1` and every `n`-by-`n` matrix over a commutative ring with an exact
zero test, `determinant_minor` returns the determinant of the matrix (Mathlib's `Matrix.det`,
by definition the Leibniz sum over permutations), both through the closed forms for
`n <= 3` and through the memoized Laplace expansion for `n >= 4`. -/
theorem determinant_minor_eq_det (R : Type) [CommRing R] [DecidableEq R] (n : Nat)
    (M : Matrix R) (hn : 1 ≤ n) (hM : M.IsSquare n) :
    determinant_minor (numOps R) M
      = some (Matrix.det (M.toMatrix (numOps R) (fun a => a) n)) := by
  have h := determinant_minor_hom (numOps R) (fun a => a) (numOps_hom R) M n hn hM.2.1
  rw [← h]
  cases determinant_minor (numOps R) M <;> rfl

/-- C1, instance: a 4-by-4 integer matrix, which takes the memoized expansion. -/
theorem determinant_minor_eq_det_witness :
    determinant_minor (numOps Int) ⟨[1, 2, 3, 4, 5, 6, 7, 8, 2, 6, 4, 8, 3, 1, 1, 2], 4, 4⟩
      = some (Matrix.det (Matrix.toMatrix (numOps Int) (fun a => a)
          ⟨[1, 2, 3, 4, 5, 6, 7, 8, 2, 6, 4, 8, 3, 1, 1, 2], 4, 4⟩ 4)) :=
  determinant_minor_eq_det Int 4 ⟨[1, 2, 3, 4, 5, 6, 7, 8, 2, 6, 4, 8, 3, 1, 1, 2], 4, 4⟩
    (by decide) (by decide)

end Geom.SL

namespace Geom.SL

/-! ## Coefficient vectors: what the loops of polynomial.h store -/

namespace Polynomial

variable {α : Type}

theorem get_eq_getD (o : Ops α) (p : List α) (i : Nat) : get o p i = p.getD i o.zero := rfl

theorem get_of_lt (o : Ops α) (p : List α) (i : Nat) (h : i < p.length) :
    get o p i = p[i] := by
  simp [get, List.getD_eq_getElem?_getD, List.getElem?_eq_getElem h]

theorem get_of_le (o : Ops α) (p : List α) (i : Nat) (h : p.length ≤ i) :
    get o p i = o.zero := by
  simp [get, List.getD_eq_getElem?_getD, List.getElem?_eq_none h]

theorem get_set (o : Ops α) (p : List α) (i k : Nat) (v : α) :
    get o (p.set i v) k = if i = k ∧ i < p.length then v else get o p k := by
  simp only [get, List.getD_eq_getElem?_getD, List.getElem?_set]
  by_cases h : i = k
  · subst h
    by_cases h2 : i < p.length
    · simp [h2]
    · simp [h2, List.getElem?_eq_none (not_lt.mp h2)]
  · simp [h]

theorem get_append (o : Ops α) (p q : List α) (k : Nat) :
    get o (p ++ q) k = if k < p.length then get o p k else get o q (k - p.length) := by
  simp only [get, List.getD_eq_getElem?_getD]
  by_cases h : k < p.length
  · simp [h, List.getElem?_append_left h]
  · simp [h, List.getElem?_append_right (not_lt.mp h)]

theorem get_replicate (o : Ops α) (n k : Nat) : get o (List.replicate n o.zero) k = o.zero := by
  simp only [get, List.getD_eq_getElem?_getD, List.getElem?_replicate]
  split <;> rfl

/-- A loop `for (i = 0; i < m; ++i) r[i] = g(i, r[i])`. -/
theorem foldl_set_spec (o : Ops α) (g : Nat → α → α) (p : List α) : ∀ m,
    ((List.range m).foldl (fun r i => r.set i (g i (get o r i))) p).length = p.length ∧
    ∀ k, get o ((List.range m).foldl (fun r i => r.set i (g i (get o r i))) p) k
      = if k < m ∧ k < p.length then g k (get o p k) else get o p k := by
  intro m
  induction m with
  | zero => simp
  | succ m ih =>
    rw [List.range_succ, List.foldl_append]
    simp only [List.foldl_cons, List.foldl_nil]
    generalize (List.range m).foldl (fun r i => r.set i (g i (get o r i))) p = r at ih ⊢
    obtain ⟨ih1, ih2⟩ := ih
    refine ⟨by simp [ih1], ?_⟩
    intro k
    rw [get_set, ih1, ih2 m, ih2 k]
    by_cases hk : m = k
    · subst hk
      by_cases h2 : m < p.length
      · simp [h2]
      · simp [h2]
    · have : ¬ (m = k ∧ m < p.length) := fun h => hk h.1
      rw [if_neg this]
      by_cases h3 : k < m ∧ k < p.length
      · rw [if_pos h3, if_pos ⟨by omega, h3.2⟩]
      · rw [if_neg h3, if_neg (by omega)]

/-- A loop `for (i = lo; i < lo + m; ++i) r.push_back(g(i))`. -/
theorem foldl_push_spec (g : Nat → α) (r : List α) : ∀ m lo,
    (List.range' lo m).foldl (fun r i => r ++ [g i]) r = r ++ (List.range' lo m).map g := by
  intro m
  induction m generalizing r with
  | zero => intro lo; simp
  | succ m ih =>
    intro lo
    simp only [List.range', List.foldl_cons, List.map_cons]
    rw [ih]
    simp

theorem length_neg (o : Ops α) (p : List α) : (neg o p).length = p.length := by
  unfold neg
  rw [List.range_eq_range', foldl_push_spec]
  simp

theorem get_neg (o : Ops α) (p : List α) (k : Nat) (hk : k < p.length) :
    get o (neg o p) k = o.neg (get o p k) := by
  unfold neg
  rw [List.range_eq_range', foldl_push_spec]
  simp only [List.nil_append]
  rw [get_of_lt o _ k (by simpa using hk)]
  simp

theorem length_add (o : Ops α) (p q : List α) :
    (add o p q).length = max p.length q.length := by
  unfold add
  have h := (foldl_set_spec o (fun i a => o.add a (get o q i)) p (min p.length q.length)).1
  by_cases hl : p.length < q.length
  · simp only [hl, if_true, List.length_append, h, List.length_drop]
    omega
  · simp only [hl, if_false, h]
    omega

theorem get_add (o : Ops α) (p q : List α) (k : Nat) :
    get o (add o p q) k =
      if k < p.length then (if k < q.length then o.add (get o p k) (get o q k) else get o p k)
      else get o q k := by
  unfold add
  have h := foldl_set_spec o (fun i a => o.add a (get o q i)) p (min p.length q.length)
  simp only at h ⊢
  by_cases hl : p.length < q.length
  · simp only [hl, if_true, get_append, h.1, h.2]
    by_cases hk : k < p.length
    · have h1 : k < min p.length q.length ∧ k < p.length := by omega
      have h2 : k < q.length := by omega
      rw [if_pos hk, if_pos h1, if_pos hk, if_pos h2]
    · rw [if_neg hk, if_neg hk]
      simp only [get, List.getD_eq_getElem?_getD, List.getElem?_drop]
      have : p.length + (k - p.length) = k := by omega
      rw [this]
  · simp only [hl, if_false, h.2]
    by_cases hk : k < p.length
    · by_cases hk2 : k < q.length
      · have : k < min p.length q.length ∧ k < p.length := by omega
        rw [if_pos this, if_pos hk, if_pos hk2]
      · have : ¬ (k < min p.length q.length ∧ k < p.length) := by omega
        rw [if_neg this, if_pos hk, if_neg hk2]
    · have : ¬ (k < min p.length q.length ∧ k < p.length) := by omega
      rw [if_neg this, if_neg hk, get_of_le o p k (by omega), get_of_le o q k (by omega)]

theorem length_sub (o : Ops α) (p q : List α) :
    (sub o p q).length = max p.length q.length := by
  unfold sub
  have h := (foldl_set_spec o (fun i a => o.sub a (get o q i)) p (min p.length q.length)).1
  simp only at h ⊢
  rw [foldl_push_spec]
  simp only [List.length_append, h, List.length_map, List.length_range']
  omega

theorem get_sub (o : Ops α) (p q : List α) (k : Nat) :
    get o (sub o p q) k =
      if k < p.length then (if k < q.length then o.sub (get o p k) (get o q k) else get o p k)
      else if k < q.length then o.neg (get o q k) else o.zero := by
  unfold sub
  have h := foldl_set_spec o (fun i a => o.sub a (get o q i)) p (min p.length q.length)
  simp only at h ⊢
  rw [foldl_push_spec, get_append, h.1, h.2]
  by_cases hk : k < p.length
  · by_cases hk2 : k < q.length
    · have : k < min p.length q.length ∧ k < p.length := by omega
      simp [hk, hk2, this]
    · have : ¬ (k < min p.length q.length ∧ k < p.length) := by omega
      simp [hk, hk2, this]
  · simp only [hk, if_false]
    by_cases hk2 : k < q.length
    · rw [if_pos hk2, get_of_lt o _ _ (by simp; omega)]
      simp only [List.getElem_map, List.getElem_range']
      congr 2
      omega
    · rw [if_neg hk2, get_of_le o _ _ (by simp; omega)]

theorem length_mul_coeff (o : Ops α) (p : List α) (c : α) :
    (mul_coeff o p c).length = p.length :=
  (foldl_set_spec o (fun _ a => o.mul a c) p p.length).1

theorem get_mul_coeff (o : Ops α) (p : List α) (c : α) (k : Nat) (hk : k < p.length) :
    get o (mul_coeff o p c) k = o.mul (get o p k) c := by
  have h := (foldl_set_spec o (fun _ a => o.mul a c) p p.length).2 k
  simp only [hk, and_self, if_true] at h
  exact h

theorem length_shl (o : Ops α) (p : List α) (n : Nat) : (shl o p n).length = n + p.length := by
  simp [shl]

theorem get_shl (o : Ops α) (p : List α) (n k : Nat) :
    get o (shl o p n) k = if k < n then o.zero else get o p (k - n) := by
  unfold shl
  rw [get_append, List.length_replicate, get_replicate]

end Polynomial

end Geom.SL

namespace Geom.SL

/-! ## The value of a coefficient vector -/

namespace Polynomial

variable {α R : Type} [CommRing R]

/-- The value `Σ φ(p[k]) * x^k` of a coefficient vector, its coefficients read through `φ`. -/
def sem (o : Ops α) (φ : α → R) (x : R) (p : List α) : R :=
  ∑ k ∈ Finset.range p.length, φ (get o p k) * x ^ k

theorem sem_eq_sum (o : Ops α) (φ : α → R) (h0 : φ o.zero = 0) (x : R) (p : List α)
    (M : Nat) (hM : p.length ≤ M) :
    sem o φ x p = ∑ k ∈ Finset.range M, φ (get o p k) * x ^ k := by
  unfold sem
  apply Finset.sum_subset (Finset.range_mono hM)
  intro k _ hk
  rw [get_of_le o p k (by simpa using hk), h0, zero_mul]

theorem sem_congr (o : Ops α) (φ : α → R) (h0 : φ o.zero = 0) (x : R) (p q : List α)
    (h : ∀ k, φ (get o p k) = φ (get o q k)) : sem o φ x p = sem o φ x q := by
  rw [sem_eq_sum o φ h0 x p (max p.length q.length) (le_max_left _ _),
    sem_eq_sum o φ h0 x q (max p.length q.length) (le_max_right _ _)]
  exact Finset.sum_congr rfl (fun k _ => by rw [h k])

theorem sem_add (o : Ops α) (φ : α → R) (hφ : o.Hom φ) (x : R) (p q : List α) :
    sem o φ x (add o p q) = sem o φ x p + sem o φ x q := by
  rw [sem_eq_sum o φ hφ.map_zero x p (max p.length q.length) (le_max_left _ _),
    sem_eq_sum o φ hφ.map_zero x q (max p.length q.length) (le_max_right _ _),
    sem, length_add, ← Finset.sum_add_distrib]
  apply Finset.sum_congr rfl
  intro k _
  rw [get_add, ← add_mul]
  congr 1
  by_cases h1 : k < p.length
  · by_cases h2 : k < q.length
    · rw [if_pos h1, if_pos h2, hφ.map_add]
    · rw [if_pos h1, if_neg h2, get_of_le o q k (by omega), hφ.map_zero, add_zero]
  · rw [if_neg h1, get_of_le o p k (by omega), hφ.map_zero, zero_add]

theorem sem_sub (o : Ops α) (φ : α → R) (hφ : o.Hom φ) (x : R) (p q : List α) :
    sem o φ x (sub o p q) = sem o φ x p - sem o φ x q := by
  rw [sem_eq_sum o φ hφ.map_zero x p (max p.length q.length) (le_max_left _ _),
    sem_eq_sum o φ hφ.map_zero x q (max p.length q.length) (le_max_right _ _),
    sem, length_sub, ← Finset.sum_sub_distrib]
  apply Finset.sum_congr rfl
  intro k _
  rw [get_sub, ← sub_mul]
  congr 1
  by_cases h1 : k < p.length
  · by_cases h2 : k < q.length
    · rw [if_pos h1, if_pos h2, hφ.map_sub]
    · rw [if_pos h1, if_neg h2, get_of_le o q k (by omega), hφ.map_zero, sub_zero]
  · by_cases h2 : k < q.length
    · rw [if_neg h1, if_pos h2, get_of_le o p k (by omega), hφ.map_zero, hφ.map_neg, zero_sub]
    · rw [if_neg h1, if_neg h2, get_of_le o p k (by omega), get_of_le o q k (by omega),
        hφ.map_zero, sub_zero]

theorem sem_neg (o : Ops α) (φ : α → R) (hφ : o.Hom φ) (x : R) (p : List α) :
    sem o φ x (neg o p) = - sem o φ x p := by
  unfold sem
  rw [length_neg, ← Finset.sum_neg_distrib]
  apply Finset.sum_congr rfl
  intro k hk
  rw [get_neg o p k (by simpa using hk), hφ.map_neg, neg_mul]

theorem sem_mul_coeff (o : Ops α) (φ : α → R) (hφ : o.Hom φ) (x : R) (p : List α) (c : α) :
    sem o φ x (mul_coeff o p c) = sem o φ x p * φ c := by
  unfold sem
  rw [length_mul_coeff, Finset.sum_mul]
  apply Finset.sum_congr rfl
  intro k hk
  rw [get_mul_coeff o p c k (by simpa using hk), hφ.map_mul]
  ring

theorem sem_shl (o : Ops α) (φ : α → R) (hφ : o.Hom φ) (x : R) (p : List α) (n : Nat) :
    sem o φ x (shl o p n) = x ^ n * sem o φ x p := by
  unfold sem
  rw [length_shl, Finset.sum_range_add, Finset.mul_sum]
  have h1 : ∑ k ∈ Finset.range n, φ (get o (shl o p n) k) * x ^ k = 0 := by
    apply Finset.sum_eq_zero
    intro k hk
    rw [get_shl, if_pos (by simpa using hk), hφ.map_zero, zero_mul]
  rw [h1, zero_add]
  apply Finset.sum_congr rfl
  intro k _
  rw [get_shl, if_neg (by omega), Nat.add_sub_cancel_left, pow_add]
  ring

theorem sem_set (o : Ops α) (φ : α → R) (x : R) (r : List α) (i : Nat) (v : α)
    (hi : i < r.length) :
    sem o φ x (r.set i v) = sem o φ x r + (φ v - φ (get o r i)) * x ^ i := by
  unfold sem
  rw [List.length_set]
  have hmem : i ∈ Finset.range r.length := by simpa using hi
  rw [← Finset.add_sum_erase _ _ hmem, ← Finset.add_sum_erase _ (fun k => φ (get o r k) * x ^ k) hmem]
  have : ∑ k ∈ (Finset.range r.length).erase i, φ (get o (r.set i v) k) * x ^ k
      = ∑ k ∈ (Finset.range r.length).erase i, φ (get o r k) * x ^ k := by
    apply Finset.sum_congr rfl
    intro k hk
    rw [get_set, if_neg (fun h => (Finset.mem_erase.mp hk).1 h.1.symm)]
  rw [this, get_set, if_pos ⟨rfl, hi⟩]
  ring

theorem sem_replicate (o : Ops α) (φ : α → R) (h0 : φ o.zero = 0) (x : R) (n : Nat) :
    sem o φ x (List.replicate n o.zero) = 0 := by
  unfold sem
  apply Finset.sum_eq_zero
  intro k _
  rw [get_replicate, h0, zero_mul]

theorem vec_resize_zero (o : Ops α) (n : Nat) :
    vec_resize (ctor0 o) n o.zero = List.replicate n o.zero := by
  cases n with
  | zero => simp [vec_resize, ctor0]
  | succ n =>
    simp [vec_resize, ctor0, List.replicate_succ]

theorem mul_inner (o : Ops α) (φ : α → R) (hφ : o.Hom φ) (x : R) (a : α) (q : List α) (i : Nat) :
    ∀ (m : Nat) (r : List α), i + m ≤ r.length →
    ((List.range m).foldl
      (fun r j => r.set (i + j) (o.add (get o r (i + j)) (o.mul a (get o q j)))) r).length
        = r.length ∧
    sem o φ x ((List.range m).foldl
      (fun r j => r.set (i + j) (o.add (get o r (i + j)) (o.mul a (get o q j)))) r)
      = sem o φ x r + ∑ j ∈ Finset.range m, φ a * φ (get o q j) * x ^ (i + j) := by
  intro m
  induction m with
  | zero => intro r _; simp
  | succ m ih =>
    intro r hr
    rw [List.range_succ, List.foldl_append, Finset.sum_range_succ]
    simp only [List.foldl_cons, List.foldl_nil]
    obtain ⟨ih1, ih2⟩ := ih r (by omega)
    generalize (List.range m).foldl
      (fun r j => r.set (i + j) (o.add (get o r (i + j)) (o.mul a (get o q j)))) r = r1 at ih1 ih2 ⊢
    refine ⟨by simp [ih1], ?_⟩
    rw [sem_set o φ x r1 (i + m) _ (by omega), ih2, hφ.map_add, hφ.map_mul]
    ring

theorem mul_outer (o : Ops α) (φ : α → R) (hφ : o.Hom φ) (x : R) (p q : List α) :
    ∀ (m : Nat) (r : List α), m ≤ p.length → p.length + q.length ≤ r.length + 1 →
    ((List.range m).foldl (fun r i => (List.range q.length).foldl
      (fun r j => r.set (i + j) (o.add (get o r (i + j)) (o.mul (get o p i) (get o q j)))) r)
      r).length = r.length ∧
    sem o φ x ((List.range m).foldl (fun r i => (List.range q.length).foldl
      (fun r j => r.set (i + j) (o.add (get o r (i + j)) (o.mul (get o p i) (get o q j)))) r) r)
      = sem o φ x r + ∑ i ∈ Finset.range m, ∑ j ∈ Finset.range q.length,
          φ (get o p i) * φ (get o q j) * x ^ (i + j) := by
  intro m
  induction m with
  | zero => intro r _ _; simp
  | succ m ih =>
    intro r hm hr
    rw [List.range_succ, List.foldl_append, Finset.sum_range_succ]
    simp only [List.foldl_cons, List.foldl_nil]
    obtain ⟨ih1, ih2⟩ := ih r (by omega) hr
    generalize (List.range m).foldl (fun r i => (List.range q.length).foldl
      (fun r j => r.set (i + j) (o.add (get o r (i + j)) (o.mul (get o p i) (get o q j)))) r)
      r = r1 at ih1 ih2 ⊢
    obtain ⟨h1, h2⟩ := mul_inner o φ hφ x (get o p m) q m q.length r1 (by omega)
    refine ⟨by rw [h1, ih1], ?_⟩
    rw [h2, ih2]
    ring

theorem sem_mul (o : Ops α) (φ : α → R) (hφ : o.Hom φ) (x : R) (p q : List α) :
    sem o φ x (mul o p q) = sem o φ x p * sem o φ x q := by
  unfold mul
  rw [vec_resize_zero]
  obtain ⟨_, h2⟩ := mul_outer o φ hφ x p q p.length
    (List.replicate (p.length + q.length - 1) o.zero) (le_refl _) (by simp; omega)
  rw [h2, sem_replicate o φ hφ.map_zero, zero_add]
  unfold sem
  rw [Finset.sum_mul_sum]
  apply Finset.sum_congr rfl
  intro i _
  apply Finset.sum_congr rfl
  intro j _
  rw [pow_add]
  ring

end Polynomial

end Geom.SL

namespace Geom.SL

namespace Polynomial

variable {α R : Type} [CommRing R]

theorem real_degree_scan_le (o : Ops α) (p : List α) : ∀ i, real_degree_scan o p i ≤ i := by
  intro i
  induction i with
  | zero => simp [real_degree_scan]
  | succ i ih =>
    simp only [real_degree_scan]
    split
    · exact le_refl _
    · omega

theorem real_degree_scan_above (o : Ops α) (p : List α) : ∀ i k,
    real_degree_scan o p i < k → k ≤ i → o.ne (get o p k) o.zero = false := by
  intro i
  induction i with
  | zero => intro k h1 h2; omega
  | succ i ih =>
    intro k h1 h2
    simp only [real_degree_scan] at h1
    by_cases hne : o.ne (get o p (i + 1)) o.zero = true
    · rw [if_pos hne] at h1; omega
    · rw [if_neg hne] at h1
      by_cases hk : k = i + 1
      · subst hk; simpa using hne
      · exact ih k h1 (by omega)

theorem real_degree_scan_ne (o : Ops α) (p : List α) : ∀ i,
    0 < real_degree_scan o p i → o.ne (get o p (real_degree_scan o p i)) o.zero = true := by
  intro i
  induction i with
  | zero => intro h; simp [real_degree_scan] at h
  | succ i ih =>
    intro h
    simp only [real_degree_scan] at h ⊢
    by_cases hne : o.ne (get o p (i + 1)) o.zero = true
    · rw [if_pos hne]; exact hne
    · rw [if_neg hne] at h ⊢; exact ih h

theorem real_degree_le (o : Ops α) (p : List α) : real_degree o p ≤ max_degree p :=
  real_degree_scan_le o p _

/-- Above `real_degree()` every coefficient reads as zero through `φ`. -/
theorem map_get_above (o : Ops α) (φ : α → R) (hφ : o.Hom φ) (p : List α) (k : Nat)
    (hk : real_degree o p < k) : φ (get o p k) = 0 := by
  by_cases h : k ≤ p.length - 1
  · have := real_degree_scan_above o p (p.length - 1) k hk h
    have h2 : o.eq (get o p k) o.zero = true := by simpa [Ops.ne] using this
    rw [hφ.eq_sound _ _ h2, hφ.map_zero]
  · by_cases hp : p.length = 0
    · rw [get_of_le o p k (by omega), hφ.map_zero]
    · rw [get_of_le o p k (by omega), hφ.map_zero]

theorem eq_loop_spec (o : Ops α) (p q : List α) : ∀ m i, eq_loop o p q m i = true →
    ∀ k, i ≤ k → k < i + m → o.eq (get o p k) (get o q k) = true := by
  intro m
  induction m with
  | zero => intro i _ k h1 h2; omega
  | succ m ih =>
    intro i h k h1 h2
    simp only [eq_loop] at h
    by_cases hne : o.ne (get o p i) (get o q i) = true
    · rw [if_pos hne] at h; exact absurd h (by simp)
    · rw [if_neg hne] at h
      by_cases hk : k = i
      · subst hk; simpa [Ops.ne] using hne
      · exact ih (i + 1) h k (by omega) (by omega)

theorem map_get_eq (o : Ops α) (φ : α → R) (hφ : o.Hom φ) (p q : List α)
    (h : eq o p q = true) (k : Nat) : φ (get o p k) = φ (get o q k) := by
  unfold eq at h
  simp only at h
  by_cases hd : real_degree o p = real_degree o q
  · simp only [hd, ne_eq, not_true_eq_false, if_false] at h
    by_cases hk : k ≤ real_degree o q
    · exact hφ.eq_sound _ _ (eq_loop_spec o p q _ 0 h k (Nat.zero_le _) (by omega))
    · rw [map_get_above o φ hφ p k (by omega), map_get_above o φ hφ q k (by omega)]
  · simp [hd] at h

theorem sem_eq_of_eq (o : Ops α) (φ : α → R) (hφ : o.Hom φ) (x : R) (p q : List α)
    (h : eq o p q = true) : sem o φ x p = sem o φ x q :=
  sem_congr o φ hφ.map_zero x p q (map_get_eq o φ hφ p q h)

theorem sem_zero_of_is_zero (o : Ops α) (φ : α → R) (hφ : o.Hom φ) (x : R) (p : List α)
    (h : is_zero o p = true) : sem o φ x p = 0 := by
  unfold is_zero at h
  by_cases hd : real_degree o p = 0
  · simp only [hd, ne_eq, not_true_eq_false, if_false] at h
    by_cases hne : o.ne (get o p 0) o.zero = true
    · simp [hne] at h
    · have h0 : φ (get o p 0) = 0 := by
        have : o.eq (get o p 0) o.zero = true := by simpa [Ops.ne] using hne
        rw [hφ.eq_sound _ _ this, hφ.map_zero]
      unfold sem
      apply Finset.sum_eq_zero
      intro k _
      by_cases hk : k = 0
      · subst hk; rw [h0, zero_mul]
      · rw [map_get_above o φ hφ p k (by omega), zero_mul]
  · simp [hd] at h

theorem sem_ctor (o : Ops α) (φ : α → R) (h0 : φ o.zero = 0) (x : R) (c : α) (i : Nat) :
    sem o φ x (ctor o c i) = φ c * x ^ i := by
  have hc : ctor o c i = List.replicate i o.zero ++ [c] := by simp [ctor, vec_resize]
  unfold sem
  rw [hc, List.length_append, List.length_replicate, List.length_singleton,
    Finset.sum_range_succ]
  have h1 : ∑ k ∈ Finset.range i, φ (get o (List.replicate i o.zero ++ [c]) k) * x ^ k = 0 := by
    apply Finset.sum_eq_zero
    intro k hk
    rw [get_append, if_pos (by simpa using hk), get_replicate, h0, zero_mul]
  rw [h1, zero_add, get_append, if_neg (by simp)]
  simp [get]

/-- If `φ` respects the operators of the coefficient type, evaluation at `x` respects the
operators of `Polynomial<CoeffT>`. -/
theorem poly_ops_hom (o : Ops α) (φ : α → R) (hφ : o.Hom φ) (x : R) :
    (ops o).Hom (sem o φ x) where
  map_zero := by
    show sem o φ x (ctor o o.zero 0) = 0
    rw [sem_ctor o φ hφ.map_zero, hφ.map_zero, zero_mul]
  map_one := by
    show sem o φ x (ctor o o.one 0) = 1
    rw [sem_ctor o φ hφ.map_zero, hφ.map_one, pow_zero, mul_one]
  map_add := sem_add o φ hφ x
  map_sub := sem_sub o φ hφ x
  map_neg := sem_neg o φ hφ x
  map_mul := sem_mul o φ hφ x
  eq_sound := sem_eq_of_eq o φ hφ x
  is_zero_sound := sem_zero_of_is_zero o φ hφ x

end Polynomial

/-! ## The value of a nested polynomial -/

namespace mvpoly

variable {α R : Type} [CommRing R]

/-- The value of a rank-`N` polynomial at the point `X i, X (i+1), ...`, its scalar
coefficients read through `φ`. -/
def sem (o : Ops α) (φ : α → R) (X : Nat → R) : (N : Nat) → Nat → mvpoly α N → R
  | 0, _, p => φ p
  | N + 1, i, p => Polynomial.sem (ops o N) (sem o φ X N (i + 1)) (X i) p

theorem mv_ops_hom (o : Ops α) (φ : α → R) (hφ : o.Hom φ) (X : Nat → R) :
    ∀ (N i : Nat), (ops o N).Hom (sem o φ X N i) := by
  intro N
  induction N with
  | zero => intro i; exact hφ
  | succ N ih => intro i; exact Polynomial.poly_ops_hom (ops o N) _ (ih (i + 1)) (X i)

end mvpoly

end Geom.SL

namespace Geom.SL

/-- The multi-indices of the allocated coefficients of a rank-`N` polynomial: index `k` at
a level ranges over the stored coefficients of the `Polynomial` reached at that level. -/
def mvpoly.allocated {α : Type} (o : Ops α) : (N : Nat) → mvpoly α N → List multi_index_type
  | 0, _ => [[]]
  | N + 1, p =>
    (List.range (Polynomial.size p)).foldr
      (fun k acc => (allocated o N (Polynomial.get (mvpoly.ops o N) p k)).map (k :: ·) ++ acc) []

/-- The monomial `x_i^{I_0} * x_{i+1}^{I_1} * ...` at the point `X`. -/
def monomial_value {R : Type} [CommRing R] (X : Nat → R) : Nat → multi_index_type → R
  | _, [] => 1
  | i, k :: I => X i ^ k * monomial_value X (i + 1) I

namespace mvpoly

variable {R : Type} [CommRing R] [DecidableEq R]

theorem evaluate_loop_spec {β : Type} (ob : Ops β) (ev : β → R) (p : List β) (x : R) :
    ∀ (k : Nat) (r : R), evaluate_loop (numOps R) ob ev p x k r
      = r * x ^ k + ∑ j ∈ Finset.range k, ev (Polynomial.get ob p j) * x ^ j := by
  intro k
  induction k with
  | zero => intro r; simp [evaluate_loop]
  | succ k ih =>
    intro r
    rw [evaluate_loop, ih, Finset.sum_range_succ]
    simp only [numOps]
    ring

/-- The Horner loops of `evaluate_impl` compute the value of the nested polynomial. -/
theorem evaluate_impl_eq_sem (X : Nat → R) : ∀ (N : Nat) (p : mvpoly R N) (i : Nat),
    evaluate_impl (numOps R) N p i X = sem (numOps R) (fun a => a) X N i p := by
  intro N
  induction N with
  | zero => intro p i; rfl
  | succ N ih =>
    intro p i
    rw [evaluate_impl, evaluate_loop_spec, ih]
    simp only [ih]
    show _ = Polynomial.sem (ops (numOps R) N) (sem (numOps R) (fun a => a) X N (i + 1)) (X i) p
    have h0 := (mv_ops_hom (numOps R) (fun a : R => a) (numOps_hom R) X N (i + 1)).map_zero
    rw [Polynomial.sem_eq_sum _ _ h0 (X i) p (Polynomial.max_degree p + 1)
      (by unfold Polynomial.max_degree; omega), Finset.sum_range_succ]
    ring

theorem evaluate_eq_sem (N : Nat) (p : mvpoly R N) (X : Nat → R) :
    evaluate (numOps R) N p X = sem (numOps R) (fun a => a) X N 0 p :=
  evaluate_impl_eq_sem X N p 0

theorem sum_range_eq_foldr {M : Type} [AddCommMonoid M] (f : Nat → M) (g : Nat → List M)
    (h : ∀ k, (g k).sum = f k) (n : Nat) :
    ∑ k ∈ Finset.range n, f k = ((List.range n).foldr (fun k acc => g k ++ acc) []).sum := by
  have key : ∀ (l : List Nat), ((l.foldr (fun k acc => g k ++ acc) []).sum) = (l.map f).sum := by
    intro l
    induction l with
    | nil => simp
    | cons a t ih => simp [ih, h]
  rw [key]
  induction n with
  | zero => simp
  | succ n ih => rw [Finset.sum_range_succ, List.range_succ, List.map_append, List.sum_append, ih]; simp

/-- The value of a nested polynomial is the sum over its allocated multi-indices. -/
theorem sem_eq_sum_allocated (X : Nat → R) : ∀ (N : Nat) (p : mvpoly R N) (i : Nat),
    sem (numOps R) (fun a => a) X N i p
      = ((allocated (numOps R) N p).map
          (fun I => get_impl (numOps R) N p I * monomial_value X i I)).sum := by
  intro N
  induction N with
  | zero => intro p i; simp [sem, allocated, get_impl, monomial_value]
  | succ N ih =>
    intro p i
    rw [sem, Polynomial.sem, allocated]
    have hmap : ∀ (l : List Nat),
        (l.foldr (fun k acc => (allocated (numOps R) N
            (Polynomial.get (ops (numOps R) N) p k)).map (k :: ·) ++ acc) []).map
          (fun I => get_impl (numOps R) (N + 1) p I * monomial_value X i I)
        = l.foldr (fun k acc =>
            ((allocated (numOps R) N (Polynomial.get (ops (numOps R) N) p k)).map
              (fun I => get_impl (numOps R) N (Polynomial.get (ops (numOps R) N) p k) I
                * monomial_value X (i + 1) I * X i ^ k)) ++ acc) [] := by
      intro l
      induction l with
      | nil => simp
      | cons a t iht =>
        simp only [List.foldr_cons, List.map_append, iht, List.map_map]
        congr 1
        apply List.map_congr_left
        intro I _
        simp only [Function.comp, get_impl, monomial_value, List.getD_cons_zero, List.drop_one,
          List.tail_cons]
        ring
    rw [hmap]
    unfold Polynomial.size
    apply sum_range_eq_foldr
    intro k
    rw [ih, List.sum_map_mul_right]

end mvpoly


end Geom.SL

namespace Geom.SL

section evaluation

variable (R : Type) [CommRing R] [DecidableEq R]

theorem Polynomial.call_loop_spec (p : List R) (x : R) : ∀ (i : Nat) (r : R),
    Polynomial.call_loop (numOps R) p x i r
      = r * x ^ i + ∑ j ∈ Finset.range i, Polynomial.get (numOps R) p (j + 1) * x ^ (j + 1) := by
  intro i
  induction i with
  | zero => intro r; simp [Polynomial.call_loop]
  | succ i ih =>
    intro r
    rw [Polynomial.call_loop, ih, Finset.sum_range_succ]
    simp only [numOps]
    ring

/-- `Polynomial::operator()` and `mvpoly::evaluate` agree at rank 1. -/
theorem Polynomial.call_eq_evaluate (q : List R) (x : R) :
    Polynomial.call (numOps R) q x = mvpoly.evaluate (numOps R) 1 q (fun _ => x) := by
  rw [mvpoly.evaluate_eq_sem]
  show _ = Polynomial.sem (numOps R) (fun a => a) x q
  rw [Polynomial.sem_eq_sum (numOps R) (fun a => a) rfl x q (Polynomial.max_degree q + 1)
    (by unfold Polynomial.max_degree; omega), Finset.sum_range_succ', Polynomial.call,
    Polynomial.call_loop_spec]
  simp only [numOps]
  ring

/-- C7: for polynomials `p`, `q` of one rank `N + 1 >= 1` over a commutative ring and every
point `X`, `(p + q)(X) = p(X) + q(X)`. -/
theorem evaluate_add (N : Nat) (p q : mvpoly R (N + 1)) (X : Nat → R) :
    MultiPoly.call (numOps R) (N + 1) (MultiPoly.add (numOps R) (N + 1) p q) X
      = MultiPoly.call (numOps R) (N + 1) p X + MultiPoly.call (numOps R) (N + 1) q X := by
  simp only [MultiPoly.call, MultiPoly.add, mvpoly.evaluate_eq_sem]
  exact (mvpoly.mv_ops_hom (numOps R) (fun a : R => a) (numOps_hom R) X (N + 1) 0).map_add p q

/-- C8: for polynomials `p`, `q` of one rank `N + 1 >= 1` over a commutative ring and every
point `X`, `(p * q)(X) = p(X) * q(X)`, the product being the nested full convolution of
`operator*=`. -/
theorem evaluate_mul (N : Nat) (p q : mvpoly R (N + 1)) (X : Nat → R) :
    MultiPoly.call (numOps R) (N + 1) (MultiPoly.mul (numOps R) (N + 1) p q) X
      = MultiPoly.call (numOps R) (N + 1) p X * MultiPoly.call (numOps R) (N + 1) q X := by
  simp only [MultiPoly.call, MultiPoly.mul, mvpoly.evaluate_eq_sem]
  exact (mvpoly.mv_ops_hom (numOps R) (fun a : R => a) (numOps_hom R) X (N + 1) 0).map_mul p q

/-- C9: evaluation of a rank-`N` polynomial at `X` is the sum, over the allocated
multi-indices `I`, of `coefficient(I) * x_0^{I_0} * ... * x_{N-1}^{I_{N-1}}`; the same holds
for the Horner loop of `Polynomial::operator()`, and the two loops agree at rank 1. -/
theorem evaluate_eq_sum_allocated (N : Nat) (p : mvpoly R N) (X : Nat → R) (q : List R) (x : R) :
    MultiPoly.call (numOps R) N p X
        = ((mvpoly.allocated (numOps R) N p).map
            (fun I => mvpoly.get_impl (numOps R) N p I * monomial_value X 0 I)).sum ∧
    Polynomial.call (numOps R) q x
        = ((mvpoly.allocated (numOps R) 1 q).map
            (fun I => mvpoly.get_impl (numOps R) 1 q I * monomial_value (fun _ => x) 0 I)).sum ∧
    Polynomial.call (numOps R) q x = MultiPoly.call (numOps R) 1 q (fun _ => x) := by
  refine ⟨?_, ?_, Polynomial.call_eq_evaluate R q x⟩
  · rw [MultiPoly.call, mvpoly.evaluate_eq_sem, mvpoly.sem_eq_sum_allocated]
  · rw [Polynomial.call_eq_evaluate, mvpoly.evaluate_eq_sem, mvpoly.sem_eq_sum_allocated]

end evaluation

end Geom.SL

namespace Geom.SL

section safe_access

variable (R : Type) [CommRing R] [DecidableEq R]

theorem Polynomial.ctor_eq {α : Type} (o : Ops α) (c : α) (i : Nat) :
    Polynomial.ctor o c i = List.replicate i o.zero ++ [c] := by
  simp [Polynomial.ctor, vec_resize]

theorem mvpoly.sem_monomial_one : ∀ (N : Nat) (J : multi_index_type) (c : R) (i : Nat),
    mvpoly.sem (numOps R) (fun a => a) (fun _ => 1) N i (mvpoly.monomial_make_impl (numOps R) N J c)
      = c := by
  intro N
  induction N with
  | zero => intro J c i; rfl
  | succ N ih =>
    intro J c i
    rw [mvpoly.monomial_make_impl, mvpoly.sem,
      Polynomial.sem_ctor _ _
        (mvpoly.mv_ops_hom (numOps R) (fun a : R => a) (numOps_hom R) _ N (i + 1)).map_zero, ih]
    simp

/-- A monomial that compares equal to zero has the coefficient zero. -/
theorem mvpoly.monomial_eq_zero (N : Nat) (J : multi_index_type) (c : R)
    (h : (mvpoly.ops (numOps R) N).eq (mvpoly.monomial_make_impl (numOps R) N J c)
      (mvpoly.ops (numOps R) N).zero = true) : c = 0 := by
  have hh := mvpoly.mv_ops_hom (numOps R) (fun a : R => a) (numOps_hom R) (fun _ => 1) N 0
  have := hh.eq_sound _ _ h
  rw [mvpoly.sem_monomial_one, hh.map_zero] at this
  exact this

theorem mvpoly.get_safe_monomial : ∀ (N : Nat) (J : multi_index_type) (c : R),
    mvpoly.get_safe_impl (numOps R) N (mvpoly.monomial_make_impl (numOps R) N J c) J = c := by
  intro N
  induction N with
  | zero => intro J c; rfl
  | succ N ih =>
    intro J c
    rw [mvpoly.monomial_make_impl, mvpoly.get_safe_impl, Polynomial.ctor_eq]
    have hmax : Polynomial.max_degree
        (List.replicate (J.getD 0 0) (mvpoly.ops (numOps R) N).zero
          ++ [mvpoly.monomial_make_impl (numOps R) N (J.drop 1) c]) = J.getD 0 0 := by
      simp [Polynomial.max_degree]
    rw [hmax, if_neg (lt_irrefl _), Polynomial.get_append, if_neg (by simp)]
    simp only [List.length_replicate, Nat.sub_self]
    exact ih (J.drop 1) c

theorem mvpoly.wf_succ {α : Type} (N : Nat) (p : List (mvpoly α N)) :
    mvpoly.wf (N + 1) p = true ↔ p ≠ [] ∧ ∀ c ∈ p, mvpoly.wf N c = true := by
  rw [mvpoly.wf]
  cases p with
  | nil => simp
  | cons a t => simp [List.all_eq_true]

theorem mvpoly.set_get_safe_impl : ∀ (N : Nat) (p : mvpoly R N) (I : multi_index_type) (c : R),
    mvpoly.wf N p = true →
    mvpoly.get_safe_impl (numOps R) N (mvpoly.set_safe_impl (numOps R) N p I c) I = c := by
  intro N
  induction N with
  | zero => intro p I c _; rfl
  | succ N ih =>
    intro p I c hwf
    obtain ⟨hne, hall⟩ := (mvpoly.wf_succ N p).mp hwf
    have hlen : 0 < List.length p := List.length_pos.mpr hne
    rw [mvpoly.set_safe_impl]
    by_cases hk : I.getD 0 0 > Polynomial.max_degree p
    · rw [if_pos hk]
      simp only
      unfold Polynomial.set_coefficient
      rw [if_pos hk]
      by_cases hz : (mvpoly.ops (numOps R) N).eq
          (mvpoly.monomial_make_impl (numOps R) N (I.drop 1) c) (mvpoly.ops (numOps R) N).zero = true
      · rw [if_pos hz, mvpoly.get_safe_impl, if_pos hk]
        exact (mvpoly.monomial_eq_zero R N _ c hz).symm
      · rw [if_neg hz, mvpoly.get_safe_impl]
        have hlen2 : (vec_resize p (I.getD 0 0) (mvpoly.ops (numOps R) N).zero).length
            = I.getD 0 0 := by
          unfold Polynomial.max_degree at hk
          simp only [vec_resize, List.length_append, List.length_take, List.length_replicate]
          omega
        have hmax : Polynomial.max_degree
            (vec_resize p (I.getD 0 0) (mvpoly.ops (numOps R) N).zero
              ++ [mvpoly.monomial_make_impl (numOps R) N (I.drop 1) c]) = I.getD 0 0 := by
          unfold Polynomial.max_degree
          rw [List.length_append, hlen2]
          simp
        rw [hmax, if_neg (lt_irrefl _), Polynomial.get_append, if_neg (by omega), hlen2,
          Nat.sub_self]
        exact mvpoly.get_safe_monomial R N _ c
    · rw [if_neg hk, mvpoly.get_safe_impl]
      have hmax : Polynomial.max_degree (List.set p (I.getD 0 0)
          (mvpoly.set_safe_impl (numOps R) N
            (Polynomial.get (mvpoly.ops (numOps R) N) p (I.getD 0 0)) (I.drop 1) c))
          = Polynomial.max_degree p := by
        simp [Polynomial.max_degree]
      have hlt : I.getD 0 0 < List.length p := by
        unfold Polynomial.max_degree at hk; omega
      rw [hmax, if_neg hk, Polynomial.get_set, if_pos ⟨rfl, hlt⟩]
      apply ih
      apply hall
      rw [Polynomial.get_of_lt _ _ _ hlt]
      exact List.getElem_mem _

/-- C10: for every well-formed rank-`N` polynomial `p`, every multi-index `I` of length `N`
and every coefficient `c` of a ring with exact equality, the safe set `p.coefficient(I, c)`
succeeds and the safe get `coefficient(I)` of its result returns `c`; this covers the
indices beyond the allocated storage at any level and `c = 0`. -/
theorem coefficient_set_get (N : Nat) (p : mvpoly R N) (I : multi_index_type) (c : R)
    (hwf : mvpoly.wf N p = true) (hI : I.length = N) :
    ∃ p', MultiPoly.set_coefficient (numOps R) N p I c = .ok p' ∧
      MultiPoly.coefficient (numOps R) N p' I = .ok c := by
  refine ⟨mvpoly.set_safe_impl (numOps R) N p I c, ?_, ?_⟩
  · simp [MultiPoly.set_coefficient, mvpoly.set_safe, hI]
  · simp only [MultiPoly.coefficient, mvpoly.get_safe, hI, ne_eq, not_true_eq_false, if_false]
    rw [mvpoly.set_get_safe_impl R N p I c hwf]

/-- C10, instance: rank 2 over the integers, storage growing at both levels. -/
theorem coefficient_set_get_witness :
    ∃ p', MultiPoly.set_coefficient (numOps Int) 2 ([[1]] : List (List Int)) [2, 1] 5 = .ok p' ∧
      MultiPoly.coefficient (numOps Int) 2 p' [2, 1] = .ok 5 :=
  coefficient_set_get Int 2 ([[1]] : List (List Int)) [2, 1] 5 (by decide) (by decide)

end safe_access

end Geom.SL

namespace Geom.SL

/-! ## The pipeline on concrete curves -/

/-- The matrix obtained from `M` by removing its `h`-th row and its `h`-th column,
counting from 1. -/
def Matrix.remove_row_col {α : Type} (M : Matrix α) (h : Nat) : Matrix α :=
  ⟨(List.range M.rows).foldr
      (fun i acc =>
        (if i + 1 = h then []
         else (List.range M.columns).foldr
           (fun j row => if j + 1 = h then row else (M.m_data.drop (i * M.columns + j)).take 1 ++ row)
           []) ++ acc)
      [],
    M.rows - 1, M.columns - 1⟩

/-- The coefficient of `x^i * y^j` in `y - x^2`. -/
def parabola_coefficient (i j : Nat) : ℚ :=
  if i = 0 ∧ j = 1 then 1 else if i = 2 ∧ j = 0 then -1 else 0

theorem implicit_equation_parabola :
    implicit_equation (K := ℚ) ([0, 1] : List ℚ) ([0, 0, 1] : List ℚ)
      = some ([[0, -1], [0], [1]] : List (List ℚ)) := by
  with_unfolding_all decide

/-- C3: for `f(t) = t`, `g(t) = t^2` the pipeline microbasis, basis_to_poly,
make_bezout_matrix, determinant_minor returns a bivariate polynomial `F` that is
`c * (y - x^2)` with the nonzero constant `c = -1`: coefficient by coefficient, and hence
at every point. -/
theorem implicit_equation_parabola_spec :
    ∃ c : ℚ, c ≠ 0 ∧ ∃ F : mvpoly ℚ 2,
      implicit_equation (K := ℚ) ([0, 1] : List ℚ) ([0, 0, 1] : List ℚ) = some F ∧
      (∀ i j : Nat, MultiPoly.coefficient (numOps ℚ) 2 F [i, j]
        = .ok (c * parabola_coefficient i j)) ∧
      (∀ x y : ℚ, MultiPoly.call (numOps ℚ) 2 F (fun k => if k = 0 then x else y)
        = c * (y - x ^ 2)) := by
  refine ⟨-1, by norm_num, ([[0, -1], [0], [1]] : List (List ℚ)), implicit_equation_parabola,
    ?_, ?_⟩
  · intro i j
    have hc : MultiPoly.coefficient (numOps ℚ) 2 ([[0, -1], [0], [1]] : List (List ℚ)) [i, j]
        = .ok (mvpoly.get_safe_impl (numOps ℚ) 2 ([[0, -1], [0], [1]] : List (List ℚ)) [i, j]) := rfl
    rw [hc]
    congr 1
    rcases i with _ | _ | _ | i
    · rcases j with _ | _ | j <;>
        simp [mvpoly.get_safe_impl, Polynomial.max_degree, Polynomial.get, parabola_coefficient,
          numOps]
    · rcases j with _ | j <;>
        simp [mvpoly.get_safe_impl, Polynomial.max_degree, Polynomial.get, parabola_coefficient,
          numOps]
    · rcases j with _ | j <;>
        simp [mvpoly.get_safe_impl, Polynomial.max_degree, Polynomial.get, parabola_coefficient,
          numOps]
    · simp [mvpoly.get_safe_impl, Polynomial.max_degree, parabola_coefficient, numOps]
  · intro x y
    rw [MultiPoly.call, mvpoly.evaluate_eq_sem]
    simp [mvpoly.sem, Polynomial.sem, Finset.sum_range_succ, Polynomial.get]
    ring

/-- The trivariate polynomial `t` (indeterminates ordered `t, x, y`). -/
def poly_t : mvpoly ℚ 3 := ([[[0]], [[1]]] : List (List (List ℚ)))

/-- The trivariate polynomial `1 + t^2`. -/
def poly_one_plus_t2 : mvpoly ℚ 3 := ([[[1]], [[0]], [[1]]] : List (List (List ℚ)))

/-- C6 at `p = t`, `q = 1 + t^2` (so `n = 2`) and `h = 1`: `make_bezout_main_minor` returns
the 1-by-1 matrix with entry `-1`, whereas removing the first row and the first column of
`make_bezout_matrix(p, q)` leaves the entry `1`; the two entries do not compare equal. -/
theorem make_bezout_main_minor_mismatch :
    make_bezout_matrix poly_t poly_one_plus_t2
      = ⟨[([[-1]] : List (List ℚ)), ([[0]] : List (List ℚ)), ([[0]] : List (List ℚ)),
          ([[1]] : List (List ℚ))], 2, 2⟩ ∧
    make_bezout_main_minor poly_t poly_one_plus_t2 1 = ⟨[([[-1]] : List (List ℚ))], 1, 1⟩ ∧
    Matrix.remove_row_col (make_bezout_matrix poly_t poly_one_plus_t2) 1
      = ⟨[([[1]] : List (List ℚ))], 1, 1⟩ ∧
    MultiPoly.eq (numOps ℚ) 2
      ((make_bezout_main_minor poly_t poly_one_plus_t2 1).get (MultiPoly.ops (numOps ℚ) 2) 0 0)
      ((Matrix.remove_row_col (make_bezout_matrix poly_t poly_one_plus_t2) 1).get
        (MultiPoly.ops (numOps ℚ) 2) 0 0) = false := by
  with_unfolding_all decide

end Geom.SL

namespace Geom.SL

/-! ## Coefficient vectors over a field as polynomials -/

section field

variable {K : Type} [Field K] [DecidableEq K]

theorem numOps_hom_ringHom {R : Type} [CommRing R] (f : K →+* R) : (numOps K).Hom f where
  map_zero := f.map_zero
  map_one := f.map_one
  map_add := f.map_add
  map_sub := f.map_sub
  map_neg := f.map_neg
  map_mul := f.map_mul
  eq_sound := fun a b h => by
    have : a = b := by simpa [numOps] using h
    rw [this]
  is_zero_sound := fun a h => by
    have : a = 0 := by simpa [numOps] using h
    rw [this, f.map_zero]

/-- The polynomial `Σ l[k] * X^k` of Mathlib denoted by a coefficient vector (used in
proofs only). -/
noncomputable def toPoly (l : List K) : Polynomial K :=
  Polynomial.sem (numOps K) Polynomial.C Polynomial.X l

theorem coeff_toPoly (l : List K) (k : Nat) :
    (toPoly l).coeff k = Polynomial.get (numOps K) l k := by
  unfold toPoly Polynomial.sem
  rw [Polynomial.finset_sum_coeff]
  simp only [Polynomial.coeff_C_mul_X_pow]
  rw [Finset.sum_ite_eq (Finset.range l.length) k]
  by_cases h : k < l.length
  · simp [h]
  · simp only [Finset.mem_range, h, if_false]
    rw [Polynomial.get_of_le _ _ _ (by omega)]
    rfl

theorem ne_numOps (a b : K) : (numOps K).ne a b = true ↔ a ≠ b := by
  simp [Ops.ne, numOps]

theorem get_above_real_degree (l : List K) (k : Nat)
    (hk : Polynomial.real_degree (numOps K) l < k) : Polynomial.get (numOps K) l k = 0 :=
  Polynomial.map_get_above (numOps K) (fun a => a) (numOps_hom K) l k hk

theorem get_real_degree_ne (l : List K) (h : 0 < Polynomial.real_degree (numOps K) l) :
    Polynomial.get (numOps K) l (Polynomial.real_degree (numOps K) l) ≠ 0 := by
  have := Polynomial.real_degree_scan_ne (numOps K) l (l.length - 1) h
  exact (ne_numOps _ _).mp this

theorem natDegree_toPoly (l : List K) :
    (toPoly l).natDegree = Polynomial.real_degree (numOps K) l := by
  apply le_antisymm
  · rw [Polynomial.natDegree_le_iff_coeff_eq_zero]
    intro k hk
    rw [coeff_toPoly]
    exact get_above_real_degree l k hk
  · by_cases h : 0 < Polynomial.real_degree (numOps K) l
    · apply Polynomial.le_natDegree_of_ne_zero
      rw [coeff_toPoly]
      exact get_real_degree_ne l h
    · omega

theorem for_each_loop_length {β : Type} (ob : Ops β) (f : β → β) : ∀ (fuel k : Nat) (p : List β),
    (mvpoly.for_each_loop ob f fuel k p).length = p.length := by
  intro fuel
  induction fuel with
  | zero => intro k p; rfl
  | succ fuel ih =>
    intro k p
    rw [mvpoly.for_each_loop]
    split
    · rw [ih]; simp
    · rfl

/-- The loop of `for_each` visits exactly the indices up to `real_degree()`; the
coefficients it leaves alone are zero. -/
theorem for_each_loop_get (op : K → K) (h0 : op 0 = 0) (p0 : List K) (hp0 : 0 < p0.length) :
    ∀ (fuel k : Nat) (p : List K), p.length = p0.length → p0.length ≤ fuel + k →
    (∀ j, j < k → Polynomial.get (numOps K) p j = op (Polynomial.get (numOps K) p0 j)) →
    (∀ j, k ≤ j → Polynomial.get (numOps K) p j = Polynomial.get (numOps K) p0 j) →
    ∀ j, Polynomial.get (numOps K) (mvpoly.for_each_loop (numOps K) op fuel k p) j
      = op (Polynomial.get (numOps K) p0 j) := by
  intro fuel
  induction fuel with
  | zero =>
    intro k p hlen hfuel h1 h2 j
    rw [mvpoly.for_each_loop]
    by_cases hj : j < k
    · exact h1 j hj
    · rw [h2 j (by omega), Polynomial.get_of_le _ _ _ (by omega)]
      exact h0.symm
  | succ fuel ih =>
    intro k p hlen hfuel h1 h2 j
    rw [mvpoly.for_each_loop]
    by_cases hk : k ≤ Polynomial.real_degree (numOps K) p
    · rw [if_pos hk]
      have hkl : k < p.length := by
        have := Polynomial.real_degree_le (numOps K) p
        unfold Polynomial.max_degree at this
        omega
      apply ih (k + 1) _ (by simp [hlen]) (by omega)
      · intro i hi
        rw [Polynomial.get_set]
        by_cases hik : k = i
        · subst hik
          rw [if_pos ⟨rfl, hkl⟩, h2 k (le_refl _)]
        · rw [if_neg (fun h => hik h.1)]
          exact h1 i (by omega)
      · intro i hi
        rw [Polynomial.get_set, if_neg (fun h => by omega)]
        exact h2 i (by omega)
    · rw [if_neg hk]
      by_cases hj : j < k
      · exact h1 j hj
      · rw [h2 j (by omega), ← h2 j (by omega),
          get_above_real_degree p j (by omega)]
        exact h0.symm

/-- `for_each<0>` on a univariate polynomial applies `op` to every coefficient, as far as
the values read by `operator[]` go. -/
theorem for_each0_get (op : K → K) (h0 : op 0 = 0) (p : List K) (j : Nat) :
    Polynomial.get (numOps K) (mvpoly.for_each0 (numOps K) op 1 p) j
      = op (Polynomial.get (numOps K) p j) := by
  show Polynomial.get (numOps K)
    (mvpoly.for_each_loop (numOps K) op (Polynomial.size p) 0 p) j = _
  by_cases hp : 0 < p.length
  · exact for_each_loop_get op h0 p hp _ 0 p rfl (by simp [Polynomial.size])
      (fun j hj => by omega) (fun _ _ => rfl) j
  · have hl := for_each_loop_length (numOps K) op (Polynomial.size p) 0 p
    rw [Polynomial.get_of_le _ _ _ (by omega), Polynomial.get_of_le _ _ _ (by omega)]
    exact h0.symm

theorem get_sub_field (p q : List K) (k : Nat) :
    Polynomial.get (numOps K) (Polynomial.sub (numOps K) p q) k
      = Polynomial.get (numOps K) p k - Polynomial.get (numOps K) q k := by
  rw [Polynomial.get_sub]
  by_cases h1 : k < p.length
  · by_cases h2 : k < q.length
    · rw [if_pos h1, if_pos h2]; rfl
    · rw [if_pos h1, if_neg h2, Polynomial.get_of_le _ q k (by omega)]
      show _ = _ - (0 : K)
      rw [sub_zero]
  · by_cases h2 : k < q.length
    · rw [if_neg h1, if_pos h2, Polynomial.get_of_le _ p k (by omega)]
      show - _ = (0 : K) - _
      rw [zero_sub]
    · rw [if_neg h1, if_neg h2, Polynomial.get_of_le _ p k (by omega),
        Polynomial.get_of_le _ q k (by omega)]
      show (0 : K) = 0 - 0
      rw [sub_zero]

/-- The coefficients of a component after one reduction pass. -/
theorem get_reduce_component (x y : List K) (r s : K) (d k : Nat) :
    Polynomial.get (numOps K) (reduce_component x y r s d) k
      = (Polynomial.get (numOps K) x k * r
          - (if k < d then 0 else Polynomial.get (numOps K) y (k - d) * s)) / r := by
  unfold reduce_component MultiPoly.div_coeff MultiPoly.sub MultiPoly.mul_coeff
  rw [for_each0_get _ (by simp)]
  show Polynomial.get (numOps K) (Polynomial.sub (numOps K) _ _) k / r = _
  rw [get_sub_field, for_each0_get _ (by show (0 : K) * r = 0; simp), Polynomial.get_shl]
  congr 2
  by_cases hk : k < d
  · rw [if_pos hk, if_pos hk]; rfl
  · rw [if_neg hk, if_neg hk, for_each0_get _ (by show (0 : K) * s = 0; simp)]
    rfl

theorem toPoly_reduce_component (x y : List K) (r s : K) (d : Nat) (hr : r ≠ 0) :
    toPoly (K := K) (reduce_component x y r s d)
      = toPoly x - Polynomial.C (s / r) * Polynomial.X ^ d * toPoly y := by
  ext k
  rw [coeff_toPoly, get_reduce_component, Polynomial.coeff_sub, coeff_toPoly, mul_assoc,
    Polynomial.coeff_C_mul, Polynomial.coeff_X_pow_mul', coeff_toPoly]
  by_cases hk : k < d
  · rw [if_pos hk, if_neg (by omega)]
    field_simp
  · rw [if_neg hk, if_pos (by omega)]
    field_simp
    ring

end field

end Geom.SL

namespace Geom.SL

section microbasis_proof

variable {K : Type} [Field K] [DecidableEq K]

theorem real_degree_le_of_get (l : List K) (m : Nat)
    (h : ∀ k, m < k → Polynomial.get (numOps K) l k = 0) :
    Polynomial.real_degree (numOps K) l ≤ m := by
  by_contra hc
  have hpos : 0 < Polynomial.real_degree (numOps K) l := by omega
  exact get_real_degree_ne l hpos (h _ (by omega))

theorem deg_fst_ge (v : poly_vector_type K) :
    Polynomial.real_degree (numOps K) v.c0 ≤ (deg v).1 ∧
    Polynomial.real_degree (numOps K) v.c1 ≤ (deg v).1 ∧
    Polynomial.real_degree (numOps K) v.c2 ≤ (deg v).1 := by
  unfold deg
  simp only
  split_ifs <;> simp_all <;> omega

theorem deg_snd (v : poly_vector_type K) :
    Polynomial.real_degree (numOps K) (v.get (deg v).2) = (deg v).1 ∧ (deg v).2 < 3 := by
  unfold deg
  simp only
  split_ifs <;> simp [poly_vector_type.get]

theorem deg_fst_le (v : poly_vector_type K) (m : Nat)
    (h0 : Polynomial.real_degree (numOps K) v.c0 ≤ m)
    (h1 : Polynomial.real_degree (numOps K) v.c1 ≤ m)
    (h2 : Polynomial.real_degree (numOps K) v.c2 ≤ m) : (deg v).1 ≤ m := by
  unfold deg
  simp only
  split_ifs <;> simp_all

theorem get_ge_of_deg (v : poly_vector_type K) (i k : Nat) (hk : (deg v).1 < k) :
    Polynomial.get (numOps K) (v.get i) k = 0 := by
  obtain ⟨h0, h1, h2⟩ := deg_fst_ge v
  apply get_above_real_degree
  unfold poly_vector_type.get
  split <;> omega

theorem natDegree_get_le (v : poly_vector_type K) (i : Nat) :
    (toPoly (v.get i)).natDegree ≤ (deg v).1 := by
  rw [natDegree_toPoly]
  obtain ⟨h0, h1, h2⟩ := deg_fst_ge v
  unfold poly_vector_type.get
  split <;> assumption

/-- The outer product of the two basis vectors is `(F, G, 1)`. -/
structure Crossed (F G : Polynomial K) (b : basis_type K) : Prop where
  x0 : toPoly b.b0.c1 * toPoly b.b1.c2 - toPoly b.b0.c2 * toPoly b.b1.c1 = F
  x1 : toPoly b.b0.c2 * toPoly b.b1.c0 - toPoly b.b0.c0 * toPoly b.b1.c2 = G
  x2 : toPoly b.b0.c0 * toPoly b.b1.c1 - toPoly b.b0.c1 * toPoly b.b1.c0 = 1

/-- While the degree sum exceeds `n`, the vectors of leading coefficients are parallel. -/
theorem leading_parallel (F G : Polynomial K) (n : Nat) (b : basis_type K)
    (hc : Crossed F G b) (hF : F.natDegree ≤ n) (hG : G.natDegree ≤ n)
    (hn : n < (deg b.b0).1 + (deg b.b1).1) (i j : Nat) (hi : i < 3) (hj : j < 3) :
    Polynomial.get (numOps K) (b.b0.get i) (deg b.b0).1
        * Polynomial.get (numOps K) (b.b1.get j) (deg b.b1).1
      = Polynomial.get (numOps K) (b.b0.get j) (deg b.b0).1
        * Polynomial.get (numOps K) (b.b1.get i) (deg b.b1).1 := by
  have key : ∀ u w : Nat,
      (toPoly (b.b0.get u) * toPoly (b.b1.get w)).coeff ((deg b.b0).1 + (deg b.b1).1)
        = Polynomial.get (numOps K) (b.b0.get u) (deg b.b0).1
          * Polynomial.get (numOps K) (b.b1.get w) (deg b.b1).1 := by
    intro u w
    rw [Polynomial.coeff_mul_of_natDegree_le (natDegree_get_le _ _) (natDegree_get_le _ _),
      coeff_toPoly, coeff_toPoly]
  have e0 := congrArg (fun P => Polynomial.coeff P ((deg b.b0).1 + (deg b.b1).1)) hc.x0
  have e1 := congrArg (fun P => Polynomial.coeff P ((deg b.b0).1 + (deg b.b1).1)) hc.x1
  have e2 := congrArg (fun P => Polynomial.coeff P ((deg b.b0).1 + (deg b.b1).1)) hc.x2
  simp only [Polynomial.coeff_sub] at e0 e1 e2
  have k12 := key 1 2
  have k21 := key 2 1
  have k20 := key 2 0
  have k02 := key 0 2
  have k01 := key 0 1
  have k10 := key 1 0
  simp only [poly_vector_type.get] at k12 k21 k20 k02 k01 k10
  rw [k12, k21, Polynomial.coeff_eq_zero_of_natDegree_lt (by omega)] at e0
  rw [k20, k02, Polynomial.coeff_eq_zero_of_natDegree_lt (by omega)] at e1
  rw [k01, k10, Polynomial.coeff_one, if_neg (by omega)] at e2
  interval_cases i <;> interval_cases j <;> simp only [poly_vector_type.get] <;>
    first
    | rfl
    | linear_combination e0
    | linear_combination e1
    | linear_combination e2
    | linear_combination -e0
    | linear_combination -e1
    | linear_combination -e2

/-- One reduction pass lowers the degree of the reduced vector when the leading
coefficients cancel. -/
theorem deg_reduce_vector_lt (x y : poly_vector_type K) (r s : K) (d : Nat) (hr : r ≠ 0)
    (hd : (deg x).1 = (deg y).1 + d) (hpos : 0 < (deg x).1)
    (hcancel : ∀ i, i < 3 → Polynomial.get (numOps K) (x.get i) (deg x).1 * r
      = s * Polynomial.get (numOps K) (y.get i) (deg y).1) :
    (deg (reduce_vector x y r s d)).1 < (deg x).1 := by
  have comp : ∀ i, i < 3 →
      Polynomial.real_degree (numOps K) (reduce_component (x.get i) (y.get i) r s d)
        ≤ (deg x).1 - 1 := by
    intro i hi
    apply real_degree_le_of_get
    intro k hk
    rw [get_reduce_component]
    by_cases hka : k = (deg x).1
    · subst hka
      rw [if_neg (by omega)]
      have : (deg x).1 - d = (deg y).1 := by omega
      rw [this, hcancel i hi]
      field_simp
      ring
    · rw [get_ge_of_deg x i k (by omega)]
      by_cases hkd : k < d
      · rw [if_pos hkd]; simp
      · rw [if_neg hkd, get_ge_of_deg y i (k - d) (by omega)]; simp
  have := deg_fst_le (reduce_vector x y r s d) ((deg x).1 - 1)
    (comp 0 (by omega)) (comp 1 (by omega)) (comp 2 (by omega))
  omega

/-- The invariant of the `while` loop of `microbasis`. -/
structure MicroInv (F G : Polynomial K) (n : Nat) (st : MicroState K) : Prop where
  crossed : Crossed F G st.b
  hn0 : st.n0 = deg st.b.b0
  hn1 : st.n1 = deg st.b.b1
  le0 : st.n0.1 ≤ n
  le1 : st.n1.1 ≤ n

theorem toPoly_reduce_vector (x y : poly_vector_type K) (r s : K) (d : Nat) (hr : r ≠ 0) :
    toPoly (reduce_vector x y r s d).c0
        = toPoly x.c0 - Polynomial.C (s / r) * Polynomial.X ^ d * toPoly y.c0 ∧
    toPoly (reduce_vector x y r s d).c1
        = toPoly x.c1 - Polynomial.C (s / r) * Polynomial.X ^ d * toPoly y.c1 ∧
    toPoly (reduce_vector x y r s d).c2
        = toPoly x.c2 - Polynomial.C (s / r) * Polynomial.X ^ d * toPoly y.c2 :=
  ⟨toPoly_reduce_component _ _ _ _ _ hr, toPoly_reduce_component _ _ _ _ _ hr,
    toPoly_reduce_component _ _ _ _ _ hr⟩

theorem lead_ne_zero (v : poly_vector_type K) (h : 0 < (deg v).1) :
    Polynomial.get (numOps K) (v.get (deg v).2) (deg v).1 ≠ 0 := by
  have h1 := (deg_snd v).1
  have h2 := get_real_degree_ne (v.get (deg v).2) (by rw [h1]; exact h)
  rw [h1] at h2
  exact h2

/-- Replacing `b[1]` by `b[1] - c * t^d * b[0]` keeps the outer product. -/
theorem crossed_reduce_b1 (F G : Polynomial K) (b0 b1 b1' : poly_vector_type K)
    (c : Polynomial K) (hc : Crossed F G ⟨b0, b1⟩)
    (t0 : toPoly b1'.c0 = toPoly b1.c0 - c * toPoly b0.c0)
    (t1 : toPoly b1'.c1 = toPoly b1.c1 - c * toPoly b0.c1)
    (t2 : toPoly b1'.c2 = toPoly b1.c2 - c * toPoly b0.c2) : Crossed F G ⟨b0, b1'⟩ := by
  refine ⟨?_, ?_, ?_⟩
  · show toPoly b0.c1 * toPoly b1'.c2 - toPoly b0.c2 * toPoly b1'.c1 = F
    rw [t1, t2, ← hc.x0]; ring
  · show toPoly b0.c2 * toPoly b1'.c0 - toPoly b0.c0 * toPoly b1'.c2 = G
    rw [t0, t2, ← hc.x1]; ring
  · show toPoly b0.c0 * toPoly b1'.c1 - toPoly b0.c1 * toPoly b1'.c0 = 1
    rw [t0, t1, ← hc.x2]; ring

/-- Replacing `b[0]` by `b[0] - c * t^d * b[1]` keeps the outer product. -/
theorem crossed_reduce_b0 (F G : Polynomial K) (b0 b1 b0' : poly_vector_type K)
    (c : Polynomial K) (hc : Crossed F G ⟨b0, b1⟩)
    (t0 : toPoly b0'.c0 = toPoly b0.c0 - c * toPoly b1.c0)
    (t1 : toPoly b0'.c1 = toPoly b0.c1 - c * toPoly b1.c1)
    (t2 : toPoly b0'.c2 = toPoly b0.c2 - c * toPoly b1.c2) : Crossed F G ⟨b0', b1⟩ := by
  refine ⟨?_, ?_, ?_⟩
  · show toPoly b0'.c1 * toPoly b1.c2 - toPoly b0'.c2 * toPoly b1.c1 = F
    rw [t1, t2, ← hc.x0]; ring
  · show toPoly b0'.c2 * toPoly b1.c0 - toPoly b0'.c0 * toPoly b1.c2 = G
    rw [t0, t2, ← hc.x1]; ring
  · show toPoly b0'.c0 * toPoly b1.c1 - toPoly b0'.c1 * toPoly b1.c0 = 1
    rw [t0, t1, ← hc.x2]; ring

theorem microbasis_step_lt (b0 b1 : poly_vector_type K) (h : (deg b0).1 < (deg b1).1) :
    microbasis_step ⟨⟨b0, b1⟩, deg b0, deg b1⟩
      = ⟨⟨b0, reduce_vector b1 b0
            (Polynomial.get (numOps K) (b0.get (deg b1).2) (deg b0).1)
            (Polynomial.get (numOps K) (b1.get (deg b1).2) (deg b1).1)
            ((deg b1).1 - (deg b0).1)⟩,
          deg b0,
          deg (reduce_vector b1 b0
            (Polynomial.get (numOps K) (b0.get (deg b1).2) (deg b0).1)
            (Polynomial.get (numOps K) (b1.get (deg b1).2) (deg b1).1)
            ((deg b1).1 - (deg b0).1))⟩ := by
  unfold microbasis_step
  rw [if_pos h]

theorem microbasis_step_ge (b0 b1 : poly_vector_type K) (h : ¬ (deg b0).1 < (deg b1).1) :
    microbasis_step ⟨⟨b0, b1⟩, deg b0, deg b1⟩
      = ⟨⟨reduce_vector b0 b1
            (Polynomial.get (numOps K) (b1.get (deg b1).2) (deg b1).1)
            (Polynomial.get (numOps K) (b0.get (deg b1).2) (deg b0).1)
            ((deg b0).1 - (deg b1).1), b1⟩,
          deg (reduce_vector b0 b1
            (Polynomial.get (numOps K) (b1.get (deg b1).2) (deg b1).1)
            (Polynomial.get (numOps K) (b0.get (deg b1).2) (deg b0).1)
            ((deg b0).1 - (deg b1).1)),
          deg b1⟩ := by
  unfold microbasis_step
  rw [if_neg h]

/-- One pass of the loop keeps the invariant and lowers the degree sum. -/
theorem microbasis_step_spec (F G : Polynomial K) (n : Nat) (hF : F.natDegree ≤ n)
    (hG : G.natDegree ≤ n) (st : MicroState K) (hinv : MicroInv F G n st)
    (hgt : n < st.n0.1 + st.n1.1) :
    MicroInv F G n (microbasis_step st) ∧
    (microbasis_step st).n0.1 + (microbasis_step st).n1.1 < st.n0.1 + st.n1.1 := by
  obtain ⟨⟨b0, b1⟩, n0, n1⟩ := st
  obtain ⟨hc, hn0, hn1, le0, le1⟩ := hinv
  dsimp only at hc hn0 hn1 le0 le1 hgt
  subst hn0 hn1
  have hpos0 : 0 < (deg b0).1 := by omega
  have hpos1 : 0 < (deg b1).1 := by omega
  have hpar := leading_parallel F G n ⟨b0, b1⟩ hc hF hG hgt
  dsimp only at hpar
  have hs1 := (deg_snd b1).2
  have hs0 := (deg_snd b0).2
  have hl1 := lead_ne_zero b1 hpos1
  have hl0 := lead_ne_zero b0 hpos0
  -- the pivot read from `b[0]` at the dominant index of `b[1]` is nonzero as well
  have hr0 : Polynomial.get (numOps K) (b0.get (deg b1).2) (deg b0).1 ≠ 0 := by
    intro hz
    have := hpar (deg b0).2 (deg b1).2 hs0 hs1
    rw [hz, zero_mul] at this
    exact (mul_ne_zero hl0 hl1) this
  by_cases hlt : (deg b0).1 < (deg b1).1
  · rw [microbasis_step_lt b0 b1 hlt]
    generalize hr0' : Polynomial.get (numOps K) (b0.get (deg b1).2) (deg b0).1 = r0 at hr0
    generalize hr1' : Polynomial.get (numOps K) (b1.get (deg b1).2) (deg b1).1 = r1
    have hdeg := deg_reduce_vector_lt b1 b0 r0 r1 ((deg b1).1 - (deg b0).1) hr0 (by omega) hpos1
      (fun i hi => by
        have := hpar i (deg b1).2 hi hs1
        rw [hr0', hr1'] at this
        linear_combination -this)
    obtain ⟨t0, t1, t2⟩ := toPoly_reduce_vector b1 b0 r0 r1 ((deg b1).1 - (deg b0).1) hr0
    generalize reduce_vector b1 b0 r0 r1 ((deg b1).1 - (deg b0).1) = b1' at hdeg t0 t1 t2
    refine ⟨⟨crossed_reduce_b1 F G b0 b1 b1' _ hc t0 t1 t2, rfl, rfl, le0, ?_⟩, ?_⟩
    · show (deg b1').1 ≤ n
      omega
    · show (deg b0).1 + (deg b1').1 < (deg b0).1 + (deg b1).1
      omega
  · rw [microbasis_step_ge b0 b1 hlt]
    generalize hr0' : Polynomial.get (numOps K) (b0.get (deg b1).2) (deg b0).1 = r0 at hr0
    generalize hr1' : Polynomial.get (numOps K) (b1.get (deg b1).2) (deg b1).1 = r1 at hl1
    have hdeg := deg_reduce_vector_lt b0 b1 r1 r0 ((deg b0).1 - (deg b1).1) hl1 (by omega) hpos0
      (fun i hi => by
        have := hpar i (deg b1).2 hi hs1
        rw [hr0', hr1'] at this
        linear_combination this)
    obtain ⟨t0, t1, t2⟩ := toPoly_reduce_vector b0 b1 r1 r0 ((deg b0).1 - (deg b1).1) hl1
    generalize reduce_vector b0 b1 r1 r0 ((deg b0).1 - (deg b1).1) = b0' at hdeg t0 t1 t2
    refine ⟨⟨crossed_reduce_b0 F G b0 b1 b0' _ hc t0 t1 t2, rfl, rfl, ?_, le1⟩, ?_⟩
    · show (deg b0').1 ≤ n
      omega
    · show (deg b0').1 + (deg b1).1 < (deg b0).1 + (deg b1).1
      omega

theorem microbasis_loop_spec (F G : Polynomial K) (n : Nat) (hF : F.natDegree ≤ n)
    (hG : G.natDegree ≤ n) : ∀ (fuel : Nat) (st : MicroState K), MicroInv F G n st →
    st.n0.1 + st.n1.1 ≤ n + fuel →
    ∃ st', microbasis_loop n fuel st = some st' ∧ MicroInv F G n st' ∧
      st'.n0.1 + st'.n1.1 ≤ n := by
  intro fuel
  induction fuel with
  | zero =>
    intro st hinv hle
    refine ⟨st, ?_, hinv, by omega⟩
    rw [microbasis_loop, if_neg (by omega)]
  | succ fuel ih =>
    intro st hinv hle
    rw [microbasis_loop]
    by_cases hgt : st.n0.1 + st.n1.1 > n
    · rw [if_pos hgt]
      obtain ⟨h1, h2⟩ := microbasis_step_spec F G n hF hG st hinv hgt
      exact ih _ h1 (by omega)
    · rw [if_neg hgt]
      exact ⟨st, rfl, hinv, by omega⟩

theorem toPoly_singleton (c : K) : toPoly ([c] : List K) = Polynomial.C c := by
  simp [toPoly, Polynomial.sem, Polynomial.get]

theorem toPoly_neg (p : List K) :
    toPoly (MultiPoly.neg (numOps K) 1 p) = - toPoly p :=
  Polynomial.sem_neg (numOps K) _ (numOps_hom_ringHom Polynomial.C) Polynomial.X p

theorem real_degree_neg (p : List K) :
    Polynomial.real_degree (numOps K) (MultiPoly.neg (numOps K) 1 p)
      = Polynomial.real_degree (numOps K) p := by
  rw [← natDegree_toPoly, ← natDegree_toPoly, toPoly_neg, Polynomial.natDegree_neg]

theorem real_degree_singleton (c : K) : Polynomial.real_degree (numOps K) ([c] : List K) = 0 := rfl

/-- The state at loop entry satisfies the invariant. -/
theorem microbasis_init (f g : List K) :
    MicroInv (toPoly f) (toPoly g)
      (max (Polynomial.real_degree (numOps K) f) (Polynomial.real_degree (numOps K) g))
      ⟨make_initial_basis f g, deg (make_initial_basis f g).b0,
        deg (make_initial_basis f g).b1⟩ := by
  have a1 : MultiPoly.assign_coeff (numOps K) 1 (1 : K) = ([1] : List K) := rfl
  have a0 : MultiPoly.assign_coeff (numOps K) 1 (0 : K) = ([0] : List K) := rfl
  refine ⟨⟨?_, ?_, ?_⟩, rfl, rfl, ?_, ?_⟩
  · simp only [make_initial_basis, a0, a1, toPoly_singleton, toPoly_neg]
    simp
  · simp only [make_initial_basis, a0, a1, toPoly_singleton, toPoly_neg]
    simp
  · simp only [make_initial_basis, a0, a1, toPoly_singleton, toPoly_neg]
    simp
  · apply deg_fst_le
    · simp only [make_initial_basis, a1, real_degree_singleton]; omega
    · simp only [make_initial_basis, a0, real_degree_singleton]; omega
    · simp only [make_initial_basis, real_degree_neg]; exact le_max_left _ _
  · apply deg_fst_le
    · simp only [make_initial_basis, a0, real_degree_singleton]; omega
    · simp only [make_initial_basis, a1, real_degree_singleton]; omega
    · simp only [make_initial_basis, real_degree_neg]; exact le_max_right _ _

/-- `microbasis` returns, its result has outer product `(f, g, 1)`, and its degree sum is
at most `n`. -/
theorem microbasis_spec (f g : List K) :
    ∃ b, microbasis f g = some b ∧ Crossed (toPoly f) (toPoly g) b ∧
      (deg b.b0).1 + (deg b.b1).1
        ≤ max (Polynomial.real_degree (numOps K) f) (Polynomial.real_degree (numOps K) g) := by
  obtain ⟨st', h1, h2, h3⟩ := microbasis_loop_spec (toPoly f) (toPoly g)
    (max (Polynomial.real_degree (numOps K) f) (Polynomial.real_degree (numOps K) g))
    (by rw [natDegree_toPoly]; exact le_max_left _ _)
    (by rw [natDegree_toPoly]; exact le_max_right _ _)
    ((deg (make_initial_basis f g).b0).1 + (deg (make_initial_basis f g).b1).1)
    _ (microbasis_init f g) (by dsimp only; omega)
  refine ⟨st'.b, ?_, h2.crossed, ?_⟩
  · unfold microbasis
    simp only [h1, Option.map_some']
  · rw [← h2.hn0, ← h2.hn1]; exact h3

/-- C4: for all univariate polynomials `f`, `g` over a field (exact arithmetic) the
reduction loop of `microbasis(f, g)` terminates, and on return
`deg(b[0]).first + deg(b[1]).first <= n` with `n = max(real_degree f, real_degree g)`. -/
theorem microbasis_terminates (f g : mvpoly K 1) :
    ∃ b, microbasis f g = some b ∧
      (deg b.b0).1 + (deg b.b1).1
        ≤ max (Polynomial.real_degree (numOps K) f) (Polynomial.real_degree (numOps K) g) := by
  obtain ⟨b, h1, _, h3⟩ := microbasis_spec f g
  exact ⟨b, h1, h3⟩

end microbasis_proof

end Geom.SL

namespace Geom.SL

/-! ## Safe coefficient access: frame and value -/

section set_safe

variable {K : Type} [CommRing K] [DecidableEq K]

theorem mvpoly.wf_zero : ∀ N : Nat, mvpoly.wf N (mvpoly.ops (numOps K) N).zero = true := by
  intro N
  induction N with
  | zero => rfl
  | succ N ih =>
    show mvpoly.wf (N + 1) (Polynomial.ctor (mvpoly.ops (numOps K) N)
      (mvpoly.ops (numOps K) N).zero 0) = true
    rw [Polynomial.ctor_eq, mvpoly.wf_succ]
    simp [ih]

theorem mvpoly.wf_monomial : ∀ (N : Nat) (J : multi_index_type) (c : K),
    mvpoly.wf N (mvpoly.monomial_make_impl (numOps K) N J c) = true := by
  intro N
  induction N with
  | zero => intro J c; rfl
  | succ N ih =>
    intro J c
    rw [mvpoly.monomial_make_impl, Polynomial.ctor_eq, mvpoly.wf_succ]
    refine ⟨by simp, ?_⟩
    intro x hx
    rcases List.mem_append.mp hx with h | h
    · rw [(List.mem_replicate.mp h).2]; exact mvpoly.wf_zero N
    · rw [List.mem_singleton.mp h]; exact ih _ _

theorem mvpoly.wf_get (N : Nat) (p : List (mvpoly K N)) (h : mvpoly.wf (N + 1) p = true)
    (k : Nat) : mvpoly.wf N (Polynomial.get (mvpoly.ops (numOps K) N) p k) = true := by
  obtain ⟨_, hall⟩ := (mvpoly.wf_succ N p).mp h
  by_cases hk : k < p.length
  · rw [Polynomial.get_of_lt _ _ _ hk]; exact hall _ (List.getElem_mem _)
  · rw [Polynomial.get_of_le _ _ _ (by omega)]; exact mvpoly.wf_zero N

theorem mvpoly.wf_set_safe : ∀ (N : Nat) (p : mvpoly K N) (I : multi_index_type) (c : K),
    mvpoly.wf N p = true → mvpoly.wf N (mvpoly.set_safe_impl (numOps K) N p I c) = true := by
  intro N
  induction N with
  | zero => intro p I c _; rfl
  | succ N ih =>
    intro p I c hwf
    obtain ⟨hne, hall⟩ := (mvpoly.wf_succ N p).mp hwf
    rw [mvpoly.set_safe_impl]
    by_cases hk : I.getD 0 0 > Polynomial.max_degree p
    · rw [if_pos hk]
      simp only
      unfold Polynomial.set_coefficient
      rw [if_pos hk]
      split
      · exact hwf
      · rw [mvpoly.wf_succ]
        refine ⟨by simp, ?_⟩
        intro x hx
        rcases List.mem_append.mp hx with h | h
        · unfold vec_resize at h
          rcases List.mem_append.mp h with h2 | h2
          · exact hall x (List.mem_of_mem_take h2)
          · rw [(List.mem_replicate.mp h2).2]; exact mvpoly.wf_zero N
        · rw [List.mem_singleton.mp h]; exact mvpoly.wf_monomial N _ _
    · rw [if_neg hk, mvpoly.wf_succ]
      refine ⟨by simpa using hne, ?_⟩
      intro x hx
      rcases List.mem_or_eq_of_mem_set hx with h | h
      · exact hall x h
      · rw [h]; exact ih _ _ _ (mvpoly.wf_get N p hwf _)

theorem mvpoly.get_safe_zero : ∀ (N : Nat) (J : multi_index_type),
    mvpoly.get_safe_impl (numOps K) N (mvpoly.ops (numOps K) N).zero J = 0 := by
  intro N
  induction N with
  | zero => intro J; rfl
  | succ N ih =>
    intro J
    show mvpoly.get_safe_impl (numOps K) (N + 1) (Polynomial.ctor (mvpoly.ops (numOps K) N)
      (mvpoly.ops (numOps K) N).zero 0) J = 0
    rw [Polynomial.ctor_eq, mvpoly.get_safe_impl]
    split
    · rfl
    · rename_i h
      have h0 : J.getD 0 0 = 0 := by simpa [Polynomial.max_degree] using h
      rw [h0]
      exact ih _

/-- A monomial has the coefficient zero at every multi-index but its own. -/
theorem mvpoly.get_safe_monomial_ne : ∀ (N : Nat) (I J : multi_index_type) (c : K),
    I.length = N → J.length = N → J ≠ I →
    mvpoly.get_safe_impl (numOps K) N (mvpoly.monomial_make_impl (numOps K) N I c) J = 0 := by
  intro N
  induction N with
  | zero =>
    intro I J c hI hJ hne
    exact absurd (by rw [List.length_eq_zero.mp hI, List.length_eq_zero.mp hJ]) hne
  | succ N ih =>
    intro I J c hI hJ hne
    obtain ⟨k, I', rfl⟩ := List.exists_cons_of_length_eq_add_one hI
    obtain ⟨l, J', rfl⟩ := List.exists_cons_of_length_eq_add_one hJ
    rw [mvpoly.monomial_make_impl, Polynomial.ctor_eq, mvpoly.get_safe_impl]
    simp only [List.getD_cons_zero, List.drop_one, List.tail_cons]
    have hmax : Polynomial.max_degree (List.replicate k (mvpoly.ops (numOps K) N).zero
        ++ [mvpoly.monomial_make_impl (numOps K) N I' c]) = k := by
      simp [Polynomial.max_degree]
    rw [hmax]
    by_cases hlk : l > k
    · rw [if_pos hlk]; rfl
    · rw [if_neg hlk, Polynomial.get_append, List.length_replicate]
      by_cases hl2 : l < k
      · rw [if_pos hl2, Polynomial.get_of_lt _ _ _ (by simpa using hl2)]
        simp only [List.getElem_replicate]
        exact mvpoly.get_safe_zero N J'
      · have hkl : l = k := by omega
        subst hkl
        rw [if_neg hl2, Nat.sub_self]
        apply ih I' J' c (by simpa using hI) (by simpa using hJ)
        intro h; exact hne (by rw [h])

/-- Frame property of the safe set: every other multi-index reads as before. -/
theorem mvpoly.get_safe_set_safe_ne : ∀ (N : Nat) (p : mvpoly K N) (I J : multi_index_type)
    (c : K), mvpoly.wf N p = true → I.length = N → J.length = N → J ≠ I →
    mvpoly.get_safe_impl (numOps K) N (mvpoly.set_safe_impl (numOps K) N p I c) J
      = mvpoly.get_safe_impl (numOps K) N p J := by
  intro N
  induction N with
  | zero =>
    intro p I J c _ hI hJ hne
    exact absurd (by rw [List.length_eq_zero.mp hI, List.length_eq_zero.mp hJ]) hne
  | succ N ih =>
    intro p I J c hwf hI hJ hne
    obtain ⟨k, I', rfl⟩ := List.exists_cons_of_length_eq_add_one hI
    obtain ⟨l, J', rfl⟩ := List.exists_cons_of_length_eq_add_one hJ
    have hI' : I'.length = N := by simpa using hI
    have hJ' : J'.length = N := by simpa using hJ
    obtain ⟨hpne, hall⟩ := (mvpoly.wf_succ N p).mp hwf
    have hlen : 0 < List.length p := List.length_pos.mpr hpne
    rw [mvpoly.set_safe_impl]
    simp only [List.getD_cons_zero, List.drop_one, List.tail_cons]
    by_cases hk : k > Polynomial.max_degree p
    · rw [if_pos hk]
      unfold Polynomial.set_coefficient
      rw [if_pos hk]
      split
      · rfl
      · have hkl : List.length p ≤ k := by unfold Polynomial.max_degree at hk; omega
        have hres : vec_resize p k (mvpoly.ops (numOps K) N).zero
            = p ++ List.replicate (k - List.length p) (mvpoly.ops (numOps K) N).zero := by
          unfold vec_resize; rw [List.take_of_length_le hkl]
        rw [hres, mvpoly.get_safe_impl, mvpoly.get_safe_impl]
        simp only [List.getD_cons_zero, List.drop_one, List.tail_cons]
        have hmax : Polynomial.max_degree
            (p ++ List.replicate (k - List.length p) (mvpoly.ops (numOps K) N).zero
              ++ [mvpoly.monomial_make_impl (numOps K) N I' c]) = k := by
          simp [Polynomial.max_degree]; omega
        rw [hmax]
        by_cases hlk : l > k
        · rw [if_pos hlk, if_pos (by omega)]
        · rw [if_neg hlk]
          by_cases hlp : l > Polynomial.max_degree p
          · rw [if_pos hlp]
            rw [Polynomial.get_append]
            simp only [List.length_append, List.length_replicate]
            by_cases hl2 : l < k
            · rw [if_pos (by omega), Polynomial.get_append,
                if_neg (by unfold Polynomial.max_degree at hlp; omega), Polynomial.get_replicate]
              exact mvpoly.get_safe_zero N J'
            · have hkl2 : l = k := by omega
              subst hkl2
              rw [if_neg (by omega)]
              have : l - (List.length p + (l - List.length p)) = 0 := by omega
              rw [this]
              exact mvpoly.get_safe_monomial_ne N I' J' c hI' hJ' (fun h => hne (by rw [h]))
          · rw [if_neg hlp]
            have hlp2 : l < List.length p := by unfold Polynomial.max_degree at hlp; omega
            rw [Polynomial.get_append, if_pos (by simp; omega), Polynomial.get_append,
              if_pos hlp2]
    · rw [if_neg hk, mvpoly.get_safe_impl, mvpoly.get_safe_impl]
      simp only [List.getD_cons_zero, List.drop_one, List.tail_cons]
      have hmax : Polynomial.max_degree (List.set p k
          (mvpoly.set_safe_impl (numOps K) N (Polynomial.get (mvpoly.ops (numOps K) N) p k) I' c))
          = Polynomial.max_degree p := by
        simp [Polynomial.max_degree]
      have hkp : k < List.length p := by unfold Polynomial.max_degree at hk; omega
      rw [hmax]
      by_cases hlp : l > Polynomial.max_degree p
      · rw [if_pos hlp, if_pos hlp]
      · rw [if_neg hlp, if_neg hlp, Polynomial.get_set]
        by_cases hkl : k = l
        · subst hkl
          rw [if_pos ⟨rfl, hkp⟩]
          exact ih _ I' J' c (mvpoly.wf_get N p hwf k) hI' hJ' (fun h => hne (by rw [h]))
        · rw [if_neg (fun h => hkl h.1)]

end set_safe

end Geom.SL

namespace Geom.SL

section set_safe_value

variable {K R : Type} [CommRing K] [DecidableEq K] [CommRing R]

theorem numOps_hom_map (φ : K →+* R) : (numOps K).Hom φ where
  map_zero := φ.map_zero
  map_one := φ.map_one
  map_add := φ.map_add
  map_sub := φ.map_sub
  map_neg := φ.map_neg
  map_mul := φ.map_mul
  eq_sound := fun a b h => by
    have : a = b := by simpa [numOps] using h
    rw [this]
  is_zero_sound := fun a h => by
    have : a = 0 := by simpa [numOps] using h
    rw [this, φ.map_zero]

theorem Polynomial.sem_append {α : Type} (o : Ops α) (ψ : α → R) (x : R) (p q : List α) :
    Polynomial.sem o ψ x (p ++ q)
      = Polynomial.sem o ψ x p + x ^ p.length * Polynomial.sem o ψ x q := by
  unfold Polynomial.sem
  rw [List.length_append, Finset.sum_range_add, Finset.mul_sum]
  congr 1
  · apply Finset.sum_congr rfl
    intro k hk
    rw [Polynomial.get_append, if_pos (by simpa using hk)]
  · apply Finset.sum_congr rfl
    intro k _
    rw [Polynomial.get_append, if_neg (by omega), Nat.add_sub_cancel_left, pow_add]
    ring

theorem Polynomial.sem_singleton {α : Type} (o : Ops α) (ψ : α → R) (x : R) (a : α) :
    Polynomial.sem o ψ x [a] = ψ a := by
  simp [Polynomial.sem, Polynomial.get]

/-- The value of a monomial. -/
theorem mvpoly.sem_monomial (φ : K →+* R) (X : Nat → R) : ∀ (N : Nat) (J : multi_index_type)
    (c : K) (i : Nat), J.length = N →
    mvpoly.sem (numOps K) φ X N i (mvpoly.monomial_make_impl (numOps K) N J c)
      = φ c * monomial_value X i J := by
  intro N
  induction N with
  | zero =>
    intro J c i hJ
    rw [List.length_eq_zero.mp hJ]
    simp [mvpoly.sem, mvpoly.monomial_make_impl, monomial_value]
  | succ N ih =>
    intro J c i hJ
    obtain ⟨k, J', rfl⟩ := List.exists_cons_of_length_eq_add_one hJ
    rw [mvpoly.monomial_make_impl, mvpoly.sem,
      Polynomial.sem_ctor _ _
        (mvpoly.mv_ops_hom (numOps K) φ (numOps_hom_map φ) X N (i + 1)).map_zero]
    simp only [List.getD_cons_zero, List.drop_one, List.tail_cons, monomial_value]
    rw [ih J' c (i + 1) (by simpa using hJ)]
    ring

/-- The value of a polynomial after a safe set. -/
theorem mvpoly.sem_set_safe (φ : K →+* R) (X : Nat → R) : ∀ (N : Nat) (p : mvpoly K N)
    (I : multi_index_type) (c : K) (i : Nat), mvpoly.wf N p = true → I.length = N →
    mvpoly.sem (numOps K) φ X N i (mvpoly.set_safe_impl (numOps K) N p I c)
      = mvpoly.sem (numOps K) φ X N i p
        + (φ c - φ (mvpoly.get_safe_impl (numOps K) N p I)) * monomial_value X i I := by
  intro N
  induction N with
  | zero =>
    intro p I c i _ hI
    rw [List.length_eq_zero.mp hI]
    simp [mvpoly.sem, mvpoly.set_safe_impl, mvpoly.get_safe_impl, monomial_value]
  | succ N ih =>
    intro p I c i hwf hI
    obtain ⟨k, I', rfl⟩ := List.exists_cons_of_length_eq_add_one hI
    have hI' : I'.length = N := by simpa using hI
    obtain ⟨hpne, hall⟩ := (mvpoly.wf_succ N p).mp hwf
    have hlen : 0 < List.length p := List.length_pos.mpr hpne
    have hh := mvpoly.mv_ops_hom (numOps K) φ (numOps_hom_map φ) X N (i + 1)
    rw [mvpoly.set_safe_impl, mvpoly.get_safe_impl]
    simp only [List.getD_cons_zero, List.drop_one, List.tail_cons, monomial_value]
    by_cases hk : k > Polynomial.max_degree p
    · rw [if_pos hk, if_pos hk]
      unfold Polynomial.set_coefficient
      rw [if_pos hk]
      split
      · rename_i hz
        rw [mvpoly.monomial_eq_zero K N I' c hz]
        show _ = _ + (φ 0 - φ 0) * _
        simp
      · have hkl : List.length p ≤ k := by unfold Polynomial.max_degree at hk; omega
        have hres : vec_resize p k (mvpoly.ops (numOps K) N).zero
            = p ++ List.replicate (k - List.length p) (mvpoly.ops (numOps K) N).zero := by
          unfold vec_resize; rw [List.take_of_length_le hkl]
        rw [hres]
        show Polynomial.sem _ _ _ _ = Polynomial.sem _ _ _ _ + _
        rw [Polynomial.sem_append, Polynomial.sem_append, Polynomial.sem_singleton,
          Polynomial.sem_replicate _ _ hh.map_zero, mvpoly.sem_monomial φ X N I' c (i + 1) hI']
        have : (p ++ List.replicate (k - List.length p) (mvpoly.ops (numOps K) N).zero).length
            = k := by simp; omega
        rw [this]
        show _ = _ + (φ c - φ 0) * _
        rw [φ.map_zero]
        ring
    · rw [if_neg hk, if_neg hk]
      have hkp : k < List.length p := by unfold Polynomial.max_degree at hk; omega
      show Polynomial.sem _ _ _ _ = Polynomial.sem _ _ _ _ + _
      rw [Polynomial.sem_set _ _ _ _ _ _ hkp, ih _ I' c (i + 1) (mvpoly.wf_get N p hwf k) hI']
      ring

end set_safe_value

end Geom.SL

namespace Geom.SL

section basis_to_poly_value

variable {K R : Type} [Field K] [DecidableEq K] [CommRing R]

theorem ctor0_eq_zero (N : Nat) :
    MultiPoly.ctor0 (numOps K) (N + 1) = (mvpoly.ops (numOps K) (N + 1)).zero := by
  show Polynomial.ctor0 _ = Polynomial.ctor _ _ 0
  rw [Polynomial.ctor_eq]
  rfl

theorem poly1_to_poly3_fold (φ : K →+* R) (X : Nat → R) (p3 : mvpoly K 3) (p1 : List K)
    (i j : Nat) (hwf : mvpoly.wf 3 p3 = true)
    (hz : ∀ t, mvpoly.get_safe_impl (numOps K) 3 p3 [t, i, j] = 0) : ∀ m,
    mvpoly.wf 3 ((List.range m).foldl (fun p3 t => mvpoly.set_safe_impl (numOps K) 3 p3 [t, i, j]
        (Polynomial.get (numOps K) p1 t)) p3) = true ∧
    (∀ t, m ≤ t → mvpoly.get_safe_impl (numOps K) 3
      ((List.range m).foldl (fun p3 t => mvpoly.set_safe_impl (numOps K) 3 p3 [t, i, j]
        (Polynomial.get (numOps K) p1 t)) p3) [t, i, j] = 0) ∧
    mvpoly.sem (numOps K) φ X 3 0
      ((List.range m).foldl (fun p3 t => mvpoly.set_safe_impl (numOps K) 3 p3 [t, i, j]
        (Polynomial.get (numOps K) p1 t)) p3)
      = mvpoly.sem (numOps K) φ X 3 0 p3
        + (∑ t ∈ Finset.range m, φ (Polynomial.get (numOps K) p1 t) * X 0 ^ t)
          * (X 1 ^ i * X 2 ^ j) := by
  intro m
  induction m with
  | zero => exact ⟨hwf, fun t _ => hz t, by simp⟩
  | succ m ih =>
    rw [List.range_succ, List.foldl_append, Finset.sum_range_succ]
    simp only [List.foldl_cons, List.foldl_nil]
    obtain ⟨ih1, ih2, ih3⟩ := ih
    generalize (List.range m).foldl (fun p3 t => mvpoly.set_safe_impl (numOps K) 3 p3 [t, i, j]
        (Polynomial.get (numOps K) p1 t)) p3 = cur at ih1 ih2 ih3 ⊢
    refine ⟨mvpoly.wf_set_safe 3 cur _ _ ih1, ?_, ?_⟩
    · intro t ht
      rw [mvpoly.get_safe_set_safe_ne 3 cur [m, i, j] [t, i, j] _ ih1 rfl rfl
        (by intro h; simp at h; omega)]
      exact ih2 t (by omega)
    · rw [mvpoly.sem_set_safe φ X 3 cur [m, i, j] _ 0 ih1 rfl, ih3, ih2 m (le_refl _),
        φ.map_zero]
      simp only [monomial_value]
      ring

/-- The value of `poly1_to_poly3` applied to a fresh polynomial: `f(t) * x^i * y^j`. -/
theorem sem_poly1_to_poly3 (φ : K →+* R) (X : Nat → R) (p1 : List K) (i j : Nat) :
    mvpoly.sem (numOps K) φ X 3 0 (poly1_to_poly3 (MultiPoly.ctor0 (numOps K) 3) p1 i j)
      = Polynomial.sem (numOps K) φ (X 0) p1 * (X 1 ^ i * X 2 ^ j) := by
  have h := (poly1_to_poly3_fold φ X (MultiPoly.ctor0 (numOps K) 3) p1 i j
    (by rw [ctor0_eq_zero]; exact mvpoly.wf_zero 3)
    (by intro t; rw [ctor0_eq_zero]; exact mvpoly.get_safe_zero 3 _) (List.length p1)).2.2
  unfold poly1_to_poly3 Polynomial.size
  rw [h, ctor0_eq_zero,
    (mvpoly.mv_ops_hom (numOps K) φ (numOps_hom_map φ) X 3 0).map_zero, zero_add]
  rfl

/-- The value of `basis_to_poly` applied to a fresh polynomial:
`v0(t) * x + v1(t) * y + v2(t)`. -/
theorem sem_basis_to_poly (φ : K →+* R) (X : Nat → R) (v : poly_vector_type K) :
    mvpoly.sem (numOps K) φ X 3 0 (basis_to_poly (MultiPoly.ctor0 (numOps K) 3) v)
      = Polynomial.sem (numOps K) φ (X 0) v.c0 * X 1
        + Polynomial.sem (numOps K) φ (X 0) v.c1 * X 2
        + Polynomial.sem (numOps K) φ (X 0) v.c2 := by
  have hh := mvpoly.mv_ops_hom (numOps K) φ (numOps_hom_map φ) X 3 0
  unfold basis_to_poly MultiPoly.add
  simp only
  rw [hh.map_add, hh.map_add, sem_poly1_to_poly3, sem_poly1_to_poly3, sem_poly1_to_poly3]
  ring

end basis_to_poly_value

end Geom.SL

namespace Geom.SL

/-! ## The bezoutian of two coefficient sequences -/

section bezoutian

variable {R : Type} [CommRing R]

/-- The antisymmetric product `P_a * Q_b - P_b * Q_a`. -/
def bez_u (P Q : Nat → R) (a b : Nat) : R := P a * Q b - P b * Q a

/-- The sum of `bez_u (w - b) b` over `b = 0, ..., m`, along the anti-diagonal `w`. -/
def bez_D (P Q : Nat → R) (m w : Nat) : R :=
  ∑ b ∈ Finset.range (m + 1), bez_u P Q (w - b) b

/-- The coefficient of `s^i * t^j` in `(P(s)*Q(t) - P(t)*Q(s)) / (s - t)`. -/
def bez_beta (P Q : Nat → R) (i j : Nat) : R := bez_D P Q (min i j) (i + j + 1)

/-- The sum accumulated by the inner loop of `make_bezout_matrix` for the loop indices
`i`, `j` (counted from 1), in terms of the values of the coefficients. -/
def bez_T (P Q : Nat → R) (n i j : Nat) : R :=
  ((List.range' 1 (min i (n + 1 - j))).map
    (fun k => P (j - 1 + k) * Q (i - k) - P (i - k) * Q (j - 1 + k))).sum

/-- The row sum `Σ_j beta(i, j) * t^j` over the `n` columns. -/
def bez_row (P Q : Nat → R) (n i : Nat) (t : R) : R :=
  ∑ j ∈ Finset.range n, bez_beta P Q i j * t ^ j

theorem bez_u_self (P Q : Nat → R) (a : Nat) : bez_u P Q a a = 0 := by
  unfold bez_u; ring

theorem bez_u_swap (P Q : Nat → R) (a b : Nat) : bez_u P Q a b = - bez_u P Q b a := by
  unfold bez_u; ring

theorem bez_u_zero (P Q : Nat → R) (n a b : Nat) (hP : ∀ a, n < a → P a = 0)
    (hQ : ∀ a, n < a → Q a = 0) (ha : n < a) : bez_u P Q a b = 0 := by
  unfold bez_u; rw [hP a ha, hQ a ha]; ring

theorem sum_range'_one (f : Nat → R) : ∀ m,
    ((List.range' 1 m).map f).sum = ∑ k ∈ Finset.range m, f (k + 1) := by
  intro m
  induction m with
  | zero => simp
  | succ m ih =>
    rw [List.range'_concat, List.map_append, List.sum_append, ih, Finset.sum_range_succ]
    simp [Nat.add_comm]

/-- The inner loop computes the bezoutian coefficient. -/
theorem bez_T_eq_D (P Q : Nat → R) (n i j : Nat) (hP : ∀ a, n < a → P a = 0)
    (hQ : ∀ a, n < a → Q a = 0) (hi : 1 ≤ i) (hij : i ≤ j) (hj : j ≤ n) :
    bez_T P Q n i j = bez_D P Q (i - 1) (i + j - 1) := by
  unfold bez_T bez_D
  rw [sum_range'_one]
  have h1 : i - 1 + 1 = i := by omega
  rw [h1, ← Finset.sum_range_reflect (fun b => bez_u P Q (i + j - 1 - b) b) i]
  have hsub : Finset.range (min i (n + 1 - j)) ⊆ Finset.range i :=
    Finset.range_mono (min_le_left _ _)
  rw [← Finset.sum_subset hsub]
  · apply Finset.sum_congr rfl
    intro k hk
    have hk' : k < i := Finset.mem_range.mp (hsub hk)
    unfold bez_u
    have e1 : j - 1 + (k + 1) = i + j - 1 - (i - 1 - k) := by omega
    have e2 : i - (k + 1) = i - 1 - k := by omega
    rw [e1, e2]
  · intro k hk1 hk2
    have hk' : k < i := Finset.mem_range.mp hk1
    have hk'' : ¬ k < min i (n + 1 - j) := fun h => hk2 (Finset.mem_range.mpr h)
    exact bez_u_zero P Q n _ _ hP hQ (by omega)

theorem bez_beta_zero_right (P Q : Nat → R) (n i j : Nat) (hP : ∀ a, n < a → P a = 0)
    (hQ : ∀ a, n < a → Q a = 0) (hj : n ≤ j) : bez_beta P Q i j = 0 := by
  unfold bez_beta bez_D
  apply Finset.sum_eq_zero
  intro b hb
  have : b < min i j + 1 := Finset.mem_range.mp hb
  exact bez_u_zero P Q n _ _ hP hQ (by omega)

theorem bez_beta_zero_left (P Q : Nat → R) (n i j : Nat) (hP : ∀ a, n < a → P a = 0)
    (hQ : ∀ a, n < a → Q a = 0) (hi : n ≤ i) : bez_beta P Q i j = 0 := by
  unfold bez_beta bez_D
  apply Finset.sum_eq_zero
  intro b hb
  have : b < min i j + 1 := Finset.mem_range.mp hb
  exact bez_u_zero P Q n _ _ hP hQ (by omega)

theorem bez_beta_zero_col (P Q : Nat → R) (i : Nat) :
    bez_beta P Q i 0 = bez_u P Q (i + 1) 0 := by
  unfold bez_beta bez_D
  simp

/-- Moving one step along an anti-diagonal changes the coefficient by one product. -/
theorem bez_beta_succ (P Q : Nat → R) (i j : Nat) :
    bez_beta P Q i (j + 1) = bez_beta P Q (i + 1) j + bez_u P Q (i + 1) (j + 1) := by
  unfold bez_beta bez_D
  have hw : i + 1 + j + 1 = i + (j + 1) + 1 := by omega
  rw [hw]
  rcases Nat.lt_trichotomy (i + 1) (j + 1) with h | h | h
  · have m1 : min i (j + 1) = i := by omega
    have m2 : min (i + 1) j = i + 1 := by omega
    rw [m1, m2, Finset.sum_range_succ _ (i + 1)]
    have : i + (j + 1) + 1 - (i + 1) = j + 1 := by omega
    rw [this, bez_u_swap P Q (j + 1) (i + 1)]
    ring
  · have m1 : min i (j + 1) = i := by omega
    have m2 : min (i + 1) j = i := by omega
    rw [m1, m2, h, bez_u_self]
    ring
  · have m1 : min i (j + 1) = j + 1 := by omega
    have m2 : min (i + 1) j = j := by omega
    rw [m1, m2, Finset.sum_range_succ _ (j + 1)]
    have : i + (j + 1) + 1 - (j + 1) = i + 1 := by omega
    rw [this]

theorem bez_row_step (P Q : Nat → R) (n i : Nat) (t : R) (hP : ∀ a, n < a → P a = 0)
    (hQ : ∀ a, n < a → Q a = 0) :
    bez_row P Q n i t = t * bez_row P Q n (i + 1) t
      + (P (i + 1) * (∑ a ∈ Finset.range (n + 1), Q a * t ^ a)
        - Q (i + 1) * (∑ a ∈ Finset.range (n + 1), P a * t ^ a)) := by
  have h1 : bez_row P Q n i t = ∑ j ∈ Finset.range (n + 1), bez_beta P Q i j * t ^ j := by
    unfold bez_row
    rw [Finset.sum_range_succ, bez_beta_zero_right P Q n i n hP hQ (le_refl _)]
    ring
  rw [h1, Finset.sum_range_succ', bez_beta_zero_col]
  have h2 : ∑ j ∈ Finset.range n, bez_beta P Q i (j + 1) * t ^ (j + 1)
      = t * bez_row P Q n (i + 1) t
        + ∑ j ∈ Finset.range n, bez_u P Q (i + 1) (j + 1) * t ^ (j + 1) := by
    unfold bez_row
    rw [Finset.mul_sum, ← Finset.sum_add_distrib]
    apply Finset.sum_congr rfl
    intro j _
    rw [bez_beta_succ, pow_succ]
    ring
  have h3 : P (i + 1) * (∑ a ∈ Finset.range (n + 1), Q a * t ^ a)
        - Q (i + 1) * (∑ a ∈ Finset.range (n + 1), P a * t ^ a)
      = ∑ j ∈ Finset.range (n + 1), bez_u P Q (i + 1) j * t ^ j := by
    rw [Finset.mul_sum, Finset.mul_sum, ← Finset.sum_sub_distrib]
    apply Finset.sum_congr rfl
    intro j _
    unfold bez_u
    ring
  rw [h2, h3, Finset.sum_range_succ' _ n]
  ring

theorem bez_row_zero_of_ge (P Q : Nat → R) (n i : Nat) (t : R) (hP : ∀ a, n < a → P a = 0)
    (hQ : ∀ a, n < a → Q a = 0) (hi : n ≤ i) : bez_row P Q n i t = 0 := by
  unfold bez_row
  apply Finset.sum_eq_zero
  intro j _
  rw [bez_beta_zero_left P Q n i j hP hQ hi, zero_mul]

/-- At a common root of `P` and `Q` every row sum of the bezoutian vanishes. -/
theorem bez_row_root (P Q : Nat → R) (n : Nat) (t : R) (hP : ∀ a, n < a → P a = 0)
    (hQ : ∀ a, n < a → Q a = 0)
    (hPt : ∑ a ∈ Finset.range (n + 1), P a * t ^ a = 0)
    (hQt : ∑ a ∈ Finset.range (n + 1), Q a * t ^ a = 0) :
    ∀ i, bez_row P Q n i t = 0 := by
  have key : ∀ d i, n ≤ i + d → bez_row P Q n i t = 0 := by
    intro d
    induction d with
    | zero => intro i hi; exact bez_row_zero_of_ge P Q n i t hP hQ (by omega)
    | succ d ih =>
      intro i hi
      rw [bez_row_step P Q n i t hP hQ, ih (i + 1) (by omega), hPt, hQt]
      ring
  intro i
  exact key n i (by omega)

end bezoutian

end Geom.SL

namespace Geom.SL

/-! ## Cells of a stored square matrix under the loops of `make_bezout_matrix` -/

section matrix_cells

variable {α R : Type} [CommRing R]

theorem cell_index_lt (n r s : Nat) (hr : r < n) (hs : s < n) : r * n + s < n * n := by
  have h : (r + 1) * n ≤ n * n := Nat.mul_le_mul_right n hr
  have e : (r + 1) * n = r * n + n := by ring
  omega

theorem cell_index_inj (n r s r' s' : Nat) (hs : s < n) (hs' : s' < n)
    (h : r * n + s = r' * n + s') : r = r' ∧ s = s' := by
  have hr : r = r' := by
    rcases Nat.lt_trichotomy r r' with h1 | h1 | h1
    · have h2 : (r + 1) * n ≤ r' * n := Nat.mul_le_mul_right n h1
      have e : (r + 1) * n = r * n + n := by ring
      omega
    · exact h1
    · have h2 : (r' + 1) * n ≤ r * n := Nat.mul_le_mul_right n h1
      have e : (r' + 1) * n = r' * n + n := by ring
      omega
  subst hr
  exact ⟨rfl, by omega⟩

theorem Matrix.isSquare_mk' (d : α) (n : Nat) : (Matrix.mk' d n n).IsSquare n :=
  ⟨rfl, rfl, by simp [Matrix.mk']⟩

theorem Matrix.get_mk' (o : Ops α) (d : α) (n r s : Nat) (hr : r < n) (hs : s < n) :
    (Matrix.mk' d n n).get o r s = d := by
  unfold Matrix.get Matrix.mk' Matrix.columns
  simp only
  rw [List.getD_eq_getElem?_getD, List.getElem?_replicate,
    if_pos (cell_index_lt n r s hr hs)]
  rfl

theorem Matrix.isSquare_set (M : Matrix α) (n r s : Nat) (v : α) (h : M.IsSquare n) :
    (M.set r s v).IsSquare n := by
  obtain ⟨h1, h2, h3⟩ := h
  exact ⟨h1, h2, by simpa [Matrix.set] using h3⟩

theorem Matrix.cell_get_set (o : Ops α) (M : Matrix α) (n r s r' s' : Nat) (v : α)
    (h : M.IsSquare n) (hr : r < n) (hs : s < n) (hs' : s' < n) :
    (M.set r s v).get o r' s' = if r' = r ∧ s' = s then v else M.get o r' s' := by
  obtain ⟨_, h2, h3⟩ := h
  have h2' : M.m_columns = n := h2
  unfold Matrix.get Matrix.set Matrix.columns
  simp only [h2']
  rw [List.getD_eq_getElem?_getD, List.getD_eq_getElem?_getD, List.getElem?_set]
  by_cases hc : r' = r ∧ s' = s
  · obtain ⟨rfl, rfl⟩ := hc
    have hlt : r' * n + s' < M.m_data.length := by rw [h3]; exact cell_index_lt n r' s' hr hs
    simp [hlt]
  · have hne : ¬ r * n + s = r' * n + s' := by
      intro e
      obtain ⟨a, b⟩ := cell_index_inj n r s r' s' hs hs' e
      exact hc ⟨a.symm, b.symm⟩
    simp [hc, hne]

/-- A loop each of whose passes adds `δ x r s` to the value of the cell `(r, s)`. -/
theorem fold_cells (o : Ops α) (φ : α → R) (n : Nat) {ι : Type}
    (step : Matrix α → ι → Matrix α) (δ : ι → Nat → Nat → R) :
    ∀ (L : List ι),
      (∀ x ∈ L, ∀ M : Matrix α, M.IsSquare n → (step M x).IsSquare n ∧
        ∀ r s, r < n → s < n → φ ((step M x).get o r s) = φ (M.get o r s) + δ x r s) →
      ∀ M : Matrix α, M.IsSquare n → (L.foldl step M).IsSquare n ∧
        ∀ r s, r < n → s < n →
          φ ((L.foldl step M).get o r s) = φ (M.get o r s) + (L.map (fun x => δ x r s)).sum := by
  intro L
  induction L with
  | nil => intro _ M hM; exact ⟨hM, fun r s _ _ => by simp⟩
  | cons x L ih =>
    intro h M hM
    obtain ⟨h1, h2⟩ := h x (List.mem_cons_self _ _) M hM
    obtain ⟨h3, h4⟩ := ih (fun y hy => h y (List.mem_cons_of_mem _ hy)) (step M x) h1
    refine ⟨h3, ?_⟩
    intro r s hr hs
    rw [List.foldl_cons, h4 r s hr hs, h2 r s hr hs, List.map_cons, List.sum_cons]
    ring

theorem sum_map_ite_const {ι : Type} (L : List ι) (c : Prop) [Decidable c] (f : ι → R) :
    (L.map (fun x => if c then f x else 0)).sum = if c then (L.map f).sum else 0 := by
  by_cases h : c
  · simp [h]
  · simp [h]

theorem sum_map_single (L : List Nat) (hL : L.Nodup) (g : Nat → R) (a : Nat)
    (h : ∀ x ∈ L, x ≠ a → g x = 0) :
    (L.map g).sum = if a ∈ L then g a else 0 := by
  rw [← List.sum_toFinset g hL]
  by_cases ha : a ∈ L
  · rw [if_pos ha]
    exact Finset.sum_eq_single_of_mem a (List.mem_toFinset.mpr ha)
      (fun x hx hne => h x (List.mem_toFinset.mp hx) hne)
  · rw [if_neg ha]
    apply Finset.sum_eq_zero
    intro x hx
    exact h x (List.mem_toFinset.mp hx) (fun e => ha (e ▸ List.mem_toFinset.mp hx))

theorem down_from_nodup (hi lo : Nat) : (down_from hi lo).Nodup := by
  unfold down_from
  exact List.nodup_reverse.mpr (List.nodup_range' lo (hi + 1 - lo))

theorem mem_down_from (hi lo x : Nat) : x ∈ down_from hi lo ↔ lo ≤ x ∧ x ≤ hi := by
  unfold down_from
  rw [List.mem_reverse, List.mem_range'_1]
  omega

/-- The loop `for (i = 0; i < n; ++i) for (j = 0; j < i; ++j) M(j,i) = M(i,j)` copies the
lower triangle onto the upper one. -/
theorem symmetric_fold (o : Ops α) (n : Nat) (M : Matrix α) (hM : M.IsSquare n) :
    ∀ m, m ≤ n →
      ((List.range m).foldl (fun BM i =>
        (List.range i).foldl (fun BM j => BM.set j i (BM.get o i j)) BM) M).IsSquare n ∧
      ∀ r s, r < n → s < n →
        ((List.range m).foldl (fun BM i =>
          (List.range i).foldl (fun BM j => BM.set j i (BM.get o i j)) BM) M).get o r s
          = if r < s ∧ s < m then M.get o s r else M.get o r s := by
  have inner : ∀ (i : Nat), i < n → ∀ (M0 : Matrix α), M0.IsSquare n → ∀ l, l ≤ i →
      ((List.range l).foldl (fun BM j => BM.set j i (BM.get o i j)) M0).IsSquare n ∧
      ∀ r s, r < n → s < n →
        ((List.range l).foldl (fun BM j => BM.set j i (BM.get o i j)) M0).get o r s
          = if s = i ∧ r < l then M0.get o i r else M0.get o r s := by
    intro i hi M0 hM0 l
    induction l with
    | zero =>
      intro _
      exact ⟨hM0, fun r s _ _ => by simp⟩
    | succ l ih =>
      intro hl
      obtain ⟨ih1, ih2⟩ := ih (by omega)
      rw [List.range_succ, List.foldl_append]
      simp only [List.foldl_cons, List.foldl_nil]
      generalize (List.range l).foldl (fun BM j => BM.set j i (BM.get o i j)) M0 = cur
        at ih1 ih2 ⊢
      refine ⟨Matrix.isSquare_set cur n l i _ ih1, ?_⟩
      intro r s hr hs
      rw [Matrix.cell_get_set o cur n l i r s _ ih1 (by omega) hi hs, ih2 i l hi (by omega),
        ih2 r s hr hs]
      by_cases h1 : r = l ∧ s = i
      · obtain ⟨rfl, rfl⟩ := h1
        rw [if_pos ⟨rfl, rfl⟩, if_neg (by omega), if_pos ⟨rfl, by omega⟩]
      · rw [if_neg h1]
        by_cases h2 : s = i ∧ r < l
        · rw [if_pos h2, if_pos ⟨h2.1, by omega⟩]
        · rw [if_neg h2, if_neg (by omega)]
  intro m
  induction m with
  | zero =>
    intro _
    exact ⟨hM, fun r s _ _ => by simp⟩
  | succ m ih =>
    intro hm
    obtain ⟨ih1, ih2⟩ := ih (by omega)
    rw [List.range_succ, List.foldl_append]
    simp only [List.foldl_cons, List.foldl_nil]
    generalize (List.range m).foldl (fun BM i =>
      (List.range i).foldl (fun BM j => BM.set j i (BM.get o i j)) BM) M = cur at ih1 ih2 ⊢
    obtain ⟨h1, h2⟩ := inner m (by omega) cur ih1 m (le_refl _)
    refine ⟨h1, ?_⟩
    intro r s hr hs
    rw [h2 r s hr hs]
    by_cases h3 : s = m ∧ r < m
    · obtain ⟨rfl, h4⟩ := h3
      rw [if_pos ⟨rfl, h4⟩, ih2 s r hs hr, if_neg (by omega), if_pos (by omega)]
    · rw [if_neg h3, ih2 r s hr hs]
      by_cases h4 : r < s ∧ s < m
      · rw [if_pos h4, if_pos (by omega)]
      · rw [if_neg h4, if_neg (by omega)]

end matrix_cells

end Geom.SL

namespace Geom.SL

/-! ## The entries of the matrix built by `make_bezout_matrix` -/

section bezout_entries

variable {K R : Type} [Field K] [DecidableEq K] [CommRing R]

theorem Polynomial.coefficient_eq_get {α : Type} (o : Ops α) (p : List α) (i : Nat) :
    Polynomial.coefficient o p i = Polynomial.get o p i := by
  unfold Polynomial.coefficient
  by_cases h : i > Polynomial.max_degree p
  · rw [if_pos h]
    by_cases hp : p.length ≤ i
    · rw [Polynomial.get_of_le o p i hp]
    · unfold Polynomial.max_degree at h
      omega
  · rw [if_neg h]

theorem monomial_value_zero (X : Nat → R) : ∀ (N i : Nat),
    monomial_value X i (multi_index_zero N) = 1 := by
  intro N
  induction N with
  | zero => intro i; rfl
  | succ N ih =>
    intro i
    show X i ^ 0 * monomial_value X (i + 1) (multi_index_zero N) = 1
    rw [ih, pow_zero, mul_one]

/-- Evaluation respects the operators `MultiPoly<N, CoeffT>` offers to a matrix. -/
theorem multi_ops_hom (φ : K →+* R) (X : Nat → R) (N i : Nat) :
    (MultiPoly.ops (numOps K) N).Hom (mvpoly.sem (numOps K) φ X N i) where
  map_zero := by
    show mvpoly.sem (numOps K) φ X N i
      (mvpoly.monomial_make_impl (numOps K) N (multi_index_zero N) 0) = 0
    rw [mvpoly.sem_monomial φ X N _ _ i (by simp [multi_index_zero]), φ.map_zero, zero_mul]
  map_one := by
    show mvpoly.sem (numOps K) φ X N i
      (mvpoly.monomial_make_impl (numOps K) N (multi_index_zero N) 1) = 1
    rw [mvpoly.sem_monomial φ X N _ _ i (by simp [multi_index_zero]), φ.map_one, one_mul,
      monomial_value_zero]
  map_add := (mvpoly.mv_ops_hom (numOps K) φ (numOps_hom_map φ) X N i).map_add
  map_sub := (mvpoly.mv_ops_hom (numOps K) φ (numOps_hom_map φ) X N i).map_sub
  map_neg := (mvpoly.mv_ops_hom (numOps K) φ (numOps_hom_map φ) X N i).map_neg
  map_mul := (mvpoly.mv_ops_hom (numOps K) φ (numOps_hom_map φ) X N i).map_mul
  eq_sound := (mvpoly.mv_ops_hom (numOps K) φ (numOps_hom_map φ) X N i).eq_sound
  is_zero_sound := by
    intro a h
    have h1 := (mvpoly.mv_ops_hom (numOps K) φ (numOps_hom_map φ) X N i).eq_sound a
      (MultiPoly.zero (numOps K) N) h
    rw [h1]
    show mvpoly.sem (numOps K) φ X N i
      (mvpoly.monomial_make_impl (numOps K) N (multi_index_zero N) 0) = 0
    rw [mvpoly.sem_monomial φ X N _ _ i (by simp [multi_index_zero]), φ.map_zero, zero_mul]

theorem bez_cell_sum (T : Nat → Nat → R) (n r s : Nat) (hr : r < n) (hs : s < n) :
    ((down_from n 1).map (fun i =>
      ((down_from n i).map (fun j => if r = n - i ∧ s = n - j then T i j else 0)).sum)).sum
      = if s ≤ r then T (n - r) (n - s) else 0 := by
  rw [sum_map_single (down_from n 1) (down_from_nodup n 1) _ (n - r)]
  · rw [if_pos ((mem_down_from n 1 (n - r)).mpr (by omega))]
    rw [sum_map_single (down_from n (n - r)) (down_from_nodup n (n - r)) _ (n - s)]
    · by_cases h : s ≤ r
      · rw [if_pos ((mem_down_from n (n - r) (n - s)).mpr (by omega)), if_pos h,
          if_pos (by omega)]
      · rw [if_neg h, if_neg]
        intro hm
        have := (mem_down_from n (n - r) (n - s)).mp hm
        omega
    · intro j hj hne
      have := (mem_down_from n (n - r) j).mp hj
      rw [if_neg (by omega)]
  · intro i hi hne
    have := (mem_down_from n 1 i).mp hi
    apply List.sum_eq_zero
    intro y hy
    obtain ⟨j, _, rfl⟩ := List.mem_map.mp hy
    rw [if_neg (by omega)]

theorem sem_bezout_term (ψ : mvpoly K 2 → R) (hψ : (mvpoly.ops (numOps K) 2).Hom ψ)
    (p q : mvpoly K 3) (i j k : Nat) :
    ψ (bezout_term p q i j k)
      = ψ (Polynomial.coefficient (mvpoly.ops (numOps K) 2) p (j - 1 + k))
          * ψ (Polynomial.coefficient (mvpoly.ops (numOps K) 2) q (i - k))
        - ψ (Polynomial.coefficient (mvpoly.ops (numOps K) 2) p (i - k))
          * ψ (Polynomial.coefficient (mvpoly.ops (numOps K) 2) q (j - 1 + k)) := by
  unfold bezout_term
  simp only
  rw [hψ.map_sub, hψ.map_mul, hψ.map_mul]

theorem coefficient_above (ψ : mvpoly K 2 → R) (hψ : (mvpoly.ops (numOps K) 2).Hom ψ)
    (p : mvpoly K 3) (n a : Nat) (hn : Polynomial.real_degree (mvpoly.ops (numOps K) 2) p ≤ n)
    (ha : n < a) : ψ (Polynomial.coefficient (mvpoly.ops (numOps K) 2) p a) = 0 := by
  rw [Polynomial.coefficient_eq_get]
  exact Polynomial.map_get_above _ ψ hψ p a (by omega)

/-- The stored matrix is square of order `n = max(deg p, deg q)` and its cell `(r, s)` holds
the bezoutian coefficient `beta(n-1-r, n-1-s)` of the coefficient sequences of `p` and `q`. -/
theorem make_bezout_matrix_entry (ψ : mvpoly K 2 → R)
    (hψ : (mvpoly.ops (numOps K) 2).Hom ψ) (p q : mvpoly K 3) (n : Nat)
    (hn : n = max (Polynomial.real_degree (mvpoly.ops (numOps K) 2) p)
      (Polynomial.real_degree (mvpoly.ops (numOps K) 2) q)) :
    (make_bezout_matrix p q).IsSquare n ∧ ∀ r s, r < n → s < n →
      ψ ((make_bezout_matrix p q).get (MultiPoly.ops (numOps K) 2) r s)
        = bez_beta (fun a => ψ (Polynomial.coefficient (mvpoly.ops (numOps K) 2) p a))
            (fun a => ψ (Polynomial.coefficient (mvpoly.ops (numOps K) 2) q a))
            (n - 1 - r) (n - 1 - s) := by
  have hP := fun a (h : n < a) => coefficient_above ψ hψ p n a (by omega) h
  have hQ := fun a (h : n < a) => coefficient_above ψ hψ q n a (by omega) h
  have L3 : ∀ i j, 1 ≤ i → i ≤ n → 1 ≤ j → j ≤ n → ∀ (ks : List Nat) (M : Matrix (mvpoly K 2)),
      M.IsSquare n →
      (ks.foldl (fun BM k => BM.set (n - i) (n - j)
        (MultiPoly.add (numOps K) 2 (BM.get (MultiPoly.ops (numOps K) 2) (n - i) (n - j))
          (bezout_term p q i j k))) M).IsSquare n ∧
      ∀ r s, r < n → s < n →
        ψ ((ks.foldl (fun BM k => BM.set (n - i) (n - j)
          (MultiPoly.add (numOps K) 2 (BM.get (MultiPoly.ops (numOps K) 2) (n - i) (n - j))
            (bezout_term p q i j k))) M).get (MultiPoly.ops (numOps K) 2) r s)
          = ψ (M.get (MultiPoly.ops (numOps K) 2) r s)
            + (ks.map (fun k => if r = n - i ∧ s = n - j
                then ψ (bezout_term p q i j k) else 0)).sum := by
    intro i j hi1 hi2 hj1 hj2 ks
    apply fold_cells (MultiPoly.ops (numOps K) 2) ψ n _
      (fun k r s => if r = n - i ∧ s = n - j then ψ (bezout_term p q i j k) else 0) ks
    intro k _ M hM
    refine ⟨Matrix.isSquare_set M n _ _ _ hM, ?_⟩
    intro r s hr hs
    rw [Matrix.cell_get_set _ M n (n - i) (n - j) r s _ hM (by omega) (by omega) hs]
    by_cases h : r = n - i ∧ s = n - j
    · rw [if_pos h, if_pos h, h.1, h.2]
      exact hψ.map_add _ _
    · rw [if_neg h, if_neg h, add_zero]
  have L2 : ∀ i, 1 ≤ i → i ≤ n → ∀ (js : List Nat), (∀ j ∈ js, 1 ≤ j ∧ j ≤ n) →
      ∀ (M : Matrix (mvpoly K 2)), M.IsSquare n →
      (js.foldl (fun BM j => (List.range' 1 (min i (n + 1 - j))).foldl
        (fun BM k => BM.set (n - i) (n - j)
          (MultiPoly.add (numOps K) 2 (BM.get (MultiPoly.ops (numOps K) 2) (n - i) (n - j))
            (bezout_term p q i j k))) BM) M).IsSquare n ∧
      ∀ r s, r < n → s < n →
        ψ ((js.foldl (fun BM j => (List.range' 1 (min i (n + 1 - j))).foldl
          (fun BM k => BM.set (n - i) (n - j)
            (MultiPoly.add (numOps K) 2 (BM.get (MultiPoly.ops (numOps K) 2) (n - i) (n - j))
              (bezout_term p q i j k))) BM) M).get (MultiPoly.ops (numOps K) 2) r s)
          = ψ (M.get (MultiPoly.ops (numOps K) 2) r s)
            + (js.map (fun j => if r = n - i ∧ s = n - j
                then bez_T (fun a => ψ (Polynomial.coefficient (mvpoly.ops (numOps K) 2) p a))
                  (fun a => ψ (Polynomial.coefficient (mvpoly.ops (numOps K) 2) q a)) n i j
                else 0)).sum := by
    intro i hi1 hi2 js hjs
    apply fold_cells (MultiPoly.ops (numOps K) 2) ψ n _
      (fun j r s => if r = n - i ∧ s = n - j
        then bez_T (fun a => ψ (Polynomial.coefficient (mvpoly.ops (numOps K) 2) p a))
          (fun a => ψ (Polynomial.coefficient (mvpoly.ops (numOps K) 2) q a)) n i j
        else 0) js
    intro j hj M hM
    obtain ⟨h1, h2⟩ := L3 i j hi1 hi2 (hjs j hj).1 (hjs j hj).2
      (List.range' 1 (min i (n + 1 - j))) M hM
    refine ⟨h1, ?_⟩
    intro r s hr hs
    rw [h2 r s hr hs, sum_map_ite_const]
    simp only [sem_bezout_term ψ hψ]
    rfl
  have L1 : ∀ (is : List Nat), (∀ i ∈ is, 1 ≤ i ∧ i ≤ n) →
      ∀ (M : Matrix (mvpoly K 2)), M.IsSquare n →
      (is.foldl (fun BM i => (down_from n i).foldl
        (fun BM j => (List.range' 1 (min i (n + 1 - j))).foldl
          (fun BM k => BM.set (n - i) (n - j)
            (MultiPoly.add (numOps K) 2 (BM.get (MultiPoly.ops (numOps K) 2) (n - i) (n - j))
              (bezout_term p q i j k))) BM) BM) M).IsSquare n ∧
      ∀ r s, r < n → s < n →
        ψ ((is.foldl (fun BM i => (down_from n i).foldl
          (fun BM j => (List.range' 1 (min i (n + 1 - j))).foldl
            (fun BM k => BM.set (n - i) (n - j)
              (MultiPoly.add (numOps K) 2 (BM.get (MultiPoly.ops (numOps K) 2) (n - i) (n - j))
                (bezout_term p q i j k))) BM) BM) M).get (MultiPoly.ops (numOps K) 2) r s)
          = ψ (M.get (MultiPoly.ops (numOps K) 2) r s)
            + (is.map (fun i => ((down_from n i).map (fun j => if r = n - i ∧ s = n - j
                then bez_T (fun a => ψ (Polynomial.coefficient (mvpoly.ops (numOps K) 2) p a))
                  (fun a => ψ (Polynomial.coefficient (mvpoly.ops (numOps K) 2) q a)) n i j
                else 0)).sum)).sum := by
    intro is his
    apply fold_cells (MultiPoly.ops (numOps K) 2) ψ n _
      (fun i r s => ((down_from n i).map (fun j => if r = n - i ∧ s = n - j
        then bez_T (fun a => ψ (Polynomial.coefficient (mvpoly.ops (numOps K) 2) p a))
          (fun a => ψ (Polynomial.coefficient (mvpoly.ops (numOps K) 2) q a)) n i j
        else 0)).sum) is
    intro i hi M hM
    exact L2 i (his i hi).1 (his i hi).2 (down_from n i)
      (fun j hj => by have := (mem_down_from n i j).mp hj; have := (his i hi).1; omega) M hM
  obtain ⟨h1, h2⟩ := L1 (down_from n 1) (fun i hi => (mem_down_from n 1 i).mp hi)
    (Matrix.mk' (MultiPoly.ctor0 (numOps K) 2) n n) (Matrix.isSquare_mk' _ n)
  obtain ⟨h3, h4⟩ := symmetric_fold (MultiPoly.ops (numOps K) 2) n _ h1 n (le_refl _)
  have hmk : make_bezout_matrix p q
      = (List.range n).foldl (fun BM i => (List.range i).foldl
          (fun BM j => BM.set j i (BM.get (MultiPoly.ops (numOps K) 2) i j)) BM)
        ((down_from n 1).foldl (fun BM i => (down_from n i).foldl
          (fun BM j => (List.range' 1 (min i (n + 1 - j))).foldl
            (fun BM k => BM.set (n - i) (n - j)
              (MultiPoly.add (numOps K) 2
                (BM.get (MultiPoly.ops (numOps K) 2) (n - i) (n - j))
                (bezout_term p q i j k))) BM) BM)
          (Matrix.mk' (MultiPoly.ctor0 (numOps K) 2) n n)) := by
    rw [hn]; rfl
  rw [hmk]
  refine ⟨h3, ?_⟩
  intro r s hr hs
  have hval : ∀ r s, r < n → s < n → s ≤ r →
      ψ (((down_from n 1).foldl (fun BM i => (down_from n i).foldl
          (fun BM j => (List.range' 1 (min i (n + 1 - j))).foldl
            (fun BM k => BM.set (n - i) (n - j)
              (MultiPoly.add (numOps K) 2
                (BM.get (MultiPoly.ops (numOps K) 2) (n - i) (n - j))
                (bezout_term p q i j k))) BM) BM)
          (Matrix.mk' (MultiPoly.ctor0 (numOps K) 2) n n)).get
            (MultiPoly.ops (numOps K) 2) r s)
        = bez_D (fun a => ψ (Polynomial.coefficient (mvpoly.ops (numOps K) 2) p a))
            (fun a => ψ (Polynomial.coefficient (mvpoly.ops (numOps K) 2) q a))
            (n - 1 - r) (n - 1 - r + (n - 1 - s) + 1) := by
    intro r s hr hs hsr
    rw [h2 r s hr hs, bez_cell_sum _ n r s hr hs, if_pos hsr, Matrix.get_mk' _ _ n r s hr hs,
      ctor0_eq_zero, hψ.map_zero, zero_add,
      bez_T_eq_D _ _ n (n - r) (n - s) hP hQ (by omega) (by omega) (by omega)]
    have e1 : n - r - 1 = n - 1 - r := by omega
    have e2 : n - r + (n - s) - 1 = n - 1 - r + (n - 1 - s) + 1 := by omega
    rw [e1, e2]
  rw [h4 r s hr hs]
  unfold bez_beta
  by_cases hrs : r < s
  · rw [if_pos ⟨hrs, hs⟩, hval s r hs hr (by omega)]
    have e1 : min (n - 1 - r) (n - 1 - s) = n - 1 - s := by omega
    have e2 : n - 1 - s + (n - 1 - r) + 1 = n - 1 - r + (n - 1 - s) + 1 := by omega
    rw [e1, e2]
  · rw [if_neg (by omega), hval r s hr hs (by omega)]
    have e1 : min (n - 1 - r) (n - 1 - s) = n - 1 - r := by omega
    rw [e1]

end bezout_entries

end Geom.SL

namespace Geom.SL

/-! ## The determinant of the Bezout matrix vanishes on the curve -/

section implicit_vanishes

variable {K R : Type} [Field K] [DecidableEq K] [CommRing R]

/-- A square matrix that kills a vector with an entry equal to one has determinant zero. -/
theorem det_eq_zero_of_mulVec (n : Nat) (A : MMatrix (Fin n) (Fin n) R) (v : Fin n → R)
    (k : Fin n) (hk : v k = 1) (h : Matrix.mulVec A v = 0) : Matrix.det A = 0 := by
  have h1 : Matrix.mulVec (Matrix.adjugate A * A) v = 0 := by
    rw [← Matrix.mulVec_mulVec, h, Matrix.mulVec_zero]
  rw [Matrix.adjugate_mul, Matrix.smul_mulVec_assoc, Matrix.one_mulVec] at h1
  have h2 := congrFun h1 k
  simpa [hk] using h2

theorem Polynomial.sem_eq_sum_coefficient {α : Type} (o : Ops α) (ψ : α → R) (hψ : o.Hom ψ)
    (x : R) (p : List α) (n : Nat) (hn : Polynomial.real_degree o p ≤ n) :
    Polynomial.sem o ψ x p
      = ∑ a ∈ Finset.range (n + 1), ψ (Polynomial.coefficient o p a) * x ^ a := by
  rw [Polynomial.sem_eq_sum o ψ hψ.map_zero x p (max p.length (n + 1)) (le_max_left _ _)]
  symm
  rw [Finset.sum_subset (Finset.range_mono (le_max_right p.length (n + 1)))]
  · apply Finset.sum_congr rfl
    intro a _
    rw [Polynomial.coefficient_eq_get]
  · intro a _ ha
    have : ¬ a < n + 1 := fun h => ha (Finset.mem_range.mpr h)
    rw [Polynomial.coefficient_eq_get, Polynomial.map_get_above o ψ hψ p a (by omega), zero_mul]

/-- If the two polynomials have a common root `t` (as polynomials in the outermost variable,
their coefficients read through `ψ`), the determinant of their Bezout matrix maps to zero. -/
theorem bezout_det_zero (ψ : mvpoly K 2 → R) (hψ : (mvpoly.ops (numOps K) 2).Hom ψ)
    (p q : mvpoly K 3) (n : Nat)
    (hn : n = max (Polynomial.real_degree (mvpoly.ops (numOps K) 2) p)
      (Polynomial.real_degree (mvpoly.ops (numOps K) 2) q))
    (hn1 : 1 ≤ n) (t : R)
    (hp : Polynomial.sem (mvpoly.ops (numOps K) 2) ψ t p = 0)
    (hq : Polynomial.sem (mvpoly.ops (numOps K) 2) ψ t q = 0) :
    Matrix.det ((make_bezout_matrix p q).toMatrix (MultiPoly.ops (numOps K) 2) ψ n) = 0 := by
  obtain ⟨_, hent⟩ := make_bezout_matrix_entry ψ hψ p q n hn
  have hP := fun a (h : n < a) => coefficient_above ψ hψ p n a (by omega) h
  have hQ := fun a (h : n < a) => coefficient_above ψ hψ q n a (by omega) h
  rw [Polynomial.sem_eq_sum_coefficient _ ψ hψ t p n (by omega)] at hp
  rw [Polynomial.sem_eq_sum_coefficient _ ψ hψ t q n (by omega)] at hq
  have hrow := bez_row_root
    (fun a => ψ (Polynomial.coefficient (mvpoly.ops (numOps K) 2) p a))
    (fun a => ψ (Polynomial.coefficient (mvpoly.ops (numOps K) 2) q a)) n t hP hQ hp hq
  apply det_eq_zero_of_mulVec n _ (fun s : Fin n => t ^ (n - 1 - (s : Nat))) ⟨n - 1, by omega⟩
  · simp
  · funext r
    show ∑ s : Fin n, ψ ((make_bezout_matrix p q).get (MultiPoly.ops (numOps K) 2) r s)
      * t ^ (n - 1 - (s : Nat)) = 0
    rw [Fin.sum_univ_eq_sum_range
      (fun s => ψ ((make_bezout_matrix p q).get (MultiPoly.ops (numOps K) 2) r s)
        * t ^ (n - 1 - s)) n]
    have e : ∑ s ∈ Finset.range n,
        ψ ((make_bezout_matrix p q).get (MultiPoly.ops (numOps K) 2) r s) * t ^ (n - 1 - s)
        = ∑ s ∈ Finset.range n,
          bez_beta (fun a => ψ (Polynomial.coefficient (mvpoly.ops (numOps K) 2) p a))
            (fun a => ψ (Polynomial.coefficient (mvpoly.ops (numOps K) 2) q a))
            (n - 1 - r) (n - 1 - s) * t ^ (n - 1 - s) := by
      apply Finset.sum_congr rfl
      intro s hs
      rw [hent r s r.2 (Finset.mem_range.mp hs)]
    rw [e, Finset.sum_range_reflect
      (fun j => bez_beta (fun a => ψ (Polynomial.coefficient (mvpoly.ops (numOps K) 2) p a))
        (fun a => ψ (Polynomial.coefficient (mvpoly.ops (numOps K) 2) q a))
        (n - 1 - r) j * t ^ j) n]
    exact hrow (n - 1 - r)

/-- Evaluation of a coefficient vector is evaluation of the polynomial it denotes. -/
theorem sem_eq_eval₂ (φ : K →+* R) (t : R) (l : List K) :
    Polynomial.sem (numOps K) φ t l = Polynomial.eval₂ φ t (toPoly l) := by
  unfold toPoly Polynomial.sem
  rw [Polynomial.eval₂_finset_sum]
  apply Finset.sum_congr rfl
  intro k _
  rw [Polynomial.eval₂_mul, Polynomial.eval₂_C, Polynomial.eval₂_pow, Polynomial.eval₂_X]

/-- Both vectors of a basis with outer product `(F, G, 1)` are moving lines that follow the
curve `(F, G)`. -/
theorem crossed_moving_line (F G : Polynomial K) (b : basis_type K) (hc : Crossed F G b) :
    toPoly b.b0.c0 * F + toPoly b.b0.c1 * G + toPoly b.b0.c2 = 0 ∧
    toPoly b.b1.c0 * F + toPoly b.b1.c1 * G + toPoly b.b1.c2 = 0 := by
  constructor
  · linear_combination (-(toPoly b.b0.c0)) * hc.x0 - toPoly b.b0.c1 * hc.x1
      - toPoly b.b0.c2 * hc.x2
  · linear_combination (-(toPoly b.b1.c0)) * hc.x0 - toPoly b.b1.c1 * hc.x1
      - toPoly b.b1.c2 * hc.x2

/-- The trivariate polynomial of a moving line vanishes at `(t, f(t), g(t))`. -/
theorem sem_moving_line (φ : K →+* R) (X : Nat → R) (f g : List K) (v : poly_vector_type K)
    (hv : toPoly v.c0 * toPoly f + toPoly v.c1 * toPoly g + toPoly v.c2 = 0)
    (h1 : X 1 = Polynomial.sem (numOps K) φ (X 0) f)
    (h2 : X 2 = Polynomial.sem (numOps K) φ (X 0) g) :
    mvpoly.sem (numOps K) φ X 3 0 (basis_to_poly (MultiPoly.ctor0 (numOps K) 3) v) = 0 := by
  rw [sem_basis_to_poly, h1, h2, sem_eq_eval₂, sem_eq_eval₂, sem_eq_eval₂, sem_eq_eval₂,
    sem_eq_eval₂, ← Polynomial.eval₂_mul, ← Polynomial.eval₂_mul, ← Polynomial.eval₂_add,
    ← Polynomial.eval₂_add, hv, Polynomial.eval₂_zero]

/-- At constant points a polynomial with scalar coefficients takes a constant value. -/
theorem sem_mem_range_C (Y : Nat → Polynomial K) : ∀ (N i : Nat) (p : mvpoly K N),
    (∀ k, i ≤ k → Y k ∈ (Polynomial.C : K →+* Polynomial K).range) →
    mvpoly.sem (numOps K) Polynomial.C Y N i p ∈ (Polynomial.C : K →+* Polynomial K).range := by
  intro N
  induction N with
  | zero => intro i p _; exact ⟨p, rfl⟩
  | succ N ih =>
    intro i p hY
    show Polynomial.sem _ _ _ _ ∈ _
    unfold Polynomial.sem
    apply Subring.sum_mem
    intro k _
    exact Subring.mul_mem _ (ih (i + 1) _ (fun k hk => hY k (by omega)))
      (Subring.pow_mem _ (hY i (le_refl _)) k)

/-- If the trivariate polynomial of a vector has degree 0 in `t`, the components of the
vector are constants. -/
theorem const_of_real_degree_zero (v : poly_vector_type K)
    (h : Polynomial.real_degree (mvpoly.ops (numOps K) 2)
      (basis_to_poly (MultiPoly.ctor0 (numOps K) 3) v) = 0) :
    toPoly v.c0 ∈ (Polynomial.C : K →+* Polynomial K).range ∧
    toPoly v.c1 ∈ (Polynomial.C : K →+* Polynomial K).range ∧
    toPoly v.c2 ∈ (Polynomial.C : K →+* Polynomial K).range := by
  have key : ∀ x y : K,
      toPoly v.c0 * Polynomial.C x + toPoly v.c1 * Polynomial.C y + toPoly v.c2
        ∈ (Polynomial.C : K →+* Polynomial K).range := by
    intro x y
    have hs := sem_basis_to_poly (Polynomial.C : K →+* Polynomial K)
      (fun k => if k = 0 then Polynomial.X else if k = 1 then Polynomial.C x
        else Polynomial.C y) v
    have hs' : toPoly v.c0 * Polynomial.C x + toPoly v.c1 * Polynomial.C y + toPoly v.c2
        = mvpoly.sem (numOps K) Polynomial.C
          (fun k => if k = 0 then Polynomial.X else if k = 1 then Polynomial.C x
            else Polynomial.C y) 3 0 (basis_to_poly (MultiPoly.ctor0 (numOps K) 3) v) := by
      rw [hs]; rfl
    rw [hs']
    show Polynomial.sem (mvpoly.ops (numOps K) 2) _ _ _ ∈ _
    rw [Polynomial.sem_eq_sum_coefficient _ _
      (mvpoly.mv_ops_hom (numOps K) _ (numOps_hom_map Polynomial.C) _ 2 1) _ _ 0 (by omega)]
    simp only [zero_add, Finset.sum_range_one, pow_zero, mul_one]
    apply sem_mem_range_C _ 2 1
    intro k hk
    by_cases h1 : k = 1
    · rw [if_neg (by omega), if_pos h1]; exact ⟨x, rfl⟩
    · rw [if_neg (by omega), if_neg h1]; exact ⟨y, rfl⟩
  have k00 := key 0 0
  have k10 := key 1 0
  have k01 := key 0 1
  simp only [map_zero, map_one, mul_zero, mul_one, add_zero, zero_add] at k00 k10 k01
  refine ⟨?_, ?_, k00⟩
  · have := Subring.sub_mem _ k10 k00
    simpa using this
  · have := Subring.sub_mem _ k01 k00
    simpa using this

/-- The Bezout matrix of the two moving lines of a curve of degree `n >= 1` has order at
least one. -/
theorem bezout_order_pos (f g : List K) (b : basis_type K)
    (hc : Crossed (toPoly f) (toPoly g) b)
    (hn : 1 ≤ max (Polynomial.real_degree (numOps K) f) (Polynomial.real_degree (numOps K) g)) :
    1 ≤ max (Polynomial.real_degree (mvpoly.ops (numOps K) 2)
          (basis_to_poly (MultiPoly.ctor0 (numOps K) 3) b.b0))
        (Polynomial.real_degree (mvpoly.ops (numOps K) 2)
          (basis_to_poly (MultiPoly.ctor0 (numOps K) 3) b.b1)) := by
  by_contra hcon
  have h0 : Polynomial.real_degree (mvpoly.ops (numOps K) 2)
      (basis_to_poly (MultiPoly.ctor0 (numOps K) 3) b.b0) = 0 := by omega
  have h1 : Polynomial.real_degree (mvpoly.ops (numOps K) 2)
      (basis_to_poly (MultiPoly.ctor0 (numOps K) 3) b.b1) = 0 := by omega
  obtain ⟨a0, a1, a2⟩ := const_of_real_degree_zero b.b0 h0
  obtain ⟨c0, c1, c2⟩ := const_of_real_degree_zero b.b1 h1
  have hF : toPoly f ∈ (Polynomial.C : K →+* Polynomial K).range := by
    rw [← hc.x0]
    exact Subring.sub_mem _ (Subring.mul_mem _ a1 c2) (Subring.mul_mem _ a2 c1)
  have hG : toPoly g ∈ (Polynomial.C : K →+* Polynomial K).range := by
    rw [← hc.x1]
    exact Subring.sub_mem _ (Subring.mul_mem _ a2 c0) (Subring.mul_mem _ a0 c2)
  have dF : Polynomial.real_degree (numOps K) f = 0 := by
    obtain ⟨c, hc'⟩ := hF
    rw [← natDegree_toPoly, ← hc', Polynomial.natDegree_C]
  have dG : Polynomial.real_degree (numOps K) g = 0 := by
    obtain ⟨c, hc'⟩ := hG
    rw [← natDegree_toPoly, ← hc', Polynomial.natDegree_C]
  rw [dF, dG] at hn
  simp at hn

/-- The value of a polynomial at `X_{i+1}, X_{i+2}, ...` is its value at the shifted point. -/
theorem mvpoly.sem_shift {α : Type} (o : Ops α) (φ : α → R) (X : Nat → R) :
    ∀ (N i : Nat) (p : mvpoly α N),
      mvpoly.sem o φ X N (i + 1) p = mvpoly.sem o φ (fun k => X (k + 1)) N i p := by
  intro N
  induction N with
  | zero => intro i p; rfl
  | succ N ih =>
    intro i p
    show Polynomial.sem _ _ _ _ = Polynomial.sem _ _ _ _
    unfold Polynomial.sem
    apply Finset.sum_congr rfl
    intro k _
    rw [ih]

/-- The determinant returned for the Bezout matrix of the two moving lines of a basis with
outer product `(f, g, 1)` vanishes at `(x, y) = (f(t), g(t))`. -/
theorem implicit_point_zero (φ : K →+* R) (t x y : R) (f g : List K) (b : basis_type K)
    (hc : Crossed (toPoly f) (toPoly g) b)
    (hpos : 1 ≤ max (Polynomial.real_degree (mvpoly.ops (numOps K) 2)
          (basis_to_poly (MultiPoly.ctor0 (numOps K) 3) b.b0))
        (Polynomial.real_degree (mvpoly.ops (numOps K) 2)
          (basis_to_poly (MultiPoly.ctor0 (numOps K) 3) b.b1)))
    (hx : x = Polynomial.sem (numOps K) φ t f) (hy : y = Polynomial.sem (numOps K) φ t g) :
    (determinant_minor (MultiPoly.ops (numOps K) 2)
      (make_bezout_matrix (basis_to_poly (MultiPoly.ctor0 (numOps K) 3) b.b0)
        (basis_to_poly (MultiPoly.ctor0 (numOps K) 3) b.b1))).map
      (mvpoly.sem (numOps K) φ (fun k => if k = 0 then x else y) 2 0) = some 0 := by
  have hX1 : (fun k => if k = 0 then t else if k = 1 then x else y) 1
      = Polynomial.sem (numOps K) φ
        ((fun k => if k = 0 then t else if k = 1 then x else y) 0) f := hx
  have hX2 : (fun k => if k = 0 then t else if k = 1 then x else y) 2
      = Polynomial.sem (numOps K) φ
        ((fun k => if k = 0 then t else if k = 1 then x else y) 0) g := hy
  obtain ⟨m0, m1⟩ := crossed_moving_line _ _ b hc
  have z0 := sem_moving_line φ (fun k => if k = 0 then t else if k = 1 then x else y)
    f g b.b0 m0 hX1 hX2
  have z1 := sem_moving_line φ (fun k => if k = 0 then t else if k = 1 then x else y)
    f g b.b1 m1 hX1 hX2
  have hψ := mvpoly.mv_ops_hom (numOps K) φ (numOps_hom_map φ)
    (fun k => if k = 0 then t else if k = 1 then x else y) 2 1
  obtain ⟨hsq, _⟩ := make_bezout_matrix_entry _ hψ
    (basis_to_poly (MultiPoly.ctor0 (numOps K) 3) b.b0)
    (basis_to_poly (MultiPoly.ctor0 (numOps K) 3) b.b1) _ rfl
  have hdet := bezout_det_zero _ hψ
    (basis_to_poly (MultiPoly.ctor0 (numOps K) 3) b.b0)
    (basis_to_poly (MultiPoly.ctor0 (numOps K) 3) b.b1) _ rfl hpos t z0 z1
  have hex := determinant_minor_hom (MultiPoly.ops (numOps K) 2) _
    (multi_ops_hom φ (fun k => if k = 0 then t else if k = 1 then x else y) 2 1)
    _ _ hpos hsq.2.1
  rw [hdet] at hex
  have hfun : (mvpoly.sem (numOps K) φ (fun k => if k = 0 then x else y) 2 0)
      = (mvpoly.sem (numOps K) φ
          (fun k => if k = 0 then t else if k = 1 then x else y) 2 1) := by
    funext F
    rw [mvpoly.sem_shift]
    congr 1
    funext k
    cases k with
    | zero => rfl
    | succ k => simp
  rw [hfun]
  exact hex

/-- The pipeline returns a polynomial `F`, the determinant of a Bezout matrix of order at
least one, whose value at `(f(t), g(t))` is zero, for `t` in any commutative ring into which
the coefficients are mapped. -/
theorem implicit_pipeline_zero (φ : K →+* R) (f g : List K)
    (hn : 1 ≤ max (Polynomial.real_degree (numOps K) f) (Polynomial.real_degree (numOps K) g)) :
    ∃ b F, microbasis f g = some b ∧
      1 ≤ (make_bezout_matrix (basis_to_poly (MultiPoly.ctor0 (numOps K) 3) b.b0)
        (basis_to_poly (MultiPoly.ctor0 (numOps K) 3) b.b1)).columns ∧
      determinant_minor (MultiPoly.ops (numOps K) 2)
        (make_bezout_matrix (basis_to_poly (MultiPoly.ctor0 (numOps K) 3) b.b0)
          (basis_to_poly (MultiPoly.ctor0 (numOps K) 3) b.b1)) = some F ∧
      ∀ (t : R), mvpoly.sem (numOps K) φ
        (fun k => if k = 0 then Polynomial.sem (numOps K) φ t f
          else Polynomial.sem (numOps K) φ t g) 2 0 F = 0 := by
  obtain ⟨b, hb, hc, _⟩ := microbasis_spec f g
  have hpos := bezout_order_pos f g b hc hn
  obtain ⟨hsq, _⟩ := make_bezout_matrix_entry
    (mvpoly.sem (numOps K) φ (fun _ => 0) 2 1)
    (mvpoly.mv_ops_hom (numOps K) φ (numOps_hom_map φ) (fun _ => 0) 2 1)
    (basis_to_poly (MultiPoly.ctor0 (numOps K) 3) b.b0)
    (basis_to_poly (MultiPoly.ctor0 (numOps K) 3) b.b1) _ rfl
  have hcol := hsq.2.1
  have hex := implicit_point_zero φ 0 (Polynomial.sem (numOps K) φ 0 f)
    (Polynomial.sem (numOps K) φ 0 g) f g b hc hpos rfl rfl
  cases hF : determinant_minor (MultiPoly.ops (numOps K) 2)
      (make_bezout_matrix (basis_to_poly (MultiPoly.ctor0 (numOps K) 3) b.b0)
        (basis_to_poly (MultiPoly.ctor0 (numOps K) 3) b.b1)) with
  | none => rw [hF] at hex; simp at hex
  | some F =>
    refine ⟨b, F, hb, by rw [hcol]; exact hpos, hF, ?_⟩
    intro t
    have h := implicit_point_zero φ t (Polynomial.sem (numOps K) φ t f)
      (Polynomial.sem (numOps K) φ t g) f g b hc hpos rfl rfl
    rw [hF, Option.map_some'] at h
    exact Option.some.inj h

end implicit_vanishes

end Geom.SL

namespace Geom.SL

section implicit_claim

variable {K : Type} [Field K] [DecidableEq K]

theorem Polynomial.call_eq_sem (q : List K) (x : K) :
    Polynomial.call (numOps K) q x = Polynomial.sem (numOps K) (RingHom.id K) x q := by
  rw [Polynomial.call_eq_evaluate, mvpoly.evaluate_eq_sem]
  rfl

theorem MultiPoly.multi_call_eq_sem (N : Nat) (p : mvpoly K N) (X : Nat → K) :
    MultiPoly.call (numOps K) N p X = mvpoly.sem (numOps K) (RingHom.id K) X N 0 p := by
  unfold MultiPoly.call
  rw [mvpoly.evaluate_eq_sem]
  rfl

/-- C2: for all univariate polynomials `f`, `g` over a field (exact arithmetic) with
`n = max(deg f, deg g) >= 1`, `microbasis(f, g)` returns a basis `(b0, b1)`; with
`p = basis_to_poly(b0)` and `q = basis_to_poly(b1)` the matrix `make_bezout_matrix(p, q)` has
order at least one, `determinant_minor` returns a polynomial `F` for it, `F(f(t), g(t)) = 0`
for every `t` of the field, and `F` composed with the parametrisation is the zero polynomial
in `t`. -/
theorem implicit_equation_vanishes (f g : mvpoly K 1)
    (hn : 1 ≤ max (Polynomial.real_degree (numOps K) f) (Polynomial.real_degree (numOps K) g)) :
    ∃ b F, microbasis f g = some b ∧
      1 ≤ (make_bezout_matrix (basis_to_poly (MultiPoly.ctor0 (numOps K) 3) b.b0)
        (basis_to_poly (MultiPoly.ctor0 (numOps K) 3) b.b1)).columns ∧
      determinant_minor (MultiPoly.ops (numOps K) 2)
        (make_bezout_matrix (basis_to_poly (MultiPoly.ctor0 (numOps K) 3) b.b0)
          (basis_to_poly (MultiPoly.ctor0 (numOps K) 3) b.b1)) = some F ∧
      (∀ t : K, MultiPoly.call (numOps K) 2 F
        (fun k => if k = 0 then Polynomial.call (numOps K) f t
          else Polynomial.call (numOps K) g t) = 0) ∧
      mvpoly.sem (numOps K) Polynomial.C
        (fun k => if k = 0 then toPoly f else toPoly g) 2 0 F = 0 := by
  obtain ⟨b, F, hb, hcol, hF, h1⟩ := implicit_pipeline_zero (RingHom.id K) f g hn
  obtain ⟨b', F', hb', _, hF', h2⟩ :=
    implicit_pipeline_zero (Polynomial.C : K →+* Polynomial K) f g hn
  have eb : b' = b := Option.some.inj (hb'.symm.trans hb)
  subst eb
  have eF : F' = F := Option.some.inj (hF'.symm.trans hF)
  subst eF
  refine ⟨b', F', hb, hcol, hF, ?_, h2 Polynomial.X⟩
  intro t
  rw [MultiPoly.multi_call_eq_sem, Polynomial.call_eq_sem, Polynomial.call_eq_sem]
  exact h1 t

end implicit_claim

/-- The pipeline on the nodal cubic `f = t^2 - 1`, `g = t^3 - t` returns
`x^3 + x^2 - y^2`. -/
theorem implicit_equation_nodal_cubic :
    implicit_equation ([-1, 0, 1] : List ℚ) ([0, -1, 0, 1] : List ℚ)
      = some ([[0, 0, -1], [0, 0], [1], [1]] : List (List ℚ)) := by
  with_unfolding_all decide

/-- C2, instance: the nodal cubic `f = t^2 - 1`, `g = t^3 - t` over the rationals. -/
theorem implicit_equation_vanishes_witness :
    1 ≤ max (Polynomial.real_degree (numOps ℚ) ([-1, 0, 1] : List ℚ))
        (Polynomial.real_degree (numOps ℚ) ([0, -1, 0, 1] : List ℚ)) ∧
    ∃ b F, microbasis ([-1, 0, 1] : List ℚ) ([0, -1, 0, 1] : List ℚ) = some b ∧
      1 ≤ (make_bezout_matrix (basis_to_poly (MultiPoly.ctor0 (numOps ℚ) 3) b.b0)
        (basis_to_poly (MultiPoly.ctor0 (numOps ℚ) 3) b.b1)).columns ∧
      determinant_minor (MultiPoly.ops (numOps ℚ) 2)
        (make_bezout_matrix (basis_to_poly (MultiPoly.ctor0 (numOps ℚ) 3) b.b0)
          (basis_to_poly (MultiPoly.ctor0 (numOps ℚ) 3) b.b1)) = some F ∧
      (∀ t : ℚ, MultiPoly.call (numOps ℚ) 2 F
        (fun k => if k = 0 then Polynomial.call (numOps ℚ) ([-1, 0, 1] : List ℚ) t
          else Polynomial.call (numOps ℚ) ([0, -1, 0, 1] : List ℚ) t) = 0) ∧
      mvpoly.sem (numOps ℚ) Polynomial.C
        (fun k => if k = 0 then toPoly ([-1, 0, 1] : List ℚ)
          else toPoly ([0, -1, 0, 1] : List ℚ)) 2 0 F = 0 :=
  ⟨by with_unfolding_all decide,
    implicit_equation_vanishes ([-1, 0, 1] : List ℚ) ([0, -1, 0, 1] : List ℚ)
      (by with_unfolding_all decide)⟩

end Geom.SL

namespace Geom.SL

/-! ## Safe coefficient access: what is left alone, and what is read -/

section safe_access_frame

variable (R : Type) [CommRing R] [DecidableEq R]

theorem Polynomial.set_coefficient_zero (q : List R) (i : Nat)
    (hi : Polynomial.max_degree q < i) :
    Polynomial.set_coefficient (numOps R) q i 0 = q := by
  unfold Polynomial.set_coefficient
  rw [if_pos hi]
  simp [numOps]

theorem Polynomial.coefficient_set_gap (q : List R) (i l : Nat) (c : R) (hq : q ≠ [])
    (hl : Polynomial.max_degree q < l) (hne : l ≠ i) :
    Polynomial.coefficient (numOps R) (Polynomial.set_coefficient (numOps R) q i c) l = 0 := by
  have hlen : 0 < q.length := List.length_pos.mpr hq
  unfold Polynomial.max_degree at hl
  rw [Polynomial.coefficient_eq_get]
  unfold Polynomial.set_coefficient
  by_cases hi : i > Polynomial.max_degree q
  · rw [if_pos hi]
    unfold Polynomial.max_degree at hi
    split
    · exact Polynomial.get_of_le _ _ _ (by omega)
    · have hres : vec_resize q i (numOps R).zero
          = q ++ List.replicate (i - q.length) (numOps R).zero := by
        unfold vec_resize; rw [List.take_of_length_le (by omega)]
      rw [hres, Polynomial.get_append]
      have hlen2 : (q ++ List.replicate (i - q.length) (numOps R).zero).length = i := by
        simp; omega
      rw [hlen2]
      by_cases hli : l < i
      · rw [if_pos hli, Polynomial.get_append, if_neg (by omega), Polynomial.get_replicate]
        rfl
      · rw [if_neg hli]
        exact Polynomial.get_of_le _ _ _ (by simp; omega)
  · rw [if_neg hi]
    exact Polynomial.get_of_le _ _ _ (by simp; omega)

/-- C11: for every well-formed rank-`N` polynomial `p`, multi-indices `I` and `J != I` of
length `N` and every coefficient `c` of a ring with exact equality, the safe set
`p.coefficient(I, c)` succeeds and the safe get of `J` on its result equals the safe get of
`J` on `p`; for a univariate polynomial, a safe set of zero beyond `max_degree` leaves the
stored coefficient vector as it is, and after any safe set every index beyond the old
`max_degree` other than the one set reads as zero. -/
theorem coefficient_set_frame (N : Nat) (p : mvpoly R N) (I J : multi_index_type) (c : R)
    (hwf : mvpoly.wf N p = true) (hI : I.length = N) (hJ : J.length = N) (hne : J ≠ I) :
    (∃ p', MultiPoly.set_coefficient (numOps R) N p I c = .ok p' ∧
      MultiPoly.coefficient (numOps R) N p' J = MultiPoly.coefficient (numOps R) N p J) ∧
    (∀ (q : List R) (i : Nat), Polynomial.max_degree q < i →
      Polynomial.set_coefficient (numOps R) q i 0 = q) ∧
    (∀ (q : List R) (i l : Nat) (c' : R), q ≠ [] → Polynomial.max_degree q < l → l ≠ i →
      Polynomial.coefficient (numOps R) (Polynomial.set_coefficient (numOps R) q i c') l = 0) := by
  refine ⟨⟨mvpoly.set_safe_impl (numOps R) N p I c, ?_, ?_⟩,
    Polynomial.set_coefficient_zero R, Polynomial.coefficient_set_gap R⟩
  · simp [MultiPoly.set_coefficient, mvpoly.set_safe, hI]
  · simp only [MultiPoly.coefficient, mvpoly.get_safe, hJ, ne_eq, not_true_eq_false, if_false]
    rw [mvpoly.get_safe_set_safe_ne N p I J c hwf hI hJ hne]

/-- C11, instance: rank 2 over the integers; the set at `[2, 1]` grows the storage at both
levels and `[1, 0]` lies in the gap it creates. -/
theorem coefficient_set_frame_witness :
    (∃ p', MultiPoly.set_coefficient (numOps Int) 2 ([[1]] : List (List Int)) [2, 1] 5 = .ok p' ∧
      MultiPoly.coefficient (numOps Int) 2 p' [1, 0]
        = MultiPoly.coefficient (numOps Int) 2 ([[1]] : List (List Int)) [1, 0]) ∧
    (∀ (q : List Int) (i : Nat), Polynomial.max_degree q < i →
      Polynomial.set_coefficient (numOps Int) q i 0 = q) ∧
    (∀ (q : List Int) (i l : Nat) (c' : Int), q ≠ [] → Polynomial.max_degree q < l → l ≠ i →
      Polynomial.coefficient (numOps Int)
        (Polynomial.set_coefficient (numOps Int) q i c') l = 0) :=
  coefficient_set_frame Int 2 ([[1]] : List (List Int)) [2, 1] [1, 0] 5
    (by decide) (by decide) (by decide) (by decide)

theorem mvpoly.get_safe_impl_spec {α : Type} (o : Ops α) : ∀ (N : Nat) (p : mvpoly α N)
    (I : multi_index_type),
    mvpoly.get_safe_impl o N p I
      = if (mvpoly.max_degree_impl o N p I).1 = true then mvpoly.get_impl o N p I
        else o.zero := by
  intro N
  induction N with
  | zero => intro p I; rfl
  | succ N ih =>
    intro p I
    rw [mvpoly.get_safe_impl, mvpoly.max_degree_impl, mvpoly.get_impl]
    dsimp only
    by_cases h : I.getD 0 0 > Polynomial.max_degree p
    · rw [if_pos h, if_pos h, if_neg (by simp)]
    · rw [if_neg h, if_neg h]
      exact ih _ _

/-- C12: for every rank-`N` polynomial `p` and every multi-index `I` of length `N`, the
safe get `coefficient(I)` succeeds; it returns the ring zero when the walk of
`max_degree_impl` finds, at some nesting level, an entry of `I` above that level's
`max_degree()`, and otherwise it returns what the unchecked `operator()(I)` returns.  The
safe get is a function of `p` with no other result, as the `const` method it embeds. -/
theorem coefficient_get_spec (N : Nat) (p : mvpoly R N) (I : multi_index_type)
    (hI : I.length = N) :
    ((mvpoly.max_degree_impl (numOps R) N p I).1 = false →
      MultiPoly.coefficient (numOps R) N p I = .ok 0) ∧
    ((mvpoly.max_degree_impl (numOps R) N p I).1 = true →
      MultiPoly.coefficient (numOps R) N p I = MultiPoly.at_index (numOps R) N p I) := by
  have h := mvpoly.get_safe_impl_spec (numOps R) N p I
  simp only [MultiPoly.coefficient, MultiPoly.at_index, mvpoly.get_safe, mvpoly.get, hI, ne_eq,
    not_true_eq_false, if_false]
  constructor
  · intro hf
    rw [h, hf]
    rfl
  · intro ht
    rw [h, ht]
    rfl

/-- C12, instance: rank 2 over the integers, at the index `[1, 1]`, whose second entry is
past the end of `p[1]`. -/
theorem coefficient_get_spec_witness :
    ((mvpoly.max_degree_impl (numOps Int) 2 ([[1, 2], [3]] : List (List Int)) [1, 1]).1 = false →
      MultiPoly.coefficient (numOps Int) 2 ([[1, 2], [3]] : List (List Int)) [1, 1] = .ok 0) ∧
    ((mvpoly.max_degree_impl (numOps Int) 2 ([[1, 2], [3]] : List (List Int)) [1, 1]).1 = true →
      MultiPoly.coefficient (numOps Int) 2 ([[1, 2], [3]] : List (List Int)) [1, 1]
        = MultiPoly.at_index (numOps Int) 2 ([[1, 2], [3]] : List (List Int)) [1, 1]) :=
  coefficient_get_spec Int 2 ([[1, 2], [3]] : List (List Int)) [1, 1] (by decide)

end safe_access_frame

end Geom.SL

namespace Geom.SL

/-! ## The lexicographic degree -/

section lex_degree

variable {α : Type}

theorem Polynomial.real_degree_ctor0 (o : Ops α) (c : α) :
    Polynomial.real_degree o (Polynomial.ctor o c 0) = 0 := by
  rw [Polynomial.ctor_eq]
  rfl

theorem Polynomial.eq_zero_iff (o : Ops α) (q : List α) :
    Polynomial.eq o q (Polynomial.ctor o o.zero 0) = true
      ↔ Polynomial.real_degree o q = 0 ∧ o.eq (Polynomial.get o q 0) o.zero = true := by
  unfold Polynomial.eq
  rw [Polynomial.real_degree_ctor0]
  simp only
  by_cases h : Polynomial.real_degree o q = 0
  · rw [h]
    simp only [ne_eq, not_true_eq_false, if_false, true_and, Polynomial.eq_loop, Ops.ne,
      zero_add]
    rw [Polynomial.ctor_eq]
    simp [Polynomial.get]
  · simp [h]

theorem Polynomial.real_degree_scan_eq_zero (o : Ops α) (p : List α) : ∀ i,
    (∀ k, 1 ≤ k → k ≤ i → o.ne (Polynomial.get o p k) o.zero = false) →
    Polynomial.real_degree_scan o p i = 0 := by
  intro i
  induction i with
  | zero => intro _; rfl
  | succ i ih =>
    intro h
    rw [Polynomial.real_degree_scan, if_neg (by rw [h (i + 1) (by omega) (le_refl _)]; simp)]
    exact ih (fun k h1 h2 => h k h1 (by omega))

variable {K : Type} [CommRing K] [DecidableEq K]

theorem mvpoly.get_safe_cons (N : Nat) (p : List (mvpoly K N)) (j : Nat)
    (J : multi_index_type) :
    mvpoly.get_safe_impl (numOps K) (N + 1) p (j :: J)
      = if j > Polynomial.max_degree p then 0
        else mvpoly.get_safe_impl (numOps K) N
          (Polynomial.get (mvpoly.ops (numOps K) N) p j) J := by
  rw [mvpoly.get_safe_impl]
  rfl

/-- A polynomial compares equal to zero exactly if all its coefficients are zero. -/
theorem mvpoly.mv_eq_zero_iff : ∀ (N : Nat) (q : mvpoly K N), mvpoly.wf N q = true →
    ((mvpoly.ops (numOps K) N).eq q (mvpoly.ops (numOps K) N).zero = true
      ↔ ∀ J : multi_index_type, J.length = N → mvpoly.get_safe_impl (numOps K) N q J = 0) := by
  intro N
  induction N with
  | zero =>
    intro q _
    constructor
    · intro h J _
      simpa [numOps, mvpoly.ops] using h
    · intro h
      have := h [] rfl
      simpa [numOps, mvpoly.ops, mvpoly.get_safe_impl] using this
  | succ N ih =>
    intro q hwf
    have hz : (mvpoly.ops (numOps K) (N + 1)).eq q (mvpoly.ops (numOps K) (N + 1)).zero
        = Polynomial.eq (mvpoly.ops (numOps K) N) q
          (Polynomial.ctor (mvpoly.ops (numOps K) N) (mvpoly.ops (numOps K) N).zero 0) := rfl
    rw [hz, Polynomial.eq_zero_iff]
    constructor
    · rintro ⟨hrd, h0⟩ J hJ
      obtain ⟨j, J', rfl⟩ := List.exists_cons_of_length_eq_add_one hJ
      have hJ' : J'.length = N := by simpa using hJ
      rw [mvpoly.get_safe_cons]
      by_cases hj : j > Polynomial.max_degree q
      · rw [if_pos hj]
      · rw [if_neg hj]
        apply (ih _ (mvpoly.wf_get N q hwf j)).mp _ J' hJ'
        by_cases hj0 : j = 0
        · subst hj0; exact h0
        · have := Polynomial.real_degree_scan_above (mvpoly.ops (numOps K) N) q
            (q.length - 1) j (by unfold Polynomial.real_degree at hrd; omega)
            (by unfold Polynomial.max_degree at hj; omega)
          simpa [Ops.ne] using this
    · intro h
      have hsub : ∀ k, k ≤ Polynomial.max_degree q →
          (mvpoly.ops (numOps K) N).eq (Polynomial.get (mvpoly.ops (numOps K) N) q k)
            (mvpoly.ops (numOps K) N).zero = true := by
        intro k hk
        apply (ih _ (mvpoly.wf_get N q hwf k)).mpr
        intro J' hJ'
        have := h (k :: J') (by simp [hJ'])
        rw [mvpoly.get_safe_cons, if_neg (by omega)] at this
        exact this
      refine ⟨?_, hsub 0 (Nat.zero_le _)⟩
      apply Polynomial.real_degree_scan_eq_zero
      intro k _ hk
      have := hsub k hk
      simp [Ops.ne, this]

theorem mvpoly.lex_degree_length (o : Ops α) : ∀ (N : Nat) (p : mvpoly α N),
    (mvpoly.lex_degree o N p).length = N := by
  intro N
  induction N with
  | zero => intro p; rfl
  | succ N ih => intro p; rw [mvpoly.lex_degree]; simp [ih]

/-- The multi-index returned by `lex_degree` lies inside the storage at every level. -/
theorem mvpoly.get_lex_degree : ∀ (N : Nat) (p : mvpoly K N),
    mvpoly.get_safe_impl (numOps K) N p (mvpoly.lex_degree (numOps K) N p)
      = mvpoly.get_impl (numOps K) N p (mvpoly.lex_degree (numOps K) N p) := by
  intro N
  induction N with
  | zero => intro p; rfl
  | succ N ih =>
    intro p
    rw [mvpoly.lex_degree, mvpoly.get_safe_cons,
      if_neg (by have := Polynomial.real_degree_le (mvpoly.ops (numOps K) N) p; omega), ih]
    rfl

theorem mvpoly.lex_degree_spec : ∀ (N : Nat) (p : mvpoly K N), mvpoly.wf N p = true →
    (∀ J : multi_index_type, J.length = N → lexLt (mvpoly.lex_degree (numOps K) N p) J →
      mvpoly.get_safe_impl (numOps K) N p J = 0) ∧
    ((∃ J : multi_index_type, J.length = N ∧ mvpoly.get_safe_impl (numOps K) N p J ≠ 0) →
      mvpoly.get_safe_impl (numOps K) N p (mvpoly.lex_degree (numOps K) N p) ≠ 0) ∧
    ((∀ J : multi_index_type, J.length = N → mvpoly.get_safe_impl (numOps K) N p J = 0) →
      mvpoly.lex_degree (numOps K) N p = multi_index_zero N) := by
  intro N
  induction N with
  | zero =>
    intro p _
    refine ⟨?_, ?_, ?_⟩
    · intro J hJ hlt
      rw [List.length_eq_zero.mp hJ] at hlt
      exact absurd hlt (by simp [mvpoly.lex_degree, lexLt])
    · rintro ⟨J, _, h⟩
      exact h
    · intro _; rfl
  | succ N ih =>
    intro p hwf
    have hrd := Polynomial.real_degree_le (mvpoly.ops (numOps K) N) p
    have hwfd := mvpoly.wf_get N p hwf (Polynomial.real_degree (mvpoly.ops (numOps K) N) p)
    obtain ⟨ih1, ih2, ih3⟩ := ih _ hwfd
    have habove : ∀ j, Polynomial.real_degree (mvpoly.ops (numOps K) N) p < j →
        ∀ J' : multi_index_type, J'.length = N →
          mvpoly.get_safe_impl (numOps K) (N + 1) p (j :: J') = 0 := by
      intro j hj J' hJ'
      rw [mvpoly.get_safe_cons]
      by_cases hjm : j > Polynomial.max_degree p
      · rw [if_pos hjm]
      · rw [if_neg hjm]
        apply (mvpoly.mv_eq_zero_iff N _ (mvpoly.wf_get N p hwf j)).mp _ J' hJ'
        have := Polynomial.real_degree_scan_above (mvpoly.ops (numOps K) N) p
          (p.length - 1) j hj (by unfold Polynomial.max_degree at hjm; omega)
        simpa [Ops.ne] using this
    refine ⟨?_, ?_, ?_⟩
    · intro J hJ hlt
      obtain ⟨j, J', rfl⟩ := List.exists_cons_of_length_eq_add_one hJ
      have hJ' : J'.length = N := by simpa using hJ
      rw [mvpoly.lex_degree] at hlt
      rcases hlt with h | ⟨h, hlt'⟩
      · exact habove j h J' hJ'
      · rw [mvpoly.get_safe_cons, if_neg (by omega), ← h]
        exact ih1 J' hJ' hlt'
    · rintro ⟨J, hJ, hne⟩
      obtain ⟨j, J', rfl⟩ := List.exists_cons_of_length_eq_add_one hJ
      have hJ' : J'.length = N := by simpa using hJ
      rw [mvpoly.lex_degree, mvpoly.get_safe_cons, if_neg (by omega)]
      apply ih2
      by_cases hd : 0 < Polynomial.real_degree (mvpoly.ops (numOps K) N) p
      · have hne2 := Polynomial.real_degree_scan_ne (mvpoly.ops (numOps K) N) p
          (p.length - 1) hd
        by_contra hcon
        have hall : ∀ J'' : multi_index_type, J''.length = N →
            mvpoly.get_safe_impl (numOps K) N
              (Polynomial.get (mvpoly.ops (numOps K) N) p
                (Polynomial.real_degree (mvpoly.ops (numOps K) N) p)) J'' = 0 := by
          intro J'' hJ''
          by_contra h
          exact hcon ⟨J'', hJ'', h⟩
        have hz := (mvpoly.mv_eq_zero_iff N _ hwfd).mpr hall
        unfold Polynomial.real_degree at hz
        simp [Ops.ne, hz] at hne2
      · have hd0 : Polynomial.real_degree (mvpoly.ops (numOps K) N) p = 0 := by omega
        have hj0 : j = 0 := by
          by_contra hj
          exact hne (habove j (by omega) J' hJ')
        subst hj0
        rw [mvpoly.get_safe_cons, if_neg (by omega)] at hne
        rw [hd0]
        exact ⟨J', hJ', hne⟩
    · intro hall
      have hsub : ∀ k, k ≤ Polynomial.max_degree p →
          (mvpoly.ops (numOps K) N).eq (Polynomial.get (mvpoly.ops (numOps K) N) p k)
            (mvpoly.ops (numOps K) N).zero = true := by
        intro k hk
        apply (mvpoly.mv_eq_zero_iff N _ (mvpoly.wf_get N p hwf k)).mpr
        intro J' hJ'
        have := hall (k :: J') (by simp [hJ'])
        rw [mvpoly.get_safe_cons, if_neg (by omega)] at this
        exact this
      have hd0 : Polynomial.real_degree (mvpoly.ops (numOps K) N) p = 0 := by
        apply Polynomial.real_degree_scan_eq_zero
        intro k _ hk
        have := hsub k hk
        simp [Ops.ne, this]
      rw [mvpoly.lex_degree]
      have h0 := ih3
      rw [hd0] at h0 ⊢
      rw [h0]
      · rfl
      · intro J' hJ'
        have := hall (0 :: J') (by simp [hJ'])
        rw [mvpoly.get_safe_cons, if_neg (by omega)] at this
        exact this

/-- C13: for every well-formed rank-`N` polynomial `p` over a ring with exact equality,
`degree<lex>()` returns a multi-index `D` of length `N`; every multi-index of length `N`
lexicographically greater than `D` has safe-get coefficient zero; if some coefficient of `p`
is nonzero, the coefficient at `D` is nonzero and is what `leading_coefficient<lex>()` returns;
if all coefficients of `p` are zero, `D` is the all-zero multi-index. -/
theorem degree_lex_spec (N : Nat) (p : mvpoly K N) (hwf : mvpoly.wf N p = true) :
    (MultiPoly.degree (numOps K) N p).length = N ∧
    (∀ J : multi_index_type, J.length = N → lexLt (MultiPoly.degree (numOps K) N p) J →
      MultiPoly.coefficient (numOps K) N p J = .ok 0) ∧
    ((∃ (J : multi_index_type) (c : K),
        MultiPoly.coefficient (numOps K) N p J = .ok c ∧ c ≠ 0) →
      ∃ c : K, c ≠ 0 ∧
        MultiPoly.coefficient (numOps K) N p (MultiPoly.degree (numOps K) N p) = .ok c ∧
        MultiPoly.leading_coefficient (numOps K) N p = .ok c) ∧
    ((∀ J : multi_index_type, J.length = N →
        MultiPoly.coefficient (numOps K) N p J = .ok 0) →
      MultiPoly.degree (numOps K) N p = multi_index_zero N) := by
  obtain ⟨h1, h2, h3⟩ := mvpoly.lex_degree_spec N p hwf
  have hlen := mvpoly.lex_degree_length (numOps K) N p
  have hco : ∀ J : multi_index_type, J.length = N →
      MultiPoly.coefficient (numOps K) N p J
        = .ok (mvpoly.get_safe_impl (numOps K) N p J) := by
    intro J hJ
    simp [MultiPoly.coefficient, mvpoly.get_safe, hJ]
  refine ⟨hlen, ?_, ?_, ?_⟩
  · intro J hJ hlt
    rw [hco J hJ, h1 J hJ hlt]
  · rintro ⟨J, c, hc, hne⟩
    have hJ : J.length = N := by
      by_contra h
      simp [MultiPoly.coefficient, mvpoly.get_safe, h] at hc
    rw [hco J hJ] at hc
    have hc' : mvpoly.get_safe_impl (numOps K) N p J = c := by
      injection hc
    refine ⟨mvpoly.get_safe_impl (numOps K) N p (mvpoly.lex_degree (numOps K) N p),
      h2 ⟨J, hJ, by rw [hc']; exact hne⟩, hco _ hlen, ?_⟩
    simp only [MultiPoly.leading_coefficient, MultiPoly.at_index, MultiPoly.degree, mvpoly.get,
      hlen, ne_eq, not_true_eq_false, if_false]
    rw [mvpoly.get_lex_degree]
  · intro hall
    apply h3
    intro J hJ
    have := hall J hJ
    rw [hco J hJ] at this
    injection this

/-- C13, instance: `p = 2*y + 3*x*y^2 + 0*x^2` (rank 2, `x` outermost) over the integers. -/
theorem degree_lex_spec_witness :
    (MultiPoly.degree (numOps Int) 2 ([[0, 2], [0, 0, 3], [0]] : List (List Int))).length = 2 ∧
    (∀ J : multi_index_type, J.length = 2 →
      lexLt (MultiPoly.degree (numOps Int) 2 ([[0, 2], [0, 0, 3], [0]] : List (List Int))) J →
      MultiPoly.coefficient (numOps Int) 2 ([[0, 2], [0, 0, 3], [0]] : List (List Int)) J
        = .ok 0) ∧
    ((∃ (J : multi_index_type) (c : Int),
        MultiPoly.coefficient (numOps Int) 2 ([[0, 2], [0, 0, 3], [0]] : List (List Int)) J
          = .ok c ∧ c ≠ 0) →
      ∃ c : Int, c ≠ 0 ∧
        MultiPoly.coefficient (numOps Int) 2 ([[0, 2], [0, 0, 3], [0]] : List (List Int))
          (MultiPoly.degree (numOps Int) 2 ([[0, 2], [0, 0, 3], [0]] : List (List Int)))
          = .ok c ∧
        MultiPoly.leading_coefficient (numOps Int) 2
          ([[0, 2], [0, 0, 3], [0]] : List (List Int)) = .ok c) ∧
    ((∀ J : multi_index_type, J.length = 2 →
        MultiPoly.coefficient (numOps Int) 2 ([[0, 2], [0, 0, 3], [0]] : List (List Int)) J
          = .ok 0) →
      MultiPoly.degree (numOps Int) 2 ([[0, 2], [0, 0, 3], [0]] : List (List Int))
        = multi_index_zero 2) :=
  degree_lex_spec 2 ([[0, 2], [0, 0, 3], [0]] : List (List Int)) (by decide)

end lex_degree

end Geom.SL

namespace Geom.SL

/-! ## Operators between polynomials of different ranks -/

section mixed_rank

variable {R : Type} [CommRing R]

theorem mvpoly.sem_shift_add {α : Type} (o : Ops α) (φ : α → R) (N : Nat) (p : mvpoly α N) :
    ∀ (L : Nat) (X : Nat → R) (i : Nat),
      mvpoly.sem o φ X N (i + L) p = mvpoly.sem o φ (fun k => X (k + L)) N i p := by
  intro L
  induction L with
  | zero => intro X i; rfl
  | succ L ih =>
    intro X i
    show mvpoly.sem o φ X N (i + L + 1) p = _
    rw [mvpoly.sem_shift, ih]
    rfl

theorem multi_index_zero_succ (L : Nat) : multi_index_zero (L + 1) = 0 :: multi_index_zero L :=
  rfl

/-- The value of a polynomial after the loop of `for_each`, when the operator applied to the
coefficients multiplies their values by `m`. -/
theorem mvpoly.for_each_loop_sem {β : Type} (ob : Ops β) (ψ : β → R) (hψ : ob.Hom ψ)
    (f : β → β) (m : R) (hf : ∀ c, ψ (f c) = ψ c * m) (x : R) :
    ∀ (fuel k : Nat) (p : List β), p.length ≤ fuel + k →
      Polynomial.sem ob ψ x (mvpoly.for_each_loop ob f fuel k p)
        = ∑ j ∈ Finset.range p.length,
            (if j < k then ψ (Polynomial.get ob p j) else ψ (Polynomial.get ob p j) * m)
              * x ^ j := by
  intro fuel
  induction fuel with
  | zero =>
    intro k p hlen
    rw [mvpoly.for_each_loop]
    unfold Polynomial.sem
    apply Finset.sum_congr rfl
    intro j hj
    rw [if_pos (by have := Finset.mem_range.mp hj; omega)]
  | succ fuel ih =>
    intro k p hlen
    rw [mvpoly.for_each_loop]
    by_cases hk : k ≤ Polynomial.real_degree ob p
    · rw [if_pos hk, ih (k + 1) _ (by simp; omega), List.length_set]
      apply Finset.sum_congr rfl
      intro j hj
      have hjl : j < p.length := Finset.mem_range.mp hj
      have hrd := Polynomial.real_degree_le ob p
      unfold Polynomial.max_degree at hrd
      rw [Polynomial.get_set]
      by_cases hjk : k = j
      · subst hjk
        have h1 : k < k + 1 := by omega
        rw [if_pos h1, if_pos (⟨rfl, hjl⟩ : k = k ∧ k < p.length), if_neg (lt_irrefl k), hf]
      · rw [if_neg (fun h : k = j ∧ k < p.length => hjk h.1)]
        by_cases hlt : j < k
        · have h1 : j < k + 1 := by omega
          rw [if_pos h1, if_pos hlt]
        · have h1 : ¬ j < k + 1 := by omega
          rw [if_neg h1, if_neg hlt]
    · rw [if_neg hk]
      unfold Polynomial.sem
      apply Finset.sum_congr rfl
      intro j _
      by_cases hlt : j < k
      · rw [if_pos hlt]
      · rw [if_neg hlt, Polynomial.map_get_above ob ψ hψ p j (by omega)]
        simp

variable [DecidableEq R]

/-- The value of a polynomial one of whose rank-`M` coefficients, reached through the
multi-index zero, has had its value raised by `δ`. -/
theorem mvpoly.sem_sub_update (X : Nat → R) (M : Nat) (f : mvpoly R M → mvpoly R M) (δ : R)
    (j : Nat)
    (hf : ∀ s, mvpoly.sem (numOps R) (fun a => a) X M j (f s)
      = mvpoly.sem (numOps R) (fun a => a) X M j s + δ) :
    ∀ (L i : Nat) (P : mvpoly R (M + L)), j = i + L → mvpoly.wf (M + L) P = true →
      mvpoly.sem (numOps R) (fun a => a) X (M + L) i
          (mvpoly.sub_update (numOps R) M f L P (multi_index_zero L))
        = mvpoly.sem (numOps R) (fun a => a) X (M + L) i P + δ := by
  intro L
  induction L with
  | zero =>
    intro i P hj _
    have : j = i := by omega
    subst this
    exact hf P
  | succ L ih =>
    intro i P hj hwf
    obtain ⟨hne, _⟩ := (mvpoly.wf_succ (M + L) P).mp hwf
    have hlen : 0 < List.length P := List.length_pos.mpr hne
    rw [mvpoly.sub_update, multi_index_zero_succ]
    simp only [List.getD_cons_zero, List.drop_one, List.tail_cons]
    show Polynomial.sem (mvpoly.ops (numOps R) (M + L))
        (mvpoly.sem (numOps R) (fun a => a) X (M + L) (i + 1)) (X i) _
      = Polynomial.sem (mvpoly.ops (numOps R) (M + L))
        (mvpoly.sem (numOps R) (fun a => a) X (M + L) (i + 1)) (X i) P + δ
    rw [Polynomial.sem_set _ _ _ _ _ _ hlen,
      ih (i + 1) _ (by omega) (mvpoly.wf_get (M + L) P hwf 0)]
    ring

/-- Reading back the coefficient that was updated. -/
theorem mvpoly.sub_get_update (M : Nat) (f : mvpoly R M → mvpoly R M) :
    ∀ (L : Nat) (P : mvpoly R (M + L)), mvpoly.wf (M + L) P = true →
      mvpoly.sub_get (numOps R) M L
          (mvpoly.sub_update (numOps R) M f L P (multi_index_zero L)) (multi_index_zero L)
        = f (mvpoly.sub_get (numOps R) M L P (multi_index_zero L)) := by
  intro L
  induction L with
  | zero => intro P _; rfl
  | succ L ih =>
    intro P hwf
    obtain ⟨hne, _⟩ := (mvpoly.wf_succ (M + L) P).mp hwf
    have hlen : 0 < List.length P := List.length_pos.mpr hne
    rw [mvpoly.sub_update, mvpoly.sub_get, multi_index_zero_succ]
    simp only [List.getD_cons_zero, List.drop_one, List.tail_cons]
    rw [Polynomial.get_set, if_pos ⟨rfl, hlen⟩]
    exact ih _ (mvpoly.wf_get (M + L) P hwf 0)

/-- C14: for `N = (M+1) + (L+1)`, so `N > M+1 >= 1`, every well-formed rank-`N` polynomial `P`
and rank-`(M+1)` polynomial `q` over a commutative ring and every point `X`: `P + q` and
`q + P` both succeed with one rank-`N` result `r`, the result of `P += q`; its coefficient at
the multi-index zero of the first `N - (M+1)` indeterminates is that of `P` plus `q`, and
`r(X) = P(X) + q(x_{N-M-1}, ..., x_{N-1})`. -/
theorem add_lower_rank (M L : Nat) (P : mvpoly R (M + 1 + (L + 1))) (q : mvpoly R (M + 1))
    (X : Nat → R) (hwf : mvpoly.wf (M + 1 + (L + 1)) P = true) :
    ∃ r, MultiPoly.plus_lower (numOps R) (M + 1) (L + 1) P q = .ok r ∧
      MultiPoly.lower_plus (numOps R) (M + 1) (L + 1) q P = .ok r ∧
      MultiPoly.add_lower (numOps R) (M + 1) (L + 1) P q = .ok r ∧
      mvpoly.sub_get (numOps R) (M + 1) (L + 1) r (multi_index_zero (L + 1))
        = MultiPoly.add (numOps R) (M + 1)
            (mvpoly.sub_get (numOps R) (M + 1) (L + 1) P (multi_index_zero (L + 1))) q ∧
      MultiPoly.call (numOps R) (M + 1 + (L + 1)) r X
        = MultiPoly.call (numOps R) (M + 1 + (L + 1)) P X
          + MultiPoly.call (numOps R) (M + 1) q (fun k => X (k + (L + 1))) := by
  have hok : MultiPoly.add_lower (numOps R) (M + 1) (L + 1) P q
      = .ok (mvpoly.sub_update (numOps R) (M + 1)
          (fun s => (mvpoly.ops (numOps R) (M + 1)).add s q) (L + 1) P
          (multi_index_zero (L + 1))) := by
    unfold MultiPoly.add_lower
    simp [multi_index_zero]
  refine ⟨_, hok, hok, hok, ?_, ?_⟩
  · exact mvpoly.sub_get_update (M + 1) _ (L + 1) P hwf
  · simp only [MultiPoly.call, mvpoly.evaluate_eq_sem]
    rw [mvpoly.sem_sub_update X (M + 1) _
      (mvpoly.sem (numOps R) (fun a => a) X (M + 1) (0 + (L + 1)) q) (0 + (L + 1))
      (fun s => (mvpoly.mv_ops_hom (numOps R) (fun a : R => a) (numOps_hom R) X (M + 1)
        (0 + (L + 1))).map_add s q) (L + 1) 0 P rfl hwf,
      mvpoly.sem_shift_add]

/-- C14, instance: `P = 2*y + 3*x*y^2` of rank 2 and `q = 1 + y + y^2` of rank 1 over the
integers, at the point `(2, 3)`. -/
theorem add_lower_rank_witness :
    ∃ r, MultiPoly.plus_lower (numOps Int) (0 + 1) (0 + 1)
        ([[0, 2], [0, 0, 3]] : List (List Int)) ([1, 1, 1] : List Int) = .ok r ∧
      MultiPoly.lower_plus (numOps Int) (0 + 1) (0 + 1)
        ([1, 1, 1] : List Int) ([[0, 2], [0, 0, 3]] : List (List Int)) = .ok r ∧
      MultiPoly.add_lower (numOps Int) (0 + 1) (0 + 1)
        ([[0, 2], [0, 0, 3]] : List (List Int)) ([1, 1, 1] : List Int) = .ok r ∧
      mvpoly.sub_get (numOps Int) (0 + 1) (0 + 1) r (multi_index_zero (0 + 1))
        = MultiPoly.add (numOps Int) (0 + 1)
            (mvpoly.sub_get (numOps Int) (0 + 1) (0 + 1)
              ([[0, 2], [0, 0, 3]] : List (List Int)) (multi_index_zero (0 + 1)))
            ([1, 1, 1] : List Int) ∧
      MultiPoly.call (numOps Int) (0 + 1 + (0 + 1)) r (fun k => if k = 0 then 2 else 3)
        = MultiPoly.call (numOps Int) (0 + 1 + (0 + 1))
            ([[0, 2], [0, 0, 3]] : List (List Int)) (fun k => if k = 0 then 2 else 3)
          + MultiPoly.call (numOps Int) (0 + 1) ([1, 1, 1] : List Int)
            (fun k => (fun k => if k = 0 then 2 else 3) (k + (0 + 1))) :=
  add_lower_rank 0 0 ([[0, 2], [0, 0, 3]] : List (List Int)) ([1, 1, 1] : List Int)
    (fun k => if k = 0 then 2 else 3) (by decide)

/-- The loop of `for_each` stops by its own condition: a larger budget of passes gives the
same result. -/
theorem mvpoly.for_each_loop_fuel {β : Type} (ob : Ops β) (f : β → β) :
    ∀ (fuel extra k : Nat) (p : List β), p.length ≤ fuel + k →
      mvpoly.for_each_loop ob f (fuel + extra) k p = mvpoly.for_each_loop ob f fuel k p := by
  intro fuel
  induction fuel with
  | zero =>
    intro extra k p hlen
    rw [Nat.zero_add]
    cases extra with
    | zero => rfl
    | succ extra =>
      show mvpoly.for_each_loop ob f (extra + 1) k p = p
      rw [mvpoly.for_each_loop]
      split
      · rename_i hk
        have hrd := Polynomial.real_degree_le ob p
        unfold Polynomial.max_degree at hrd
        have hp : p = [] := List.eq_nil_of_length_eq_zero (by omega)
        subst hp
        apply List.eq_nil_of_length_eq_zero
        rw [for_each_loop_length]
        rfl
      · rfl
  | succ fuel ih =>
    intro extra k p hlen
    have e : fuel + 1 + extra = fuel + extra + 1 := by omega
    rw [e, mvpoly.for_each_loop, mvpoly.for_each_loop]
    split
    · exact ih extra (k + 1) _ (by simp; omega)
    · rfl

/-- `for_each<M>` with an operator that multiplies values by `m` multiplies the value of the
whole polynomial by `m`. -/
theorem mvpoly.sem_for_each (X : Nat → R) (M : Nat) (op : mvpoly R M → mvpoly R M) (m : R)
    (j : Nat)
    (hop : ∀ s, mvpoly.sem (numOps R) (fun a => a) X M j (op s)
      = mvpoly.sem (numOps R) (fun a => a) X M j s * m) :
    ∀ (L i : Nat) (P : mvpoly R (M + L)), j = i + L →
      mvpoly.sem (numOps R) (fun a => a) X (M + L) i (mvpoly.for_each (numOps R) M op L P)
        = mvpoly.sem (numOps R) (fun a => a) X (M + L) i P * m := by
  intro L
  induction L with
  | zero =>
    intro i P hj
    have : j = i := by omega
    subst this
    exact hop P
  | succ L ih =>
    intro i P hj
    rw [mvpoly.for_each]
    show Polynomial.sem (mvpoly.ops (numOps R) (M + L))
        (mvpoly.sem (numOps R) (fun a => a) X (M + L) (i + 1)) (X i) _
      = Polynomial.sem (mvpoly.ops (numOps R) (M + L))
        (mvpoly.sem (numOps R) (fun a => a) X (M + L) (i + 1)) (X i) P * m
    rw [mvpoly.for_each_loop_sem _ _
      (mvpoly.mv_ops_hom (numOps R) (fun a : R => a) (numOps_hom R) X (M + L) (i + 1))
      _ m (fun c => ih (i + 1) c (by omega)) (X i) _ 0 P (by simp [Polynomial.size])]
    unfold Polynomial.sem
    rw [Finset.sum_mul]
    apply Finset.sum_congr rfl
    intro k _
    rw [if_neg (by omega)]
    ring

/-- C15: for `N = (M+1) + (L+1)`, so `N > M+1 >= 1`, every rank-`N` polynomial `P` and
rank-`(M+1)` polynomial `q` over a commutative ring and every point `X`:
`(P * q)(X) = (q * P)(X) = P(X) * q(x_{N-M-1}, ..., x_{N-1})`, where the product is computed by
`for_each<M+1>`, whose loops visit the indices up to `real_degree()` only. -/
theorem mul_lower_rank (M L : Nat) (P : mvpoly R (M + 1 + (L + 1))) (q : mvpoly R (M + 1))
    (X : Nat → R) :
    MultiPoly.call (numOps R) (M + 1 + (L + 1))
        (MultiPoly.times_lower (numOps R) (M + 1) (L + 1) P q) X
      = MultiPoly.call (numOps R) (M + 1 + (L + 1)) P X
        * MultiPoly.call (numOps R) (M + 1) q (fun k => X (k + (L + 1))) ∧
    MultiPoly.call (numOps R) (M + 1 + (L + 1))
        (MultiPoly.lower_times (numOps R) (M + 1) (L + 1) q P) X
      = MultiPoly.call (numOps R) (M + 1 + (L + 1)) P X
        * MultiPoly.call (numOps R) (M + 1) q (fun k => X (k + (L + 1))) := by
  have h : MultiPoly.call (numOps R) (M + 1 + (L + 1))
        (MultiPoly.mul_lower (numOps R) (M + 1) (L + 1) P q) X
      = MultiPoly.call (numOps R) (M + 1 + (L + 1)) P X
        * MultiPoly.call (numOps R) (M + 1) q (fun k => X (k + (L + 1))) := by
    simp only [MultiPoly.call, mvpoly.evaluate_eq_sem, MultiPoly.mul_lower]
    rw [mvpoly.sem_for_each X (M + 1) _
      (mvpoly.sem (numOps R) (fun a => a) X (M + 1) (0 + (L + 1)) q) (0 + (L + 1))
      (fun s => (mvpoly.mv_ops_hom (numOps R) (fun a : R => a) (numOps_hom R) X (M + 1)
        (0 + (L + 1))).map_mul s q) (L + 1) 0 P rfl,
      mvpoly.sem_shift_add]
  exact ⟨h, h⟩

end mixed_rank

end Geom.SL

namespace Geom.SL

/-! ## The coefficients stored by the arithmetic operators of `Polynomial` -/

section polynomial_coefficients

variable (R : Type) [Ring R] [DecidableEq R]

theorem Polynomial.mul_inner_get (a : R) (q : List R) (i : Nat) :
    ∀ (m : Nat) (r : List R), i + m ≤ r.length →
    ((List.range m).foldl
      (fun r j => r.set (i + j) ((numOps R).add (Polynomial.get (numOps R) r (i + j))
        ((numOps R).mul a (Polynomial.get (numOps R) q j)))) r).length = r.length ∧
    ∀ k, Polynomial.get (numOps R) ((List.range m).foldl
      (fun r j => r.set (i + j) ((numOps R).add (Polynomial.get (numOps R) r (i + j))
        ((numOps R).mul a (Polynomial.get (numOps R) q j)))) r) k
      = Polynomial.get (numOps R) r k
        + (if i ≤ k ∧ k < i + m then a * Polynomial.get (numOps R) q (k - i) else 0) := by
  intro m
  induction m with
  | zero => intro r _; exact ⟨rfl, fun k => by simp⟩
  | succ m ih =>
    intro r hr
    rw [List.range_succ, List.foldl_append]
    simp only [List.foldl_cons, List.foldl_nil]
    obtain ⟨ih1, ih2⟩ := ih r (by omega)
    generalize (List.range m).foldl
      (fun r j => r.set (i + j) ((numOps R).add (Polynomial.get (numOps R) r (i + j))
        ((numOps R).mul a (Polynomial.get (numOps R) q j)))) r = r1 at ih1 ih2 ⊢
    refine ⟨by simp [ih1], ?_⟩
    intro k
    rw [Polynomial.get_set]
    by_cases hk : i + m = k
    · subst hk
      rw [if_pos ⟨rfl, by omega⟩, ih2, if_neg (by omega), if_pos (by omega)]
      simp [numOps]
    · rw [if_neg (fun h => hk h.1), ih2]
      by_cases h2 : i ≤ k ∧ k < i + m
      · rw [if_pos h2, if_pos (by omega)]
      · rw [if_neg h2, if_neg (by omega)]

theorem Polynomial.mul_outer_get (p q : List R) :
    ∀ (m : Nat) (r : List R), m ≤ p.length → p.length + q.length ≤ r.length + 1 →
    ((List.range m).foldl (fun r i => (List.range q.length).foldl
      (fun r j => r.set (i + j) ((numOps R).add (Polynomial.get (numOps R) r (i + j))
        ((numOps R).mul (Polynomial.get (numOps R) p i) (Polynomial.get (numOps R) q j)))) r)
      r).length = r.length ∧
    ∀ k, Polynomial.get (numOps R) ((List.range m).foldl (fun r i => (List.range q.length).foldl
      (fun r j => r.set (i + j) ((numOps R).add (Polynomial.get (numOps R) r (i + j))
        ((numOps R).mul (Polynomial.get (numOps R) p i) (Polynomial.get (numOps R) q j)))) r)
      r) k
      = Polynomial.get (numOps R) r k
        + ∑ i ∈ Finset.range m, (if i ≤ k ∧ k < i + q.length
            then Polynomial.get (numOps R) p i * Polynomial.get (numOps R) q (k - i) else 0) := by
  intro m
  induction m with
  | zero => intro r _ _; exact ⟨rfl, fun k => by simp⟩
  | succ m ih =>
    intro r hm hr
    rw [List.range_succ, List.foldl_append]
    simp only [List.foldl_cons, List.foldl_nil]
    obtain ⟨ih1, ih2⟩ := ih r (by omega) hr
    generalize (List.range m).foldl (fun r i => (List.range q.length).foldl
      (fun r j => r.set (i + j) ((numOps R).add (Polynomial.get (numOps R) r (i + j))
        ((numOps R).mul (Polynomial.get (numOps R) p i) (Polynomial.get (numOps R) q j)))) r)
      r = r1 at ih1 ih2 ⊢
    obtain ⟨h1, h2⟩ := Polynomial.mul_inner_get R (Polynomial.get (numOps R) p m) q m
      q.length r1 (by omega)
    refine ⟨by rw [h1, ih1], ?_⟩
    intro k
    rw [h2 k, ih2 k, Finset.sum_range_succ]
    rw [add_assoc]

/-- The coefficient `k` of the vector stored by `operator*=`. -/
theorem Polynomial.get_mul (p q : List R) (k : Nat) :
    Polynomial.get (numOps R) (Polynomial.mul (numOps R) p q) k
      = ∑ i ∈ Finset.range p.length, (if i ≤ k ∧ k < i + q.length
          then Polynomial.get (numOps R) p i * Polynomial.get (numOps R) q (k - i) else 0) := by
  unfold Polynomial.mul
  rw [Polynomial.vec_resize_zero]
  obtain ⟨_, h2⟩ := Polynomial.mul_outer_get R p q p.length
    (List.replicate (p.length + q.length - 1) (numOps R).zero) (le_refl _) (by simp; omega)
  rw [h2 k, Polynomial.get_replicate]
  show (0 : R) + _ = _
  rw [zero_add]

theorem Polynomial.length_mul (p q : List R) :
    (Polynomial.mul (numOps R) p q).length = p.length + q.length - 1 := by
  unfold Polynomial.mul
  rw [Polynomial.vec_resize_zero]
  obtain ⟨h1, _⟩ := Polynomial.mul_outer_get R p q p.length
    (List.replicate (p.length + q.length - 1) (numOps R).zero) (le_refl _) (by simp; omega)
  rw [h1]
  simp

theorem Polynomial.coefficient_numOps (p : List R) (k : Nat) :
    Polynomial.coefficient (numOps R) p k = if k < p.length then Polynomial.get (numOps R) p k
      else 0 := by
  rw [Polynomial.coefficient_eq_get]
  by_cases h : k < p.length
  · rw [if_pos h]
  · rw [if_neg h, Polynomial.get_of_le _ _ _ (by omega)]
    rfl

/-- C16: for all non-empty polynomials `p`, `q` over a ring, the product stored by `p *= q`
has `max_degree` equal to `max_degree(p) + max_degree(q)`, and for every `k` its coefficient
`k` is the sum over `i + j = k` of `p[i] * q[j]`, the coefficients beyond the stored ones
counting as zero. -/
theorem mul_convolution (p q : List R) (hp : p ≠ []) (hq : q ≠ []) :
    Polynomial.max_degree (Polynomial.mul (numOps R) p q)
      = Polynomial.max_degree p + Polynomial.max_degree q ∧
    ∀ k : Nat, Polynomial.coefficient (numOps R) (Polynomial.mul (numOps R) p q) k
      = ∑ ij ∈ Finset.antidiagonal k,
          Polynomial.coefficient (numOps R) p ij.1 * Polynomial.coefficient (numOps R) q ij.2 := by
  have hpl : 0 < p.length := List.length_pos.mpr hp
  have hql : 0 < q.length := List.length_pos.mpr hq
  constructor
  · unfold Polynomial.max_degree
    rw [Polynomial.length_mul]
    omega
  · intro k
    rw [Polynomial.coefficient_eq_get, Polynomial.get_mul,
      Finset.Nat.sum_antidiagonal_eq_sum_range_succ
        (fun i j => Polynomial.coefficient (numOps R) p i * Polynomial.coefficient (numOps R) q j)]
    have e1 : ∑ i ∈ Finset.range p.length, (if i ≤ k ∧ k < i + q.length
          then Polynomial.get (numOps R) p i * Polynomial.get (numOps R) q (k - i) else 0)
        = ∑ i ∈ Finset.range (max p.length (k + 1)), (if i ≤ k ∧ k < i + q.length
          then Polynomial.get (numOps R) p i * Polynomial.get (numOps R) q (k - i) else 0) := by
      apply Finset.sum_subset (Finset.range_mono (le_max_left _ _))
      intro i _ hi
      have hi' : p.length ≤ i := by simpa using hi
      rw [Polynomial.get_of_le _ _ _ hi']
      simp [numOps]
    have e2 : ∑ i ∈ Finset.range (k + 1),
          Polynomial.coefficient (numOps R) p i * Polynomial.coefficient (numOps R) q (k - i)
        = ∑ i ∈ Finset.range (max p.length (k + 1)),
          (if i ≤ k then Polynomial.coefficient (numOps R) p i
            * Polynomial.coefficient (numOps R) q (k - i) else 0) := by
      rw [← Finset.sum_subset (Finset.range_mono (le_max_right p.length (k + 1)))]
      · apply Finset.sum_congr rfl
        intro i hi
        rw [if_pos (by have := Finset.mem_range.mp hi; omega)]
      · intro i _ hi
        have hi' : ¬ i < k + 1 := fun h => hi (Finset.mem_range.mpr h)
        rw [if_neg (by omega)]
    rw [e1, e2]
    apply Finset.sum_congr rfl
    intro i _
    rw [Polynomial.coefficient_numOps, Polynomial.coefficient_numOps]
    by_cases h1 : i ≤ k
    · rw [if_pos h1]
      by_cases h2 : k < i + q.length
      · rw [if_pos ⟨h1, h2⟩, if_pos (by omega : k - i < q.length)]
        by_cases h3 : i < p.length
        · rw [if_pos h3]
        · rw [if_neg h3, Polynomial.get_of_le _ _ _ (by omega)]
          rfl
      · rw [if_neg (fun h => h2 h.2), if_neg (by omega : ¬ k - i < q.length), mul_zero]
    · rw [if_neg h1, if_neg (fun h => h1 h.1)]

/-- C16, instance: `(1 + 2x + 0x^2) * (3 + 0x)` over the integers. -/
theorem mul_convolution_witness :
    Polynomial.max_degree (Polynomial.mul (numOps Int) [1, 2, 0] [3, 0])
      = Polynomial.max_degree ([1, 2, 0] : List Int) + Polynomial.max_degree ([3, 0] : List Int) ∧
    ∀ k : Nat, Polynomial.coefficient (numOps Int) (Polynomial.mul (numOps Int) [1, 2, 0] [3, 0]) k
      = ∑ ij ∈ Finset.antidiagonal k,
          Polynomial.coefficient (numOps Int) [1, 2, 0] ij.1
            * Polynomial.coefficient (numOps Int) [3, 0] ij.2 :=
  mul_convolution Int [1, 2, 0] [3, 0] (by decide) (by decide)

/-- C17: for all polynomials `p`, `q` over a ring, `p += q` and `p -= q` store a polynomial
whose `max_degree` is `max(max_degree(p), max_degree(q))` and whose safe-get coefficient at
every index `i` is `p.coefficient(i) + q.coefficient(i)`, respectively
`p.coefficient(i) - q.coefficient(i)`. -/
theorem add_sub_coefficient (p q : List R) :
    Polynomial.max_degree (Polynomial.add (numOps R) p q)
      = max (Polynomial.max_degree p) (Polynomial.max_degree q) ∧
    Polynomial.max_degree (Polynomial.sub (numOps R) p q)
      = max (Polynomial.max_degree p) (Polynomial.max_degree q) ∧
    (∀ i : Nat, Polynomial.coefficient (numOps R) (Polynomial.add (numOps R) p q) i
      = Polynomial.coefficient (numOps R) p i + Polynomial.coefficient (numOps R) q i) ∧
    (∀ i : Nat, Polynomial.coefficient (numOps R) (Polynomial.sub (numOps R) p q) i
      = Polynomial.coefficient (numOps R) p i - Polynomial.coefficient (numOps R) q i) := by
  refine ⟨?_, ?_, ?_, ?_⟩
  · unfold Polynomial.max_degree
    rw [Polynomial.length_add]
    omega
  · unfold Polynomial.max_degree
    rw [Polynomial.length_sub]
    omega
  · intro i
    rw [Polynomial.coefficient_eq_get, Polynomial.get_add, Polynomial.coefficient_numOps,
      Polynomial.coefficient_numOps]
    by_cases h1 : i < p.length
    · by_cases h2 : i < q.length
      · rw [if_pos h1, if_pos h2, if_pos h1, if_pos h2]; rfl
      · rw [if_pos h1, if_neg h2, if_pos h1, if_neg h2, add_zero]
    · by_cases h2 : i < q.length
      · rw [if_neg h1, if_neg h1, if_pos h2, zero_add]
      · rw [if_neg h1, if_neg h1, if_neg h2, Polynomial.get_of_le _ _ _ (by omega), zero_add]
        rfl
  · intro i
    rw [Polynomial.coefficient_eq_get, Polynomial.get_sub, Polynomial.coefficient_numOps,
      Polynomial.coefficient_numOps]
    by_cases h1 : i < p.length
    · by_cases h2 : i < q.length
      · rw [if_pos h1, if_pos h2, if_pos h1, if_pos h2]; rfl
      · rw [if_pos h1, if_neg h2, if_pos h1, if_neg h2, sub_zero]
    · by_cases h2 : i < q.length
      · rw [if_neg h1, if_neg h1, if_pos h2, if_pos h2, zero_sub]; rfl
      · rw [if_neg h1, if_neg h1, if_neg h2, if_neg h2, sub_zero]
        rfl

end polynomial_coefficients

section polynomial_shift

variable (R : Type) [CommRing R] [DecidableEq R]

theorem Polynomial.call_eq_sem_id (q : List R) (x : R) :
    Polynomial.call (numOps R) q x = Polynomial.sem (numOps R) (fun a => a) x q := by
  rw [Polynomial.call_eq_evaluate, mvpoly.evaluate_eq_sem]
  rfl

/-- C18: for every non-empty polynomial `p` over a commutative ring and every `n`, `p <<= n`
stores a polynomial whose `max_degree` is that of `p` plus `n`, whose coefficients
`0, ..., n-1` are zero and whose coefficient `i + n` is the coefficient `i` of `p` for every
`i`; and `(p << n)(x) = x^n * p(x)` for every `x`. -/
theorem shl_spec (p : List R) (n : Nat) (hp : p ≠ []) :
    Polynomial.max_degree (Polynomial.shl (numOps R) p n) = Polynomial.max_degree p + n ∧
    (∀ i : Nat, i < n → Polynomial.coefficient (numOps R) (Polynomial.shl (numOps R) p n) i = 0) ∧
    (∀ i : Nat, Polynomial.coefficient (numOps R) (Polynomial.shl (numOps R) p n) (i + n)
      = Polynomial.coefficient (numOps R) p i) ∧
    (∀ x : R, Polynomial.call (numOps R) (Polynomial.shl (numOps R) p n) x
      = x ^ n * Polynomial.call (numOps R) p x) := by
  have hpl : 0 < p.length := List.length_pos.mpr hp
  refine ⟨?_, ?_, ?_, ?_⟩
  · unfold Polynomial.max_degree
    rw [Polynomial.length_shl]
    omega
  · intro i hi
    rw [Polynomial.coefficient_eq_get, Polynomial.get_shl, if_pos hi]
    rfl
  · intro i
    rw [Polynomial.coefficient_eq_get, Polynomial.coefficient_eq_get, Polynomial.get_shl,
      if_neg (by omega), Nat.add_sub_cancel]
  · intro x
    rw [Polynomial.call_eq_sem_id, Polynomial.call_eq_sem_id,
      Polynomial.sem_shl _ _ (numOps_hom R)]

/-- C18, instance: `(1 + 2x) << 2` over the integers. -/
theorem shl_spec_witness :
    Polynomial.max_degree (Polynomial.shl (numOps Int) [1, 2] 2)
      = Polynomial.max_degree ([1, 2] : List Int) + 2 ∧
    (∀ i : Nat, i < 2 →
      Polynomial.coefficient (numOps Int) (Polynomial.shl (numOps Int) [1, 2] 2) i = 0) ∧
    (∀ i : Nat, Polynomial.coefficient (numOps Int) (Polynomial.shl (numOps Int) [1, 2] 2) (i + 2)
      = Polynomial.coefficient (numOps Int) [1, 2] i) ∧
    (∀ x : Int, Polynomial.call (numOps Int) (Polynomial.shl (numOps Int) [1, 2] 2) x
      = x ^ 2 * Polynomial.call (numOps Int) [1, 2] x) :=
  shl_spec Int [1, 2] 2 (by decide)

end polynomial_shift

end Geom.SL

namespace Geom.SL

/-! ## `real_degree()` and `normalize()` -/

section real_degree

variable (R : Type) [Ring R] [DecidableEq R]

theorem ne_numOps_iff (a : R) : (numOps R).ne a (numOps R).zero = true ↔ a ≠ 0 := by
  simp [Ops.ne, numOps]

/-- C19: for every non-empty polynomial `p` over a ring with exact equality, `real_degree()`
returns without throwing a value `d <= max_degree()`; every coefficient at an index above
`d` (up to `max_degree()`) is zero; if some coefficient is nonzero then the coefficient at
`d` is nonzero, so `d` is the largest index with a nonzero coefficient; and if every
coefficient is zero then `d = 0`. -/
theorem real_degree_spec (p : List R) (hp : p ≠ []) :
    Polynomial.real_degree_checked (numOps R) p = .ok (Polynomial.real_degree (numOps R) p) ∧
    Polynomial.real_degree (numOps R) p ≤ Polynomial.max_degree p ∧
    (∀ i : Nat, Polynomial.real_degree (numOps R) p < i → i ≤ Polynomial.max_degree p →
      Polynomial.get (numOps R) p i = 0) ∧
    ((∃ i : Nat, i ≤ Polynomial.max_degree p ∧ Polynomial.get (numOps R) p i ≠ 0) →
      Polynomial.get (numOps R) p (Polynomial.real_degree (numOps R) p) ≠ 0) ∧
    ((∀ i : Nat, i ≤ Polynomial.max_degree p → Polynomial.get (numOps R) p i = 0) →
      Polynomial.real_degree (numOps R) p = 0) := by
  have hpl : 0 < p.length := List.length_pos.mpr hp
  have habove : ∀ i : Nat, Polynomial.real_degree (numOps R) p < i →
      i ≤ Polynomial.max_degree p → Polynomial.get (numOps R) p i = 0 := by
    intro i h1 h2
    have h := Polynomial.real_degree_scan_above (numOps R) p (p.length - 1) i h1 h2
    by_contra hne
    rw [(ne_numOps_iff R _).mpr hne] at h
    exact absurd h (by simp)
  refine ⟨?_, Polynomial.real_degree_le (numOps R) p, habove, ?_, ?_⟩
  · unfold Polynomial.real_degree_checked
    rw [if_neg (by omega)]
  · rintro ⟨i, hi, hne⟩
    by_cases hd : 0 < Polynomial.real_degree (numOps R) p
    · exact (ne_numOps_iff R _).mp
        (Polynomial.real_degree_scan_ne (numOps R) p (p.length - 1) hd)
    · have hd0 : Polynomial.real_degree (numOps R) p = 0 := by omega
      by_cases hi0 : i = 0
      · rw [hd0, ← hi0]; exact hne
      · exact absurd (habove i (by omega) hi) hne
  · intro hall
    apply Polynomial.real_degree_scan_eq_zero
    intro k _ hk
    have h := hall k hk
    by_contra hne
    have hne' : (numOps R).ne (Polynomial.get (numOps R) p k) (numOps R).zero = true := by
      simpa using hne
    exact (ne_numOps_iff R _).mp hne' h

/-- C19, instance: `1 + 0x + 2x^2 + 0x^3` over the integers. -/
theorem real_degree_spec_witness :
    Polynomial.real_degree_checked (numOps Int) [1, 0, 2, 0]
      = .ok (Polynomial.real_degree (numOps Int) [1, 0, 2, 0]) ∧
    Polynomial.real_degree (numOps Int) [1, 0, 2, 0] ≤ Polynomial.max_degree ([1, 0, 2, 0] : List Int) ∧
    (∀ i : Nat, Polynomial.real_degree (numOps Int) [1, 0, 2, 0] < i →
      i ≤ Polynomial.max_degree ([1, 0, 2, 0] : List Int) →
      Polynomial.get (numOps Int) [1, 0, 2, 0] i = 0) ∧
    ((∃ i : Nat, i ≤ Polynomial.max_degree ([1, 0, 2, 0] : List Int)
        ∧ Polynomial.get (numOps Int) [1, 0, 2, 0] i ≠ 0) →
      Polynomial.get (numOps Int) [1, 0, 2, 0] (Polynomial.real_degree (numOps Int) [1, 0, 2, 0])
        ≠ 0) ∧
    ((∀ i : Nat, i ≤ Polynomial.max_degree ([1, 0, 2, 0] : List Int) →
        Polynomial.get (numOps Int) [1, 0, 2, 0] i = 0) →
      Polynomial.real_degree (numOps Int) [1, 0, 2, 0] = 0) :=
  real_degree_spec Int [1, 0, 2, 0] (by decide)

end real_degree

section normalize

variable {α : Type}

/-- Every `Polynomial` of a nested polynomial has `real_degree() == max_degree()`. -/
def mvpoly.normalized (o : Ops α) : (N : Nat) → mvpoly α N → Bool
  | 0, _ => true
  | N + 1, p =>
    decide (Polynomial.real_degree (mvpoly.ops o N) p = Polynomial.max_degree p)
      && List.all p (mvpoly.normalized o N)

/-- A vector whose last coefficient is nonzero, or which has one coefficient only, has
`real_degree() == max_degree()`. -/
theorem Polynomial.real_degree_eq_max (o : Ops α) (y : List α)
    (h : 0 < y.length - 1 → o.ne (Polynomial.get o y (y.length - 1)) o.zero = true) :
    Polynomial.real_degree o y = Polynomial.max_degree y := by
  unfold Polynomial.real_degree Polynomial.max_degree
  cases hd : y.length - 1 with
  | zero => rfl
  | succ d =>
    rw [hd] at h
    rw [Polynomial.real_degree_scan, if_pos (h (by omega))]

theorem Polynomial.length_normalize (o : Ops α) (x : List α) (hx : x ≠ []) :
    (Polynomial.normalize o x).length = Polynomial.real_degree o x + 1 := by
  have hpl : 0 < x.length := List.length_pos.mpr hx
  have hrd := Polynomial.real_degree_le o x
  unfold Polynomial.max_degree at hrd
  unfold Polynomial.normalize Polynomial.max_degree
  simp only
  split
  · rw [List.length_take]; omega
  · rename_i h
    have : Polynomial.real_degree o x = x.length - 1 := by simpa using h
    omega

theorem Polynomial.get_normalize (o : Ops α) (x : List α) (k : Nat)
    (hk : k ≤ Polynomial.real_degree o x) :
    Polynomial.get o (Polynomial.normalize o x) k = Polynomial.get o x k := by
  unfold Polynomial.normalize
  simp only
  split
  · unfold Polynomial.get
    rw [List.getD_eq_getElem?_getD, List.getD_eq_getElem?_getD, List.getElem?_take,
      if_pos (by omega)]
  · rfl

/-- After `Polynomial::normalize()`, `real_degree() == max_degree()`, for any coefficient
type. -/
theorem Polynomial.real_degree_normalize (o : Ops α) (x : List α) :
    Polynomial.real_degree o (Polynomial.normalize o x)
      = Polynomial.max_degree (Polynomial.normalize o x) := by
  by_cases hx : x = []
  · subst hx; rfl
  · apply Polynomial.real_degree_eq_max
    rw [Polynomial.length_normalize o x hx]
    intro hd
    rw [Nat.add_sub_cancel, Polynomial.get_normalize o x _ (le_refl _)]
    exact Polynomial.real_degree_scan_ne o x (x.length - 1) (by
      unfold Polynomial.real_degree at hd; omega)

theorem mvpoly.normalize_succ (o : Ops α) (N : Nat) (x : List (mvpoly α N)) :
    (mvpoly.normalize o (N + 1) x).length = (Polynomial.normalize (mvpoly.ops o N) x).length ∧
    ∀ k, Polynomial.get (mvpoly.ops o N) (mvpoly.normalize o (N + 1) x) k
      = if k < (Polynomial.normalize (mvpoly.ops o N) x).length
        then mvpoly.normalize o N
          (Polynomial.get (mvpoly.ops o N) (Polynomial.normalize (mvpoly.ops o N) x) k)
        else Polynomial.get (mvpoly.ops o N) (Polynomial.normalize (mvpoly.ops o N) x) k := by
  have h := Polynomial.foldl_set_spec (mvpoly.ops o N) (fun _ c => mvpoly.normalize o N c)
    (Polynomial.normalize (mvpoly.ops o N) x) (Polynomial.normalize (mvpoly.ops o N) x).length
  refine ⟨h.1, ?_⟩
  intro k
  have h2 := h.2 k
  simp only [and_self] at h2
  exact h2

/-- Normalizing a polynomial does not change whether it compares equal to zero, and leaves
the outer `real_degree()` equal to the new `max_degree()`. -/
theorem mvpoly.normalize_eq_zero (o : Ops α) : ∀ (N : Nat) (c : mvpoly α N),
    (mvpoly.ops o N).eq (mvpoly.normalize o N c) (mvpoly.ops o N).zero
      = (mvpoly.ops o N).eq c (mvpoly.ops o N).zero := by
  intro N
  induction N with
  | zero => intro c; rfl
  | succ N ih =>
    intro x
    by_cases hx : x = []
    · subst hx; rfl
    have hpl : 0 < x.length := List.length_pos.mpr hx
    obtain ⟨hlen, hget⟩ := mvpoly.normalize_succ o N x
    have hl1 := Polynomial.length_normalize (mvpoly.ops o N) x hx
    have hrd : Polynomial.real_degree (mvpoly.ops o N) (mvpoly.normalize o (N + 1) x)
        = Polynomial.real_degree (mvpoly.ops o N) x := by
      have h1 : Polynomial.real_degree (mvpoly.ops o N) (mvpoly.normalize o (N + 1) x)
          = Polynomial.max_degree (mvpoly.normalize o (N + 1) x) := by
        apply Polynomial.real_degree_eq_max
        rw [hlen, hl1, Nat.add_sub_cancel]
        intro hd
        rw [hget, if_pos (by omega), Polynomial.get_normalize _ x _ (le_refl _)]
        have hne := Polynomial.real_degree_scan_ne (mvpoly.ops o N) x (x.length - 1) (by
          unfold Polynomial.real_degree at hd; omega)
        unfold Ops.ne at hne ⊢
        rw [ih]
        exact hne
      rw [h1]
      unfold Polynomial.max_degree
      rw [hlen, hl1, Nat.add_sub_cancel]
    have h0 : (mvpoly.ops o N).eq
          (Polynomial.get (mvpoly.ops o N) (mvpoly.normalize o (N + 1) x) 0)
          (mvpoly.ops o N).zero
        = (mvpoly.ops o N).eq (Polynomial.get (mvpoly.ops o N) x 0) (mvpoly.ops o N).zero := by
      rw [hget, if_pos (by omega), Polynomial.get_normalize _ x 0 (Nat.zero_le _), ih]
    have e1 := Polynomial.eq_zero_iff (mvpoly.ops o N) (mvpoly.normalize o (N + 1) x)
    have e2 := Polynomial.eq_zero_iff (mvpoly.ops o N) x
    rw [hrd, h0] at e1
    exact Bool.eq_iff_iff.mpr (e1.trans e2.symm)

theorem mvpoly.normalize_normalized (o : Ops α) : ∀ (N : Nat) (p : mvpoly α N),
    mvpoly.normalized o N (mvpoly.normalize o N p) = true := by
  intro N
  induction N with
  | zero => intro p; rfl
  | succ N ih =>
    intro x
    obtain ⟨hlen, hget⟩ := mvpoly.normalize_succ o N x
    rw [mvpoly.normalized, Bool.and_eq_true, decide_eq_true_eq, List.all_eq_true]
    constructor
    · by_cases hx : x = []
      · subst hx; rfl
      have hl1 := Polynomial.length_normalize (mvpoly.ops o N) x hx
      apply Polynomial.real_degree_eq_max
      rw [hlen, hl1, Nat.add_sub_cancel]
      intro hd
      rw [hget, if_pos (by omega), Polynomial.get_normalize _ x _ (le_refl _)]
      have hne := Polynomial.real_degree_scan_ne (mvpoly.ops o N) x (x.length - 1) (by
        unfold Polynomial.real_degree at hd; omega)
      unfold Ops.ne at hne ⊢
      rw [mvpoly.normalize_eq_zero]
      exact hne
    · intro c hc
      obtain ⟨k, hk, rfl⟩ := List.getElem_of_mem hc
      rw [← Polynomial.get_of_lt (mvpoly.ops o N) _ k hk, hget, if_pos (by omega)]
      exact ih _

/-- C20: for every coefficient type, after `Polynomial::normalize()` the polynomial has
`real_degree() == max_degree()`; after `MultiPoly::normalize()` the equality holds for the
outer polynomial and for every nested coefficient polynomial at every nesting level. -/
theorem normalize_spec (o : Ops α) :
    (∀ p : List α, Polynomial.real_degree o (Polynomial.normalize o p)
      = Polynomial.max_degree (Polynomial.normalize o p)) ∧
    (∀ (N : Nat) (p : mvpoly α (N + 1)),
      Polynomial.real_degree (mvpoly.ops o N) (MultiPoly.normalize o (N + 1) p)
        = Polynomial.max_degree (MultiPoly.normalize o (N + 1) p)) ∧
    (∀ (N : Nat) (p : mvpoly α N),
      mvpoly.normalized o N (MultiPoly.normalize o N p) = true) := by
  refine ⟨Polynomial.real_degree_normalize o, ?_, mvpoly.normalize_normalized o⟩
  intro N p
  have h := mvpoly.normalize_normalized o (N + 1) p
  rw [mvpoly.normalized, Bool.and_eq_true, decide_eq_true_eq] at h
  exact h.1

end normalize

end Geom.SL

namespace Geom.SL

/-! ## `normalize()` twice; the length test of the multi-index operations -/

section normalize_twice

variable {α : Type}

theorem Polynomial.ext_get (o : Ops α) (p q : List α) (hl : p.length = q.length)
    (h : ∀ k, k < p.length → Polynomial.get o p k = Polynomial.get o q k) : p = q := by
  apply List.ext_getElem hl
  intro k h1 h2
  have := h k h1
  rw [Polynomial.get_of_lt o p k h1, Polynomial.get_of_lt o q k h2] at this
  exact this

theorem Polynomial.normalize_eq_self (o : Ops α) (x : List α)
    (h : Polynomial.real_degree o x = Polynomial.max_degree x) :
    Polynomial.normalize o x = x := by
  unfold Polynomial.normalize
  simp only
  rw [if_neg (by simp [h])]

theorem mvpoly.normalize_twice (o : Ops α) : ∀ (N : Nat) (p : mvpoly α N),
    mvpoly.normalize o N (mvpoly.normalize o N p) = mvpoly.normalize o N p := by
  intro N
  induction N with
  | zero => intro p; rfl
  | succ N ih =>
    intro x
    obtain ⟨hlen, hget⟩ := mvpoly.normalize_succ o N x
    have hn := mvpoly.normalize_normalized o (N + 1) x
    rw [mvpoly.normalized, Bool.and_eq_true, decide_eq_true_eq] at hn
    have hself := Polynomial.normalize_eq_self (mvpoly.ops o N)
      (mvpoly.normalize o (N + 1) x) hn.1
    obtain ⟨hlen2, hget2⟩ := mvpoly.normalize_succ o N (mvpoly.normalize o (N + 1) x)
    rw [hself] at hlen2 hget2
    apply Polynomial.ext_get (mvpoly.ops o N) _ _ hlen2
    intro k hk
    rw [hlen2] at hk
    rw [hget2, if_pos hk, hget, if_pos (by omega), ih]

/-- C21: for every coefficient type, `Polynomial::normalize()` applied twice stores the same
coefficient vector as applied once, and `MultiPoly::normalize()` applied twice to a rank-`N`
polynomial stores the same nested structure as applied once. -/
theorem normalize_idempotent (o : Ops α) :
    (∀ p : List α,
      Polynomial.normalize o (Polynomial.normalize o p) = Polynomial.normalize o p) ∧
    (∀ (N : Nat) (p : mvpoly α N),
      MultiPoly.normalize o N (MultiPoly.normalize o N p) = MultiPoly.normalize o N p) :=
  ⟨fun p => Polynomial.normalize_eq_self o _ (Polynomial.real_degree_normalize o p),
    mvpoly.normalize_twice o⟩

end normalize_twice

section range_error

variable {α : Type}

theorem ite_error_iff {β : Type} (c : Prop) [Decidable c] (v : β) :
    (if c then (Except.error Error.RangeError : Except Error β) else .ok v)
      = .error .RangeError ↔ c := by
  by_cases h : c
  · simp [h]
  · simp [h]

theorem ite_ok_iff {β : Type} (c : Prop) [Decidable c] (v : β) :
    (∃ a, (if c then (Except.error Error.RangeError : Except Error β) else .ok v) = .ok a)
      ↔ ¬ c := by
  by_cases h : c
  · simp [h]
  · simp [h]

theorem getD_replicate_set (N i k v : Nat) (hi : i < N) :
    ((List.replicate N 0).set i v).getD k 0 = if k = i then v else 0 := by
  rw [List.getD_eq_getElem?_getD, List.getElem?_set]
  by_cases h : i = k
  · subst h
    simp [hi]
  · rw [if_neg h, if_neg (fun e => h e.symm), List.getElem?_replicate]
    split <;> rfl

/-- C22: for a rank-`N` polynomial `p`, the safe get, the safe set, `monomial::make` and
`mvpoly::shift` throw `RangeError` exactly if the multi-index supplied has a length other
than `N`, and return normally otherwise; when the safe set or the shift throws, the variable
`p` holds the polynomial it held before.  `make_multi_index<N>(i, v)` throws `RangeError`
exactly if `i >= N`, and otherwise returns the multi-index of length `N` with `v` at
position `i` and zero elsewhere. -/
theorem range_error_spec (o : Ops α) (N : Nat) (p : mvpoly α N) (I : multi_index_type)
    (c : α) (i v : Nat) :
    (MultiPoly.coefficient o N p I = .error .RangeError ↔ I.length ≠ N) ∧
    ((∃ a, MultiPoly.coefficient o N p I = .ok a) ↔ I.length = N) ∧
    (MultiPoly.set_coefficient o N p I c = .error .RangeError ↔ I.length ≠ N) ∧
    ((∃ q, MultiPoly.set_coefficient o N p I c = .ok q) ↔ I.length = N) ∧
    (mvpoly.set_safe_stmt o N p I c = (p, some .RangeError) ↔ I.length ≠ N) ∧
    ((mvpoly.set_safe_stmt o N p I c).2 = none ↔ I.length = N) ∧
    (mvpoly.monomial_make o N I c = .error .RangeError ↔ I.length ≠ N) ∧
    ((∃ q, mvpoly.monomial_make o N I c = .ok q) ↔ I.length = N) ∧
    (mvpoly.shift o N p I = .error .RangeError ↔ I.length ≠ N) ∧
    ((∃ q, mvpoly.shift o N p I = .ok q) ↔ I.length = N) ∧
    (mvpoly.shift_stmt o N p I = (p, some .RangeError) ↔ I.length ≠ N) ∧
    ((mvpoly.shift_stmt o N p I).2 = none ↔ I.length = N) ∧
    (make_multi_index N i v = .error .RangeError ↔ N ≤ i) ∧
    (i < N → ∃ J, make_multi_index N i v = .ok J ∧ J.length = N ∧
      ∀ k, J.getD k 0 = if k = i then v else 0) := by
  refine ⟨ite_error_iff _ _, (ite_ok_iff _ _).trans not_not,
    ite_error_iff _ _, (ite_ok_iff _ _).trans not_not, ?_, ?_,
    ite_error_iff _ _, (ite_ok_iff _ _).trans not_not,
    ite_error_iff _ _, (ite_ok_iff _ _).trans not_not, ?_, ?_, ?_, ?_⟩
  · unfold mvpoly.set_safe_stmt
    by_cases h : I.length ≠ N
    · simp [h]
    · simp [h]
  · unfold mvpoly.set_safe_stmt
    by_cases h : I.length ≠ N
    · simp [h]
    · simp only [h, if_false, true_iff]
      exact not_not.mp h
  · unfold mvpoly.shift_stmt
    by_cases h : I.length ≠ N
    · simp [h]
    · simp [h]
  · unfold mvpoly.shift_stmt
    by_cases h : I.length ≠ N
    · simp [h]
    · simp only [h, if_false, true_iff]
      exact not_not.mp h
  · exact (ite_error_iff _ _).trans Nat.not_lt
  · intro hi
    refine ⟨(List.replicate N 0).set i v, ?_, by simp, fun k => getD_replicate_set N i k v hi⟩
    unfold make_multi_index
    rw [if_neg (not_not.mpr hi)]

end range_error

end Geom.SL

namespace Geom.SL

/-! ## `determinant_minor`: closed forms against the general procedure; row exchange -/

section determinant_paths

variable {α R : Type} [CommRing R]

/-- The general procedure on a matrix with at least two columns returns, and through any
operator-respecting map its result is the determinant of the image matrix. -/
theorem determinant_general_hom (o : Ops α) (φ : α → R) (hφ : o.Hom φ) (M : Matrix α)
    (n : Nat) (hn : 2 ≤ n) (hc : M.columns = n) :
    (determinant_general o M).map φ = some (Matrix.det (M.toMatrix o φ n)) := by
  subst hc
  obtain ⟨d, hd1, hd2⟩ := determinant_general_spec o φ hφ M hn
  rw [hd1, Option.map_some', hd2, laplace_eq_det]
  simp [Matrix.toMatrix, List.getD_eq_getElem?_getD]

/-- C23, amended: for `n` in `{2, 3}` and every `n`-by-`n` matrix `M` whose entry operators
are respected by a map `φ` into a commutative ring (for numeric entries the identity, for
polynomial entries the evaluation at any point), the closed form that `determinant_minor`
returns and the result of the general memoized-minor procedure run on `M` have the same
image under `φ`. -/
theorem closed_form_eq_general (o : Ops α) (φ : α → R) (hφ : o.Hom φ) (M : Matrix α) (n : Nat)
    (hn : n = 2 ∨ n = 3) (hM : M.IsSquare n) :
    ∃ a b, determinant_minor o M = some a ∧ determinant_general o M = some b ∧ φ a = φ b := by
  have h1 := determinant_minor_hom o φ hφ M n (by omega) hM.2.1
  have h2 := determinant_general_hom o φ hφ M n (by omega) hM.2.1
  cases ha : determinant_minor o M with
  | none => rw [ha] at h1; simp at h1
  | some a =>
    cases hb : determinant_general o M with
    | none => rw [hb] at h2; simp at h2
    | some b =>
      rw [ha, Option.map_some'] at h1
      rw [hb, Option.map_some'] at h2
      exact ⟨a, b, rfl, rfl, (Option.some.inj h1).trans (Option.some.inj h2).symm⟩

/-- C23, amended, instance: a 3-by-3 integer matrix with a zero entry. -/
theorem closed_form_eq_general_witness :
    ∃ a b, determinant_minor (numOps Int) ⟨[0, 2, 3, 4, 5, 6, 7, 8, 10], 3, 3⟩ = some a ∧
      determinant_general (numOps Int) ⟨[0, 2, 3, 4, 5, 6, 7, 8, 10], 3, 3⟩ = some b ∧
      (fun x : Int => x) a = (fun x : Int => x) b :=
  closed_form_eq_general (numOps Int) (fun x => x) (numOps_hom Int)
    ⟨[0, 2, 3, 4, 5, 6, 7, 8, 10], 3, 3⟩ 3 (Or.inr rfl) (by decide)

/-- C23 fails at `n = 1`: for the 1-by-1 matrix with the entry `5` (a constant polynomial
of rank 1 over the integers) the closed form returns the entry, while the general procedure
runs no column pass and returns the default-constructed `det`, the zero polynomial; the two
do not compare equal. -/
theorem closed_form_ne_general_one :
    determinant_minor (MultiPoly.ops (numOps Int) 1) ⟨[([5] : List Int)], 1, 1⟩
      = some ([5] : List Int) ∧
    determinant_general (MultiPoly.ops (numOps Int) 1) ⟨[([5] : List Int)], 1, 1⟩
      = some ([0] : List Int) ∧
    MultiPoly.eq (numOps Int) 1 ([5] : List Int) ([0] : List Int) = false ∧
    determinant_minor (MultiPoly.ops (numOps Int) 1) ⟨[([5] : List Int)], 1, 1⟩
      ≠ determinant_general (MultiPoly.ops (numOps Int) 1) ⟨[([5] : List Int)], 1, 1⟩ := by
  decide

end determinant_paths

section row_exchange

variable {α : Type}

/-- The row that row `r` comes from when rows `i` and `j` are exchanged. -/
def swap_index (i j r : Nat) : Nat := if r = i then j else if r = j then i else r

/-- The matrix `M` with rows `i` and `j` exchanged (not a function of the sources; the
operation that the property on row exchanges speaks of). -/
def Matrix.swap_rows (o : Ops α) (M : Matrix α) (i j : Nat) : Matrix α :=
  ⟨(List.range (M.rows * M.columns)).map
      (fun idx => M.get o (swap_index i j (idx / M.columns)) (idx % M.columns)),
    M.rows, M.columns⟩

theorem Matrix.isSquare_swap_rows (o : Ops α) (M : Matrix α) (n i j : Nat)
    (hM : M.IsSquare n) : (M.swap_rows o i j).IsSquare n := by
  obtain ⟨h1, h2, _⟩ := hM
  refine ⟨h1, h2, ?_⟩
  show ((List.range (M.rows * M.columns)).map _).length = n * n
  rw [List.length_map, List.length_range, h1, h2]

theorem Matrix.get_swap_rows (o : Ops α) (M : Matrix α) (n i j r s : Nat)
    (hM : M.IsSquare n) (hr : r < n) (hs : s < n) :
    (M.swap_rows o i j).get o r s = M.get o (swap_index i j r) s := by
  obtain ⟨h1, h2, _⟩ := hM
  have hlt := cell_index_lt n r s hr hs
  unfold Matrix.swap_rows
  show List.getD _ _ _ = _
  simp only [Matrix.columns, Matrix.rows] at h1 h2 ⊢
  rw [h1, h2, List.getD_eq_getElem?_getD, List.getElem?_map,
    List.getElem?_range hlt]
  simp only [Option.map_some', Option.getD_some]
  have e1 : (r * n + s) / n = r := by
    rw [Nat.add_comm, Nat.add_mul_div_right _ _ (by omega : 0 < n), Nat.div_eq_of_lt hs,
      Nat.zero_add]
  have e2 : (r * n + s) % n = s := by
    rw [Nat.add_comm, Nat.add_mul_mod_self_right, Nat.mod_eq_of_lt hs]
  rw [e1, e2]

variable (R : Type) [CommRing R] [DecidableEq R]

/-- C24: for every `n >= 2`, every `n`-by-`n` matrix `M` over a commutative ring and all
distinct rows `i`, `j < n`, `determinant_minor` returns on `M` and on `M` with rows `i` and
`j` exchanged, and the second result is the negation of the first. -/
theorem determinant_minor_swap (n : Nat) (M : Matrix R) (i j : Nat) (hn : 2 ≤ n)
    (hM : M.IsSquare n) (hi : i < n) (hj : j < n) (hij : i ≠ j) :
    ∃ d, determinant_minor (numOps R) M = some d ∧
      determinant_minor (numOps R) (M.swap_rows (numOps R) i j) = some (-d) := by
  have h1 := determinant_minor_hom (numOps R) (fun a => a) (numOps_hom R) M n (by omega)
    hM.2.1
  have hS := Matrix.isSquare_swap_rows (numOps R) M n i j hM
  have h2 := determinant_minor_hom (numOps R) (fun a => a) (numOps_hom R)
    (M.swap_rows (numOps R) i j) n (by omega) hS.2.1
  have hsub : (M.swap_rows (numOps R) i j).toMatrix (numOps R) (fun a => a) n
      = (M.toMatrix (numOps R) (fun a => a) n).submatrix
          (Equiv.swap (⟨i, hi⟩ : Fin n) ⟨j, hj⟩) id := by
    ext r s
    show (M.swap_rows (numOps R) i j).get (numOps R) r s
      = M.get (numOps R) (Equiv.swap (⟨i, hi⟩ : Fin n) ⟨j, hj⟩ r) (id s)
    rw [Matrix.get_swap_rows (numOps R) M n i j r s hM r.2 s.2]
    congr 1
    unfold swap_index
    rw [Equiv.swap_apply_def]
    by_cases hri : r = ⟨i, hi⟩
    · rw [if_pos hri, if_pos (by rw [hri])]
    · rw [if_neg hri, if_neg (fun h => hri (Fin.ext h))]
      by_cases hrj : r = ⟨j, hj⟩
      · rw [if_pos hrj, if_pos (by rw [hrj])]
      · rw [if_neg hrj, if_neg (fun h => hrj (Fin.ext h))]
  rw [hsub, Matrix.det_permute, Equiv.Perm.sign_swap (by
    intro h; exact hij (Fin.mk.inj h))] at h2
  refine ⟨Matrix.det (M.toMatrix (numOps R) (fun a => a) n), ?_, ?_⟩
  · rw [← h1]
    cases determinant_minor (numOps R) M <;> rfl
  · have e : determinant_minor (numOps R) (M.swap_rows (numOps R) i j)
        = Option.map (fun a => a) (determinant_minor (numOps R) (M.swap_rows (numOps R) i j)) := by
      cases determinant_minor (numOps R) (M.swap_rows (numOps R) i j) <;> rfl
    rw [e, h2]
    simp

/-- C24, instance: a 4-by-4 integer matrix, rows 0 and 2 exchanged. -/
theorem determinant_minor_swap_witness :
    ∃ d, determinant_minor (numOps Int)
        ⟨[1, 2, 3, 4, 5, 6, 7, 8, 2, 6, 4, 8, 3, 1, 1, 2], 4, 4⟩ = some d ∧
      determinant_minor (numOps Int)
        (Matrix.swap_rows (numOps Int)
          ⟨[1, 2, 3, 4, 5, 6, 7, 8, 2, 6, 4, 8, 3, 1, 1, 2], 4, 4⟩ 0 2) = some (-d) :=
  determinant_minor_swap Int 4 ⟨[1, 2, 3, 4, 5, 6, 7, 8, 2, 6, 4, 8, 3, 1, 1, 2], 4, 4⟩ 0 2
    (by decide) (by decide) (by decide) (by decide) (by decide)

end row_exchange

end Geom.SL

namespace Geom.SL

/-! ## matrix.h: `resize` and `polynomial_matrix_evaluate` -/

section matrix_evaluate

variable {α β : Type}

/-- A stored matrix is `m`-by-`n`: `rows() == m`, `columns() == n`, `m*n` stored entries. -/
def Matrix.IsRect (M : Matrix α) (m n : Nat) : Prop :=
  M.rows = m ∧ M.columns = n ∧ M.m_data.length = m * n

theorem rect_index_lt (m n r s : Nat) (hr : r < m) (hs : s < n) : r * n + s < m * n := by
  have h : (r + 1) * n ≤ m * n := Nat.mul_le_mul_right n hr
  have e : (r + 1) * n = r * n + n := by ring
  omega

theorem Matrix.isRect_set (M : Matrix α) (m n r s : Nat) (v : α) (h : M.IsRect m n) :
    (M.set r s v).IsRect m n := by
  obtain ⟨h1, h2, h3⟩ := h
  exact ⟨h1, h2, by simpa [Matrix.set] using h3⟩

theorem Matrix.rect_get_set (o : Ops α) (M : Matrix α) (m n r s r' s' : Nat) (v : α)
    (h : M.IsRect m n) (hr : r < m) (hs : s < n) (hs' : s' < n) :
    (M.set r s v).get o r' s' = if r' = r ∧ s' = s then v else M.get o r' s' := by
  obtain ⟨_, h2, h3⟩ := h
  have h2' : M.m_columns = n := h2
  unfold Matrix.get Matrix.set Matrix.columns
  simp only [h2']
  rw [List.getD_eq_getElem?_getD, List.getD_eq_getElem?_getD, List.getElem?_set]
  by_cases hc : r' = r ∧ s' = s
  · obtain ⟨rfl, rfl⟩ := hc
    have hlt : r' * n + s' < M.m_data.length := by rw [h3]; exact rect_index_lt m n r' s' hr hs
    simp [hlt]
  · have hne : ¬ r * n + s = r' * n + s' := by
      intro e
      obtain ⟨a, b⟩ := cell_index_inj n r s r' s' hs hs' e
      exact hc ⟨a.symm, b.symm⟩
    simp [hc, hne]

/-- On a matrix `A` of the size of `M`, the two loops store `ev(M(i,j))` in every cell. -/
theorem evaluate_loops_spec (oa : Ops α) (ob : Ops β) (ev : β → α) (A : Matrix α)
    (M : Matrix β) (m n : Nat) (hA : A.IsRect m n) (hMr : M.rows = m) (hMc : M.columns = n) :
    (evaluate_loops ob ev A M).IsRect m n ∧
    ∀ r s, r < m → s < n → (evaluate_loops ob ev A M).get oa r s = ev (M.get ob r s) := by
  have inner : ∀ (i : Nat), i < m → ∀ (A0 : Matrix α), A0.IsRect m n → ∀ l, l ≤ n →
      ((List.range l).foldl (fun A j => A.set i j (ev (M.get ob i j))) A0).IsRect m n ∧
      ∀ r s, r < m → s < n →
        ((List.range l).foldl (fun A j => A.set i j (ev (M.get ob i j))) A0).get oa r s
          = if r = i ∧ s < l then ev (M.get ob i s) else A0.get oa r s := by
    intro i hi A0 hA0 l
    induction l with
    | zero => intro _; exact ⟨hA0, fun r s _ _ => by simp⟩
    | succ l ih =>
      intro hl
      obtain ⟨ih1, ih2⟩ := ih (by omega)
      rw [List.range_succ, List.foldl_append]
      simp only [List.foldl_cons, List.foldl_nil]
      generalize (List.range l).foldl (fun A j => A.set i j (ev (M.get ob i j))) A0 = cur
        at ih1 ih2 ⊢
      refine ⟨Matrix.isRect_set cur m n i l _ ih1, ?_⟩
      intro r s hr hs
      rw [Matrix.rect_get_set oa cur m n i l r s _ ih1 hi (by omega) hs, ih2 r s hr hs]
      by_cases h1 : r = i ∧ s = l
      · obtain ⟨rfl, rfl⟩ := h1
        rw [if_pos ⟨rfl, rfl⟩, if_pos ⟨rfl, by omega⟩]
      · rw [if_neg h1]
        by_cases h2 : r = i ∧ s < l
        · rw [if_pos h2, if_pos ⟨h2.1, by omega⟩]
        · rw [if_neg h2, if_neg (by omega)]
  have outer : ∀ k, k ≤ m →
      ((List.range k).foldl (fun A i =>
        (List.range n).foldl (fun A j => A.set i j (ev (M.get ob i j))) A) A).IsRect m n ∧
      ∀ r s, r < m → s < n →
        ((List.range k).foldl (fun A i =>
          (List.range n).foldl (fun A j => A.set i j (ev (M.get ob i j))) A) A).get oa r s
          = if r < k then ev (M.get ob r s) else A.get oa r s := by
    intro k
    induction k with
    | zero => intro _; exact ⟨hA, fun r s _ _ => by simp⟩
    | succ k ih =>
      intro hk
      obtain ⟨ih1, ih2⟩ := ih (by omega)
      rw [List.range_succ, List.foldl_append]
      simp only [List.foldl_cons, List.foldl_nil]
      generalize (List.range k).foldl (fun A i =>
        (List.range n).foldl (fun A j => A.set i j (ev (M.get ob i j))) A) A = cur at ih1 ih2 ⊢
      obtain ⟨h1, h2⟩ := inner k (by omega) cur ih1 n (le_refl _)
      refine ⟨h1, ?_⟩
      intro r s hr hs
      rw [h2 r s hr hs, ih2 r s hr hs]
      by_cases h3 : r = k
      · subst h3
        rw [if_pos ⟨rfl, hs⟩, if_pos (by omega)]
      · rw [if_neg (fun h => h3 h.1)]
        by_cases h4 : r < k
        · rw [if_pos h4, if_pos (by omega)]
        · rw [if_neg h4, if_neg (by omega)]
  obtain ⟨h1, h2⟩ := outer m (le_refl _)
  unfold evaluate_loops
  rw [hMr, hMc]
  refine ⟨h1, ?_⟩
  intro r s hr hs
  rw [h2 r s hr hs, if_pos hr]

variable (R : Type) [CommRing R] [DecidableEq R]

/-- Evaluation at a point respects the operators `MultiPoly<N, CoeffT>` offers to a matrix. -/
theorem multi_call_hom (N : Nat) (X : Nat → R) :
    (MultiPoly.ops (numOps R) N).Hom (fun p => MultiPoly.call (numOps R) N p X) := by
  have hh := mvpoly.mv_ops_hom (numOps R) (fun a : R => a) (numOps_hom R) X N 0
  have hcall : ∀ p : mvpoly R N, MultiPoly.call (numOps R) N p X
      = mvpoly.sem (numOps R) (fun a => a) X N 0 p := fun p => mvpoly.evaluate_eq_sem N p X
  have hz : mvpoly.sem (numOps R) (fun a => a) X N 0 (MultiPoly.zero (numOps R) N) = 0 := by
    have := mvpoly.sem_monomial (RingHom.id R) X N (multi_index_zero N) 0 0
      (by simp [multi_index_zero])
    rw [map_zero, zero_mul] at this
    exact this
  have ho : mvpoly.sem (numOps R) (fun a => a) X N 0 (MultiPoly.one (numOps R) N) = 1 := by
    have := mvpoly.sem_monomial (RingHom.id R) X N (multi_index_zero N) 1 0
      (by simp [multi_index_zero])
    rw [map_one, one_mul, monomial_value_zero] at this
    exact this
  refine ⟨?_, ?_, ?_, ?_, ?_, ?_, ?_, ?_⟩
  · show MultiPoly.call (numOps R) N (MultiPoly.zero (numOps R) N) X = 0
    rw [hcall]; exact hz
  · show MultiPoly.call (numOps R) N (MultiPoly.one (numOps R) N) X = 1
    rw [hcall]; exact ho
  · intro a b; simp only [hcall]; exact hh.map_add a b
  · intro a b; simp only [hcall]; exact hh.map_sub a b
  · intro a; simp only [hcall]; exact hh.map_neg a
  · intro a b; simp only [hcall]; exact hh.map_mul a b
  · intro a b h; simp only [hcall]; exact hh.eq_sound a b h
  · intro a h
    simp only [hcall]
    rw [hh.eq_sound a (MultiPoly.zero (numOps R) N) h]
    exact hz

/-- C25: for every `n >= 1`, every `n`-by-`n` matrix `M` of bivariate polynomials over a
commutative ring, every `n`-by-`n` numeric matrix `A` and every point `(x0, y0)`:
`determinant_minor(M)` returns a polynomial `F`, and the determinant of `A` after
`polynomial_matrix_evaluate(A, M, (x0, y0))`, whose entries are the `M(i,j)(x0, y0)`, is
`F(x0, y0)`, also as computed by `determinant_minor` on the numeric matrix. -/
theorem evaluate_det (n : Nat) (M : Matrix (mvpoly R 2)) (A : NLMatrix R) (x0 y0 : R)
    (hn : 1 ≤ n) (hM : M.IsSquare n) (hA : A.IsSquare n) :
    ∃ F, determinant_minor (MultiPoly.ops (numOps R) 2) M = some F ∧
      (∀ i j, i < n → j < n →
        (polynomial_matrix_evaluate_point (numOps R) A M x0 y0).get (numOps R) i j
          = MultiPoly.call (numOps R) 2 (M.get (MultiPoly.ops (numOps R) 2) i j)
              (fun k => if k = 0 then x0 else y0)) ∧
      Matrix.det ((polynomial_matrix_evaluate_point (numOps R) A M x0 y0).toMatrix
          (numOps R) (fun a => a) n)
        = MultiPoly.call (numOps R) 2 F (fun k => if k = 0 then x0 else y0) ∧
      determinant_minor (numOps R) (polynomial_matrix_evaluate_point (numOps R) A M x0 y0)
        = some (MultiPoly.call (numOps R) 2 F (fun k => if k = 0 then x0 else y0)) := by
  obtain ⟨hs, hg⟩ := evaluate_loops_spec (numOps R) (MultiPoly.ops (numOps R) 2)
    (fun p => MultiPoly.call (numOps R) 2 p (fun k => if k = 0 then x0 else y0)) A M n n
    hA hM.1 hM.2.1
  have h1 := determinant_minor_hom (MultiPoly.ops (numOps R) 2) _
    (multi_call_hom R 2 (fun k => if k = 0 then x0 else y0)) M n hn hM.2.1
  have h2 := determinant_minor_hom (numOps R) (fun a => a) (numOps_hom R)
    (polynomial_matrix_evaluate_point (numOps R) A M x0 y0) n hn hs.2.1
  have hmat : (polynomial_matrix_evaluate_point (numOps R) A M x0 y0).toMatrix
        (numOps R) (fun a => a) n
      = M.toMatrix (MultiPoly.ops (numOps R) 2)
          (fun p => MultiPoly.call (numOps R) 2 p (fun k => if k = 0 then x0 else y0)) n := by
    ext r s
    exact hg r s r.2 s.2
  cases hF : determinant_minor (MultiPoly.ops (numOps R) 2) M with
  | none => rw [hF] at h1; simp at h1
  | some F =>
    rw [hF, Option.map_some'] at h1
    have hdet := Option.some.inj h1
    refine ⟨F, rfl, hg, ?_, ?_⟩
    · rw [hmat, hdet]
    · rw [hmat, ← hdet] at h2
      rw [← h2]
      cases determinant_minor (numOps R)
        (polynomial_matrix_evaluate_point (numOps R) A M x0 y0) <;> rfl

/-- C25, instance: the matrix `[[x, y], [1, x*y]]` over the integers at the point `(2, 3)`. -/
theorem evaluate_det_witness :
    ∃ F, determinant_minor (MultiPoly.ops (numOps Int) 2)
        ⟨[([[0], [1]] : List (List Int)), [[0, 1]], [[1]], [[0], [0, 1]]], 2, 2⟩ = some F ∧
      (∀ i j, i < 2 → j < 2 →
        (polynomial_matrix_evaluate_point (numOps Int) ⟨[0, 0, 0, 0], 2, 2⟩
          ⟨[([[0], [1]] : List (List Int)), [[0, 1]], [[1]], [[0], [0, 1]]], 2, 2⟩ 2 3).get
            (numOps Int) i j
          = MultiPoly.call (numOps Int) 2
              (Matrix.get (MultiPoly.ops (numOps Int) 2)
                ⟨[([[0], [1]] : List (List Int)), [[0, 1]], [[1]], [[0], [0, 1]]], 2, 2⟩ i j)
              (fun k => if k = 0 then 2 else 3)) ∧
      Matrix.det ((polynomial_matrix_evaluate_point (numOps Int) ⟨[0, 0, 0, 0], 2, 2⟩
          ⟨[([[0], [1]] : List (List Int)), [[0, 1]], [[1]], [[0], [0, 1]]], 2, 2⟩ 2 3).toMatrix
          (numOps Int) (fun a => a) 2)
        = MultiPoly.call (numOps Int) 2 F (fun k => if k = 0 then 2 else 3) ∧
      determinant_minor (numOps Int)
          (polynomial_matrix_evaluate_point (numOps Int) ⟨[0, 0, 0, 0], 2, 2⟩
            ⟨[([[0], [1]] : List (List Int)), [[0, 1]], [[1]], [[0], [0, 1]]], 2, 2⟩ 2 3)
        = some (MultiPoly.call (numOps Int) 2 F (fun k => if k = 0 then 2 else 3)) :=
  evaluate_det Int 2 ⟨[([[0], [1]] : List (List Int)), [[0, 1]], [[1]], [[0], [0, 1]]], 2, 2⟩
    ⟨[0, 0, 0, 0], 2, 2⟩ 2 3 (by decide) (by decide) (by decide)

end matrix_evaluate

/-- C26 at `Matrix<int> A(1, 1); A.resize(2, 3)`: the constructor `Matrix(2, 3)` stores
`2*3` entries, but after `resize(2, 3)` the matrix reports 2 rows and 3 columns while
`m_data` holds 2 entries (the old one and one new entry of value 3), so the row-major index
`1*3 + 2` of the cell `(1, 2)` is past the end. -/
theorem matrix_resize_size :
    (Matrix.mk' (0 : Int) 2 3).m_data.length = 2 * 3 ∧
    Matrix.resize (fun n => (n : Int)) (Matrix.mk' 0 1 1) 2 3 = ⟨[0, 3], 2, 3⟩ ∧
    (Matrix.resize (fun n => (n : Int)) (Matrix.mk' 0 1 1) 2 3).rows = 2 ∧
    (Matrix.resize (fun n => (n : Int)) (Matrix.mk' 0 1 1) 2 3).columns = 3 ∧
    (Matrix.resize (fun n => (n : Int)) (Matrix.mk' 0 1 1) 2 3).m_data.length = 2 ∧
    ¬ (1 * (Matrix.resize (fun n => (n : Int)) (Matrix.mk' 0 1 1) 2 3).columns + 2
        < (Matrix.resize (fun n => (n : Int)) (Matrix.mk' 0 1 1) 2 3).m_data.length) := by
  decide

/-- C27 at the 1-by-2 matrix `M = [[1 + 2x, 5]]` of rank-1 polynomials over the integers, an
empty `A` and `X = (1)`: after `A.resize(1, 2)` the vector `m_data` of `A` holds one entry,
so the write `A(0,1) = M(0,1)(X)` goes through the index `0*2 + 1`, past the end; only
`A(0,0) = 3` is stored. -/
theorem matrix_evaluate_out_of_range :
    (polynomial_matrix_evaluate (numOps Int) (fun n => (n : Int)) 1 ⟨[], 0, 0⟩
      ⟨[([1, 2] : List Int), [5]], 1, 2⟩ (fun _ => 1)) = ⟨[3], 1, 2⟩ ∧
    (Matrix.resize (fun n => (n : Int)) (⟨[], 0, 0⟩ : Matrix Int) 1 2).m_data.length = 1 ∧
    ¬ (0 * 2 + 1
        < (Matrix.resize (fun n => (n : Int)) (⟨[], 0, 0⟩ : Matrix Int) 1 2).m_data.length) ∧
    MultiPoly.call (numOps Int) 1 ([5] : List Int) (fun _ => 1) = 5 := by
  decide

end Geom.SL

namespace Geom.SL

/-! ## The moving-line invariant of `microbasis` -/

section moving_lines

variable {K : Type} [Field K] [DecidableEq K]

/-- The state of the `while` loop of `microbasis` after `k` passes, or at loop exit if the
loop ends earlier (implicit.h:165-218). -/
def microbasis_after (n : Nat) : Nat → MicroState K → MicroState K
  | 0, st => st
  | k + 1, st =>
    if st.n0.1 + st.n1.1 > n then microbasis_after n k (microbasis_step st) else st

/-- The loop returns the state reached after its budget of passes. -/
theorem microbasis_loop_eq_after (n : Nat) : ∀ (fuel : Nat) (st st' : MicroState K),
    microbasis_loop n fuel st = some st' → st' = microbasis_after n fuel st := by
  intro fuel
  induction fuel with
  | zero =>
    intro st st' h
    rw [microbasis_loop] at h
    split at h
    · exact absurd h (by simp)
    · exact (Option.some.inj h).symm
  | succ fuel ih =>
    intro st st' h
    rw [microbasis_loop] at h
    rw [microbasis_after]
    split
    · rename_i hgt
      rw [if_pos hgt] at h
      exact ih _ _ h
    · rename_i hgt
      rw [if_neg hgt] at h
      exact (Option.some.inj h).symm

theorem microbasis_after_inv (F G : Polynomial K) (n : Nat) (hF : F.natDegree ≤ n)
    (hG : G.natDegree ≤ n) : ∀ (k : Nat) (st : MicroState K), MicroInv F G n st →
    MicroInv F G n (microbasis_after n k st) := by
  intro k
  induction k with
  | zero => intro st h; exact h
  | succ k ih =>
    intro st h
    rw [microbasis_after]
    split
    · rename_i hgt
      exact ih _ (microbasis_step_spec F G n hF hG st h hgt).1
    · exact h

/-- The state of `microbasis(f, g)` at loop entry (`k = 0`) and after `k` passes of its loop
(implicit.h:152-218). -/
def microbasis_state (f g : mvpoly K 1) (k : Nat) : MicroState K :=
  microbasis_after
    (max (Polynomial.real_degree (numOps K) f) (Polynomial.real_degree (numOps K) g)) k
    ⟨make_initial_basis f g, deg (make_initial_basis f g).b0, deg (make_initial_basis f g).b1⟩

/-- C28: for all univariate polynomials `f`, `g` over a field and every `k`, the basis held
by `microbasis(f, g)` at loop entry (`k = 0`) and after `k` passes of its loop has both
vectors `(a0, a1, a2)` satisfying `a0*f + a1*g + a2 = 0` as polynomials in `t`; every such
vector is the combination `a0*[1, 0, -f] + a1*[0, 1, -g]` of the initial basis; and the
basis that `microbasis` returns is the one held after some number of passes. -/
theorem microbasis_moving_lines (f g : mvpoly K 1) (k : Nat) :
    (toPoly (microbasis_state f g k).b.b0.c0 * toPoly f
      + toPoly (microbasis_state f g k).b.b0.c1 * toPoly g
      + toPoly (microbasis_state f g k).b.b0.c2 = 0) ∧
    (toPoly (microbasis_state f g k).b.b1.c0 * toPoly f
      + toPoly (microbasis_state f g k).b.b1.c1 * toPoly g
      + toPoly (microbasis_state f g k).b.b1.c2 = 0) ∧
    (∀ v : poly_vector_type K,
      toPoly v.c0 * toPoly f + toPoly v.c1 * toPoly g + toPoly v.c2 = 0 →
      toPoly v.c0 = toPoly v.c0 * toPoly (make_initial_basis f g).b0.c0
          + toPoly v.c1 * toPoly (make_initial_basis f g).b1.c0 ∧
      toPoly v.c1 = toPoly v.c0 * toPoly (make_initial_basis f g).b0.c1
          + toPoly v.c1 * toPoly (make_initial_basis f g).b1.c1 ∧
      toPoly v.c2 = toPoly v.c0 * toPoly (make_initial_basis f g).b0.c2
          + toPoly v.c1 * toPoly (make_initial_basis f g).b1.c2) ∧
    (∃ b k', microbasis f g = some b ∧ b = (microbasis_state f g k').b) := by
  have hinv := microbasis_after_inv (toPoly f) (toPoly g)
    (max (Polynomial.real_degree (numOps K) f) (Polynomial.real_degree (numOps K) g))
    (by rw [natDegree_toPoly]; exact le_max_left _ _)
    (by rw [natDegree_toPoly]; exact le_max_right _ _) k _ (microbasis_init f g)
  obtain ⟨m0, m1⟩ := crossed_moving_line _ _ _ hinv.crossed
  refine ⟨m0, m1, ?_, ?_⟩
  · intro v hv
    have a1 : MultiPoly.assign_coeff (numOps K) 1 (1 : K) = ([1] : List K) := rfl
    have a0 : MultiPoly.assign_coeff (numOps K) 1 (0 : K) = ([0] : List K) := rfl
    simp only [make_initial_basis, a0, a1, toPoly_singleton, toPoly_neg]
    refine ⟨by simp, by simp, ?_⟩
    linear_combination hv
  · obtain ⟨b, hb, _, _⟩ := microbasis_spec (K := K) f g
    refine ⟨b, (deg (make_initial_basis f g).b0).1 + (deg (make_initial_basis f g).b1).1,
      hb, ?_⟩
    unfold microbasis at hb
    simp only at hb
    cases hloop : microbasis_loop
        (max (Polynomial.real_degree (numOps K) f) (Polynomial.real_degree (numOps K) g))
        ((deg (make_initial_basis f g).b0).1 + (deg (make_initial_basis f g).b1).1)
        ⟨make_initial_basis f g, deg (make_initial_basis f g).b0,
          deg (make_initial_basis f g).b1⟩ with
    | none => rw [hloop] at hb; simp at hb
    | some st' =>
      rw [hloop, Option.map_some'] at hb
      rw [← Option.some.inj hb, microbasis_loop_eq_after _ _ _ _ hloop]
      rfl

end moving_lines

end Geom.SL

namespace Geom.SL

/-! ## The coefficients of `basis_to_poly` -/

section add_coefficients

variable {K : Type} [CommRing K] [DecidableEq K]

theorem mvpoly.wf_of_get (N : Nat) (l : List (mvpoly K N)) (hne : l ≠ [])
    (h : ∀ k, k < l.length →
      mvpoly.wf N (Polynomial.get (mvpoly.ops (numOps K) N) l k) = true) :
    mvpoly.wf (N + 1) l = true := by
  rw [mvpoly.wf_succ]
  refine ⟨hne, ?_⟩
  intro c hc
  obtain ⟨k, hk, rfl⟩ := List.getElem_of_mem hc
  rw [← Polynomial.get_of_lt (mvpoly.ops (numOps K) N) l k hk]
  exact h k hk

/-- The sum of two well-formed polynomials is well formed. -/
theorem mvpoly.wf_add : ∀ (N : Nat) (p q : mvpoly K N), mvpoly.wf N p = true →
    mvpoly.wf N q = true → mvpoly.wf N ((mvpoly.ops (numOps K) N).add p q) = true := by
  intro N
  induction N with
  | zero => intro p q _ _; rfl
  | succ N ih =>
    intro p q hp hq
    obtain ⟨hpne, _⟩ := (mvpoly.wf_succ N p).mp hp
    have hpl : 0 < List.length p := List.length_pos.mpr hpne
    show mvpoly.wf (N + 1) (Polynomial.add (mvpoly.ops (numOps K) N) p q) = true
    apply mvpoly.wf_of_get
    · intro h
      have h2 := congrArg List.length h
      rw [Polynomial.length_add, List.length_nil] at h2
      have h3 := le_max_left (List.length p) (List.length q)
      omega
    · intro k _
      rw [Polynomial.get_add]
      split
      · split
        · exact ih _ _ (mvpoly.wf_get N p hp k) (mvpoly.wf_get N q hq k)
        · exact mvpoly.wf_get N p hp k
      · exact mvpoly.wf_get N q hq k

/-- The safe-get coefficients of a sum are the sums of the coefficients. -/
theorem mvpoly.get_safe_add : ∀ (N : Nat) (p q : mvpoly K N) (I : multi_index_type),
    mvpoly.wf N p = true → mvpoly.wf N q = true → I.length = N →
    mvpoly.get_safe_impl (numOps K) N ((mvpoly.ops (numOps K) N).add p q) I
      = mvpoly.get_safe_impl (numOps K) N p I + mvpoly.get_safe_impl (numOps K) N q I := by
  intro N
  induction N with
  | zero => intro p q I _ _ _; rfl
  | succ N ih =>
    intro p q I hp hq hI
    obtain ⟨k, I', rfl⟩ := List.exists_cons_of_length_eq_add_one hI
    have hI' : I'.length = N := by simpa using hI
    obtain ⟨hpne, _⟩ := (mvpoly.wf_succ N p).mp hp
    obtain ⟨hqne, _⟩ := (mvpoly.wf_succ N q).mp hq
    have hpl : 0 < List.length p := List.length_pos.mpr hpne
    have hql : 0 < List.length q := List.length_pos.mpr hqne
    have hadd : (mvpoly.ops (numOps K) (N + 1)).add p q
        = Polynomial.add (mvpoly.ops (numOps K) N) p q := rfl
    rw [hadd, mvpoly.get_safe_cons, mvpoly.get_safe_cons, mvpoly.get_safe_cons]
    have hmax : Polynomial.max_degree (Polynomial.add (mvpoly.ops (numOps K) N) p q)
        = max (List.length p) (List.length q) - 1 := by
      unfold Polynomial.max_degree; rw [Polynomial.length_add]
    rw [hmax, Polynomial.get_add]
    unfold Polynomial.max_degree
    by_cases h1 : k < List.length p
    · by_cases h2 : k < List.length q
      · rw [if_neg (by omega), if_pos h1, if_pos h2, if_neg (by omega), if_neg (by omega)]
        exact ih _ _ I' (mvpoly.wf_get N p hp k) (mvpoly.wf_get N q hq k) hI'
      · rw [if_neg (by omega), if_pos h1, if_neg h2, if_neg (by omega), if_pos (by omega),
          add_zero]
    · by_cases h2 : k < List.length q
      · rw [if_neg (by omega), if_neg h1, if_pos (by omega), if_neg (by omega), zero_add]
      · rw [if_pos (by omega), if_pos (by omega), if_pos (by omega), add_zero]

end add_coefficients

section basis_to_poly_coefficients

variable {K : Type} [Field K] [DecidableEq K]

theorem poly1_to_poly3_coefficients (p3 : mvpoly K 3) (p1 : List K) (i j : Nat)
    (hwf : mvpoly.wf 3 p3 = true)
    (hz : ∀ t a b, mvpoly.get_safe_impl (numOps K) 3 p3 [t, a, b] = 0) : ∀ m,
    mvpoly.wf 3 ((List.range m).foldl (fun p3 t => mvpoly.set_safe_impl (numOps K) 3 p3 [t, i, j]
        (Polynomial.get (numOps K) p1 t)) p3) = true ∧
    ∀ t a b, mvpoly.get_safe_impl (numOps K) 3
      ((List.range m).foldl (fun p3 t => mvpoly.set_safe_impl (numOps K) 3 p3 [t, i, j]
        (Polynomial.get (numOps K) p1 t)) p3) [t, a, b]
      = if a = i ∧ b = j ∧ t < m then Polynomial.get (numOps K) p1 t else 0 := by
  intro m
  induction m with
  | zero =>
    refine ⟨hwf, ?_⟩
    intro t a b
    rw [if_neg (by omega)]
    exact hz t a b
  | succ m ih =>
    rw [List.range_succ, List.foldl_append]
    simp only [List.foldl_cons, List.foldl_nil]
    obtain ⟨ih1, ih2⟩ := ih
    generalize (List.range m).foldl (fun p3 t => mvpoly.set_safe_impl (numOps K) 3 p3 [t, i, j]
        (Polynomial.get (numOps K) p1 t)) p3 = cur at ih1 ih2 ⊢
    refine ⟨mvpoly.wf_set_safe 3 cur _ _ ih1, ?_⟩
    intro t a b
    by_cases h : t = m ∧ a = i ∧ b = j
    · obtain ⟨rfl, rfl, rfl⟩ := h
      rw [mvpoly.set_get_safe_impl K 3 cur [t, a, b] _ ih1, if_pos ⟨rfl, rfl, by omega⟩]
    · rw [mvpoly.get_safe_set_safe_ne 3 cur [m, i, j] [t, a, b] _ ih1 rfl rfl
        (by intro e; simp at e; exact h e), ih2 t a b]
      by_cases h2 : a = i ∧ b = j ∧ t < m
      · rw [if_pos h2, if_pos ⟨h2.1, h2.2.1, by omega⟩]
      · rw [if_neg h2, if_neg (by omega)]

/-- The coefficients of `poly1_to_poly3` applied to a fresh polynomial. -/
theorem poly1_to_poly3_get (p1 : List K) (i j t a b : Nat) :
    mvpoly.wf 3 (poly1_to_poly3 (MultiPoly.ctor0 (numOps K) 3) p1 i j) = true ∧
    mvpoly.get_safe_impl (numOps K) 3
        (poly1_to_poly3 (MultiPoly.ctor0 (numOps K) 3) p1 i j) [t, a, b]
      = if a = i ∧ b = j then Polynomial.coefficient (numOps K) p1 t else 0 := by
  obtain ⟨h1, h2⟩ := poly1_to_poly3_coefficients (MultiPoly.ctor0 (numOps K) 3) p1 i j
    (by rw [ctor0_eq_zero]; exact mvpoly.wf_zero 3)
    (by intro t a b; rw [ctor0_eq_zero]; exact mvpoly.get_safe_zero 3 _) (List.length p1)
  refine ⟨h1, ?_⟩
  unfold poly1_to_poly3 Polynomial.size
  rw [h2 t a b, Polynomial.coefficient_numOps]
  by_cases hab : a = i ∧ b = j
  · rw [if_pos hab]
    by_cases ht : t < List.length p1
    · rw [if_pos ⟨hab.1, hab.2, ht⟩, if_pos ht]
    · rw [if_neg (fun h => ht h.2.2), if_neg ht]
  · rw [if_neg hab, if_neg (fun h => hab ⟨h.1, h.2.1⟩)]

theorem basis_to_poly_get (v : poly_vector_type K) (t a b : Nat) :
    mvpoly.get_safe_impl (numOps K) 3 (basis_to_poly (MultiPoly.ctor0 (numOps K) 3) v) [t, a, b]
      = (if a = 1 ∧ b = 0 then Polynomial.coefficient (numOps K) v.c0 t else 0)
        + (if a = 0 ∧ b = 1 then Polynomial.coefficient (numOps K) v.c1 t else 0)
        + (if a = 0 ∧ b = 0 then Polynomial.coefficient (numOps K) v.c2 t else 0) := by
  obtain ⟨w0, g0⟩ := poly1_to_poly3_get v.c0 1 0 t a b
  obtain ⟨w1, g1⟩ := poly1_to_poly3_get v.c1 0 1 t a b
  obtain ⟨w2, g2⟩ := poly1_to_poly3_get v.c2 0 0 t a b
  unfold basis_to_poly MultiPoly.add
  simp only
  rw [mvpoly.get_safe_add 3 _ _ [t, a, b] (mvpoly.wf_add 3 _ _ w0 w1) w2 rfl,
    mvpoly.get_safe_add 3 _ _ [t, a, b] w0 w1 rfl, g0, g1, g2]

/-- C29: for a freshly constructed trivariate `p0` and every vector `v = (v0, v1, v2)` of
univariate polynomials over a field, `basis_to_poly(p0, v)` leaves in `p0` (indeterminates
`t, x, y`) a polynomial with `p0(t, x, y) = v0(t)*x + v1(t)*y + v2(t)` at every point, whose
safe-get coefficient at `(k,1,0)` is that of `v0` at `k`, at `(k,0,1)` that of `v1`, at
`(k,0,0)` that of `v2`, and zero at every other multi-index. -/
theorem basis_to_poly_spec (v : poly_vector_type K) :
    (∀ X : Nat → K,
      MultiPoly.call (numOps K) 3 (basis_to_poly (MultiPoly.ctor0 (numOps K) 3) v) X
        = Polynomial.call (numOps K) v.c0 (X 0) * X 1
          + Polynomial.call (numOps K) v.c1 (X 0) * X 2
          + Polynomial.call (numOps K) v.c2 (X 0)) ∧
    (∀ k : Nat,
      MultiPoly.coefficient (numOps K) 3 (basis_to_poly (MultiPoly.ctor0 (numOps K) 3) v)
          [k, 1, 0] = .ok (Polynomial.coefficient (numOps K) v.c0 k) ∧
      MultiPoly.coefficient (numOps K) 3 (basis_to_poly (MultiPoly.ctor0 (numOps K) 3) v)
          [k, 0, 1] = .ok (Polynomial.coefficient (numOps K) v.c1 k) ∧
      MultiPoly.coefficient (numOps K) 3 (basis_to_poly (MultiPoly.ctor0 (numOps K) 3) v)
          [k, 0, 0] = .ok (Polynomial.coefficient (numOps K) v.c2 k)) ∧
    (∀ k a b : Nat, ¬ (a = 1 ∧ b = 0) → ¬ (a = 0 ∧ b = 1) → ¬ (a = 0 ∧ b = 0) →
      MultiPoly.coefficient (numOps K) 3 (basis_to_poly (MultiPoly.ctor0 (numOps K) 3) v)
          [k, a, b] = .ok 0) := by
  have hco : ∀ t a b : Nat,
      MultiPoly.coefficient (numOps K) 3 (basis_to_poly (MultiPoly.ctor0 (numOps K) 3) v)
          [t, a, b]
        = .ok (mvpoly.get_safe_impl (numOps K) 3
            (basis_to_poly (MultiPoly.ctor0 (numOps K) 3) v) [t, a, b]) := by
    intro t a b
    simp [MultiPoly.coefficient, mvpoly.get_safe]
  refine ⟨?_, ?_, ?_⟩
  · intro X
    rw [MultiPoly.multi_call_eq_sem, sem_basis_to_poly, Polynomial.call_eq_sem,
      Polynomial.call_eq_sem, Polynomial.call_eq_sem]
  · intro k
    refine ⟨?_, ?_, ?_⟩
    · rw [hco, basis_to_poly_get]; simp
    · rw [hco, basis_to_poly_get]; simp
    · rw [hco, basis_to_poly_get]; simp
  · intro k a b h1 h2 h3
    rw [hco, basis_to_poly_get, if_neg h1, if_neg h2, if_neg h3]
    simp

end basis_to_poly_coefficients

end Geom.SL

namespace Geom.SL

/-! ## The Bezout matrix: order, computed triangle, symmetry -/

section touch

variable {α : Type}

/-- A loop whose passes rewrite pairwise disjoint sets of cells, each cell from its own old
value. -/
theorem fold_touch (o : Ops α) (n : Nat) {ι : Type} (F : Matrix α → ι → Matrix α)
    (S : ι → Nat → Nat → Prop) [∀ x r s, Decidable (S x r s)] (V : ι → Nat → Nat → α → α) :
    ∀ (xs : List ι),
      (∀ x ∈ xs, ∀ M : Matrix α, M.IsSquare n → (F M x).IsSquare n ∧
        ∀ r s, r < n → s < n →
          (F M x).get o r s = if S x r s then V x r s (M.get o r s) else M.get o r s) →
      xs.Pairwise (fun x y => ∀ r s, S x r s → ¬ S y r s) →
      ∀ M : Matrix α, M.IsSquare n → (xs.foldl F M).IsSquare n ∧
        ∀ r s, r < n → s < n →
          ((∀ x ∈ xs, ¬ S x r s) → (xs.foldl F M).get o r s = M.get o r s) ∧
          (∀ x ∈ xs, S x r s → (xs.foldl F M).get o r s = V x r s (M.get o r s)) := by
  intro xs
  induction xs with
  | nil =>
    intro _ _ M hM
    exact ⟨hM, fun r s _ _ => ⟨fun _ => rfl, fun x hx => absurd hx (List.not_mem_nil x)⟩⟩
  | cons x xs ih =>
    intro hstep hdisj M hM
    obtain ⟨hx, hrest⟩ := List.pairwise_cons.mp hdisj
    obtain ⟨h1, h2⟩ := hstep x (List.mem_cons_self _ _) M hM
    obtain ⟨h3, h4⟩ := ih (fun y hy => hstep y (List.mem_cons_of_mem _ hy)) hrest (F M x) h1
    refine ⟨h3, ?_⟩
    intro r s hr hs
    obtain ⟨h5, h6⟩ := h4 r s hr hs
    rw [List.foldl_cons]
    constructor
    · intro hno
      rw [h5 (fun y hy => hno y (List.mem_cons_of_mem _ hy)), h2 r s hr hs,
        if_neg (hno x (List.mem_cons_self _ _))]
    · intro y hy hSy
      rcases List.mem_cons.mp hy with rfl | hy'
      · rw [h5 (fun z hz => hx z hz r s hSy), h2 r s hr hs, if_pos hSy]
      · rw [h6 y hy' hSy, h2 r s hr hs, if_neg (fun hSx => hx y hy' r s hSx hSy)]

/-- A loop that accumulates into one cell `(c, d)`. -/
theorem fold_accumulate (o : Ops α) (n c d : Nat) (hc : c < n) (hd : d < n) {ι : Type}
    (f : α → ι → α) :
    ∀ (ks : List ι) (M : Matrix α), M.IsSquare n →
      (ks.foldl (fun BM k => BM.set c d (f (BM.get o c d) k)) M).IsSquare n ∧
      ∀ r s, r < n → s < n →
        (ks.foldl (fun BM k => BM.set c d (f (BM.get o c d) k)) M).get o r s
          = if r = c ∧ s = d then ks.foldl f (M.get o c d) else M.get o r s := by
  intro ks
  induction ks with
  | nil =>
    intro M hM
    refine ⟨hM, ?_⟩
    intro r s _ _
    by_cases h : r = c ∧ s = d
    · rw [if_pos h, h.1, h.2]; rfl
    · rw [if_neg h]; rfl
  | cons k ks ih =>
    intro M hM
    obtain ⟨h1, h2⟩ := ih (M.set c d (f (M.get o c d) k)) (Matrix.isSquare_set M n c d _ hM)
    refine ⟨h1, ?_⟩
    intro r s hr hs
    have hcd : (M.set c d (f (M.get o c d) k)).get o c d = f (M.get o c d) k := by
      rw [Matrix.cell_get_set o M n c d c d _ hM hc hd hd]
      exact if_pos ⟨rfl, rfl⟩
    rw [List.foldl_cons, h2 r s hr hs, List.foldl_cons, hcd]
    by_cases h : r = c ∧ s = d
    · rw [if_pos h, if_pos h]
    · rw [if_neg h, if_neg h, Matrix.cell_get_set o M n c d r s _ hM hc hd hs, if_neg h]

/-- Equality of polynomials is reflexive when equality of coefficients is. -/
theorem Polynomial.eq_self (o : Ops α) (h : ∀ a, o.eq a a = true) (p : List α) :
    Polynomial.eq o p p = true := by
  have hl : ∀ m i, Polynomial.eq_loop o p p m i = true := by
    intro m
    induction m with
    | zero => intro i; rfl
    | succ m ih =>
      intro i
      simp only [Polynomial.eq_loop, Ops.ne, h, Bool.not_true]
      simpa using ih (i + 1)
  unfold Polynomial.eq
  simp only [ne_eq, not_true_eq_false, if_false]
  exact hl _ 0

end touch

section bezout_matrix

variable {K : Type} [Field K] [DecidableEq K]

theorem mvpoly.mv_eq_self : ∀ (N : Nat) (p : mvpoly K N), (mvpoly.ops (numOps K) N).eq p p = true := by
  intro N
  induction N with
  | zero => intro p; simp [mvpoly.ops, numOps]
  | succ N ih => intro p; exact Polynomial.eq_self (mvpoly.ops (numOps K) N) ih p

/-- The local `n = std::max(pdeg, qdeg)` of `make_bezout_matrix` (implicit.h:256-258). -/
def bezout_dim (p q : mvpoly K 3) : Nat :=
  max (Polynomial.real_degree (mvpoly.ops (numOps K) 2) p)
    (Polynomial.real_degree (mvpoly.ops (numOps K) 2) q)

/-- The value that the innermost loop of `make_bezout_matrix` (implicit.h:266-273) leaves in
the cell `BM(n-i, n-j)`: starting from the default-constructed entry, the summands
`p.coefficient(j-1+k) * q.coefficient(i-k) - p.coefficient(i-k) * q.coefficient(j-1+k)` are
added for `k = 1, ..., min(i, n+1-j)`. -/
def bezout_cell (p q : mvpoly K 3) (n i j : Nat) : mvpoly K 2 :=
  (List.range' 1 (min i (n + 1 - j))).foldl
    (fun a k => MultiPoly.add (numOps K) 2 a (bezout_term p q i j k))
    (MultiPoly.ctor0 (numOps K) 2)

theorem bezout_triangle (p q : mvpoly K 3) (n : Nat) :
    ((down_from n 1).foldl (fun BM i => (down_from n i).foldl
      (fun BM j => (List.range' 1 (min i (n + 1 - j))).foldl
        (fun BM k => BM.set (n - i) (n - j)
          (MultiPoly.add (numOps K) 2 (BM.get (MultiPoly.ops (numOps K) 2) (n - i) (n - j))
            (bezout_term p q i j k))) BM) BM)
      (Matrix.mk' (MultiPoly.ctor0 (numOps K) 2) n n)).IsSquare n ∧
    ∀ r s, r < n → s ≤ r →
      ((down_from n 1).foldl (fun BM i => (down_from n i).foldl
        (fun BM j => (List.range' 1 (min i (n + 1 - j))).foldl
          (fun BM k => BM.set (n - i) (n - j)
            (MultiPoly.add (numOps K) 2 (BM.get (MultiPoly.ops (numOps K) 2) (n - i) (n - j))
              (bezout_term p q i j k))) BM) BM)
        (Matrix.mk' (MultiPoly.ctor0 (numOps K) 2) n n)).get (MultiPoly.ops (numOps K) 2) r s
        = bezout_cell p q n (n - r) (n - s) := by
  -- the pass for one `j`
  have L3 : ∀ i j, 1 ≤ i → i ≤ n → 1 ≤ j → j ≤ n → ∀ (M : Matrix (mvpoly K 2)),
      M.IsSquare n →
      ((List.range' 1 (min i (n + 1 - j))).foldl (fun BM k => BM.set (n - i) (n - j)
        (MultiPoly.add (numOps K) 2 (BM.get (MultiPoly.ops (numOps K) 2) (n - i) (n - j))
          (bezout_term p q i j k))) M).IsSquare n ∧
      ∀ r s, r < n → s < n →
        ((List.range' 1 (min i (n + 1 - j))).foldl (fun BM k => BM.set (n - i) (n - j)
          (MultiPoly.add (numOps K) 2 (BM.get (MultiPoly.ops (numOps K) 2) (n - i) (n - j))
            (bezout_term p q i j k))) M).get (MultiPoly.ops (numOps K) 2) r s
          = if r = n - i ∧ s = n - j
            then (List.range' 1 (min i (n + 1 - (n - s)))).foldl
              (fun a k => MultiPoly.add (numOps K) 2 a (bezout_term p q i (n - s) k))
              (M.get (MultiPoly.ops (numOps K) 2) r s)
            else M.get (MultiPoly.ops (numOps K) 2) r s := by
    intro i j hi1 hi2 hj1 hj2 M hM
    obtain ⟨h1, h2⟩ := fold_accumulate (MultiPoly.ops (numOps K) 2) n (n - i) (n - j)
      (by omega) (by omega)
      (fun a k => MultiPoly.add (numOps K) 2 a (bezout_term p q i j k))
      (List.range' 1 (min i (n + 1 - j))) M hM
    refine ⟨h1, ?_⟩
    intro r s hr hs
    rw [h2 r s hr hs]
    by_cases h : r = n - i ∧ s = n - j
    · rw [if_pos h, if_pos h]
      have hj : n - s = j := by omega
      rw [hj, h.1, h.2]
    · rw [if_neg h, if_neg h]
  -- the pass for one `i`
  have L2 : ∀ i, 1 ≤ i → i ≤ n → ∀ (M : Matrix (mvpoly K 2)), M.IsSquare n →
      ((down_from n i).foldl (fun BM j => (List.range' 1 (min i (n + 1 - j))).foldl
        (fun BM k => BM.set (n - i) (n - j)
          (MultiPoly.add (numOps K) 2 (BM.get (MultiPoly.ops (numOps K) 2) (n - i) (n - j))
            (bezout_term p q i j k))) BM) M).IsSquare n ∧
      ∀ r s, r < n → s < n →
        ((down_from n i).foldl (fun BM j => (List.range' 1 (min i (n + 1 - j))).foldl
          (fun BM k => BM.set (n - i) (n - j)
            (MultiPoly.add (numOps K) 2 (BM.get (MultiPoly.ops (numOps K) 2) (n - i) (n - j))
              (bezout_term p q i j k))) BM) M).get (MultiPoly.ops (numOps K) 2) r s
          = if r = n - i ∧ s ≤ r
            then (List.range' 1 (min (n - r) (n + 1 - (n - s)))).foldl
              (fun a k => MultiPoly.add (numOps K) 2 a (bezout_term p q (n - r) (n - s) k))
              (M.get (MultiPoly.ops (numOps K) 2) r s)
            else M.get (MultiPoly.ops (numOps K) 2) r s := by
    intro i hi1 hi2 M hM
    obtain ⟨h1, h2⟩ := fold_touch (MultiPoly.ops (numOps K) 2) n
      (fun BM j => (List.range' 1 (min i (n + 1 - j))).foldl
        (fun BM k => BM.set (n - i) (n - j)
          (MultiPoly.add (numOps K) 2 (BM.get (MultiPoly.ops (numOps K) 2) (n - i) (n - j))
            (bezout_term p q i j k))) BM)
      (fun j r s => r = n - i ∧ s = n - j)
      (fun _ _ s v => (List.range' 1 (min i (n + 1 - (n - s)))).foldl
        (fun a k => MultiPoly.add (numOps K) 2 a (bezout_term p q i (n - s) k)) v)
      (down_from n i)
      (fun j hj M hM => L3 i j hi1 hi2 (by have := (mem_down_from n i j).mp hj; omega)
        ((mem_down_from n i j).mp hj).2 M hM)
      ((down_from_nodup n i).imp_of_mem (fun {a b} ha hb hab r s h1 h2 => by
        have := (mem_down_from n i a).mp ha
        have := (mem_down_from n i b).mp hb
        omega))
      M hM
    refine ⟨h1, ?_⟩
    intro r s hr hs
    obtain ⟨h3, h4⟩ := h2 r s hr hs
    by_cases h : r = n - i ∧ s ≤ r
    · rw [if_pos h]
      have hri : n - r = i := by omega
      rw [h4 (n - s) ((mem_down_from n i (n - s)).mpr (by omega)) ⟨h.1, by omega⟩, hri]
    · rw [if_neg h]
      apply h3
      intro j hj hS
      have := (mem_down_from n i j).mp hj
      exact h ⟨hS.1, by omega⟩
  obtain ⟨h1, h2⟩ := fold_touch (MultiPoly.ops (numOps K) 2) n
    (fun BM i => (down_from n i).foldl (fun BM j => (List.range' 1 (min i (n + 1 - j))).foldl
      (fun BM k => BM.set (n - i) (n - j)
        (MultiPoly.add (numOps K) 2 (BM.get (MultiPoly.ops (numOps K) 2) (n - i) (n - j))
          (bezout_term p q i j k))) BM) BM)
    (fun i r s => r = n - i ∧ s ≤ r)
    (fun _ r s v => (List.range' 1 (min (n - r) (n + 1 - (n - s)))).foldl
      (fun a k => MultiPoly.add (numOps K) 2 a (bezout_term p q (n - r) (n - s) k)) v)
    (down_from n 1)
    (fun i hi M hM => L2 i ((mem_down_from n 1 i).mp hi).1 ((mem_down_from n 1 i).mp hi).2 M hM)
    ((down_from_nodup n 1).imp_of_mem (fun {a b} ha hb hab r s h1 h2 => by
      have := (mem_down_from n 1 a).mp ha
      have := (mem_down_from n 1 b).mp hb
      omega))
    (Matrix.mk' (MultiPoly.ctor0 (numOps K) 2) n n) (Matrix.isSquare_mk' _ n)
  refine ⟨h1, ?_⟩
  intro r s hr hsr
  have hs : s < n := by omega
  rw [(h2 r s hr hs).2 (n - r) ((mem_down_from n 1 (n - r)).mpr (by omega)) ⟨by omega, hsr⟩,
    Matrix.get_mk' _ _ n r s hr hs]
  rfl

theorem make_bezout_matrix_cells (p q : mvpoly K 3) :
    (make_bezout_matrix p q).IsSquare (bezout_dim p q) ∧
    ∀ r s, r < bezout_dim p q → s < bezout_dim p q →
      (make_bezout_matrix p q).get (MultiPoly.ops (numOps K) 2) r s
        = bezout_cell p q (bezout_dim p q)
            (bezout_dim p q - max r s) (bezout_dim p q - min r s) := by
  obtain ⟨h1, h2⟩ := bezout_triangle p q (bezout_dim p q)
  obtain ⟨h3, h4⟩ := symmetric_fold (MultiPoly.ops (numOps K) 2) (bezout_dim p q) _ h1
    (bezout_dim p q) (le_refl _)
  refine ⟨h3, ?_⟩
  intro r s hr hs
  have hmk : (make_bezout_matrix p q).get (MultiPoly.ops (numOps K) 2) r s
      = if r < s ∧ s < bezout_dim p q
        then bezout_cell p q (bezout_dim p q) (bezout_dim p q - s) (bezout_dim p q - r)
        else bezout_cell p q (bezout_dim p q) (bezout_dim p q - r) (bezout_dim p q - s) := by
    by_cases h : r < s ∧ s < bezout_dim p q
    · rw [if_pos h, ← h2 s r hs (by omega)]
      exact (h4 r s hr hs).trans (if_pos h)
    · rw [if_neg h, ← h2 r s hr (by omega)]
      exact (h4 r s hr hs).trans (if_neg h)
  rw [hmk]
  by_cases h : r < s ∧ s < bezout_dim p q
  · rw [if_pos h, max_eq_right (by omega), min_eq_left (by omega)]
  · rw [if_neg h, max_eq_left (by omega), min_eq_right (by omega)]

/-- C30: for all trivariate `p`, `q` with `n = max(deg_t p, deg_t q)`, the matrix `B` returned
by `make_bezout_matrix(p, q)` has `n` rows, `n` columns and `n*n` stored entries; it is
symmetric, `B(i, j)` and `B(j, i)` being the same polynomial with `B(i, j) == B(j, i)` true for
all `i, j < n`; every entry of the triangle `j <= i` is the sum accumulated by the loop from the
formula `p_{c+k}*q_{r-k} - p_{r-k}*q_{c+k}` (`bezout_cell`, with the loop counters `n-i`, `n-j`),
and every entry of the other triangle is the copy of its mirror entry. -/
theorem make_bezout_matrix_symmetric (p q : mvpoly K 3) :
    ((make_bezout_matrix p q).rows = bezout_dim p q ∧
      (make_bezout_matrix p q).columns = bezout_dim p q ∧
      (make_bezout_matrix p q).m_data.length = bezout_dim p q * bezout_dim p q) ∧
    (∀ i j, i < bezout_dim p q → j < bezout_dim p q →
      (make_bezout_matrix p q).get (MultiPoly.ops (numOps K) 2) i j
        = (make_bezout_matrix p q).get (MultiPoly.ops (numOps K) 2) j i ∧
      MultiPoly.eq (numOps K) 2
        ((make_bezout_matrix p q).get (MultiPoly.ops (numOps K) 2) i j)
        ((make_bezout_matrix p q).get (MultiPoly.ops (numOps K) 2) j i) = true) ∧
    (∀ i j, i < bezout_dim p q → j ≤ i →
      (make_bezout_matrix p q).get (MultiPoly.ops (numOps K) 2) i j
        = bezout_cell p q (bezout_dim p q) (bezout_dim p q - i) (bezout_dim p q - j)) ∧
    (∀ i j, j < bezout_dim p q → i < j →
      (make_bezout_matrix p q).get (MultiPoly.ops (numOps K) 2) i j
        = bezout_cell p q (bezout_dim p q) (bezout_dim p q - j) (bezout_dim p q - i)) := by
  obtain ⟨h1, h2⟩ := make_bezout_matrix_cells p q
  have hsym : ∀ i j, i < bezout_dim p q → j < bezout_dim p q →
      (make_bezout_matrix p q).get (MultiPoly.ops (numOps K) 2) i j
        = (make_bezout_matrix p q).get (MultiPoly.ops (numOps K) 2) j i := by
    intro i j hi hj
    rw [h2 i j hi hj, h2 j i hj hi, max_comm, min_comm]
  refine ⟨h1, ?_, ?_, ?_⟩
  · intro i j hi hj
    refine ⟨hsym i j hi hj, ?_⟩
    rw [hsym i j hi hj]
    exact mvpoly.mv_eq_self 2 _
  · intro i j hi hji
    rw [h2 i j hi (by omega), max_eq_left hji, min_eq_right hji]
  · intro i j hj hij
    rw [h2 i j (by omega) hj, max_eq_right (by omega), min_eq_left (by omega)]

end bezout_matrix

end Geom.SL

namespace Geom.SL

/-! ## Equality of polynomials is coefficientwise -/

/-- The comparison `==` of a coefficient type is an equivalence relation. -/
structure Ops.EqEquiv {α : Type} (o : Ops α) : Prop where
  refl : ∀ a, o.eq a a = true
  symm : ∀ a b, o.eq a b = true → o.eq b a = true
  trans : ∀ a b c, o.eq a b = true → o.eq b c = true → o.eq a c = true

section eq_coefficientwise

variable {α : Type}

theorem Polynomial.eq_loop_of_forall (o : Ops α) (p q : List α) : ∀ m i,
    (∀ k, i ≤ k → k < i + m → o.eq (Polynomial.get o p k) (Polynomial.get o q k) = true) →
    Polynomial.eq_loop o p q m i = true := by
  intro m
  induction m with
  | zero => intro i _; rfl
  | succ m ih =>
    intro i h
    rw [Polynomial.eq_loop, if_neg (by simp [Ops.ne, h i (le_refl _) (by omega)])]
    exact ih (i + 1) (fun k h1 h2 => h k (by omega) (by omega))

/-- Above `real_degree()` every coefficient compares equal to zero. -/
theorem Polynomial.eq_zero_above (o : Ops α) (ho : o.EqEquiv) (p : List α) (k : Nat)
    (hk : Polynomial.real_degree o p < k) : o.eq (Polynomial.get o p k) o.zero = true := by
  by_cases h : k ≤ p.length - 1
  · simpa [Ops.ne] using Polynomial.real_degree_scan_above o p (p.length - 1) k hk h
  · rw [Polynomial.get_of_le o p k (by omega)]
    exact ho.refl _

/-- At a positive `real_degree()` the coefficient does not compare equal to zero. -/
theorem Polynomial.ne_zero_at_real_degree (o : Ops α) (p : List α)
    (h : 0 < Polynomial.real_degree o p) :
    o.eq (Polynomial.get o p (Polynomial.real_degree o p)) o.zero = false := by
  simpa [Ops.ne] using Polynomial.real_degree_scan_ne o p (p.length - 1) h

theorem Polynomial.real_degree_le_of_eq (o : Ops α) (ho : o.EqEquiv) (p q : List α)
    (h : ∀ i, o.eq (Polynomial.get o p i) (Polynomial.get o q i) = true) :
    Polynomial.real_degree o p ≤ Polynomial.real_degree o q := by
  by_contra hlt
  have hlt' : Polynomial.real_degree o q < Polynomial.real_degree o p := by omega
  have h1 := Polynomial.ne_zero_at_real_degree o p (by omega)
  have h2 := Polynomial.eq_zero_above o ho q _ hlt'
  rw [ho.trans _ _ _ (h _) h2] at h1
  exact absurd h1 (by simp)

/-- The comparison `p == q` holds exactly if all coefficients compare equal. -/
theorem Polynomial.eq_iff_get (o : Ops α) (ho : o.EqEquiv) (p q : List α) :
    Polynomial.eq o p q = true
      ↔ ∀ i, o.eq (Polynomial.get o p i) (Polynomial.get o q i) = true := by
  constructor
  · intro h i
    unfold Polynomial.eq at h
    simp only at h
    by_cases hd : Polynomial.real_degree o p = Polynomial.real_degree o q
    · simp only [hd, ne_eq, not_true_eq_false, if_false] at h
      by_cases hk : i ≤ Polynomial.real_degree o q
      · exact Polynomial.eq_loop_spec o p q _ 0 h i (Nat.zero_le _) (by omega)
      · exact ho.trans _ _ _ (Polynomial.eq_zero_above o ho p i (by omega))
          (ho.symm _ _ (Polynomial.eq_zero_above o ho q i (by omega)))
    · simp [hd] at h
  · intro h
    have hd : Polynomial.real_degree o p = Polynomial.real_degree o q :=
      le_antisymm (Polynomial.real_degree_le_of_eq o ho p q h)
        (Polynomial.real_degree_le_of_eq o ho q p (fun i => ho.symm _ _ (h i)))
    unfold Polynomial.eq
    simp only [hd, ne_eq, not_true_eq_false, if_false]
    exact Polynomial.eq_loop_of_forall o p q _ 0 (fun k _ _ => h k)

/-- With `==` an equivalence relation on the coefficients, `==` is an equivalence relation
on the polynomials. -/
theorem Polynomial.eqEquiv_ops (o : Ops α) (ho : o.EqEquiv) : (Polynomial.ops o).EqEquiv where
  refl := fun p => (Polynomial.eq_iff_get o ho p p).mpr (fun _ => ho.refl _)
  symm := fun p q h => (Polynomial.eq_iff_get o ho q p).mpr
    (fun i => ho.symm _ _ ((Polynomial.eq_iff_get o ho p q).mp h i))
  trans := fun p q r h1 h2 => (Polynomial.eq_iff_get o ho p r).mpr
    (fun i => ho.trans _ _ _ ((Polynomial.eq_iff_get o ho p q).mp h1 i)
      ((Polynomial.eq_iff_get o ho q r).mp h2 i))

/-- The method `is_zero()` holds exactly if all coefficients compare equal to zero. -/
theorem Polynomial.is_zero_iff_get (o : Ops α) (ho : o.EqEquiv) (p : List α) :
    Polynomial.is_zero o p = true ↔ ∀ i, o.eq (Polynomial.get o p i) o.zero = true := by
  unfold Polynomial.is_zero
  constructor
  · intro h i
    by_cases hd : Polynomial.real_degree o p = 0
    · simp only [hd, ne_eq, not_true_eq_false, if_false] at h
      by_cases h0 : o.ne (Polynomial.get o p 0) o.zero = true
      · simp [h0] at h
      · by_cases hi : i = 0
        · subst hi; simpa [Ops.ne] using h0
        · exact Polynomial.eq_zero_above o ho p i (by omega)
    · simp [hd] at h
  · intro h
    have hd : Polynomial.real_degree o p = 0 :=
      Polynomial.real_degree_scan_eq_zero o p _ (fun k _ _ => by simp [Ops.ne, h k])
    simp [hd, Ops.ne, h 0]

end eq_coefficientwise

section eq_nested

variable (K : Type) [Ring K] [DecidableEq K]

theorem numOps_eqEquiv : (numOps K).EqEquiv where
  refl := fun a => by simp [numOps]
  symm := fun a b h => by simp only [numOps, decide_eq_true_eq] at h ⊢; exact h.symm
  trans := fun a b c h1 h2 => by
    simp only [numOps, decide_eq_true_eq] at h1 h2 ⊢; exact h1.trans h2

/-- At every nesting depth `==` is an equivalence relation. -/
theorem mvpoly.mv_eqEquiv_ops : ∀ N : Nat, (mvpoly.ops (numOps K) N).EqEquiv := by
  intro N
  induction N with
  | zero => exact numOps_eqEquiv K
  | succ N ih => exact Polynomial.eqEquiv_ops _ ih

theorem MultiPoly.zero_eq_ops_zero : ∀ N : Nat,
    MultiPoly.zero (numOps K) N = (mvpoly.ops (numOps K) N).zero := by
  intro N
  induction N with
  | zero => rfl
  | succ N ih =>
    show Polynomial.ctor _ (mvpoly.monomial_make_impl (numOps K) N
      ((multi_index_zero (N + 1)).drop 1) (numOps K).zero) ((multi_index_zero (N + 1)).getD 0 0)
      = Polynomial.ctor _ (mvpoly.ops (numOps K) N).zero 0
    have h1 : (multi_index_zero (N + 1)).drop 1 = multi_index_zero N := by
      simp [multi_index_zero, List.replicate_succ]
    have h2 : (multi_index_zero (N + 1)).getD 0 0 = 0 := by
      simp [multi_index_zero, List.replicate_succ]
    rw [h1, h2]
    exact congrArg (fun c => Polynomial.ctor _ c 0) ih

theorem MultiPoly.one_eq_ops_one : ∀ N : Nat,
    MultiPoly.one (numOps K) N = (mvpoly.ops (numOps K) N).one := by
  intro N
  induction N with
  | zero => rfl
  | succ N ih =>
    show Polynomial.ctor _ (mvpoly.monomial_make_impl (numOps K) N
      ((multi_index_zero (N + 1)).drop 1) (numOps K).one) ((multi_index_zero (N + 1)).getD 0 0)
      = Polynomial.ctor _ (mvpoly.ops (numOps K) N).one 0
    have h1 : (multi_index_zero (N + 1)).drop 1 = multi_index_zero N := by
      simp [multi_index_zero, List.replicate_succ]
    have h2 : (multi_index_zero (N + 1)).getD 0 0 = 0 := by
      simp [multi_index_zero, List.replicate_succ]
    rw [h1, h2]
    exact congrArg (fun c => Polynomial.ctor _ c 0) ih

theorem Polynomial.get_ops_zero (N i : Nat) :
    Polynomial.get (mvpoly.ops (numOps K) N) (mvpoly.ops (numOps K) (N + 1)).zero i
      = (mvpoly.ops (numOps K) N).zero := by
  show Polynomial.get _ (Polynomial.ctor _ _ 0) i = _
  rw [Polynomial.ctor_eq]
  cases i with
  | zero => rfl
  | succ i => rfl

/-- C38: for all polynomials `p`, `q` whose coefficients are numbers of a ring or polynomials
of any nesting depth `N` over it, `p == q` holds if and only if
`p.coefficient(i) == q.coefficient(i)` for every index `i`; `==` is reflexive, symmetric and
transitive; and `is_zero()`, of `Polynomial` and of `MultiPoly`, holds if and only if every
coefficient compares equal to zero. -/
theorem eq_coefficientwise (N : Nat) :
    (∀ p q : List (mvpoly K N),
      Polynomial.eq (mvpoly.ops (numOps K) N) p q = true
        ↔ ∀ i, (mvpoly.ops (numOps K) N).eq
            (Polynomial.coefficient (mvpoly.ops (numOps K) N) p i)
            (Polynomial.coefficient (mvpoly.ops (numOps K) N) q i) = true) ∧
    (∀ p : List (mvpoly K N), Polynomial.eq (mvpoly.ops (numOps K) N) p p = true) ∧
    (∀ p q : List (mvpoly K N), Polynomial.eq (mvpoly.ops (numOps K) N) p q = true →
      Polynomial.eq (mvpoly.ops (numOps K) N) q p = true) ∧
    (∀ p q r : List (mvpoly K N), Polynomial.eq (mvpoly.ops (numOps K) N) p q = true →
      Polynomial.eq (mvpoly.ops (numOps K) N) q r = true →
      Polynomial.eq (mvpoly.ops (numOps K) N) p r = true) ∧
    (∀ p : List (mvpoly K N),
      Polynomial.is_zero (mvpoly.ops (numOps K) N) p = true
        ↔ ∀ i, (mvpoly.ops (numOps K) N).eq
            (Polynomial.coefficient (mvpoly.ops (numOps K) N) p i)
            (mvpoly.ops (numOps K) N).zero = true) ∧
    (∀ p : mvpoly K (N + 1),
      MultiPoly.is_zero (numOps K) (N + 1) p = true
        ↔ ∀ i, (mvpoly.ops (numOps K) N).eq
            (Polynomial.coefficient (mvpoly.ops (numOps K) N) p i)
            (mvpoly.ops (numOps K) N).zero = true) := by
  have ho := mvpoly.mv_eqEquiv_ops K N
  have hs := Polynomial.eqEquiv_ops _ ho
  refine ⟨?_, hs.refl, hs.symm, hs.trans, ?_, ?_⟩
  · intro p q
    simp only [Polynomial.coefficient_eq_get]
    exact Polynomial.eq_iff_get _ ho p q
  · intro p
    simp only [Polynomial.coefficient_eq_get]
    exact Polynomial.is_zero_iff_get _ ho p
  · intro p
    simp only [Polynomial.coefficient_eq_get]
    unfold MultiPoly.is_zero MultiPoly.eq
    rw [MultiPoly.zero_eq_ops_zero]
    show Polynomial.eq (mvpoly.ops (numOps K) N) p (mvpoly.ops (numOps K) (N + 1)).zero = true ↔ _
    rw [Polynomial.eq_iff_get _ ho]
    simp only [Polynomial.get_ops_zero]

end eq_nested

end Geom.SL

namespace Geom.SL

/-! ## The frame of `normalize` -/

section normalize_frame_generic

variable {α : Type}

/-- The polynomial `normalize()` leaves compares equal to the one it started from. -/
theorem Polynomial.eq_normalize (o : Ops α) (ho : o.EqEquiv) (p : List α) :
    Polynomial.eq o (Polynomial.normalize o p) p = true := by
  rw [Polynomial.eq_iff_get o ho]
  intro i
  by_cases hp : p = []
  · subst hp; exact ho.refl _
  by_cases hi : i ≤ Polynomial.real_degree o p
  · rw [Polynomial.get_normalize o p i hi]; exact ho.refl _
  · rw [Polynomial.get_of_le o _ i (by rw [Polynomial.length_normalize o p hp]; omega)]
    exact ho.symm _ _ (Polynomial.eq_zero_above o ho p i (by omega))

/-- What `normalize()` erases are trailing coefficients that compare equal to zero. -/
theorem Polynomial.normalize_eq_take (o : Ops α) (p : List α) :
    Polynomial.normalize o p = p.take (Polynomial.real_degree o p + 1) ∧
    ∀ i, Polynomial.real_degree o p < i → i < p.length →
      o.eq (Polynomial.get o p i) o.zero = true := by
  constructor
  · unfold Polynomial.normalize
    simp only
    split
    · rfl
    · rename_i h
      have h2 : Polynomial.real_degree o p = Polynomial.max_degree p := by simpa using h
      unfold Polynomial.max_degree at h2
      rw [List.take_of_length_le (by omega)]
  · intro i h1 h2
    simpa [Ops.ne] using
      Polynomial.real_degree_scan_above o p (p.length - 1) i h1 (by omega)

end normalize_frame_generic

section normalize_frame

variable (K : Type) [CommRing K] [DecidableEq K]

theorem mvpoly.get_safe_eq_get (N : Nat) (p : List (mvpoly K N)) (j : Nat)
    (J : multi_index_type) :
    mvpoly.get_safe_impl (numOps K) (N + 1) p (j :: J)
      = mvpoly.get_safe_impl (numOps K) N (Polynomial.get (mvpoly.ops (numOps K) N) p j) J := by
  rw [mvpoly.get_safe_cons]
  split
  · rename_i h
    unfold Polynomial.max_degree at h
    rw [Polynomial.get_of_le _ p j (by omega), mvpoly.get_safe_zero]
  · rfl

/-- Polynomials that compare equal have the same coefficient at every multi-index. -/
theorem mvpoly.get_safe_of_eq : ∀ (N : Nat) (a b : mvpoly K N),
    (mvpoly.ops (numOps K) N).eq a b = true → ∀ J : multi_index_type, J.length = N →
    mvpoly.get_safe_impl (numOps K) N a J = mvpoly.get_safe_impl (numOps K) N b J := by
  intro N
  induction N with
  | zero =>
    intro a b h J _
    have : a = b := by simpa [mvpoly.ops, numOps] using h
    rw [this]
  | succ N ih =>
    intro a b h J hJ
    obtain ⟨j, J', rfl⟩ := List.exists_cons_of_length_eq_add_one hJ
    rw [mvpoly.get_safe_eq_get, mvpoly.get_safe_eq_get]
    exact ih _ _ ((Polynomial.eq_iff_get _ (mvpoly.mv_eqEquiv_ops K N) a b).mp h j) J'
      (by simpa using hJ)

/-- At every nesting depth the normalized polynomial compares equal to the original. -/
theorem mvpoly.mv_eq_normalize : ∀ (N : Nat) (p : mvpoly K N),
    (mvpoly.ops (numOps K) N).eq (mvpoly.normalize (numOps K) N p) p = true := by
  intro N
  induction N with
  | zero => intro p; exact (numOps_eqEquiv K).refl p
  | succ N ih =>
    intro p
    have ho := mvpoly.mv_eqEquiv_ops K N
    obtain ⟨hlen, hget⟩ := mvpoly.normalize_succ (numOps K) N p
    show Polynomial.eq (mvpoly.ops (numOps K) N) (mvpoly.normalize (numOps K) (N + 1) p) p = true
    rw [Polynomial.eq_iff_get _ ho]
    intro i
    have h1 := (Polynomial.eq_iff_get _ ho _ _).mp
      (Polynomial.eq_normalize (mvpoly.ops (numOps K) N) ho p) i
    rw [hget i]
    split
    · exact ho.trans _ _ _ (ih _) h1
    · exact h1

theorem Ops.EqEquiv.eq_congr {α : Type} {o : Ops α} (ho : o.EqEquiv) (a a' b : α)
    (h : o.eq a a' = true) : o.eq a b = o.eq a' b ∧ o.eq b a = o.eq b a' := by
  constructor
  · apply Bool.eq_iff_iff.mpr
    exact ⟨fun h1 => ho.trans _ _ _ (ho.symm _ _ h) h1, fun h1 => ho.trans _ _ _ h h1⟩
  · apply Bool.eq_iff_iff.mpr
    exact ⟨fun h1 => ho.trans _ _ _ h1 h, fun h1 => ho.trans _ _ _ h1 (ho.symm _ _ h)⟩

/-- C40: `normalize()` changes no coefficient value.  For every `Polynomial` `p` over a
commutative ring the safe `coefficient(i)` is the same before and after, `p(x)` and the
results of `==` are unchanged, and what is erased are trailing coefficients that are zero; for
every rank-`N` `MultiPoly` `p` and every multi-index `I` the safe `coefficient(I)` (also its
`RangeError`) is the same before and after `normalize()`, and `p(X)` and the results of `==`
are unchanged. -/
theorem normalize_frame (N : Nat) :
    (∀ (p : List K) (i : Nat),
      Polynomial.coefficient (numOps K) (Polynomial.normalize (numOps K) p) i
        = Polynomial.coefficient (numOps K) p i) ∧
    (∀ (p : List K) (x : K),
      Polynomial.call (numOps K) (Polynomial.normalize (numOps K) p) x
        = Polynomial.call (numOps K) p x) ∧
    (∀ p q : List K,
      Polynomial.eq (numOps K) (Polynomial.normalize (numOps K) p) q = Polynomial.eq (numOps K) p q ∧
      Polynomial.eq (numOps K) q (Polynomial.normalize (numOps K) p)
        = Polynomial.eq (numOps K) q p) ∧
    (∀ p : List K,
      Polynomial.normalize (numOps K) p = p.take (Polynomial.real_degree (numOps K) p + 1) ∧
      ∀ i, Polynomial.real_degree (numOps K) p < i → i < p.length →
        Polynomial.get (numOps K) p i = 0) ∧
    (∀ (p : mvpoly K N) (I : multi_index_type),
      MultiPoly.coefficient (numOps K) N (MultiPoly.normalize (numOps K) N p) I
        = MultiPoly.coefficient (numOps K) N p I) ∧
    (∀ (p : mvpoly K N) (X : Nat → K),
      MultiPoly.call (numOps K) N (MultiPoly.normalize (numOps K) N p) X
        = MultiPoly.call (numOps K) N p X) ∧
    (∀ p q : mvpoly K N,
      MultiPoly.eq (numOps K) N (MultiPoly.normalize (numOps K) N p) q
        = MultiPoly.eq (numOps K) N p q ∧
      MultiPoly.eq (numOps K) N q (MultiPoly.normalize (numOps K) N p)
        = MultiPoly.eq (numOps K) N q p) := by
  have h1 : ∀ p : List K, Polynomial.eq (numOps K) (Polynomial.normalize (numOps K) p) p = true :=
    fun p => Polynomial.eq_normalize (numOps K) (numOps_eqEquiv K) p
  refine ⟨?_, ?_, ?_, ?_, ?_, ?_, ?_⟩
  · intro p i
    rw [Polynomial.coefficient_eq_get, Polynomial.coefficient_eq_get]
    have := (Polynomial.eq_iff_get _ (numOps_eqEquiv K) _ _).mp (h1 p) i
    simpa [numOps] using this
  · intro p x
    rw [Polynomial.call_eq_sem_id, Polynomial.call_eq_sem_id]
    exact Polynomial.sem_eq_of_eq (numOps K) (fun a => a) (numOps_hom K) x _ _ (h1 p)
  · intro p q
    exact (Polynomial.eqEquiv_ops _ (numOps_eqEquiv K)).eq_congr _ p q (h1 p)
  · intro p
    obtain ⟨h2, h3⟩ := Polynomial.normalize_eq_take (numOps K) p
    refine ⟨h2, ?_⟩
    intro i hi1 hi2
    simpa [numOps] using h3 i hi1 hi2
  · intro p I
    unfold MultiPoly.coefficient MultiPoly.normalize mvpoly.get_safe
    by_cases hI : I.length = N
    · rw [if_neg (by simpa using hI), if_neg (by simpa using hI),
        mvpoly.get_safe_of_eq K N _ _ (mvpoly.mv_eq_normalize K N p) I hI]
    · rw [if_pos hI, if_pos hI]
  · intro p X
    exact (multi_call_hom K N X).eq_sound _ _ (mvpoly.mv_eq_normalize K N p)
  · intro p q
    exact (mvpoly.mv_eqEquiv_ops K N).eq_congr _ p q (mvpoly.mv_eq_normalize K N p)

end normalize_frame

end Geom.SL

namespace Geom.SL

/-! ## `zero<T>` and `one<T>` are identities -/

section mul_singleton

variable {α : Type}

/-- The product with a polynomial of one coefficient `c`: `r[i] = zero + p[i] * c`. -/
theorem Polynomial.mul_singleton (o : Ops α) (p : List α) (c : α) :
    (Polynomial.mul o p [c]).length = p.length ∧
    ∀ k, Polynomial.get o (Polynomial.mul o p [c]) k
      = if k < p.length then o.add o.zero (o.mul (Polynomial.get o p k) c) else o.zero := by
  have h := Polynomial.foldl_set_spec o
    (fun i a => o.add a (o.mul (Polynomial.get o p i) c))
    (List.replicate p.length o.zero) p.length
  have hm : Polynomial.mul o p [c]
      = (List.range p.length).foldl (fun r i => r.set i
          ((fun i a => o.add a (o.mul (Polynomial.get o p i) c)) i (Polynomial.get o r i)))
        (List.replicate p.length o.zero) := by
    unfold Polynomial.mul
    rw [show p.length + [c].length - 1 = p.length from by simp, Polynomial.vec_resize_zero]
    rfl
  rw [hm]
  refine ⟨by rw [h.1]; simp, ?_⟩
  intro k
  rw [h.2 k, List.length_replicate, Polynomial.get_replicate]
  by_cases hk : k < p.length
  · rw [if_pos ⟨hk, hk⟩, if_pos hk]
  · rw [if_neg (fun h => hk h.1), if_neg hk]

end mul_singleton

section identities

variable (K : Type) [Ring K] [DecidableEq K]

theorem mvpoly.ops_zero_succ (N : Nat) :
    (mvpoly.ops (numOps K) (N + 1)).zero = [(mvpoly.ops (numOps K) N).zero] := by
  show Polynomial.ctor _ _ 0 = _
  rw [Polynomial.ctor_eq]
  rfl

theorem mvpoly.ops_one_succ (N : Nat) :
    (mvpoly.ops (numOps K) (N + 1)).one = [(mvpoly.ops (numOps K) N).one] := by
  show Polynomial.ctor _ _ 0 = _
  rw [Polynomial.ctor_eq]
  rfl

/-- Adding `zero` on the right gives a polynomial that compares equal. -/
theorem mvpoly.add_zero_eq : ∀ (N : Nat) (p : mvpoly K N),
    (mvpoly.ops (numOps K) N).eq
      ((mvpoly.ops (numOps K) N).add p (mvpoly.ops (numOps K) N).zero) p = true := by
  intro N
  induction N with
  | zero => intro p; simp [mvpoly.ops, numOps]
  | succ N ih =>
    intro p
    have ho := mvpoly.mv_eqEquiv_ops K N
    show Polynomial.eq (mvpoly.ops (numOps K) N)
      (Polynomial.add (mvpoly.ops (numOps K) N) p (mvpoly.ops (numOps K) (N + 1)).zero) p = true
    rw [Polynomial.eq_iff_get _ ho, mvpoly.ops_zero_succ]
    intro i
    rw [Polynomial.get_add]
    by_cases h1 : i < List.length p
    · rw [if_pos h1]
      by_cases h2 : i < [(mvpoly.ops (numOps K) N).zero].length
      · rw [if_pos h2]
        have hi : i = 0 := by simpa using h2
        subst hi
        exact ih _
      · rw [if_neg h2]; exact ho.refl _
    · rw [if_neg h1, Polynomial.get_of_le _ p i (by omega)]
      cases i with
      | zero => exact ho.refl _
      | succ i => exact ho.refl _

/-- Adding `zero` on the left gives a polynomial that compares equal. -/
theorem mvpoly.zero_add_eq : ∀ (N : Nat) (p : mvpoly K N),
    (mvpoly.ops (numOps K) N).eq
      ((mvpoly.ops (numOps K) N).add (mvpoly.ops (numOps K) N).zero p) p = true := by
  intro N
  induction N with
  | zero => intro p; simp [mvpoly.ops, numOps]
  | succ N ih =>
    intro p
    have ho := mvpoly.mv_eqEquiv_ops K N
    show Polynomial.eq (mvpoly.ops (numOps K) N)
      (Polynomial.add (mvpoly.ops (numOps K) N) (mvpoly.ops (numOps K) (N + 1)).zero p) p = true
    rw [Polynomial.eq_iff_get _ ho, mvpoly.ops_zero_succ]
    intro i
    rw [Polynomial.get_add]
    by_cases h2 : i < [(mvpoly.ops (numOps K) N).zero].length
    · rw [if_pos h2]
      have hi : i = 0 := by simpa using h2
      subst hi
      by_cases h1 : 0 < List.length p
      · rw [if_pos h1]; exact ih _
      · rw [if_neg h1, Polynomial.get_of_le _ p 0 (by omega)]; exact ho.refl _
    · rw [if_neg h2]; exact ho.refl _

/-- Multiplying by `one` on the right gives a polynomial that compares equal. -/
theorem mvpoly.mul_one_eq : ∀ (N : Nat) (p : mvpoly K N),
    (mvpoly.ops (numOps K) N).eq
      ((mvpoly.ops (numOps K) N).mul p (mvpoly.ops (numOps K) N).one) p = true := by
  intro N
  induction N with
  | zero => intro p; simp [mvpoly.ops, numOps]
  | succ N ih =>
    intro p
    have ho := mvpoly.mv_eqEquiv_ops K N
    show Polynomial.eq (mvpoly.ops (numOps K) N)
      (Polynomial.mul (mvpoly.ops (numOps K) N) p (mvpoly.ops (numOps K) (N + 1)).one) p = true
    rw [Polynomial.eq_iff_get _ ho, mvpoly.ops_one_succ]
    intro i
    rw [(Polynomial.mul_singleton _ p _).2 i]
    by_cases h1 : i < List.length p
    · rw [if_pos h1]
      exact ho.trans _ _ _ (mvpoly.zero_add_eq K N _) (ih _)
    · rw [if_neg h1, Polynomial.get_of_le _ p i (by omega)]; exact ho.refl _

theorem mvpoly.is_zero_zero : ∀ N : Nat,
    (mvpoly.ops (numOps K) N).is_zero (mvpoly.ops (numOps K) N).zero = true := by
  intro N
  cases N with
  | zero => simp [mvpoly.ops, numOps]
  | succ N =>
    show Polynomial.is_zero (mvpoly.ops (numOps K) N) (mvpoly.ops (numOps K) (N + 1)).zero = true
    rw [Polynomial.is_zero_iff_get _ (mvpoly.mv_eqEquiv_ops K N)]
    intro i
    rw [Polynomial.get_ops_zero]
    exact (mvpoly.mv_eqEquiv_ops K N).refl _

/-- C31: for every coefficient type `T` obtained by nesting `Polynomial` (or `MultiPoly`) `N`
times over a ring with exact equality, `zero<T>()` and `one<T>()` are identities up to `==`:
for every `p` of type `T`, `p + zero == p` and `p * one == p`, and `zero.is_zero()` holds;
for `MultiPoly` with its own `zero`, `one`, `==` and `is_zero()` as for the nested
`Polynomial`. -/
theorem zero_one_identities (N : Nat) (p : mvpoly K N) :
    (mvpoly.ops (numOps K) N).eq
      ((mvpoly.ops (numOps K) N).add p (mvpoly.ops (numOps K) N).zero) p = true ∧
    (mvpoly.ops (numOps K) N).eq
      ((mvpoly.ops (numOps K) N).mul p (mvpoly.ops (numOps K) N).one) p = true ∧
    (mvpoly.ops (numOps K) N).is_zero (mvpoly.ops (numOps K) N).zero = true ∧
    MultiPoly.eq (numOps K) N
      (MultiPoly.add (numOps K) N p (MultiPoly.zero (numOps K) N)) p = true ∧
    MultiPoly.eq (numOps K) N
      (MultiPoly.mul (numOps K) N p (MultiPoly.one (numOps K) N)) p = true ∧
    MultiPoly.is_zero (numOps K) N (MultiPoly.zero (numOps K) N) = true := by
  refine ⟨mvpoly.add_zero_eq K N p, mvpoly.mul_one_eq K N p, mvpoly.is_zero_zero K N, ?_, ?_, ?_⟩
  · rw [MultiPoly.zero_eq_ops_zero]; exact mvpoly.add_zero_eq K N p
  · rw [MultiPoly.one_eq_ops_one]; exact mvpoly.mul_one_eq K N p
  · exact (mvpoly.mv_eqEquiv_ops K N).refl _

end identities

end Geom.SL

namespace Geom.SL

/-! ## The class invariant: no `Polynomial` is empty -/

/-- A property of the coefficients that the coefficient operators preserve. -/
structure Ops.Closed {α : Type} (o : Ops α) (W : α → Prop) : Prop where
  zero : W o.zero
  one : W o.one
  add : ∀ a b, W a → W b → W (o.add a b)
  sub : ∀ a b, W a → W b → W (o.sub a b)
  neg : ∀ a, W a → W (o.neg a)
  mul : ∀ a b, W a → W b → W (o.mul a b)

/-- The invariant of `Polynomial<CoeffT>`: `m_coeff` is not empty, and every stored
coefficient has the property `W`. -/
def Polynomial.Inv {α : Type} (W : α → Prop) (p : List α) : Prop :=
  p ≠ [] ∧ ∀ c ∈ p, W c

/-- The polynomials reachable from the constructors `Polynomial()`, `Polynomial(c, i)` through
the public mutating operations of polynomial.h, `max_degree(n)` being called with `n` below
`SIZE_MAX` only, the coefficients handed in being values with the property `C`; `update` is
the write of such a value through the reference that the non-const `operator[]` returns for a
stored index. -/
inductive Polynomial.Reachable {α : Type} (o : Ops α) (C : α → Prop) : List α → Prop
  | ctor0 : Polynomial.Reachable o C (Polynomial.ctor0 o)
  | ctor (c : α) (i : Nat) : C c → Polynomial.Reachable o C (Polynomial.ctor o c i)
  | set_coefficient (p : List α) (i : Nat) (c : α) : Polynomial.Reachable o C p → C c →
      Polynomial.Reachable o C (Polynomial.set_coefficient o p i c)
  | set_max_degree (p : List α) (n : Nat) : Polynomial.Reachable o C p → n < SIZE_MAX →
      Polynomial.Reachable o C (Polynomial.set_max_degree o p n)
  | normalize (p : List α) : Polynomial.Reachable o C p →
      Polynomial.Reachable o C (Polynomial.normalize o p)
  | add (p q : List α) : Polynomial.Reachable o C p → Polynomial.Reachable o C q →
      Polynomial.Reachable o C (Polynomial.add o p q)
  | sub (p q : List α) : Polynomial.Reachable o C p → Polynomial.Reachable o C q →
      Polynomial.Reachable o C (Polynomial.sub o p q)
  | mul (p q : List α) : Polynomial.Reachable o C p → Polynomial.Reachable o C q →
      Polynomial.Reachable o C (Polynomial.mul o p q)
  | shl (p : List α) (n : Nat) : Polynomial.Reachable o C p →
      Polynomial.Reachable o C (Polynomial.shl o p n)
  | neg (p : List α) : Polynomial.Reachable o C p →
      Polynomial.Reachable o C (Polynomial.neg o p)
  | assign_coeff (p : List α) (c : α) : Polynomial.Reachable o C p → C c →
      Polynomial.Reachable o C (Polynomial.assign_coeff p c)
  | add_coeff (p : List α) (c : α) : Polynomial.Reachable o C p → C c →
      Polynomial.Reachable o C (Polynomial.add_coeff o p c)
  | sub_coeff (p : List α) (c : α) : Polynomial.Reachable o C p → C c →
      Polynomial.Reachable o C (Polynomial.sub_coeff o p c)
  | mul_coeff (p : List α) (c : α) : Polynomial.Reachable o C p → C c →
      Polynomial.Reachable o C (Polynomial.mul_coeff o p c)
  | update (p : List α) (i : Nat) (c : α) : Polynomial.Reachable o C p → i < p.length → C c →
      Polynomial.Reachable o C (p.set i c)

/-- The nested polynomials reachable at every level: a number is reachable, and a polynomial
of rank `N + 1` is reachable as a `Polynomial` whose coefficients are reachable of rank `N`. -/
def mvpoly.Reach (K : Type) [Ring K] [DecidableEq K] : (N : Nat) → mvpoly K N → Prop
  | 0, _ => True
  | N + 1, p => Polynomial.Reachable (mvpoly.ops (numOps K) N) (mvpoly.Reach K N) p

section invariant

variable {α : Type}

theorem Polynomial.inv_of_get (o : Ops α) (W : α → Prop) (p : List α) (hne : 0 < p.length)
    (h : ∀ k, k < p.length → W (Polynomial.get o p k)) : Polynomial.Inv W p := by
  refine ⟨List.length_pos.mp hne, ?_⟩
  intro c hc
  obtain ⟨k, hk, rfl⟩ := List.getElem_of_mem hc
  rw [← Polynomial.get_of_lt o p k hk]
  exact h k hk

theorem Polynomial.Inv.length_pos {W : α → Prop} {p : List α} (h : Polynomial.Inv W p) :
    0 < p.length := List.length_pos.mpr h.1

theorem Polynomial.Inv.get {W : α → Prop} {p : List α} (h : Polynomial.Inv W p) (o : Ops α)
    (hz : W o.zero) (k : Nat) : W (Polynomial.get o p k) := by
  by_cases hk : k < p.length
  · rw [Polynomial.get_of_lt o p k hk]; exact h.2 _ (List.getElem_mem _)
  · rw [Polynomial.get_of_le o p k (by omega)]; exact hz

theorem Polynomial.all_set (W : α → Prop) (r : List α) (i : Nat) (v : α)
    (hr : ∀ c ∈ r, W c) (hv : W v) : ∀ c ∈ r.set i v, W c := by
  intro c hc
  rcases List.mem_or_eq_of_mem_set hc with h | h
  · exact hr c h
  · rw [h]; exact hv

theorem Polynomial.all_get (o : Ops α) (W : α → Prop) (r : List α) (hz : W o.zero)
    (hr : ∀ c ∈ r, W c) (k : Nat) : W (Polynomial.get o r k) := by
  by_cases hk : k < r.length
  · rw [Polynomial.get_of_lt o r k hk]; exact hr _ (List.getElem_mem _)
  · rw [Polynomial.get_of_le o r k (by omega)]; exact hz

theorem foldl_invariant {β ι : Type} (P : β → Prop) (f : β → ι → β)
    (h : ∀ r x, P r → P (f r x)) : ∀ (xs : List ι) (r : β), P r → P (xs.foldl f r) := by
  intro xs
  induction xs with
  | nil => intro r hr; exact hr
  | cons x xs ih => intro r hr; exact ih _ (h r x hr)

variable (o : Ops α) (W : α → Prop) (hW : o.Closed W)
include hW

theorem Polynomial.inv_ctor0 : Polynomial.Inv W (Polynomial.ctor0 o) :=
  ⟨by simp [Polynomial.ctor0], by
    intro c hc
    have : c = o.zero := by simpa [Polynomial.ctor0] using hc
    rw [this]; exact hW.zero⟩

theorem Polynomial.inv_ctor (c : α) (i : Nat) (hc : W c) :
    Polynomial.Inv W (Polynomial.ctor o c i) := by
  rw [Polynomial.ctor_eq]
  refine ⟨by simp, ?_⟩
  intro x hx
  rcases List.mem_append.mp hx with h | h
  · rw [(List.mem_replicate.mp h).2]; exact hW.zero
  · have : x = c := by simpa using h
    rw [this]; exact hc

theorem Polynomial.inv_resize (p : List α) (n : Nat) (hn : 0 < n)
    (hp : ∀ c ∈ p, W c) : Polynomial.Inv W (vec_resize p n o.zero) := by
  unfold vec_resize
  constructor
  · intro h
    have := congrArg List.length h
    rw [List.length_append, List.length_take, List.length_replicate, List.length_nil] at this
    omega
  · intro x hx
    rcases List.mem_append.mp hx with h | h
    · exact hp x (List.mem_of_mem_take h)
    · rw [(List.mem_replicate.mp h).2]; exact hW.zero

theorem Polynomial.inv_set_coefficient (p : List α) (i : Nat) (c : α)
    (hp : Polynomial.Inv W p) (hc : W c) :
    Polynomial.Inv W (Polynomial.set_coefficient o p i c) := by
  unfold Polynomial.set_coefficient
  split
  · split
    · exact hp
    · refine ⟨by simp, ?_⟩
      intro x hx
      rcases List.mem_append.mp hx with h | h
      · unfold vec_resize at h
        rcases List.mem_append.mp h with h' | h'
        · exact hp.2 x (List.mem_of_mem_take h')
        · rw [(List.mem_replicate.mp h').2]; exact hW.zero
      · have : x = c := by simpa using h
        rw [this]; exact hc
  · exact ⟨by simpa using hp.1, Polynomial.all_set W p i c hp.2 hc⟩

theorem Polynomial.inv_set_max_degree (p : List α) (n : Nat) (hn : n < SIZE_MAX)
    (hp : Polynomial.Inv W p) : Polynomial.Inv W (Polynomial.set_max_degree o p n) := by
  unfold Polynomial.set_max_degree
  rw [Nat.mod_eq_of_lt (by omega)]
  exact Polynomial.inv_resize o W hW p (n + 1) (Nat.succ_pos n) hp.2

omit hW in
theorem Polynomial.inv_normalize (p : List α) (hp : Polynomial.Inv W p) :
    Polynomial.Inv W (Polynomial.normalize o p) := by
  constructor
  · intro h
    have := Polynomial.length_normalize o p hp.1
    rw [h] at this
    simp at this
  · intro x hx
    rw [(Polynomial.normalize_eq_take o p).1] at hx
    exact hp.2 x (List.mem_of_mem_take hx)

theorem Polynomial.inv_add (p q : List α) (hp : Polynomial.Inv W p) (hq : Polynomial.Inv W q) :
    Polynomial.Inv W (Polynomial.add o p q) := by
  have hpl := hp.length_pos
  apply Polynomial.inv_of_get o
  · rw [Polynomial.length_add]; omega
  · intro k _
    rw [Polynomial.get_add]
    split
    · split
      · exact hW.add _ _ (hp.get o hW.zero k) (hq.get o hW.zero k)
      · exact hp.get o hW.zero k
    · exact hq.get o hW.zero k

theorem Polynomial.inv_sub (p q : List α) (hp : Polynomial.Inv W p) (hq : Polynomial.Inv W q) :
    Polynomial.Inv W (Polynomial.sub o p q) := by
  have hpl := hp.length_pos
  apply Polynomial.inv_of_get o
  · rw [Polynomial.length_sub]; omega
  · intro k _
    rw [Polynomial.get_sub]
    split
    · split
      · exact hW.sub _ _ (hp.get o hW.zero k) (hq.get o hW.zero k)
      · exact hp.get o hW.zero k
    · split
      · exact hW.neg _ (hq.get o hW.zero k)
      · exact hW.zero

theorem Polynomial.inv_neg (p : List α) (hp : Polynomial.Inv W p) :
    Polynomial.Inv W (Polynomial.neg o p) := by
  have hpl := hp.length_pos
  apply Polynomial.inv_of_get o
  · rw [Polynomial.length_neg]; exact hpl
  · intro k hk
    rw [Polynomial.length_neg] at hk
    rw [Polynomial.get_neg o p k hk]
    exact hW.neg _ (hp.get o hW.zero k)

theorem Polynomial.inv_mul (p q : List α) (hp : Polynomial.Inv W p) (hq : Polynomial.Inv W q) :
    Polynomial.Inv W (Polynomial.mul o p q) := by
  have hpl := hp.length_pos
  have hql := hq.length_pos
  have key : (Polynomial.mul o p q).length = p.length + q.length - 1 ∧
      ∀ c ∈ Polynomial.mul o p q, W c := by
    unfold Polynomial.mul
    apply foldl_invariant (fun r : List α => r.length = p.length + q.length - 1 ∧ ∀ c ∈ r, W c)
    · intro r i hr
      apply foldl_invariant
        (fun r : List α => r.length = p.length + q.length - 1 ∧ ∀ c ∈ r, W c)
      · intro r j hr
        refine ⟨by rw [List.length_set]; exact hr.1, ?_⟩
        exact Polynomial.all_set W r _ _ hr.2
          (hW.add _ _ (Polynomial.all_get o W r hW.zero hr.2 _)
            (hW.mul _ _ (hp.get o hW.zero i) (hq.get o hW.zero j)))
      · exact hr
    · rw [Polynomial.vec_resize_zero]
      refine ⟨by simp, ?_⟩
      intro c hc
      rw [(List.mem_replicate.mp hc).2]; exact hW.zero
  exact ⟨List.length_pos.mp (by rw [key.1]; omega), key.2⟩

theorem Polynomial.inv_shl (p : List α) (n : Nat) (hp : Polynomial.Inv W p) :
    Polynomial.Inv W (Polynomial.shl o p n) := by
  unfold Polynomial.shl
  refine ⟨by simp [hp.1], ?_⟩
  intro x hx
  rcases List.mem_append.mp hx with h | h
  · rw [(List.mem_replicate.mp h).2]; exact hW.zero
  · exact hp.2 x h

omit hW in
theorem Polynomial.inv_update (p : List α) (i : Nat) (c : α) (hp : Polynomial.Inv W p)
    (hc : W c) : Polynomial.Inv W (p.set i c) :=
  ⟨by simpa using hp.1, Polynomial.all_set W p i c hp.2 hc⟩

theorem Polynomial.inv_mul_coeff (p : List α) (c : α) (hp : Polynomial.Inv W p) (hc : W c) :
    Polynomial.Inv W (Polynomial.mul_coeff o p c) := by
  have hpl := hp.length_pos
  apply Polynomial.inv_of_get o
  · rw [Polynomial.length_mul_coeff]; exact hpl
  · intro k hk
    rw [Polynomial.length_mul_coeff] at hk
    rw [Polynomial.get_mul_coeff o p c k hk]
    exact hW.mul _ _ (hp.get o hW.zero k) hc

/-- Every reachable polynomial satisfies the invariant. -/
theorem Polynomial.Reachable.inv (C : α → Prop) (hC : ∀ c, C c → W c) (p : List α)
    (h : Polynomial.Reachable o C p) : Polynomial.Inv W p := by
  induction h with
  | ctor0 => exact Polynomial.inv_ctor0 o W hW
  | ctor c i hc => exact Polynomial.inv_ctor o W hW c i (hC c hc)
  | set_coefficient p i c _ hc ih => exact Polynomial.inv_set_coefficient o W hW p i c ih (hC c hc)
  | set_max_degree p n _ hn ih => exact Polynomial.inv_set_max_degree o W hW p n hn ih
  | normalize p _ ih => exact Polynomial.inv_normalize o W p ih
  | add p q _ _ ih1 ih2 => exact Polynomial.inv_add o W hW p q ih1 ih2
  | sub p q _ _ ih1 ih2 => exact Polynomial.inv_sub o W hW p q ih1 ih2
  | mul p q _ _ ih1 ih2 => exact Polynomial.inv_mul o W hW p q ih1 ih2
  | shl p n _ ih => exact Polynomial.inv_shl o W hW p n ih
  | neg p _ ih => exact Polynomial.inv_neg o W hW p ih
  | assign_coeff p c _ hc ih => exact Polynomial.inv_update W p 0 c ih (hC c hc)
  | add_coeff p c _ hc ih =>
    exact Polynomial.inv_update W p 0 _ ih (hW.add _ _ (ih.get o hW.zero 0) (hC c hc))
  | sub_coeff p c _ hc ih =>
    exact Polynomial.inv_update W p 0 _ ih (hW.sub _ _ (ih.get o hW.zero 0) (hC c hc))
  | mul_coeff p c _ hc ih => exact Polynomial.inv_mul_coeff o W hW p c ih (hC c hc)
  | update p i c _ _ hc ih => exact Polynomial.inv_update W p i c ih (hC c hc)

/-- The operators of `Polynomial<CoeffT>` preserve the invariant. -/
theorem Polynomial.closed_ops : (Polynomial.ops o).Closed (Polynomial.Inv W) where
  zero := Polynomial.inv_ctor o W hW _ 0 hW.zero
  one := Polynomial.inv_ctor o W hW _ 0 hW.one
  add := Polynomial.inv_add o W hW
  sub := Polynomial.inv_sub o W hW
  neg := Polynomial.inv_neg o W hW
  mul := Polynomial.inv_mul o W hW

end invariant

section nested_invariant

theorem mvpoly.wf_iff_inv (K : Type) (N : Nat) (p : List (mvpoly K N)) :
    mvpoly.wf (N + 1) p = true ↔ Polynomial.Inv (fun c => mvpoly.wf N c = true) p :=
  mvpoly.wf_succ N p

variable (K : Type) [Ring K] [DecidableEq K]

/-- At every nesting depth the operators preserve the class invariant. -/
theorem mvpoly.mv_closed_ops : ∀ N : Nat,
    (mvpoly.ops (numOps K) N).Closed (fun p => mvpoly.wf N p = true) := by
  intro N
  induction N with
  | zero => exact ⟨rfl, rfl, fun _ _ _ _ => rfl, fun _ _ _ _ => rfl, fun _ _ => rfl,
      fun _ _ _ _ => rfl⟩
  | succ N ih =>
    have h := Polynomial.closed_ops (mvpoly.ops (numOps K) N) _ ih
    exact ⟨(mvpoly.wf_iff_inv K N _).mpr h.zero, (mvpoly.wf_iff_inv K N _).mpr h.one,
      fun a b ha hb => (mvpoly.wf_iff_inv K N _).mpr
        (h.add a b ((mvpoly.wf_iff_inv K N _).mp ha) ((mvpoly.wf_iff_inv K N _).mp hb)),
      fun a b ha hb => (mvpoly.wf_iff_inv K N _).mpr
        (h.sub a b ((mvpoly.wf_iff_inv K N _).mp ha) ((mvpoly.wf_iff_inv K N _).mp hb)),
      fun a ha => (mvpoly.wf_iff_inv K N _).mpr (h.neg a ((mvpoly.wf_iff_inv K N _).mp ha)),
      fun a b ha hb => (mvpoly.wf_iff_inv K N _).mpr
        (h.mul a b ((mvpoly.wf_iff_inv K N _).mp ha) ((mvpoly.wf_iff_inv K N _).mp hb))⟩

/-- Every reachable nested polynomial has no empty `Polynomial` at any level. -/
theorem mvpoly.Reach.wf : ∀ (N : Nat) (p : mvpoly K N), mvpoly.Reach K N p →
    mvpoly.wf N p = true := by
  intro N
  induction N with
  | zero => intro p _; rfl
  | succ N ih =>
    intro p hp
    exact (mvpoly.wf_iff_inv K N p).mpr
      (Polynomial.Reachable.inv (mvpoly.ops (numOps K) N) _ (mvpoly.mv_closed_ops K N)
        (mvpoly.Reach K N) ih p hp)

/-- Every `Polynomial` `p` with coefficients of nesting depth `N` over a ring that is
reachable from the constructors through the public mutating operations (safe set,
`max_degree(n)` for `n` below `SIZE_MAX`, `normalize`, `+=`, `-=`, `*=`, `<<=`, unary minus,
the scalar operators and writes through `operator[]`, with reachable coefficients) holds at
least one coefficient, and so does every `Polynomial` nested in it at any level; hence
`max_degree()`, `real_degree()` and `is_zero()` return their value on it and do not take the
`size() == 0` branch. -/
theorem polynomial_never_empty (N : Nat) (p : mvpoly K (N + 1))
    (h : mvpoly.Reach K (N + 1) p) :
    1 ≤ Polynomial.size p ∧
    mvpoly.wf (N + 1) p = true ∧
    Polynomial.max_degree_checked p = .ok (Polynomial.max_degree p) ∧
    Polynomial.real_degree_checked (mvpoly.ops (numOps K) N) p
      = .ok (Polynomial.real_degree (mvpoly.ops (numOps K) N) p) ∧
    Polynomial.is_zero_checked (mvpoly.ops (numOps K) N) p
      = .ok (Polynomial.is_zero (mvpoly.ops (numOps K) N) p) := by
  have hwf := mvpoly.Reach.wf K (N + 1) p h
  have hne : 0 < List.length p :=
    List.length_pos.mpr ((mvpoly.wf_succ N p).mp hwf).1
  have hl : ¬ List.length p = 0 := by omega
  refine ⟨hne, hwf, ?_, ?_, ?_⟩
  · unfold Polynomial.max_degree_checked; rw [if_neg hl]; rfl
  · unfold Polynomial.real_degree_checked; rw [if_neg hl]
  · unfold Polynomial.is_zero_checked; rw [if_neg hl]

/-- Instance: the integer polynomial `Polynomial(0, 2)`, three zero coefficients, after
`normalize()`. -/
theorem polynomial_never_empty_witness :
    mvpoly.Reach Int 1 (Polynomial.normalize (numOps Int) (Polynomial.ctor (numOps Int) 0 2)) ∧
    1 ≤ Polynomial.size (Polynomial.normalize (numOps Int) (Polynomial.ctor (numOps Int) 0 2)) ∧
    mvpoly.wf 1
      (Polynomial.normalize (numOps Int) (Polynomial.ctor (numOps Int) 0 2) : mvpoly Int 1)
        = true ∧
    Polynomial.max_degree_checked
        (Polynomial.normalize (numOps Int) (Polynomial.ctor (numOps Int) 0 2))
      = .ok (Polynomial.max_degree
          (Polynomial.normalize (numOps Int) (Polynomial.ctor (numOps Int) 0 2))) ∧
    Polynomial.real_degree_checked (mvpoly.ops (numOps Int) 0)
        (Polynomial.normalize (numOps Int) (Polynomial.ctor (numOps Int) 0 2))
      = .ok (Polynomial.real_degree (mvpoly.ops (numOps Int) 0)
          (Polynomial.normalize (numOps Int) (Polynomial.ctor (numOps Int) 0 2))) ∧
    Polynomial.is_zero_checked (mvpoly.ops (numOps Int) 0)
        (Polynomial.normalize (numOps Int) (Polynomial.ctor (numOps Int) 0 2))
      = .ok (Polynomial.is_zero (mvpoly.ops (numOps Int) 0)
          (Polynomial.normalize (numOps Int) (Polynomial.ctor (numOps Int) 0 2))) :=
  ⟨Polynomial.Reachable.normalize _ (Polynomial.Reachable.ctor 0 2 trivial),
    polynomial_never_empty Int 0 _
      (Polynomial.Reachable.normalize _ (Polynomial.Reachable.ctor 0 2 trivial))⟩

/-- C32 at `Polynomial<int> p; p.max_degree(SIZE_MAX)`: the default-constructed polynomial
holds one coefficient; `max_degree(n)` resizes `m_coeff` to `n+1`, which on `size_t` is 0 at
`n = SIZE_MAX`, so the polynomial is left with no coefficient, and `max_degree()`,
`real_degree()` and `is_zero()` take their `size() == 0` branch on it; `max_degree(2)` leaves
three coefficients. -/
theorem max_degree_wraps_empty :
    Polynomial.size (Polynomial.ctor0 (numOps Int)) = 1 ∧
    Polynomial.set_max_degree (numOps Int) (Polynomial.ctor0 (numOps Int)) SIZE_MAX = [] ∧
    Polynomial.size
      (Polynomial.set_max_degree (numOps Int) (Polynomial.ctor0 (numOps Int)) SIZE_MAX) = 0 ∧
    Polynomial.max_degree_checked
        (Polynomial.set_max_degree (numOps Int) (Polynomial.ctor0 (numOps Int)) SIZE_MAX)
      = .error .InvariantsViolation ∧
    Polynomial.real_degree_checked (numOps Int)
        (Polynomial.set_max_degree (numOps Int) (Polynomial.ctor0 (numOps Int)) SIZE_MAX)
      = .error .InvariantsViolation ∧
    Polynomial.is_zero_checked (numOps Int)
        (Polynomial.set_max_degree (numOps Int) (Polynomial.ctor0 (numOps Int)) SIZE_MAX)
      = .error .InvariantsViolation ∧
    Polynomial.set_max_degree (numOps Int) (Polynomial.ctor0 (numOps Int)) 2 = [0, 0, 0] := by
  have h : Polynomial.set_max_degree (numOps Int) (Polynomial.ctor0 (numOps Int)) SIZE_MAX
      = [] := by decide
  rw [h]
  exact ⟨rfl, rfl, rfl, rfl, rfl, rfl, by decide⟩

end nested_invariant

end Geom.SL

namespace Geom.SL

/-! ## One pass of `microbasis`: the scaled, shifted subtraction and its pivots -/

section microbasis_pass

variable {K : Type} [Field K] [DecidableEq K]

/-- The single scaled, shifted subtraction `x - ((c * y) << d)` that the specification compares the
loop body with (the statement of the commented-out variant of the loop, implicit.h:170-184,
with the factor `c`). -/
def scaled_shifted_sub (x y : mvpoly K 1) (c : K) (d : Nat) : mvpoly K 1 :=
  MultiPoly.sub (numOps K) 1 x
    (Polynomial.shl (numOps K) (MultiPoly.mul_coeff (numOps K) 1 y c) d)

/-- The same subtraction on the three components of a vector. -/
def scaled_shifted_sub_vector (x y : poly_vector_type K) (c : K) (d : Nat) :
    poly_vector_type K :=
  ⟨scaled_shifted_sub x.c0 y.c0 c d, scaled_shifted_sub x.c1 y.c1 c d,
   scaled_shifted_sub x.c2 y.c2 c d⟩

theorem get_scaled_shifted_sub (x y : List K) (c : K) (d k : Nat) :
    Polynomial.get (numOps K) (scaled_shifted_sub x y c d) k
      = Polynomial.get (numOps K) x k
        - (if k < d then 0 else Polynomial.get (numOps K) y (k - d) * c) := by
  unfold scaled_shifted_sub MultiPoly.sub MultiPoly.mul_coeff
  show Polynomial.get (numOps K) (Polynomial.sub (numOps K) _ _) k = _
  rw [get_sub_field, Polynomial.get_shl]
  congr 1
  by_cases hk : k < d
  · rw [if_pos hk, if_pos hk]; rfl
  · rw [if_neg hk, if_neg hk, for_each0_get _ (by show (0 : K) * c = 0; simp)]
    rfl

theorem length_for_each0 (op : K → K) (p : List K) :
    (mvpoly.for_each0 (numOps K) op 1 p).length = p.length :=
  for_each_loop_length (numOps K) op (Polynomial.size p) 0 p

theorem length_reduce_component (x y : List K) (r s : K) (d : Nat) :
    (reduce_component x y r s d).length = (scaled_shifted_sub x y (s / r) d).length := by
  unfold reduce_component scaled_shifted_sub MultiPoly.div_coeff MultiPoly.sub
    MultiPoly.mul_coeff
  rw [length_for_each0]
  show (Polynomial.sub (numOps K) _ _).length = (Polynomial.sub (numOps K) _ _).length
  rw [Polynomial.length_sub, Polynomial.length_sub, Polynomial.length_shl,
    Polynomial.length_shl, length_for_each0, length_for_each0, length_for_each0]

/-- The multiply, subtract, divide sequence stores the same coefficients as the single
scaled, shifted subtraction. -/
theorem reduce_component_eq (x y : List K) (r s : K) (d : Nat) (hr : r ≠ 0) :
    reduce_component x y r s d = scaled_shifted_sub x y (s / r) d := by
  apply Polynomial.ext_get (numOps K) _ _ (length_reduce_component x y r s d)
  intro k _
  rw [get_reduce_component, get_scaled_shifted_sub]
  by_cases hk : k < d
  · rw [if_pos hk, if_pos hk]
    field_simp
  · rw [if_neg hk, if_neg hk]
    field_simp

theorem reduce_vector_eq (x y : poly_vector_type K) (r s : K) (d : Nat) (hr : r ≠ 0) :
    reduce_vector x y r s d = scaled_shifted_sub_vector x y (s / r) d := by
  unfold reduce_vector scaled_shifted_sub_vector
  rw [reduce_component_eq _ _ _ _ _ hr, reduce_component_eq _ _ _ _ _ hr,
    reduce_component_eq _ _ _ _ _ hr]

theorem toPoly_get_reduce_vector (x y : poly_vector_type K) (r s : K) (d : Nat) (hr : r ≠ 0)
    (i : Nat) :
    toPoly ((reduce_vector x y r s d).get i)
      = toPoly (x.get i) - Polynomial.C (s / r) * Polynomial.X ^ d * toPoly (y.get i) := by
  obtain ⟨h0, h1, h2⟩ := toPoly_reduce_vector x y r s d hr
  unfold poly_vector_type.get
  split
  · exact h0
  · exact h1
  · exact h2

/-- C34: in `microbasis` over a field, one pass of the `if` branch (`n0.first < n1.first`)
with pivot `r0 != 0` leaves `b[0]` as it is and every component `b[1][i]` equal to
`b[1][i] - (r1/r0) * t^d * b[0][i]`, and one pass of the `else` branch with `r1 != 0` leaves
`b[1]` as it is and every `b[0][i]` equal to `b[0][i] - (r0/r1) * t^d * b[1][i]`: the stored
coefficients are those of the single scaled, shifted subtraction, and the polynomials in `t`
are equal. -/
theorem microbasis_step_scaled_subtraction (st : MicroState K) :
    (st.n0.1 < st.n1.1 →
      Polynomial.get (numOps K) (st.b.b0.get st.n1.2) st.n0.1 ≠ 0 →
      (microbasis_step st).b.b0 = st.b.b0 ∧
      (microbasis_step st).b.b1
        = scaled_shifted_sub_vector st.b.b1 st.b.b0
            (Polynomial.get (numOps K) (st.b.b1.get st.n1.2) st.n1.1
              / Polynomial.get (numOps K) (st.b.b0.get st.n1.2) st.n0.1)
            (st.n1.1 - st.n0.1) ∧
      ∀ i, toPoly ((microbasis_step st).b.b1.get i)
        = toPoly (st.b.b1.get i)
          - Polynomial.C (Polynomial.get (numOps K) (st.b.b1.get st.n1.2) st.n1.1
              / Polynomial.get (numOps K) (st.b.b0.get st.n1.2) st.n0.1)
            * Polynomial.X ^ (st.n1.1 - st.n0.1) * toPoly (st.b.b0.get i)) ∧
    (¬ st.n0.1 < st.n1.1 →
      Polynomial.get (numOps K) (st.b.b1.get st.n1.2) st.n1.1 ≠ 0 →
      (microbasis_step st).b.b1 = st.b.b1 ∧
      (microbasis_step st).b.b0
        = scaled_shifted_sub_vector st.b.b0 st.b.b1
            (Polynomial.get (numOps K) (st.b.b0.get st.n1.2) st.n0.1
              / Polynomial.get (numOps K) (st.b.b1.get st.n1.2) st.n1.1)
            (st.n0.1 - st.n1.1) ∧
      ∀ i, toPoly ((microbasis_step st).b.b0.get i)
        = toPoly (st.b.b0.get i)
          - Polynomial.C (Polynomial.get (numOps K) (st.b.b0.get st.n1.2) st.n0.1
              / Polynomial.get (numOps K) (st.b.b1.get st.n1.2) st.n1.1)
            * Polynomial.X ^ (st.n0.1 - st.n1.1) * toPoly (st.b.b1.get i)) := by
  constructor
  · intro hlt hr
    have hs : microbasis_step st
        = ⟨⟨st.b.b0, reduce_vector st.b.b1 st.b.b0
              (Polynomial.get (numOps K) (st.b.b0.get st.n1.2) st.n0.1)
              (Polynomial.get (numOps K) (st.b.b1.get st.n1.2) st.n1.1)
              (st.n1.1 - st.n0.1)⟩, st.n0,
            deg (reduce_vector st.b.b1 st.b.b0
              (Polynomial.get (numOps K) (st.b.b0.get st.n1.2) st.n0.1)
              (Polynomial.get (numOps K) (st.b.b1.get st.n1.2) st.n1.1)
              (st.n1.1 - st.n0.1))⟩ := by
      unfold microbasis_step
      rw [if_pos hlt]
    rw [hs]
    exact ⟨rfl, reduce_vector_eq _ _ _ _ _ hr, fun i => toPoly_get_reduce_vector _ _ _ _ _ hr i⟩
  · intro hlt hr
    have hs : microbasis_step st
        = ⟨⟨reduce_vector st.b.b0 st.b.b1
              (Polynomial.get (numOps K) (st.b.b1.get st.n1.2) st.n1.1)
              (Polynomial.get (numOps K) (st.b.b0.get st.n1.2) st.n0.1)
              (st.n0.1 - st.n1.1), st.b.b1⟩,
            deg (reduce_vector st.b.b0 st.b.b1
              (Polynomial.get (numOps K) (st.b.b1.get st.n1.2) st.n1.1)
              (Polynomial.get (numOps K) (st.b.b0.get st.n1.2) st.n0.1)
              (st.n0.1 - st.n1.1)), st.n1⟩ := by
      unfold microbasis_step
      rw [if_neg hlt]
    rw [hs]
    exact ⟨rfl, reduce_vector_eq _ _ _ _ _ hr, fun i => toPoly_get_reduce_vector _ _ _ _ _ hr i⟩

/-- While the loop condition holds, both pivots read by the loop body are nonzero. -/
theorem pivots_ne_zero (F G : Polynomial K) (n : Nat) (hF : F.natDegree ≤ n)
    (hG : G.natDegree ≤ n) (st : MicroState K) (hinv : MicroInv F G n st)
    (hgt : n < st.n0.1 + st.n1.1) :
    Polynomial.get (numOps K) (st.b.b0.get st.n1.2) st.n0.1 ≠ 0 ∧
    Polynomial.get (numOps K) (st.b.b1.get st.n1.2) st.n1.1 ≠ 0 := by
  obtain ⟨⟨b0, b1⟩, n0, n1⟩ := st
  obtain ⟨hc, hn0, hn1, le0, le1⟩ := hinv
  dsimp only at hc hn0 hn1 le0 le1 hgt ⊢
  subst hn0 hn1
  have hpos0 : 0 < (deg b0).1 := by omega
  have hpos1 : 0 < (deg b1).1 := by omega
  have hpar := leading_parallel F G n ⟨b0, b1⟩ hc hF hG hgt
  dsimp only at hpar
  have hs1 := (deg_snd b1).2
  have hs0 := (deg_snd b0).2
  have hl1 := lead_ne_zero b1 hpos1
  have hl0 := lead_ne_zero b0 hpos0
  refine ⟨?_, hl1⟩
  intro hz
  have := hpar (deg b0).2 (deg b1).2 hs0 hs1
  rw [hz, zero_mul] at this
  exact (mul_ne_zero hl0 hl1) this

theorem lt_length_of_get_ne (l : List K) (k : Nat) (h : Polynomial.get (numOps K) l k ≠ 0) :
    k < l.length := by
  by_contra hk
  exact h (Polynomial.get_of_le (numOps K) l k (by omega))

/-- C39: for all `f`, `g` over a field, in every pass of the loop of `microbasis(f, g)`, that
is in the state reached after `k` passes whenever the loop condition
`n0.first + n1.first > n` holds there, the unchecked reads `b[0][n1.second][n0.first]` and
`b[1][n1.second][n1.first]` are at indices below the stored size of those components (and
`n1.second` is below 3), and both values read, `r0` and `r1`, the divisors of the two
branches, are nonzero. -/
theorem microbasis_reads_in_range (f g : mvpoly K 1) (k : Nat)
    (hloop : max (Polynomial.real_degree (numOps K) f) (Polynomial.real_degree (numOps K) g)
      < (microbasis_state f g k).n0.1 + (microbasis_state f g k).n1.1) :
    (microbasis_state f g k).n1.2 < 3 ∧
    (microbasis_state f g k).n0.1
      < Polynomial.size ((microbasis_state f g k).b.b0.get (microbasis_state f g k).n1.2) ∧
    (microbasis_state f g k).n1.1
      < Polynomial.size ((microbasis_state f g k).b.b1.get (microbasis_state f g k).n1.2) ∧
    Polynomial.get (numOps K)
      ((microbasis_state f g k).b.b0.get (microbasis_state f g k).n1.2)
      (microbasis_state f g k).n0.1 ≠ 0 ∧
    Polynomial.get (numOps K)
      ((microbasis_state f g k).b.b1.get (microbasis_state f g k).n1.2)
      (microbasis_state f g k).n1.1 ≠ 0 := by
  have hinv : MicroInv (toPoly f) (toPoly g)
      (max (Polynomial.real_degree (numOps K) f) (Polynomial.real_degree (numOps K) g))
      (microbasis_state f g k) :=
    microbasis_after_inv (toPoly f) (toPoly g) _
      (by rw [natDegree_toPoly]; exact le_max_left _ _)
      (by rw [natDegree_toPoly]; exact le_max_right _ _) k _ (microbasis_init f g)
  obtain ⟨h0, h1⟩ := pivots_ne_zero (toPoly f) (toPoly g) _
    (by rw [natDegree_toPoly]; exact le_max_left _ _)
    (by rw [natDegree_toPoly]; exact le_max_right _ _) _ hinv hloop
  refine ⟨?_, lt_length_of_get_ne _ _ h0, lt_length_of_get_ne _ _ h1, h0, h1⟩
  rw [hinv.hn1]
  exact (deg_snd _).2

/-- C39, instance: `f = t^2`, `g = t` over the rationals, at loop entry, where the degree
sum is 3 and `n = 2`. -/
theorem microbasis_reads_in_range_witness :
    (max (Polynomial.real_degree (numOps ℚ) ([0, 0, 1] : List ℚ))
        (Polynomial.real_degree (numOps ℚ) ([0, 1] : List ℚ))
      < (microbasis_state ([0, 0, 1] : List ℚ) [0, 1] 0).n0.1
        + (microbasis_state ([0, 0, 1] : List ℚ) [0, 1] 0).n1.1) ∧
    ((microbasis_state ([0, 0, 1] : List ℚ) [0, 1] 0).n1.2 < 3 ∧
    (microbasis_state ([0, 0, 1] : List ℚ) [0, 1] 0).n0.1
      < Polynomial.size ((microbasis_state ([0, 0, 1] : List ℚ) [0, 1] 0).b.b0.get
          (microbasis_state ([0, 0, 1] : List ℚ) [0, 1] 0).n1.2) ∧
    (microbasis_state ([0, 0, 1] : List ℚ) [0, 1] 0).n1.1
      < Polynomial.size ((microbasis_state ([0, 0, 1] : List ℚ) [0, 1] 0).b.b1.get
          (microbasis_state ([0, 0, 1] : List ℚ) [0, 1] 0).n1.2) ∧
    Polynomial.get (numOps ℚ)
      ((microbasis_state ([0, 0, 1] : List ℚ) [0, 1] 0).b.b0.get
        (microbasis_state ([0, 0, 1] : List ℚ) [0, 1] 0).n1.2)
      (microbasis_state ([0, 0, 1] : List ℚ) [0, 1] 0).n0.1 ≠ 0 ∧
    Polynomial.get (numOps ℚ)
      ((microbasis_state ([0, 0, 1] : List ℚ) [0, 1] 0).b.b1.get
        (microbasis_state ([0, 0, 1] : List ℚ) [0, 1] 0).n1.2)
      (microbasis_state ([0, 0, 1] : List ℚ) [0, 1] 0).n1.1 ≠ 0) :=
  ⟨by with_unfolding_all decide,
    microbasis_reads_in_range ([0, 0, 1] : List ℚ) [0, 1] 0 (by with_unfolding_all decide)⟩

end microbasis_pass

end Geom.SL

namespace Geom.SL

/-! ## The operator `c - p` of `Polynomial` -/

/-- C37 at `c = 5`, `p = 2 + 3x` over the integers: `operator-(c, p)` of `Polynomial` returns
`p - c` for every input, here `-3 + 3x`, with value `-3` at `x = 0`, while `c - p(0)` is `3`;
`operator-(c, p)` of `MultiPoly` returns `3 - 3x` on the same input. -/
theorem coeff_minus_poly_reversed :
    (∀ (c : Int) (p : List Int),
      Polynomial.coeff_minus_poly (numOps Int) c p
        = Polynomial.poly_minus_coeff (numOps Int) p c) ∧
    Polynomial.coeff_minus_poly (numOps Int) 5 [2, 3] = [-3, 3] ∧
    Polynomial.call (numOps Int) (Polynomial.coeff_minus_poly (numOps Int) 5 [2, 3]) 0 = -3 ∧
    5 - Polynomial.call (numOps Int) [2, 3] 0 = 3 ∧
    MultiPoly.coeff_minus_poly (numOps Int) 1 5 ([2, 3] : List Int) = [3, -3] ∧
    MultiPoly.call (numOps Int) 1
      (MultiPoly.coeff_minus_poly (numOps Int) 1 5 ([2, 3] : List Int)) (fun _ => 0) = 3 :=
  ⟨fun _ _ => rfl, by decide, by decide, by decide, by decide, by decide⟩

end Geom.SL

namespace Geom.SL

/-! ## The flipper counter visits every row subset once, in lexicographic order -/

theorem keyVisits_unfold (c k fuel : Nat) (P : List Nat) :
    keyVisits c k (fuel + 1) P =
      if (advance c k P).2 ≠ 0
      then (keyVisits c k fuel (advance c k P).1).map (fun L => P :: L) else some [P] := by
  rfl

/-- The loop over the keys of one column runs its body on the keys of `keyVisits`, in that
order. -/
theorem keyLoop_eq_visits {α : Type} (o : Ops α) (M : Matrix α) (c k : Nat) :
    ∀ (fuel : Nat) (P : List Nat) (st : DetState α),
    keyLoop o M c k fuel P st
      = (keyVisits c k fuel P).map (fun L => L.foldl (keyBody o M c k) st) := by
  intro fuel
  induction fuel with
  | zero => intro P st; rfl
  | succ fuel ih =>
    intro P st
    rw [keyLoop_unfold, keyVisits_unfold]
    by_cases h : (advance c k P).2 ≠ 0
    · rw [if_pos h, if_pos h, ih, Option.map_map]
      rfl
    · rw [if_neg h, if_neg h]
      rfl

theorem nextKey_lexLt : ∀ (P : List Nat) (b : Nat) (P' : List Nat),
    nextKey b P = some P' → lexLt P P' := by
  intro P
  induction P with
  | nil => intro b P' h; simp [nextKey] at h
  | cons a t ih =>
    intro b P' h
    simp only [nextKey] at h
    cases hnk : nextKey (b + 1) t with
    | some t' =>
      simp only [hnk, Option.some.injEq] at h
      subst h
      exact Or.inr ⟨rfl, ih _ _ hnk⟩
    | none =>
      simp only [hnk] at h
      by_cases hab : a < b
      · rw [if_pos hab] at h
        have h' := Option.some.inj h
        subst h'
        simp only [List.range', lexLt]
        exact Or.inl (Nat.lt_succ_self a)
      · rw [if_neg hab] at h
        exact absurd h (by simp)

theorem lexLt_trans : ∀ (P Q R : List Nat), lexLt P Q → lexLt Q R → lexLt P R := by
  intro P
  induction P with
  | nil => intro Q R h _; simp [lexLt] at h
  | cons a s ih =>
    intro Q R h1 h2
    cases Q with
    | nil => simp [lexLt] at h1
    | cons b t =>
      cases R with
      | nil => simp [lexLt] at h2
      | cons c u =>
        simp only [lexLt] at h1 h2 ⊢
        rcases h1 with h1 | ⟨h1, h1'⟩
        · rcases h2 with h2 | ⟨h2, _⟩
          · exact Or.inl (by omega)
          · exact Or.inl (by omega)
        · rcases h2 with h2 | ⟨h2, h2'⟩
          · exact Or.inl (by omega)
          · exact Or.inr ⟨by omega, ih _ _ h1' h2'⟩

/-- The keys visited from `P` on: those from `P` upwards, in increasing order. -/
theorem keyVisits_spec (c k n : Nat) (hn : c + k ≤ n) : ∀ (fuel : Nat) (P : List Nat),
    P.length = k → IsKey c 0 P → n ^ k ≤ fuel + keyVal n P →
    ∃ L, keyVisits c k fuel P = some L ∧ L.Pairwise lexLt ∧
      (∀ S ∈ L, P = S ∨ lexLt P S) ∧
      (∀ S ∈ L, S.length = k ∧ IsKey c 0 S) ∧
      (∀ S, S.length = k → IsKey c 0 S → (P = S ∨ lexLt P S) → S ∈ L) := by
  intro fuel
  induction fuel with
  | zero =>
    intro P hP hk hfuel
    have := keyVal_lt P n (isKey_lt P c 0 n hk (by omega))
    rw [hP] at this
    omega
  | succ fuel ih =>
    intro P hP hk hfuel
    rw [keyVisits_unfold]
    cases hnk : nextKey c P with
    | none =>
      have hfc := advance_none c P hnk
      rw [hP] at hfc
      rw [if_neg (by simp [hfc])]
      refine ⟨[P], rfl, List.pairwise_singleton _ _, ?_, ?_, ?_⟩
      · intro S hS
        exact Or.inl (List.mem_singleton.mp hS).symm
      · intro S hS
        rw [List.mem_singleton.mp hS]
        exact ⟨hP, hk⟩
      · intro S hS1 hS2 hS3
        rcases hS3 with h | h
        · rw [← h]; exact List.mem_singleton.mpr rfl
        · exact absurd h (nextKey_none_max P c 0 S hnk hS2 (by omega))
    | some P' =>
      obtain ⟨fc, hadv, hfc⟩ := advance_some c P P' hnk
      rw [hP] at hadv
      have hlen' : P'.length = k := by rw [nextKey_length P c P' hnk]; exact hP
      have hk' := nextKey_isKey P c 0 P' hk hnk
      have hval := nextKey_keyVal P c 0 n P' hk (by omega) hnk
      have hlt := nextKey_lexLt P c P' hnk
      obtain ⟨L, h1, h2, h3, h4, h5⟩ := ih P' hlen' hk' (by omega)
      rw [hadv, if_pos hfc]
      refine ⟨P :: L, by simp only [h1, Option.map_some'], ?_, ?_, ?_, ?_⟩
      · rw [List.pairwise_cons]
        refine ⟨?_, h2⟩
        intro S hS
        rcases h3 S hS with h | h
        · rw [← h]; exact hlt
        · exact lexLt_trans _ _ _ hlt h
      · intro S hS
        rcases List.mem_cons.mp hS with h | h
        · exact Or.inl h.symm
        · rcases h3 S h with h' | h'
          · rw [← h']; exact Or.inr hlt
          · exact Or.inr (lexLt_trans _ _ _ hlt h')
      · intro S hS
        rcases List.mem_cons.mp hS with h | h
        · rw [h]; exact ⟨hP, hk⟩
        · exact h4 S h
      · intro S hS1 hS2 hS3
        rcases hS3 with h | h
        · rw [← h]; exact List.mem_cons_self _ _
        · apply List.mem_cons_of_mem
          apply h5 S hS1 hS2
          rcases lexLt_trichotomy S P' (by omega) with h' | h' | h'
          · exact absurd h (nextKey_gap P c 0 P' S hS2 (by omega) hnk h')
          · exact Or.inl h'.symm
          · exact Or.inr h'

theorem sorted_length_bound : ∀ (t : List Nat) (a m : Nat), (a :: t).Pairwise (· < ·) →
    (∀ x ∈ a :: t, x < m) → a + t.length < m := by
  intro t
  induction t with
  | nil => intro a m _ h; simpa using h a (List.mem_singleton.mpr rfl)
  | cons a' t ih =>
    intro a m hs hm
    have h1 := List.pairwise_cons.mp hs
    have h2 := ih a' m h1.2 (fun x hx => hm x (List.mem_cons_of_mem _ hx))
    have h3 := h1.1 a' (List.mem_cons_self _ _)
    simp only [List.length_cons]
    omega

/-- The keys of a column are the strictly increasing sequences of row indices. -/
theorem isKey_iff_sorted : ∀ (P : List Nat) (b lo : Nat),
    IsKey b lo P ↔ (P.Pairwise (· < ·) ∧ ∀ x ∈ P, lo ≤ x ∧ x < b + P.length) := by
  intro P
  induction P with
  | nil => intro b lo; simp [IsKey]
  | cons a t ih =>
    intro b lo
    simp only [IsKey]
    rw [ih]
    constructor
    · rintro ⟨h1, h2, h3, h4⟩
      refine ⟨List.pairwise_cons.mpr ⟨fun x hx => ?_, h3⟩, ?_⟩
      · have := (h4 x hx).1; omega
      · intro x hx
        rcases List.mem_cons.mp hx with h | h
        · subst h; simp only [List.length_cons]; omega
        · have := h4 x h
          simp only [List.length_cons]
          omega
    · rintro ⟨h1, h2⟩
      have hp := List.pairwise_cons.mp h1
      have ha := h2 a (List.mem_cons_self _ _)
      have hb := sorted_length_bound t a (b + (a :: t).length) h1 (fun x hx => (h2 x hx).2)
      simp only [List.length_cons] at hb ha
      refine ⟨ha.1, by omega, hp.2, ?_⟩
      intro x hx
      have h3 := hp.1 x hx
      have h4 := (h2 x (List.mem_cons_of_mem _ hx)).2
      simp only [List.length_cons] at h4
      omega

/-- C35: for every `n` and every column `c <= n-2` (in the code `n >= 4` and `c` runs from
`n-2` down to 0) the flipper-counter loop of `determinant_minor`, started as the code starts
it and within its step budget, visits a list `L` of keys and stops: `L` is in strictly
increasing lexicographic order, so without repetition; its members are exactly the strictly
increasing sequences of `n-c` row indices below `n`; the loop runs its body on the keys of
`L` in that order; every minor key `Mkey` built from a visited key is that key without one
position, again strictly increasing with entries below `n`; and reading a key absent from
the map `A` gives the zero value. -/
theorem flipper_counter_visits (n c : Nat) (hc : c + 2 ≤ n) :
    ∃ L, keyVisits c (n - c) (n ^ (n - c)) (List.range (n - c)) = some L ∧
      L.Pairwise lexLt ∧ L.Nodup ∧
      (∀ P, P ∈ L ↔ (P.length = n - c ∧ P.Pairwise (· < ·) ∧ ∀ x ∈ P, x < n)) ∧
      (∀ (α : Type) (o : Ops α) (M : Matrix α) (st : DetState α),
        keyLoop o M c (n - c) (n ^ (n - c)) (List.range (n - c)) st
          = some (L.foldl (keyBody o M c (n - c)) st)) ∧
      (∀ P ∈ L, ∀ r, r < n - c →
        mkMkey P (n - c) r = P.eraseIdx r ∧ (mkMkey P (n - c) r).Pairwise (· < ·) ∧
        ∀ x ∈ mkMkey P (n - c) r, x < n) ∧
      (∀ (α : Type) (o : Ops α) (A : Rmap α) (key : List Nat),
        Rmap.find A key = none → (Rmap.index o A key).1 = o.zero) := by
  have hkey : IsKey c 0 (List.range (n - c)) := by
    rw [List.range_eq_range']; exact isKey_range' _ _ _ _ (le_refl _) (Nat.zero_le _)
  obtain ⟨L, h1, h2, _, h4, h5⟩ := keyVisits_spec c (n - c) n (by omega) (n ^ (n - c))
    (List.range (n - c)) (List.length_range _) hkey (by omega)
  have hmem : ∀ P, P ∈ L ↔ (P.length = n - c ∧ P.Pairwise (· < ·) ∧ ∀ x ∈ P, x < n) := by
    intro P
    constructor
    · intro hP
      obtain ⟨hl, hk⟩ := h4 P hP
      obtain ⟨hs, hb⟩ := (isKey_iff_sorted P c 0).mp hk
      refine ⟨hl, hs, ?_⟩
      intro x hx
      have := (hb x hx).2
      omega
    · rintro ⟨hl, hs, hb⟩
      have hk : IsKey c 0 P := (isKey_iff_sorted P c 0).mpr
        ⟨hs, fun x hx => ⟨Nat.zero_le _, by have := hb x hx; omega⟩⟩
      apply h5 P hl hk
      rcases lexLt_trichotomy P (List.range (n - c)) (by rw [hl, List.length_range])
        with h | h | h
      · exfalso
        have := isKey_not_lt_range' P c 0 hk
        rw [hl, ← List.range_eq_range'] at this
        exact this h
      · exact Or.inl h.symm
      · exact Or.inr h
  refine ⟨L, h1, h2, ?_, hmem, ?_, ?_, ?_⟩
  · apply h2.imp
    intro a b hab heq
    subst heq
    exact lexLt_irrefl a hab
  · intro α o M st
    rw [keyLoop_eq_visits, h1, Option.map_some']
  · intro P hP r _
    obtain ⟨hl, hs, hb⟩ := (hmem P).mp hP
    have he : mkMkey P (n - c) r = P.eraseIdx r := by rw [← hl]; exact mkMkey_eq P r
    rw [he]
    exact ⟨rfl, hs.sublist (List.eraseIdx_sublist P r),
      fun x hx => hb x ((List.eraseIdx_sublist P r).subset hx)⟩
  · intro α o A key hfind
    unfold Rmap.index
    rw [hfind]

/-- C35, instance: `n = 4`, column `c = 2`, the six pairs of rows. -/
theorem flipper_counter_visits_witness :
    2 + 2 ≤ 4 ∧
    ∃ L, keyVisits 2 (4 - 2) (4 ^ (4 - 2)) (List.range (4 - 2)) = some L ∧
      L.Pairwise lexLt ∧ L.Nodup ∧
      (∀ P, P ∈ L ↔ (P.length = 4 - 2 ∧ P.Pairwise (· < ·) ∧ ∀ x ∈ P, x < 4)) ∧
      (∀ (α : Type) (o : Ops α) (M : Matrix α) (st : DetState α),
        keyLoop o M 2 (4 - 2) (4 ^ (4 - 2)) (List.range (4 - 2)) st
          = some (L.foldl (keyBody o M 2 (4 - 2)) st)) ∧
      (∀ P ∈ L, ∀ r, r < 4 - 2 →
        mkMkey P (4 - 2) r = P.eraseIdx r ∧ (mkMkey P (4 - 2) r).Pairwise (· < ·) ∧
        ∀ x ∈ mkMkey P (4 - 2) r, x < 4) ∧
      (∀ (α : Type) (o : Ops α) (A : Rmap α) (key : List Nat),
        Rmap.find A key = none → (Rmap.index o A key).1 = o.zero) :=
  ⟨by decide, flipper_counter_visits 4 2 (by decide)⟩

end Geom.SL

namespace Geom.IT

/-! ## The interval tree at the sentinel value `MIN_INT` -/

/-- C33 at the tree built by `Insert([1, 1])`, `Insert([2, 2])` and the query
`Enumerate(MIN_INT, 5)` with `MIN_INT = -2147483647`: both stored intervals overlap the
query, the node of `[1, 1]` has `nil` as left child and `[2, 2]` as right child, and
`Enumerate` returns `[1, 1]` only, because `nil->maxHigh >= low` holds and the right branch
is given up; with `low = MIN_INT + 1` both intervals are returned. -/
theorem enumerate_misses_overlap :
    ((Insert empty ⟨1, 1⟩).bind (fun t => Insert t.1 ⟨2, 2⟩)).map Prod.fst
      = some [nilNode, ⟨none, MAX_INT, MAX_INT, MAX_INT, false, 2, 0, 0⟩,
          ⟨some ⟨1, 1⟩, 1, 1, 2, false, 0, 3, 1⟩, ⟨some ⟨2, 2⟩, 2, 2, 2, true, 0, 0, 2⟩] ∧
    MIN_INT ≤ 5 ∧
    Overlap MIN_INT 5 1 1 = true ∧
    Overlap MIN_INT 5 2 2 = true ∧
    Enumerate [nilNode, ⟨none, MAX_INT, MAX_INT, MAX_INT, false, 2, 0, 0⟩,
        ⟨some ⟨1, 1⟩, 1, 1, 2, false, 0, 3, 1⟩, ⟨some ⟨2, 2⟩, 2, 2, 2, true, 0, 0, 2⟩]
      MIN_INT 5 = some [some ⟨1, 1⟩] ∧
    Enumerate [nilNode, ⟨none, MAX_INT, MAX_INT, MAX_INT, false, 2, 0, 0⟩,
        ⟨some ⟨1, 1⟩, 1, 1, 2, false, 0, 3, 1⟩, ⟨some ⟨2, 2⟩, 2, 2, 2, true, 0, 0, 2⟩]
      (MIN_INT + 1) 5 = some [some ⟨1, 1⟩, some ⟨2, 2⟩] := by
  decide

/-- C36 at the tree built by inserting the interval `[INT_MIN, INT_MIN]` twice, with
`INT_MIN = -2147483648` below `MIN_INT = -2147483647`: the second node, a leaf, keeps
`maxHigh = INT_MIN`, which is not `max(high, nil->maxHigh, nil->maxHigh) = MIN_INT`; the
first node gets `maxHigh = MIN_INT` from `FixUpMaxHigh`, which is the high endpoint of no
stored interval; and `CheckMaxHighFields` on the tree reports the error. -/
theorem maxHigh_below_sentinel :
    ((Insert empty ⟨INT_MIN, INT_MIN⟩).bind (fun t => Insert t.1 ⟨INT_MIN, INT_MIN⟩)).map
        Prod.fst
      = some [nilNode, ⟨none, MAX_INT, MAX_INT, MAX_INT, false, 2, 0, 0⟩,
          ⟨some ⟨INT_MIN, INT_MIN⟩, INT_MIN, INT_MIN, MIN_INT, false, 0, 3, 1⟩,
          ⟨some ⟨INT_MIN, INT_MIN⟩, INT_MIN, INT_MIN, INT_MIN, true, 0, 0, 2⟩] ∧
    INT_MIN ≤ INT_MIN ∧
    max INT_MIN (max nilNode.maxHigh nilNode.maxHigh) = MIN_INT ∧
    INT_MIN ≠ MIN_INT ∧
    max INT_MIN (max nilNode.maxHigh INT_MIN) = MIN_INT ∧
    CheckMaxHighFields [nilNode, ⟨none, MAX_INT, MAX_INT, MAX_INT, false, 2, 0, 0⟩,
        ⟨some ⟨INT_MIN, INT_MIN⟩, INT_MIN, INT_MIN, MIN_INT, false, 0, 3, 1⟩,
        ⟨some ⟨INT_MIN, INT_MIN⟩, INT_MIN, INT_MIN, INT_MIN, true, 0, 0, 2⟩] 4 2 = false := by
  decide

end Geom.IT
